import Mathlib

/-!
# Limit order book: a shallow embedding of `orderbook::OrderBook`

The definitions below follow `src/include/orderbook/*.h` and
`src/src/core/{order,trade,order_book}.cpp`.

* `uint64_t` values are natural numbers; arithmetic that can wrap is written
  through `u64_add` / `u64_sub` (reduction modulo `2^64`).
* `int64_t` prices and `std::chrono::nanoseconds` counts are integers.
* `std::map<Price, PriceLevel, Cmp>` is a list of `(key, level)` pairs kept in
  iteration order (`bids_`: `std::greater`, `asks_`: `std::less`).
* `std::unordered_map<OrderId, pair<Side, Price>>` is an association list.
* `std::invalid_argument` is `Exception.invalid_argument`; every mutating
  member function returns an `Outcome`: the book as the call leaves it, the
  callback invocations it made, and either the returned value or the exception.
* Locks are not modelled (one thread). `TopOfBook::timestamp` is a clock read
  and is left out.
-/

namespace orderbook

/-! ## order.h -/

/-- The enum `Side`. -/
inductive Side where
  | BUY
  | SELL
  deriving DecidableEq, Repr

/-- The enum `OrderType`. -/
inductive OrderType where
  | LIMIT
  | MARKET
  | STOP
  | STOP_LIMIT
  | IOC
  | FOK
  deriving DecidableEq, Repr

/-- The enum `OrderStatus`. -/
inductive OrderStatus where
  | NEW
  | PARTIALLY_FILLED
  | FILLED
  | CANCELED
  | REJECTED
  | EXPIRED
  deriving DecidableEq, Repr

/-- The modulus of `uint64_t` arithmetic. -/
def U64_MOD : Nat := 2 ^ 64

/-- Wrapping `uint64_t` addition (`a += b`). -/
def u64_add (a b : Nat) : Nat := (a + b) % U64_MOD

/-- Wrapping `uint64_t` subtraction (`a -= b`). -/
def u64_sub (a b : Nat) : Nat := (a + (U64_MOD - b % U64_MOD)) % U64_MOD

/-- What a member function can throw. `invalid_argument` is
`std::invalid_argument`. `fuel_exhausted` is no C++ exception: it marks a walk
of `matchLadder` that was cut short by its fuel bound, which `walkOf_run` shows
does not happen. -/
inductive Exception where
  | invalid_argument
  | fuel_exhausted
  deriving DecidableEq, Repr

/-- The class `Order` (order.h): its nine data members. -/
structure Order where
  id : Nat
  symbol : String
  price : Int
  quantity : Nat
  remaining_quantity : Nat
  side : Side
  type : OrderType
  status : OrderStatus
  timestamp : Int
  deriving DecidableEq, Repr

/-- The constructor `Order::Order(id, symbol, price, quantity, side, type, timestamp)`. -/
def Order.new (id : Nat) (symbol : String) (price : Int) (quantity : Nat)
    (side : Side) (type : OrderType) (timestamp : Int) : Order :=
  { id := id, symbol := symbol, price := price, quantity := quantity,
    remaining_quantity := quantity, side := side, type := type,
    status := OrderStatus.NEW, timestamp := timestamp }

/-- The setter `Order::setPrice`. -/
def Order.setPrice (o : Order) (price : Int) : Order := { o with price := price }

/-- The setter `Order::setQuantity`: sets both the original and the remaining quantity. -/
def Order.setQuantity (o : Order) (quantity : Nat) : Order :=
  { o with quantity := quantity, remaining_quantity := quantity }

/-- The member `Order::fill` (order.cpp): throws when the fill exceeds the remainder. -/
def Order.fill (o : Order) (fill_quantity : Nat) : Except Exception Order :=
  if fill_quantity > o.remaining_quantity then
    Except.error Exception.invalid_argument
  else
    let r := o.remaining_quantity - fill_quantity
    Except.ok { o with
      remaining_quantity := r,
      status := if r = 0 then OrderStatus.FILLED else OrderStatus.PARTIALLY_FILLED }

/-- The object `fill` was called on, as the call leaves it: the throw comes
before every write, so a call that throws leaves the object as it was. -/
def Order.afterFill (o : Order) (fill_quantity : Nat) : Order :=
  match o.fill fill_quantity with
  | Except.ok o' => o'
  | Except.error _ => o

/-- The member `Order::cancel` (order.cpp). -/
def Order.cancel (o : Order) : Order :=
  if o.status ≠ OrderStatus.FILLED then
    { o with status := OrderStatus.CANCELED, remaining_quantity := 0 }
  else o

/-- The setter `Order::setRemainingQuantity`. -/
def Order.setRemainingQuantity (o : Order) (quantity : Nat) : Order :=
  { o with remaining_quantity := quantity }

/-- The comparison `Order::operator<` (order.cpp): `a.lt other` is `a < other`.
The side consulted is that of the left operand. -/
def Order.lt (a other : Order) : Bool :=
  match a.side with
  | Side.BUY =>
    if a.price ≠ other.price then decide (a.price < other.price)
    else decide (a.timestamp > other.timestamp)
  | Side.SELL =>
    if a.price ≠ other.price then decide (a.price > other.price)
    else decide (a.timestamp > other.timestamp)

/-- The comparison `Order::operator>` (order.cpp): `other < *this`. -/
def Order.gt (a other : Order) : Bool := other.lt a

/-- A call of a member of `Order` that changes the object. -/
inductive OrderCall where
  | fill (fill_quantity : Nat)
  | cancel
  | setQuantity (quantity : Nat)
  deriving DecidableEq, Repr

/-- The object one call leaves, or the exception the call throws. -/
def Order.call (o : Order) : OrderCall → Except Exception Order
  | OrderCall.fill fill_quantity => o.fill fill_quantity
  | OrderCall.cancel => Except.ok o.cancel
  | OrderCall.setQuantity quantity => Except.ok (o.setQuantity quantity)

/-- The object a sequence of calls leaves when each of them returns; the
exception of the first call that throws otherwise. -/
def Order.calls : Order → List OrderCall → Except Exception Order
  | o, [] => Except.ok o
  | o, c :: rest =>
    match o.call c with
    | Except.ok o' => o'.calls rest
    | Except.error e => Except.error e

/-- The call is a `fill` or a `cancel`. -/
def OrderCall.isFillOrCancel : OrderCall → Bool
  | OrderCall.fill _ => true
  | OrderCall.cancel => true
  | OrderCall.setQuantity _ => false

/-! ## trade.h -/

/-- The class `Trade` (trade.h). -/
structure Trade where
  id : Nat
  symbol : String
  price : Int
  quantity : Nat
  maker_order_id : Nat
  taker_order_id : Nat
  timestamp : Int
  deriving DecidableEq, Repr

/-- The conversion of an `int64_t` to `uint64_t` (the usual arithmetic
conversions turn the signed operand of `price_ * quantity_` into the unsigned
type): reduction modulo `2^64`. -/
def i64_to_u64 (x : Int) : Nat := (x % (U64_MOD : Int)).toNat

/-- The conversion of a `uint64_t` to `int64_t` (the return type of
`getValue`): the value with the same 64 bits in two's complement. -/
def u64_to_i64 (n : Nat) : Int :=
  if n < 2 ^ 63 then (n : Int) else (n : Int) - (U64_MOD : Int)

/-- The member `Trade::getValue`: `price_ * quantity_`, computed in `uint64_t`
and returned as `int64_t`. -/
def Trade.getValue (t : Trade) : Int :=
  u64_to_i64 ((i64_to_u64 t.price * t.quantity) % U64_MOD)

/-! ## order_book.h -/

/-- The struct `TopOfBook` without its clock reading. -/
structure TopOfBook where
  bid_price : Int
  bid_size : Nat
  ask_price : Int
  ask_size : Nat
  deriving DecidableEq, Repr

/-- The struct `PriceLevel`. -/
structure PriceLevel where
  price : Int
  total_quantity : Nat
  orders : List Order
  deriving DecidableEq, Repr

/-- A value-initialised `PriceLevel`, as `std::map::operator[]` creates it. -/
def PriceLevel.empty : PriceLevel := { price := 0, total_quantity := 0, orders := [] }

/-- One side of the book: the entries of the `std::map` in iteration order. -/
abbrev Ladder := List (Int × PriceLevel)

/-- The map `order_lookup_`. -/
abbrev Index := List (Nat × (Side × Int))

/-- A callback invocation: `notifyTradeCallback` or `notifyOrderBookUpdateCallback`. -/
inductive Event where
  | trade (t : Trade)
  | book_update (tob : TopOfBook)
  deriving DecidableEq, Repr

/-- The data members of `OrderBook` that carry state. -/
structure OrderBook where
  symbol : String
  bids : Ladder
  asks : Ladder
  order_lookup : Index
  next_trade_id : Nat
  deriving DecidableEq, Repr

/-- The constructor `OrderBook::OrderBook(symbol)`; `next_trade_id_` starts at 1. -/
def OrderBook.new (symbol : String) : OrderBook :=
  { symbol := symbol, bids := [], asks := [], order_lookup := [], next_trade_id := 1 }

/-- What a member function leaves behind: book, callbacks fired, value or exception. -/
structure Outcome (α : Type) where
  book : OrderBook
  events : List Event
  result : Except Exception α

/-! ### The containers -/

/-- The lookup `order_lookup_.find(id)`. -/
def indexFind : Index → Nat → Option (Side × Int)
  | [], _ => none
  | (k, v) :: rest, id => if k = id then some v else indexFind rest id

/-- The assignment `order_lookup_[id] = v`. -/
def indexSet : Index → Nat → Side × Int → Index
  | [], id, v => [(id, v)]
  | (k, w) :: rest, id, v => if k = id then (k, v) :: rest else (k, w) :: indexSet rest id v

/-- The removal `order_lookup_.erase(id)`: no entry with the key is left. -/
def indexErase : Index → Nat → Index
  | [], _ => []
  | (k, w) :: rest, id => if k = id then indexErase rest id else (k, w) :: indexErase rest id

/-- The lookup `map.find(price)`. -/
def mapFind : Ladder → Int → Option PriceLevel
  | [], _ => none
  | (k, l) :: rest, p => if k = p then some l else mapFind rest p

/-- The removal `map.erase(it)` for the entry whose key is `p`. -/
def mapErase : Ladder → Int → Ladder
  | [], _ => []
  | (k, l) :: rest, p => if k = p then rest else (k, l) :: mapErase rest p

/-- Overwrites the level stored under the key `p` (writes through `it->second`). -/
def mapSet : Ladder → Int → PriceLevel → Ladder
  | [], _, _ => []
  | (k, l) :: rest, p, l' => if k = p then (k, l') :: rest else (k, l) :: mapSet rest p l'

/-- The comparator of a side: `std::greater` for bids, `std::less` for asks. -/
def keyBefore : Side → Int → Int → Bool
  | Side.BUY, a, b => decide (a > b)
  | Side.SELL, a, b => decide (a < b)

/-- The access `map[p]` followed by an update `f` of the referenced level: the
level is created value-initialised, at its place in iteration order, when absent. -/
def mapUpdate (side : Side) (f : PriceLevel → PriceLevel) : Ladder → Int → Ladder
  | [], p => [(p, f PriceLevel.empty)]
  | (k, l) :: rest, p =>
    if k = p then (k, f l) :: rest
    else if keyBefore side p k then (p, f PriceLevel.empty) :: (k, l) :: rest
    else (k, l) :: mapUpdate side f rest p

/-- The search `std::find_if(orders.begin(), orders.end(), id match)`. -/
def findOrder : List Order → Nat → Option Order
  | [], _ => none
  | o :: rest, id => if o.id = id then some o else findOrder rest id

/-- The removal `orders.erase(order_it)` of the first order with the id. -/
def eraseOrder : List Order → Nat → List Order
  | [], _ => []
  | o :: rest, id => if o.id = id then rest else o :: eraseOrder rest id

/-! ### Queries -/

/-- The query `OrderBook::getTopOfBook`. -/
def getTopOfBook (b : OrderBook) : TopOfBook :=
  let bid : Int × Nat :=
    match b.bids with
    | [] => (0, 0)
    | (_, best_bid) :: _ => (best_bid.price, best_bid.total_quantity)
  let ask : Int × Nat :=
    match b.asks with
    | [] => (0, 0)
    | (_, best_ask) :: _ => (best_ask.price, best_ask.total_quantity)
  { bid_price := bid.1, bid_size := bid.2, ask_price := ask.1, ask_size := ask.2 }

/-- The loop of `getDepth` over one side: it copies levels in iteration order
and stops at `levels` copies or at the end of the map. -/
def depthLevels : Nat → Ladder → List PriceLevel
  | 0, _ => []
  | _ + 1, [] => []
  | n + 1, (_, level) :: rest => level :: depthLevels n rest

/-- The query `OrderBook::getDepth`: the pair (bid levels, ask levels). -/
def getDepth (b : OrderBook) (levels : Nat) : List PriceLevel × List PriceLevel :=
  (depthLevels levels b.bids, depthLevels levels b.asks)

/-- The accumulation loops of `calculateOrderFlowImbalance` over one side:
`total += level.total_quantity` in `uint64_t`, for at most `depth` levels. -/
def volumeSum : Nat → Ladder → Nat → Nat
  | 0, _, total => total
  | _ + 1, [], total => total
  | n + 1, (_, level) :: rest, total => volumeSum n rest (u64_add total level.total_quantity)

/-- The query `OrderBook::calculateOrderFlowImbalance`. The two volumes are
`uint64_t` and are added as such before the conversion to `double`; the
`double` values are the rationals they stand for (rounding is not modelled). -/
def calculateOrderFlowImbalance (b : OrderBook) (depth : Nat) : ℚ :=
  let total_bid_volume := volumeSum depth b.bids 0
  let total_ask_volume := volumeSum depth b.asks 0
  let total_volume : ℚ := ((u64_add total_bid_volume total_ask_volume : Nat) : ℚ)
  if total_volume < 1 / 10000000000 then 0
  else ((total_bid_volume : ℚ) - (total_ask_volume : ℚ)) / total_volume

/-! ### Matching -/

/-- The locals and members the matching loops update besides the ladder. -/
structure MatchState where
  remaining_order : Order
  next_trade_id : Nat
  order_lookup : Index
  deriving DecidableEq, Repr

/-- The state after the walk of one level's queue. -/
structure LevelWalk where
  orders : List Order
  total_quantity : Nat
  st : MatchState
  trades : List Trade
  thrown : Option Exception
  deriving DecidableEq, Repr

/-- The inner `while (it != orders.end() && remaining > 0)` loop of `matchOrder`,
from the iterator position whose tail is the argument list. -/
def matchLevel (symbol : String) : List Order → Nat → MatchState → LevelWalk
  | [], total, st =>
    { orders := [], total_quantity := total, st := st, trades := [], thrown := none }
  | resting :: rest, total, st =>
    if st.remaining_order.remaining_quantity > 0 then
      let trade_quantity := min st.remaining_order.remaining_quantity resting.remaining_quantity
      let trade : Trade :=
        { id := st.next_trade_id, symbol := symbol, price := resting.price,
          quantity := trade_quantity, maker_order_id := resting.id,
          taker_order_id := st.remaining_order.id,
          timestamp := st.remaining_order.timestamp }
      let next := u64_add st.next_trade_id 1
      match resting.fill trade_quantity with
      | Except.error e =>
        { orders := resting :: rest, total_quantity := total,
          st := { st with next_trade_id := next }, trades := [trade], thrown := some e }
      | Except.ok resting' =>
        match st.remaining_order.fill trade_quantity with
        | Except.error e =>
          { orders := resting' :: rest, total_quantity := total,
            st := { st with next_trade_id := next }, trades := [trade], thrown := some e }
        | Except.ok taker' =>
          let total' := u64_sub total trade_quantity
          if resting'.remaining_quantity = 0 then
            let w := matchLevel symbol rest total'
              { remaining_order := taker', next_trade_id := next,
                order_lookup := indexErase st.order_lookup resting'.id }
            { w with trades := trade :: w.trades }
          else
            let w := matchLevel symbol rest total'
              { remaining_order := taker', next_trade_id := next,
                order_lookup := st.order_lookup }
            { w with orders := resting' :: w.orders, trades := trade :: w.trades }
    else
      { orders := resting :: rest, total_quantity := total, st := st, trades := [],
        thrown := none }

/-- The price test of `matchOrder`: a market order always crosses, a limit buy
needs `price >= best_ask.price`, a limit sell `price <= best_bid.price`. -/
def priceAcceptable (taker : Order) (best : PriceLevel) : Bool :=
  match taker.side with
  | Side.BUY => decide (taker.type = OrderType.MARKET ∨ taker.price ≥ best.price)
  | Side.SELL => decide (taker.type = OrderType.MARKET ∨ taker.price ≤ best.price)

/-- The state after the walk of the opposite side. -/
structure LadderWalk where
  ladder : Ladder
  st : MatchState
  trades : List Trade
  thrown : Option Exception
  deriving DecidableEq, Repr

/-- The outer `while (remaining > 0 && !side.empty())` loop of `matchOrder` over
the opposite side; one unit of fuel per evaluation of the loop condition. -/
def matchLadder (symbol : String) : Nat → Ladder → MatchState → LadderWalk
  | 0, m, st =>
    { ladder := m, st := st, trades := [], thrown := some Exception.fuel_exhausted }
  | fuel + 1, m, st =>
    if st.remaining_order.remaining_quantity > 0 then
      match m with
      | [] => { ladder := [], st := st, trades := [], thrown := none }
      | (k, best) :: rest =>
        if priceAcceptable st.remaining_order best then
          let w := matchLevel symbol best.orders best.total_quantity st
          let best' : PriceLevel :=
            { best with orders := w.orders, total_quantity := w.total_quantity }
          match w.thrown with
          | some e =>
            { ladder := (k, best') :: rest, st := w.st, trades := w.trades, thrown := some e }
          | none =>
            let m' : Ladder := if w.orders.isEmpty then rest else (k, best') :: rest
            let r := matchLadder symbol fuel m' w.st
            { r with trades := w.trades ++ r.trades }
        else
          { ladder := (k, best) :: rest, st := st, trades := [], thrown := none }
    else
      { ladder := m, st := st, trades := [], thrown := none }

/-- The ladder of a side. -/
def OrderBook.side (b : OrderBook) : Side → Ladder
  | Side.BUY => b.bids
  | Side.SELL => b.asks

/-- Replaces the ladder of a side. -/
def OrderBook.setSide (b : OrderBook) (s : Side) (m : Ladder) : OrderBook :=
  match s with
  | Side.BUY => { b with bids := m }
  | Side.SELL => { b with asks := m }

/-- The side an incoming order is matched against: asks for a buy, bids for a sell. -/
def Side.opposite : Side → Side
  | Side.BUY => Side.SELL
  | Side.SELL => Side.BUY

/-- The events `matchOrder` fires after it released the lock. -/
def matchEvents (b : OrderBook) (trades : List Trade) : List Event :=
  trades.map Event.trade ++
    (if trades.isEmpty then [] else [Event.book_update (getTopOfBook b)])

/-- The member `OrderBook::matchOrder`. The argument is `const`: the loops work
on the copy `remaining_order`, which is not handed back to the caller. The
source has one block per side (a buy walks `asks_`, a sell walks `bids_`); the
blocks differ in the ladder and in the price test (`priceAcceptable`). -/
def matchOrder (b : OrderBook) (order : Order) : Outcome (List Trade) :=
  if order.remaining_quantity = 0 then
    { book := b, events := [], result := Except.ok [] }
  else
    let st : MatchState :=
      { remaining_order := order, next_trade_id := b.next_trade_id,
        order_lookup := b.order_lookup }
    let opp := order.side.opposite
    let w := matchLadder b.symbol ((b.side opp).length + 1) (b.side opp) st
    let b' : OrderBook :=
      { b.setSide opp w.ladder with
        next_trade_id := w.st.next_trade_id, order_lookup := w.st.order_lookup }
    match w.thrown with
    | some e => { book := b', events := [], result := Except.error e }
    | none => { book := b', events := matchEvents b' w.trades, result := Except.ok w.trades }

/-! ### The mutating interface -/

/-- The update of the level an order is queued on in `addOrder`:
`if (orders.empty()) price = p; orders.push_back(order); total_quantity += remaining`. -/
def enqueue (order : Order) (level : PriceLevel) : PriceLevel :=
  { price := if level.orders.isEmpty then order.price else level.price,
    total_quantity := u64_add level.total_quantity order.remaining_quantity,
    orders := level.orders ++ [order] }

/-- The insertion `addOrder` makes under the lock: the order is queued on the
level `bids_[price]` or `asks_[price]` of its side and `order_lookup_[id]` is
set to `{side, price}`. -/
def queueOrder (b : OrderBook) (order : Order) : OrderBook :=
  { b.setSide order.side
      (mapUpdate order.side (enqueue order) (b.side order.side) order.price) with
    order_lookup := indexSet b.order_lookup order.id (order.side, order.price) }

/-- The member `OrderBook::addOrder`. The residue test reads `order`, the
caller's object, as the source does. -/
def addOrder (b : OrderBook) (order : Order) : Outcome (List Trade) :=
  if order.symbol ≠ b.symbol then
    { book := b, events := [], result := Except.error Exception.invalid_argument }
  else
    let m : Outcome (List Trade) :=
      if order.type = OrderType.LIMIT ∨ order.type = OrderType.MARKET then matchOrder b order
      else { book := b, events := [], result := Except.ok [] }
    match m.result with
    | Except.error e => { book := m.book, events := m.events, result := Except.error e }
    | Except.ok trades =>
      if order.remaining_quantity > 0 ∧ order.type = OrderType.LIMIT then
        let b1 := queueOrder m.book order
        { book := b1, events := m.events ++ [Event.book_update (getTopOfBook b1)],
          result := Except.ok trades }
      else
        { book := m.book, events := m.events, result := Except.ok trades }

/-- The removal both `cancelOrder` and `modifyOrder` perform once the order is
found at `order_it` in the level `l` stored under `price` on `side`:
`total_quantity -= remaining; orders.erase(order_it); erase the level when it
is empty; order_lookup_.erase(it)`. -/
def removeResting (b : OrderBook) (side : Side) (price : Int) (l : PriceLevel)
    (found : Order) : OrderBook :=
  let orders := eraseOrder l.orders found.id
  let l' : PriceLevel :=
    { l with total_quantity := u64_sub l.total_quantity found.remaining_quantity,
             orders := orders }
  let m := if orders.isEmpty then mapErase (b.side side) price
           else mapSet (b.side side) price l'
  { b.setSide side m with order_lookup := indexErase b.order_lookup found.id }

/-- The member `OrderBook::cancelOrder`. -/
def cancelOrder (b : OrderBook) (order_id : Nat) : Outcome Bool :=
  match indexFind b.order_lookup order_id with
  | none => { book := b, events := [], result := Except.ok false }
  | some (side, price) =>
    match mapFind (b.side side) price with
    | none => { book := b, events := [], result := Except.ok false }
    | some l =>
      match findOrder l.orders order_id with
      | none => { book := b, events := [], result := Except.ok false }
      | some found =>
        let b' := removeResting b side price l found
        { book := b', events := [Event.book_update (getTopOfBook b')],
          result := Except.ok true }

/-- The member `OrderBook::modifyOrder`: removal as in `cancelOrder` (without
its notification), then `addOrder` of the copy with the new price and quantity. -/
def modifyOrder (b : OrderBook) (order_id : Nat) (new_price : Int) (new_quantity : Nat) :
    Outcome Bool :=
  match indexFind b.order_lookup order_id with
  | none => { book := b, events := [], result := Except.ok false }
  | some (side, price) =>
    match mapFind (b.side side) price with
    | none => { book := b, events := [], result := Except.ok false }
    | some l =>
      match findOrder l.orders order_id with
      | none => { book := b, events := [], result := Except.ok false }
      | some found =>
        let b' := removeResting b side price l found
        let modified_order := (found.setPrice new_price).setQuantity new_quantity
        let r := addOrder b' modified_order
        match r.result with
        | Except.error e => { book := r.book, events := r.events, result := Except.error e }
        | Except.ok _ => { book := r.book, events := r.events, result := Except.ok true }

/-- The member `OrderBook::clear`. -/
def clear (b : OrderBook) : Outcome Unit :=
  let b' : OrderBook := { b with bids := [], asks := [], order_lookup := [] }
  { book := b', events := [Event.book_update (getTopOfBook b')], result := Except.ok () }

/-! ## Well-formed books -/

/-- The orders queued on a side, best price first and in arrival order within a level. -/
def restingOrders : Ladder → List Order
  | [] => []
  | (_, l) :: rest => l.orders ++ restingOrders rest

/-- The sum of the remaining quantities of a queue. -/
def sumRemaining (orders : List Order) : Nat :=
  (orders.map (fun o => o.remaining_quantity)).sum

/-- The sum of the quantities of a list of trades. -/
def sumQuantity (trades : List Trade) : Nat :=
  (trades.map (fun t => t.quantity)).sum

/-- A level as the data model describes it: it carries its key as price, is not
empty, caches the sum of its orders' remainders (a `uint64_t`), and queues live
limit orders of the book's symbol, of its side and at its price. -/
def LevelWF (symbol : String) (side : Side) (k : Int) (l : PriceLevel) : Prop :=
  l.price = k ∧ l.orders ≠ [] ∧ l.total_quantity = sumRemaining l.orders ∧
  l.total_quantity < U64_MOD ∧
  ∀ o ∈ l.orders, o.price = k ∧ o.side = side ∧ o.symbol = symbol ∧
    0 < o.remaining_quantity ∧ o.type = OrderType.LIMIT

/-- A side as the data model describes it: keys strictly ordered by the side's
comparator (as `std::map` keeps them) and every level well formed. -/
def LadderWF (symbol : String) (side : Side) (m : Ladder) : Prop :=
  (m.map Prod.fst).Pairwise (fun a b => keyBefore side a b = true) ∧
  ∀ e ∈ m, LevelWF symbol side e.1 e.2

/-- A well-formed book: both sides well formed, the trade counter a `uint64_t`. -/
def WellFormed (b : OrderBook) : Prop :=
  LadderWF b.symbol Side.BUY b.bids ∧ LadderWF b.symbol Side.SELL b.asks ∧
  b.next_trade_id < U64_MOD

/-- No two resting orders share an id. -/
def UniqueIds (b : OrderBook) : Prop :=
  ((restingOrders b.bids ++ restingOrders b.asks).map (fun o => o.id)).Nodup

/-- The index is consistent with the ladders: it can tell the resting orders
apart (their ids are pairwise distinct) and it locates each of them (the id
maps to the order's side and level key). -/
def IndexConsistent (b : OrderBook) : Prop :=
  UniqueIds b ∧
  (∀ e ∈ b.bids, ∀ o ∈ e.2.orders, indexFind b.order_lookup o.id = some (Side.BUY, e.1)) ∧
  (∀ e ∈ b.asks, ∀ o ∈ e.2.orders, indexFind b.order_lookup o.id = some (Side.SELL, e.1))

/-- The book is not crossed: with both sides non-empty the best bid price is
below the best ask price. -/
def NotCrossed (b : OrderBook) : Prop :=
  match b.bids, b.asks with
  | (_, best_bid) :: _, (_, best_ask) :: _ => best_bid.price < best_ask.price
  | _, _ => True

/-- The limit price of an order does not cross the opposite side: that side is
empty, or a buy is priced below the best ask, a sell above the best bid. -/
def Passive (b : OrderBook) (order : Order) : Prop :=
  match b.side order.side.opposite with
  | [] => True
  | (_, best) :: _ =>
    match order.side with
    | Side.BUY => order.price < best.price
    | Side.SELL => best.price < order.price

instance (symbol : String) (side : Side) (k : Int) (l : PriceLevel) :
    Decidable (LevelWF symbol side k l) := by
  unfold LevelWF; infer_instance

instance (symbol : String) (side : Side) (m : Ladder) : Decidable (LadderWF symbol side m) := by
  unfold LadderWF; infer_instance

instance (b : OrderBook) : Decidable (WellFormed b) := by
  unfold WellFormed; infer_instance

instance (b : OrderBook) : Decidable (UniqueIds b) := by
  unfold UniqueIds; infer_instance

instance (b : OrderBook) : Decidable (IndexConsistent b) := by
  unfold IndexConsistent; infer_instance

instance (b : OrderBook) : Decidable (NotCrossed b) := by
  unfold NotCrossed; split <;> infer_instance

instance (b : OrderBook) (order : Order) : Decidable (Passive b order) := by
  unfold Passive
  split
  · infer_instance
  · split <;> infer_instance

/-! ## The matching loops, step by step -/

/-- The order after a fill of `q` that `Order::fill` accepts. -/
def Order.filled (o : Order) (q : Nat) : Order :=
  { o with
    remaining_quantity := o.remaining_quantity - q,
    status := if o.remaining_quantity - q = 0 then OrderStatus.FILLED
              else OrderStatus.PARTIALLY_FILLED }

/-- The trade the matcher emits for a taker in state `st` against `resting`. -/
def tradeOf (symbol : String) (st : MatchState) (resting : Order) : Trade :=
  { id := st.next_trade_id, symbol := symbol, price := resting.price,
    quantity := min st.remaining_order.remaining_quantity resting.remaining_quantity,
    maker_order_id := resting.id, taker_order_id := st.remaining_order.id,
    timestamp := st.remaining_order.timestamp }

/-- The matching state after one trade against `resting`. -/
def stepState (st : MatchState) (resting : Order) : MatchState :=
  { remaining_order := st.remaining_order.filled
      (min st.remaining_order.remaining_quantity resting.remaining_quantity),
    next_trade_id := u64_add st.next_trade_id 1,
    order_lookup :=
      if resting.remaining_quantity ≤ st.remaining_order.remaining_quantity then
        indexErase st.order_lookup resting.id
      else st.order_lookup }

/-- The runs of the inner loop: the queue is exhausted, the taker is exhausted,
the head order is filled completely and removed, or the head order absorbs the
rest of the taker. -/
inductive LevelRun (symbol : String) : List Order → Nat → MatchState → LevelWalk → Prop
  | nil (total : Nat) (st : MatchState) :
      LevelRun symbol [] total st
        { orders := [], total_quantity := total, st := st, trades := [], thrown := none }
  | done (r : Order) (rest : List Order) (total : Nat) (st : MatchState)
      (h : st.remaining_order.remaining_quantity = 0) :
      LevelRun symbol (r :: rest) total st
        { orders := r :: rest, total_quantity := total, st := st, trades := [], thrown := none }
  | full (r : Order) (rest : List Order) (total : Nat) (st : MatchState) (w : LevelWalk)
      (h0 : 0 < st.remaining_order.remaining_quantity)
      (h : r.remaining_quantity ≤ st.remaining_order.remaining_quantity)
      (hw : LevelRun symbol rest (u64_sub total r.remaining_quantity) (stepState st r) w) :
      LevelRun symbol (r :: rest) total st { w with trades := tradeOf symbol st r :: w.trades }
  | part (r : Order) (rest : List Order) (total : Nat) (st : MatchState)
      (h0 : 0 < st.remaining_order.remaining_quantity)
      (h : st.remaining_order.remaining_quantity < r.remaining_quantity) :
      LevelRun symbol (r :: rest) total st
        { orders := r.filled st.remaining_order.remaining_quantity :: rest,
          total_quantity := u64_sub total st.remaining_order.remaining_quantity,
          st := stepState st r, trades := [tradeOf symbol st r], thrown := none }

/-- The runs of the outer loop: the taker is exhausted, the side is empty, the
best price is not acceptable, the best level is swept and the loop goes on, or
the best level outlasts the taker. -/
inductive LadderRun (symbol : String) : Ladder → MatchState → LadderWalk → Prop
  | done (m : Ladder) (st : MatchState) (h : st.remaining_order.remaining_quantity = 0) :
      LadderRun symbol m st { ladder := m, st := st, trades := [], thrown := none }
  | empty (st : MatchState) (h0 : 0 < st.remaining_order.remaining_quantity) :
      LadderRun symbol [] st { ladder := [], st := st, trades := [], thrown := none }
  | reject (k : Int) (best : PriceLevel) (rest : Ladder) (st : MatchState)
      (h0 : 0 < st.remaining_order.remaining_quantity)
      (h : priceAcceptable st.remaining_order best = false) :
      LadderRun symbol ((k, best) :: rest) st
        { ladder := (k, best) :: rest, st := st, trades := [], thrown := none }
  | sweep (k : Int) (best : PriceLevel) (rest : Ladder) (st : MatchState) (w : LevelWalk)
      (r : LadderWalk) (h0 : 0 < st.remaining_order.remaining_quantity)
      (h : priceAcceptable st.remaining_order best = true)
      (hw : LevelRun symbol best.orders best.total_quantity st w) (he : w.orders = [])
      (hr : LadderRun symbol rest w.st r) :
      LadderRun symbol ((k, best) :: rest) st { r with trades := w.trades ++ r.trades }
  | stay (k : Int) (best : PriceLevel) (rest : Ladder) (st : MatchState) (w : LevelWalk)
      (h0 : 0 < st.remaining_order.remaining_quantity)
      (h : priceAcceptable st.remaining_order best = true)
      (hw : LevelRun symbol best.orders best.total_quantity st w) (hne : w.orders ≠ []) :
      LadderRun symbol ((k, best) :: rest) st
        { ladder := (k, { best with orders := w.orders, total_quantity := w.total_quantity })
            :: rest,
          st := w.st, trades := w.trades, thrown := none }

/-- Two orders agree on every field but `remaining_quantity` and `status`, the
two fields `Order::fill` writes. -/
def SameIdentity (a b : Order) : Prop :=
  a.id = b.id ∧ a.symbol = b.symbol ∧ a.price = b.price ∧ a.quantity = b.quantity ∧
  a.side = b.side ∧ a.type = b.type ∧ a.timestamp = b.timestamp

/-- The trades of a taker (id `tid`, timestamp `ts`) that has `rem` left,
against `makers` in priority order: the i-th trade is against the i-th maker,
at the maker's price, for the smaller of what the taker has left at that
moment and the maker's remainder, and is made only while the taker has
something left. -/
def Fills (symbol : String) (tid : Nat) (ts : Int) : Nat → List Order → List Trade → Prop
  | _, _, [] => True
  | _, [], _ :: _ => False
  | rem, r :: rs, t :: tl =>
    0 < rem ∧ t.symbol = symbol ∧ t.price = r.price ∧
    t.quantity = min rem r.remaining_quantity ∧ t.maker_order_id = r.id ∧
    t.taker_order_id = tid ∧ t.timestamp = ts ∧
    Fills symbol tid ts (rem - min rem r.remaining_quantity) rs tl

/-- The walk of the opposite side that `matchOrder` performs for `order`. -/
def walkOf (b : OrderBook) (order : Order) : LadderWalk :=
  matchLadder b.symbol ((b.side order.side.opposite).length + 1) (b.side order.side.opposite)
    { remaining_order := order, next_trade_id := b.next_trade_id,
      order_lookup := b.order_lookup }

/-- The book as the walk of `matchOrder` leaves it. -/
def afterMatch (b : OrderBook) (order : Order) : OrderBook :=
  { b.setSide order.side.opposite (walkOf b order).ladder with
    next_trade_id := (walkOf b order).st.next_trade_id,
    order_lookup := (walkOf b order).st.order_lookup }

/-! ## Scenario data -/

/-- The resting sell of scenario S1: id 1, 100 @ 15000. -/
def s1_sell : Order := Order.new 1 "AAPL" 15000 100 Side.SELL OrderType.LIMIT 1000000

/-- The incoming buy of scenario S1: id 2, 50 @ 15000. -/
def s1_buy : Order := Order.new 2 "AAPL" 15000 50 Side.BUY OrderType.LIMIT 2000000

/-- The book of scenario S1 once the sell rests on it. -/
def s1_book : OrderBook := (addOrder (OrderBook.new "AAPL") s1_sell).book

/-- The resting sell of scenario S2: id 1, 40 @ 14995. -/
def s2_sell : Order := Order.new 1 "AAPL" 14995 40 Side.SELL OrderType.LIMIT 1

/-- The incoming buy of scenario S2: id 2, 40 @ 15010. -/
def s2_buy : Order := Order.new 2 "AAPL" 15010 40 Side.BUY OrderType.LIMIT 2

/-- The book of scenario S2 once the sell rests on it. -/
def s2_book : OrderBook := (addOrder (OrderBook.new "AAPL") s2_sell).book

/-- The book of scenario S3: two sells at 15000, id 1 then id 2, 30 each. -/
def s3_book : OrderBook :=
  (addOrder (addOrder (OrderBook.new "AAPL")
    (Order.new 1 "AAPL" 15000 30 Side.SELL OrderType.LIMIT 1)).book
    (Order.new 2 "AAPL" 15000 30 Side.SELL OrderType.LIMIT 2)).book

/-- The incoming buy of scenario S3: id 3, 50 @ 15000. -/
def s3_buy : Order := Order.new 3 "AAPL" 15000 50 Side.BUY OrderType.LIMIT 3

/-- A third sell at 15000 for the book of scenario S3: id 4, 5 units. -/
def s3_sell : Order := Order.new 4 "AAPL" 15000 5 Side.SELL OrderType.LIMIT 4

/-- The book of scenario S4: sells id 1 @ 15000, id 2 @ 15005, id 3 @ 15010, 20 each. -/
def s4_book : OrderBook :=
  (addOrder (addOrder (addOrder (OrderBook.new "AAPL")
    (Order.new 1 "AAPL" 15000 20 Side.SELL OrderType.LIMIT 1)).book
    (Order.new 2 "AAPL" 15005 20 Side.SELL OrderType.LIMIT 2)).book
    (Order.new 3 "AAPL" 15010 20 Side.SELL OrderType.LIMIT 3)).book

/-- The incoming buy of scenario S4: id 9, 50 @ 15010. -/
def s4_buy : Order := Order.new 9 "AAPL" 15010 50 Side.BUY OrderType.LIMIT 4

/-- A market buy larger than everything offered on the book of scenario S4. -/
def s4_market_buy : Order := Order.new 9 "AAPL" 0 100 Side.BUY OrderType.MARKET 4

/-- A book whose only order is a buy of `2^64 - 1` at 100. -/
def full_level_book : OrderBook :=
  (addOrder (OrderBook.new "AAPL")
    (Order.new 1 "AAPL" 100 (2 ^ 64 - 1) Side.BUY OrderType.LIMIT 1)).book

/-- A buy of 1 at 100. -/
def one_more_buy : Order := Order.new 2 "AAPL" 100 1 Side.BUY OrderType.LIMIT 2

/-- First of three buys queued at 14900: id 1, 100 units. -/
def q_head : Order := Order.new 1 "AAPL" 14900 100 Side.BUY OrderType.LIMIT 1

/-- Second of three buys queued at 14900: id 2, 200 units. -/
def q_mid : Order := Order.new 2 "AAPL" 14900 200 Side.BUY OrderType.LIMIT 2

/-- Third of three buys queued at 14900: id 4, 50 units. -/
def q_tail : Order := Order.new 4 "AAPL" 14900 50 Side.BUY OrderType.LIMIT 4

/-- A book with three buys queued at 14900 and a sell of 150 at 15100 (id 3). -/
def queue_book : OrderBook :=
  (addOrder (addOrder (addOrder (addOrder (OrderBook.new "AAPL") q_head).book q_mid).book
    (Order.new 3 "AAPL" 15100 150 Side.SELL OrderType.LIMIT 3)).book q_tail).book

/-- The bid level of `queue_book`: the three buys at 14900, total 350. -/
def queue_level : PriceLevel :=
  { price := 14900, total_quantity := 350, orders := [q_head, q_mid, q_tail] }

/-! ## Sequences of calls -/

/-- A call of the mutating interface. -/
inductive Op where
  | add (order : Order)
  | cancel (order_id : Nat)
  | modify (order_id : Nat) (new_price : Int) (new_quantity : Nat)
  | clear
  deriving DecidableEq, Repr

/-- The book a call leaves behind and the callbacks it fires. -/
def step (b : OrderBook) : Op → OrderBook × List Event
  | Op.add order => ((addOrder b order).book, (addOrder b order).events)
  | Op.cancel order_id => ((cancelOrder b order_id).book, (cancelOrder b order_id).events)
  | Op.modify order_id new_price new_quantity =>
    ((modifyOrder b order_id new_price new_quantity).book,
     (modifyOrder b order_id new_price new_quantity).events)
  | Op.clear => ((clear b).book, (clear b).events)

/-- A sequence of calls on one book: the book at the end and every callback
fired, in the order of firing. -/
def run (b : OrderBook) : List Op → OrderBook × List Event
  | [] => (b, [])
  | op :: ops => ((run (step b op).1 ops).1, (step b op).2 ++ (run (step b op).1 ops).2)

/-- The trades handed to the trade callback, in the order of production. -/
def producedTrades : List Event → List Trade
  | [] => []
  | Event.trade t :: rest => t :: producedTrades rest
  | Event.book_update _ :: rest => producedTrades rest

/-- The top-of-book snapshots handed to the update callback, in order. -/
def bookUpdates : List Event → List TopOfBook
  | [] => []
  | Event.trade _ :: rest => bookUpdates rest
  | Event.book_update tob :: rest => tob :: bookUpdates rest

/-- The books a sequence of calls can produce from a new book. -/
inductive Reachable : OrderBook → Prop
  | new (symbol : String) : Reachable (OrderBook.new symbol)
  | step (b : OrderBook) (op : Op) (h : Reachable b) : Reachable (step b op).1

/-- What every call keeps true of a side: keys in the side's order, no empty
level, every cached total a `uint64_t`. -/
def LadderSane (side : Side) (m : Ladder) : Prop :=
  (m.map Prod.fst).Pairwise (fun a b => keyBefore side a b = true) ∧
  ∀ e ∈ m, e.2.orders ≠ [] ∧ e.2.total_quantity < U64_MOD

/-- What every call keeps true of a book. -/
def BookSane (b : OrderBook) : Prop :=
  LadderSane Side.BUY b.bids ∧ LadderSane Side.SELL b.asks ∧ b.next_trade_id < U64_MOD

/-- The id is new to the book: the index has no entry for it and no resting
order carries it. -/
def FreshId (b : OrderBook) (id : Nat) : Prop :=
  indexFind b.order_lookup id = none ∧
  ∀ o ∈ restingOrders b.bids ++ restingOrders b.asks, o.id ≠ id

instance (b : OrderBook) (id : Nat) : Decidable (FreshId b id) := by
  unfold FreshId; infer_instance

/-- The trades carry the ids `n`, `n + 1`, ... of a `uint64_t` counter. -/
def ConsecutiveIds : Nat → List Trade → Prop
  | _, [] => True
  | n, t :: rest => t.id = n ∧ ConsecutiveIds (u64_add n 1) rest

/-- The counter after it numbered the trades from `n`. -/
def idAfter : Nat → List Trade → Nat
  | n, [] => n
  | n, _ :: rest => idAfter (u64_add n 1) rest

/-- A book with three bid levels (15000 x 100, 14950 x 200, 14900 x 300) and
two ask levels (15050 x 150, 15100 x 250). -/
def depth_book : OrderBook :=
  (addOrder (addOrder (addOrder (addOrder (addOrder (OrderBook.new "AAPL")
    (Order.new 1 "AAPL" 15000 100 Side.BUY OrderType.LIMIT 1)).book
    (Order.new 2 "AAPL" 14950 200 Side.BUY OrderType.LIMIT 2)).book
    (Order.new 3 "AAPL" 14900 300 Side.BUY OrderType.LIMIT 3)).book
    (Order.new 4 "AAPL" 15050 150 Side.SELL OrderType.LIMIT 4)).book
    (Order.new 5 "AAPL" 15100 250 Side.SELL OrderType.LIMIT 5)).book

/-- The calls that build `ofi_wrap_book`: a buy of `2^64 - 1` at 100, a sell of 2 at 200. -/
def ofi_wrap_ops : List Op :=
  [Op.add (Order.new 1 "AAPL" 100 (2 ^ 64 - 1) Side.BUY OrderType.LIMIT 1),
   Op.add (Order.new 2 "AAPL" 200 2 Side.SELL OrderType.LIMIT 2)]

/-- A book with one buy of `2^64 - 1` at 100 and one sell of 2 at 200. -/
def ofi_wrap_book : OrderBook := (run (OrderBook.new "AAPL") ofi_wrap_ops).1

/-- The book of scenario S5: buys of 100 and 200 at 14900, a sell of 150 at 15100. -/
def s5_book : OrderBook :=
  (addOrder (addOrder (addOrder (OrderBook.new "AAPL")
    (Order.new 1 "AAPL" 14900 100 Side.BUY OrderType.LIMIT 1)).book
    (Order.new 2 "AAPL" 14900 200 Side.BUY OrderType.LIMIT 2)).book
    (Order.new 3 "AAPL" 15100 150 Side.SELL OrderType.LIMIT 3)).book

/-- The calls that build `partial_book`: one sell of 20 at 15000 (id 1). -/
def partial_ops : List Op :=
  [Op.add (Order.new 1 "AAPL" 15000 20 Side.SELL OrderType.LIMIT 1)]

/-- A book whose only order is a sell of 20 at 15000. -/
def partial_book : OrderBook := (run (OrderBook.new "AAPL") partial_ops).1

/-- A buy of 50 at 15000 (id 2): it takes the 20 offered and has 30 left. -/
def partial_buy : Order := Order.new 2 "AAPL" 15000 50 Side.BUY OrderType.LIMIT 2

/-- A buy of 10 at 14900 (id 2): below the ask of `partial_book`, it trades
with nothing. -/
def passive_buy : Order := Order.new 2 "AAPL" 14900 10 Side.BUY OrderType.LIMIT 2

/-- One round of `wrap_ops`: a sell of 1 at 100 (id 1) is queued on the empty
book, then a market buy of 1 (id 2) takes it; one trade, and the book is empty
again. -/
def wrap_round : List Op :=
  [Op.add (Order.new 1 "AAPL" 100 1 Side.SELL OrderType.LIMIT 1),
   Op.add (Order.new 2 "AAPL" 0 1 Side.BUY OrderType.MARKET 2)]

/-- The calls of `k` rounds. -/
def wrap_rounds : Nat → List Op
  | 0 => []
  | k + 1 => wrap_round ++ wrap_rounds k

/-- The calls of 2^64 rounds: as many trades as `uint64_t` has values. -/
def wrap_ops : List Op := wrap_rounds (2 ^ 64)

/-- The calls that build `reused_id_book`: a buy of 7 at 100 and a sell of 3 at
200 are both added under id 1, then id 1 is cancelled, which removes the sell. -/
def reused_id_ops : List Op :=
  [Op.add (Order.new 1 "AAPL" 100 7 Side.BUY OrderType.LIMIT 1),
   Op.add (Order.new 1 "AAPL" 200 3 Side.SELL OrderType.LIMIT 2),
   Op.cancel 1]

/-- A book on which the buy of 7 at 100 still rests under id 1 while the index
has no entry for id 1. -/
def reused_id_book : OrderBook := (run (OrderBook.new "AAPL") reused_id_ops).1

/-- A buy of 5 at 100, again under id 1. -/
def reused_id_buy : Order := Order.new 1 "AAPL" 100 5 Side.BUY OrderType.LIMIT 3

/-- What every call keeps true of a level: it carries its key as price, is not
empty, caches the sum of its orders' remainders reduced modulo `2^64`, and
queues live limit orders of the book's symbol, of its side and at its price. -/
def LevelKept (symbol : String) (side : Side) (k : Int) (l : PriceLevel) : Prop :=
  l.price = k ∧ l.orders ≠ [] ∧ l.total_quantity = sumRemaining l.orders % U64_MOD ∧
  ∀ o ∈ l.orders, o.price = k ∧ o.side = side ∧ o.symbol = symbol ∧
    0 < o.remaining_quantity ∧ o.type = OrderType.LIMIT

/-- Every level of a side is as `LevelKept` describes. -/
def LadderKept (symbol : String) (side : Side) (m : Ladder) : Prop :=
  ∀ e ∈ m, LevelKept symbol side e.1 e.2

/-- Both sides of the book are as `LadderKept` describes. -/
def BookKept (b : OrderBook) : Prop :=
  LadderKept b.symbol Side.BUY b.bids ∧ LadderKept b.symbol Side.SELL b.asks

/-- Scenario S4 carried on: three sells of 20 at 15000, 15005 and 15010, a buy
of 50 at 15010 that takes 20, 20 and 10 of them, then the sell that is left
(id 3) is modified to 30 at 15020. -/
def s4_ops : List Op :=
  [Op.add (Order.new 1 "AAPL" 15000 20 Side.SELL OrderType.LIMIT 1),
   Op.add (Order.new 2 "AAPL" 15005 20 Side.SELL OrderType.LIMIT 2),
   Op.add (Order.new 3 "AAPL" 15010 20 Side.SELL OrderType.LIMIT 3),
   Op.add (Order.new 9 "AAPL" 15010 50 Side.BUY OrderType.LIMIT 4),
   Op.modify 3 15020 30]

/-- The calls of the wrap of a cached total: a buy of `2^64 - 1` at 100 (id 1),
then a buy of 1 at 100 (id 2). -/
def full_level_ops : List Op :=
  [Op.add (Order.new 1 "AAPL" 100 (2 ^ 64 - 1) Side.BUY OrderType.LIMIT 1),
   Op.add (Order.new 2 "AAPL" 100 1 Side.BUY OrderType.LIMIT 2)]

/-- The price test as the specification words it: every level for a MARKET
order, for a buy the levels priced at or below the order's price, for a sell
those priced at or above it. -/
def acceptableTo (order : Order) (level : PriceLevel) : Bool :=
  decide (order.type = OrderType.MARKET ∨
    (order.side = Side.BUY ∧ level.price ≤ order.price) ∨
    (order.side = Side.SELL ∧ level.price ≥ order.price))

/-- The sum of `total_quantity` over the levels of a side whose price is
acceptable to the order. -/
def acceptableVolume (order : Order) (m : Ladder) : Nat :=
  ((m.filter (fun e => acceptableTo order e.2)).map (fun e => e.2.total_quantity)).sum

/-- The order `cancelOrder(order_id)` takes out of the book, if it finds one:
the index names a side and a price, the level there is searched for the id. -/
def cancelTarget (b : OrderBook) (order_id : Nat) : Option Order :=
  match indexFind b.order_lookup order_id with
  | none => none
  | some (side, price) =>
    match mapFind (b.side side) price with
    | none => none
    | some l => findOrder l.orders order_id

/-- The sum of the remaining quantities of all resting orders, both sides. -/
def restingVolume (b : OrderBook) : Nat :=
  sumRemaining (restingOrders b.bids) + sumRemaining (restingOrders b.asks)

/-- The sum of the original quantities of all orders passed to `addOrder`. -/
def addedQuantity : List Op → Nat
  | [] => 0
  | Op.add order :: rest => order.quantity + addedQuantity rest
  | _ :: rest => addedQuantity rest

/-- The sum, over the LIMIT orders of the given symbol passed to `addOrder`,
of the quantity the order has remaining at the call (its original quantity for
an order as constructed). -/
def limitQuantity (symbol : String) : List Op → Nat
  | [] => 0
  | Op.add order :: rest =>
    (if order.symbol = symbol ∧ order.type = OrderType.LIMIT then order.remaining_quantity
     else 0) + limitQuantity symbol rest
  | _ :: rest => limitQuantity symbol rest

/-- The sum, over the `cancelOrder` calls of a sequence run from `b`, of the
remaining quantity the cancelled order had when it was taken out. -/
def cancelledQuantity : OrderBook → List Op → Nat
  | _, [] => 0
  | b, Op.cancel order_id :: rest =>
    ((cancelTarget b order_id).map (fun o => o.remaining_quantity)).getD 0 +
      cancelledQuantity (step b (Op.cancel order_id)).1 rest
  | b, op :: rest => cancelledQuantity (step b op).1 rest

/-- The call is an `addOrder` or a `cancelOrder`. -/
def Op.isAddOrCancel : Op → Bool
  | Op.add _ => true
  | Op.cancel _ => true
  | _ => false

/-- A sell of 100 at 15000 (id 1), then a market buy of 50 (id 2). -/
def market_ops : List Op :=
  [Op.add (Order.new 1 "AAPL" 15000 100 Side.SELL OrderType.LIMIT 1),
   Op.add (Order.new 2 "AAPL" 0 50 Side.BUY OrderType.MARKET 2)]

/-- No LIMIT order of the sequence, run from `b`, crosses the opposite side at
the time it is added. -/
def limitsPassive : OrderBook → List Op → Bool
  | _, [] => true
  | b, Op.add order :: rest =>
    decide (order.type = OrderType.LIMIT → Passive b order) &&
      limitsPassive (step b (Op.add order)).1 rest
  | b, op :: rest => limitsPassive (step b op).1 rest

/-- Sells of 100 at 15000 (id 1) and 40 at 15010 (id 2) and a buy of 30 at
14900 (id 3), none of which crosses; a market buy of 50 (id 4) that takes 50
of the first sell; the cancel of id 2 and of an unknown id. -/
def passive_ops : List Op :=
  [Op.add (Order.new 1 "AAPL" 15000 100 Side.SELL OrderType.LIMIT 1),
   Op.add (Order.new 2 "AAPL" 15010 40 Side.SELL OrderType.LIMIT 2),
   Op.add (Order.new 3 "AAPL" 14900 30 Side.BUY OrderType.LIMIT 3),
   Op.add (Order.new 4 "AAPL" 0 50 Side.BUY OrderType.MARKET 4),
   Op.cancel 2, Op.cancel 7]

/-- The ids of the resting orders, bids before asks. -/
def restingIds (b : OrderBook) : List Nat :=
  (restingOrders b.bids ++ restingOrders b.asks).map (fun o => o.id)

/-- The index holds the ids of the resting orders, each once, and the resting
orders have pairwise different ids. -/
def IndexExact (b : OrderBook) : Prop :=
  (restingIds b).Nodup ∧ (b.order_lookup.map Prod.fst).Perm (restingIds b)

/-- Every `addOrder` of the sequence, run from `b`, is given an id that is new
to the book at the time of the call. -/
def freshAdds : OrderBook → List Op → Bool
  | _, [] => true
  | b, Op.add order :: rest =>
    decide (FreshId b order.id) && freshAdds (step b (Op.add order)).1 rest
  | b, op :: rest => freshAdds (step b op).1 rest

/-- Two buys under the same id 1: 10 at 100, then 10 at 99. -/
def duplicate_id_ops : List Op :=
  [Op.add (Order.new 1 "AAPL" 100 10 Side.BUY OrderType.LIMIT 1),
   Op.add (Order.new 1 "AAPL" 99 10 Side.BUY OrderType.LIMIT 2)]

/-- The quantity the trades take from the maker with the given id. -/
def tradedWith (id : Nat) (trades : List Trade) : Nat :=
  sumQuantity (trades.filter (fun t => t.maker_order_id = id))

/-- The quantity the trades take at the given price. -/
def tradedAt (price : Int) (trades : List Trade) : Nat :=
  sumQuantity (trades.filter (fun t => t.price = price))

/-- The sell of scenario S4 that is hit last: id 3, 20 @ 15010. -/
def s4_last_sell : Order := Order.new 3 "AAPL" 15010 20 Side.SELL OrderType.LIMIT 3

/-- The call that builds `same_id_book`: a sell of 10 at 100 under id 1. -/
def same_id_ops : List Op := [Op.add (Order.new 1 "AAPL" 100 10 Side.SELL OrderType.LIMIT 1)]

/-- A book whose only order is a sell of 10 at 100 under id 1. -/
def same_id_book : OrderBook := (run (OrderBook.new "AAPL") same_id_ops).1

/-- The resting sell of `same_id_book`. -/
def same_id_sell : Order := Order.new 1 "AAPL" 100 10 Side.SELL OrderType.LIMIT 1

/-- A buy of 20 at 100, also under id 1: it takes the 10 offered and has 10 left. -/
def same_id_taker : Order := Order.new 1 "AAPL" 100 20 Side.BUY OrderType.LIMIT 2

/-- A buy of 5 at 90, also under id 1: it trades with nothing. -/
def same_id_passive : Order := Order.new 1 "AAPL" 90 5 Side.BUY OrderType.LIMIT 2

/-- The bid level `full_level_ops` leaves at 100: the two buys queued, their
remainders summing to `2^64`, and a cached total of 0. -/
def full_level : PriceLevel :=
  { price := 100, total_quantity := 0,
    orders := [Order.new 1 "AAPL" 100 (2 ^ 64 - 1) Side.BUY OrderType.LIMIT 1,
               Order.new 2 "AAPL" 100 1 Side.BUY OrderType.LIMIT 2] }

/-- The sell `s4_ops` leaves resting: id 3, modified to 30 at 15020 after a
fill of 10. -/
def s4_modified_sell : Order :=
  { Order.new 3 "AAPL" 15020 30 Side.SELL OrderType.LIMIT 3 with
    status := OrderStatus.PARTIALLY_FILLED }

/-- The ask level `s4_ops` leaves at 15020. -/
def s4_modified_level : PriceLevel :=
  { price := 15020, total_quantity := 30, orders := [s4_modified_sell] }

/-- The price `p` is more aggressive than `q` on the side: higher for a buy,
lower for a sell. -/
def moreAggressive (side : Side) (p q : Int) : Prop :=
  match side with
  | Side.BUY => q < p
  | Side.SELL => p < q

/-- The query `OrderBook::getAllOrders`: the orders of the bid levels, then
those of the ask levels, in iteration order. -/
def getAllOrders (b : OrderBook) : List Order :=
  restingOrders b.bids ++ restingOrders b.asks

/-- A buy of 100 at 15000 as the constructor makes it (id 1). -/
def fresh_order : Order := Order.new 1 "AAPL" 15000 100 Side.BUY OrderType.LIMIT 1000000

/-- An order constructed with quantity 0. -/
def empty_order : Order := Order.new 1 "AAPL" 15000 0 Side.BUY OrderType.LIMIT 1000000

/-- The order is obtained from the constructor by `fill`, `cancel` and
`setQuantity` calls that return. -/
def Order.Built (o : Order) : Prop :=
  ∃ id symbol price quantity side type timestamp calls,
    (Order.new id symbol price quantity side type timestamp).calls calls = Except.ok o

/-- The order `fresh_order` after `fill(30)`: 70 of 100 remaining. -/
def part_filled_order : Order :=
  { fresh_order with remaining_quantity := 70, status := OrderStatus.PARTIALLY_FILLED }

/-- A sell of 20 at 15100 (id 2) is added, then the partly filled buy of
`part_filled_order`, which does not cross. -/
def built_ops : List Op :=
  [Op.add (Order.new 2 "AAPL" 15100 20 Side.SELL OrderType.LIMIT 2), Op.add part_filled_order]

/-- A stop order of the book's symbol that would cross as a limit order. -/
def s4_stop_buy : Order := Order.new 9 "AAPL" 15010 50 Side.BUY OrderType.STOP 4

/-- A buy of 0 at 90 under id 1, the id of the sell resting on `same_id_book`. -/
def same_id_empty : Order := Order.new 1 "AAPL" 90 0 Side.BUY OrderType.LIMIT 2

/-- No `addOrder` of the sequence, run from `b`, is given an id that an order
resting at the time of the call carries. -/
def addsUnused : OrderBook → List Op → Bool
  | _, [] => true
  | b, Op.add order :: rest =>
    decide (order.id ∉ restingIds b) && addsUnused (step b (Op.add order)).1 rest
  | b, op :: rest => addsUnused (step b op).1 rest

/-! ## The moments the exclusive lock is given up -/

/-- The book at the moment `matchOrder` gives up `mutex_`. The member returns
before it takes the lock when nothing remains of the order; otherwise it takes
the `unique_lock` before the loops and calls `lock.unlock()` after them. -/
def matchOrder_released (b : OrderBook) (order : Order) : List OrderBook :=
  if order.remaining_quantity = 0 then [] else [(matchOrder b order).book]

/-- The books at the moments `addOrder` gives up `mutex_`, in order of time.
The member holds no lock of its own around the call of `matchOrder`; it takes
a second `unique_lock` for the insertion and calls `lock.unlock()` after it. -/
def addOrder_released (b : OrderBook) (order : Order) : List OrderBook :=
  if order.symbol ≠ b.symbol then []
  else
    let m : Outcome (List Trade) :=
      if order.type = OrderType.LIMIT ∨ order.type = OrderType.MARKET then matchOrder b order
      else { book := b, events := [], result := Except.ok [] }
    let first : List OrderBook :=
      if order.type = OrderType.LIMIT ∨ order.type = OrderType.MARKET
      then matchOrder_released b order else []
    match m.result with
    | Except.error _ => first
    | Except.ok _ =>
      if order.remaining_quantity > 0 ∧ order.type = OrderType.LIMIT then
        first ++ [queueOrder m.book order]
      else first

/-- The books at the moments `modifyOrder` gives up `mutex_`, in order of
time: at a `return false` the lock goes out of scope with the book untouched;
otherwise `lock.unlock()` follows the removal, and `addOrder` is called for
the modified copy after it. -/
def modifyOrder_released (b : OrderBook) (order_id : Nat) (new_price : Int)
    (new_quantity : Nat) : List OrderBook :=
  match indexFind b.order_lookup order_id with
  | none => [b]
  | some (side, price) =>
    match mapFind (b.side side) price with
    | none => [b]
    | some l =>
      match findOrder l.orders order_id with
      | none => [b]
      | some found =>
        let b' := removeResting b side price l found
        b' :: addOrder_released b' ((found.setPrice new_price).setQuantity new_quantity)

/-- No partial mutation is observable: each book a reader can lock while the
call runs is the book before the call or the book after it. -/
def NoPartialMutation (before after : OrderBook) (released : List OrderBook) : Prop :=
  ∀ s ∈ released, s = before ∨ s = after

instance (before after : OrderBook) (released : List OrderBook) :
    Decidable (NoPartialMutation before after released) := by
  unfold NoPartialMutation; infer_instance

/-! # Theorems -/

/-! ## The matching loops follow their runs -/

theorem fill_ok (o : Order) (q : Nat) (h : q ≤ o.remaining_quantity) :
    o.fill q = Except.ok (o.filled q) := by
  unfold Order.fill Order.filled
  rw [if_neg (by omega)]

theorem matchLevel_done (symbol : String) (orders : List Order) (total : Nat) (st : MatchState)
    (h : st.remaining_order.remaining_quantity = 0) :
    matchLevel symbol orders total st =
      { orders := orders, total_quantity := total, st := st, trades := [], thrown := none } := by
  cases orders with
  | nil => rfl
  | cons r rest => simp [matchLevel, h]

theorem matchLevel_full (symbol : String) (r : Order) (rest : List Order) (total : Nat)
    (st : MatchState) (h0 : 0 < st.remaining_order.remaining_quantity)
    (h : r.remaining_quantity ≤ st.remaining_order.remaining_quantity) :
    matchLevel symbol (r :: rest) total st =
      { matchLevel symbol rest (u64_sub total r.remaining_quantity) (stepState st r) with
        trades := tradeOf symbol st r ::
          (matchLevel symbol rest (u64_sub total r.remaining_quantity) (stepState st r)).trades } := by
  have hmin : min st.remaining_order.remaining_quantity r.remaining_quantity
      = r.remaining_quantity := Nat.min_eq_right h
  rw [matchLevel, if_pos h0]
  simp only [hmin]
  rw [fill_ok r _ (le_refl _), fill_ok _ _ h]
  simp only [Order.filled, Nat.sub_self, if_true, stepState, hmin, if_pos h, tradeOf]

theorem matchLevel_part (symbol : String) (r : Order) (rest : List Order) (total : Nat)
    (st : MatchState) (h0 : 0 < st.remaining_order.remaining_quantity)
    (h : st.remaining_order.remaining_quantity < r.remaining_quantity) :
    matchLevel symbol (r :: rest) total st =
      { orders := r.filled st.remaining_order.remaining_quantity :: rest,
        total_quantity := u64_sub total st.remaining_order.remaining_quantity,
        st := stepState st r,
        trades := [tradeOf symbol st r],
        thrown := none } := by
  have hmin : min st.remaining_order.remaining_quantity r.remaining_quantity
      = st.remaining_order.remaining_quantity := Nat.min_eq_left (le_of_lt h)
  have hne : ¬ (r.remaining_quantity - st.remaining_order.remaining_quantity = 0) := by omega
  have hnle : ¬ (r.remaining_quantity ≤ st.remaining_order.remaining_quantity) := by omega
  rw [matchLevel, if_pos h0]
  simp only [hmin]
  rw [fill_ok r _ (le_of_lt h), fill_ok _ _ (le_refl _)]
  simp only [Order.filled, hne, if_false]
  rw [matchLevel_done]
  · simp [stepState, hmin, hnle, tradeOf, Order.filled]
  · simp

theorem matchLevel_run (symbol : String) (orders : List Order) :
    ∀ (total : Nat) (st : MatchState),
      LevelRun symbol orders total st (matchLevel symbol orders total st) := by
  induction orders with
  | nil => intro total st; exact LevelRun.nil total st
  | cons r rest ih =>
    intro total st
    by_cases h0 : st.remaining_order.remaining_quantity = 0
    · rw [matchLevel_done symbol _ total st h0]
      exact LevelRun.done r rest total st h0
    · have hpos : 0 < st.remaining_order.remaining_quantity := Nat.pos_of_ne_zero h0
      by_cases h : r.remaining_quantity ≤ st.remaining_order.remaining_quantity
      · rw [matchLevel_full symbol r rest total st hpos h]
        exact LevelRun.full r rest total st _ hpos h (ih _ _)
      · rw [matchLevel_part symbol r rest total st hpos (by omega)]
        exact LevelRun.part r rest total st hpos (by omega)

theorem levelRun_thrown_none {symbol : String} {orders : List Order} {total : Nat}
    {st : MatchState} {w : LevelWalk} (h : LevelRun symbol orders total st w) :
    w.thrown = none := by
  induction h with
  | nil => rfl
  | done => rfl
  | full _ _ _ _ _ _ _ _ ih => exact ih
  | part => rfl

theorem levelRun_left_exhausted {symbol : String} {orders : List Order} {total : Nat}
    {st : MatchState} {w : LevelWalk} (h : LevelRun symbol orders total st w)
    (hne : w.orders ≠ []) : w.st.remaining_order.remaining_quantity = 0 := by
  induction h with
  | nil => exact absurd rfl hne
  | done _ _ _ _ h => exact h
  | full _ _ _ _ _ _ _ _ ih => exact ih hne
  | part r rest total st h0 h =>
    simp only [stepState, Order.filled, Nat.min_eq_left (le_of_lt h), Nat.sub_self]

theorem matchLadder_done (symbol : String) (fuel : Nat) (m : Ladder) (st : MatchState)
    (h : st.remaining_order.remaining_quantity = 0) :
    matchLadder symbol (fuel + 1) m st =
      { ladder := m, st := st, trades := [], thrown := none } := by
  simp [matchLadder, h]

theorem matchLadder_run (symbol : String) (fuel : Nat) :
    ∀ (m : Ladder) (st : MatchState), m.length < fuel →
      LadderRun symbol m st (matchLadder symbol fuel m st) := by
  induction fuel with
  | zero => intro m st h; exact absurd h (Nat.not_lt_zero _)
  | succ fuel ih =>
    intro m st hlen
    by_cases h0 : st.remaining_order.remaining_quantity = 0
    · rw [matchLadder_done symbol fuel m st h0]
      exact LadderRun.done m st h0
    · have hpos : 0 < st.remaining_order.remaining_quantity := Nat.pos_of_ne_zero h0
      cases m with
      | nil =>
        simp only [matchLadder, if_pos hpos]
        exact LadderRun.empty st hpos
      | cons e rest =>
        obtain ⟨k, best⟩ := e
        have hw := matchLevel_run symbol best.orders best.total_quantity st
        by_cases hacc : priceAcceptable st.remaining_order best = true
        · simp only [matchLadder, if_pos hpos, hacc, if_true, levelRun_thrown_none hw]
          by_cases he : (matchLevel symbol best.orders best.total_quantity st).orders = []
          · simp only [he, List.isEmpty_nil, if_true]
            have hl : rest.length < fuel := by simp at hlen; omega
            exact LadderRun.sweep k best rest st _ _ hpos hacc hw he (ih rest _ hl)
          · have hemp : (matchLevel symbol best.orders best.total_quantity st).orders.isEmpty
                = false := by
              cases hq : (matchLevel symbol best.orders best.total_quantity st).orders with
              | nil => exact absurd hq he
              | cons a l => rfl
            simp only [hemp, Bool.false_eq_true, if_false]
            obtain ⟨f, rfl⟩ : ∃ f, fuel = f + 1 := by
              cases fuel with
              | zero => simp at hlen
              | succ f => exact ⟨f, rfl⟩
            rw [matchLadder_done symbol f _ _ (levelRun_left_exhausted hw he)]
            simp only [List.append_nil]
            exact LadderRun.stay k best rest st _ hpos hacc hw he
        · have hrej : priceAcceptable st.remaining_order best = false := by
            cases hq : priceAcceptable st.remaining_order best with
            | true => exact absurd hq hacc
            | false => rfl
          simp only [matchLadder, if_pos hpos, hrej, Bool.false_eq_true, if_false]
          exact LadderRun.reject k best rest st hpos hrej

theorem ladderRun_thrown_none {symbol : String} {m : Ladder} {st : MatchState}
    {r : LadderWalk} (h : LadderRun symbol m st r) : r.thrown = none := by
  induction h with
  | done => rfl
  | empty => rfl
  | reject => rfl
  | sweep _ _ _ _ _ _ _ _ _ _ _ ih => exact ih
  | stay => rfl

/-! ## The containers -/

theorem indexFind_indexSet_self (idx : Index) (id : Nat) (v : Side × Int) :
    indexFind (indexSet idx id v) id = some v := by
  induction idx with
  | nil => simp [indexSet, indexFind]
  | cons e rest ih =>
    obtain ⟨k, w⟩ := e
    by_cases hk : k = id
    · simp [indexSet, indexFind, hk]
    · simp [indexSet, indexFind, hk, ih]

theorem indexFind_indexSet_other (idx : Index) (id : Nat) (v : Side × Int) (j : Nat)
    (h : j ≠ id) : indexFind (indexSet idx id v) j = indexFind idx j := by
  induction idx with
  | nil => simp [indexSet, indexFind, Ne.symm h]
  | cons e rest ih =>
    obtain ⟨k, w⟩ := e
    by_cases hk : k = id
    · subst hk
      simp [indexSet, indexFind, Ne.symm h]
    · by_cases hj : k = j
      · subst hj
        simp [indexSet, indexFind, hk]
      · simp [indexSet, indexFind, hk, hj, ih]

theorem indexFind_indexErase_self (idx : Index) (id : Nat) :
    indexFind (indexErase idx id) id = none := by
  induction idx with
  | nil => rfl
  | cons e rest ih =>
    obtain ⟨k, w⟩ := e
    by_cases hk : k = id
    · simp [indexErase, hk, ih]
    · simp [indexErase, indexFind, hk, ih]

theorem indexFind_indexErase_other (idx : Index) (id j : Nat) (h : j ≠ id) :
    indexFind (indexErase idx id) j = indexFind idx j := by
  induction idx with
  | nil => rfl
  | cons e rest ih =>
    obtain ⟨k, w⟩ := e
    by_cases hk : k = id
    · subst hk
      simp [indexErase, indexFind, Ne.symm h, ih]
    · by_cases hj : k = j
      · subst hj
        simp [indexErase, indexFind, hk]
      · simp [indexErase, indexFind, hk, hj, ih]

/-- Erasing never adds or redirects an entry. -/
theorem indexFind_indexErase_sub (idx : Index) (id j : Nat) (v : Side × Int)
    (h : indexFind (indexErase idx id) j = some v) : indexFind idx j = some v := by
  by_cases hj : j = id
  · subst hj
    rw [indexFind_indexErase_self] at h
    exact absurd h (by simp)
  · rwa [indexFind_indexErase_other idx id j hj] at h

theorem keyBefore_irrefl (side : Side) (a : Int) : ¬ keyBefore side a a = true := by
  cases side <;> simp [keyBefore]

theorem keyBefore_trans (side : Side) (a b c : Int) (h1 : keyBefore side a b = true)
    (h2 : keyBefore side b c = true) : keyBefore side a c = true := by
  cases side <;> simp [keyBefore] at * <;> omega

theorem keyBefore_total (side : Side) (a b : Int) (hne : a ≠ b)
    (h : ¬ keyBefore side a b = true) : keyBefore side b a = true := by
  cases side <;> simp [keyBefore] at * <;> omega

theorem mapFind_none_of_not_mem (m : Ladder) (p : Int) (h : p ∉ m.map Prod.fst) :
    mapFind m p = none := by
  induction m with
  | nil => rfl
  | cons e rest ih =>
    obtain ⟨k, l⟩ := e
    simp only [List.map_cons, List.mem_cons, not_or] at h
    simp [mapFind, Ne.symm h.1, ih h.2]

theorem mapFind_mapUpdate_self (side : Side) (f : PriceLevel → PriceLevel) (m : Ladder)
    (p : Int) (hs : (m.map Prod.fst).Pairwise (fun a b => keyBefore side a b = true)) :
    mapFind (mapUpdate side f m p) p = some (f ((mapFind m p).getD PriceLevel.empty)) := by
  induction m with
  | nil => simp [mapUpdate, mapFind]
  | cons e rest ih =>
    obtain ⟨k, l⟩ := e
    simp only [List.map_cons, List.pairwise_cons] at hs
    by_cases hk : k = p
    · simp [mapUpdate, mapFind, hk]
    · by_cases hb : keyBefore side p k = true
      · have hnot : p ∉ rest.map Prod.fst := by
          intro hmem
          exact keyBefore_irrefl side p (keyBefore_trans side p k p hb (hs.1 p hmem))
        simp [mapUpdate, mapFind, hk, hb, mapFind_none_of_not_mem rest p hnot]
      · simp [mapUpdate, mapFind, hk, hb, ih hs.2]

theorem mapFind_mapUpdate_other (side : Side) (f : PriceLevel → PriceLevel) (m : Ladder)
    (p q : Int) (h : q ≠ p) : mapFind (mapUpdate side f m p) q = mapFind m q := by
  induction m with
  | nil => simp [mapUpdate, mapFind, Ne.symm h]
  | cons e rest ih =>
    obtain ⟨k, l⟩ := e
    by_cases hk : k = p
    · subst hk
      simp [mapUpdate, mapFind, Ne.symm h]
    · by_cases hb : keyBefore side p k = true
      · simp [mapUpdate, mapFind, hk, hb, Ne.symm h]
      · by_cases hq : k = q
        · subst hq
          simp [mapUpdate, mapFind, hk, hb]
        · simp [mapUpdate, mapFind, hk, hb, hq, ih]

theorem mem_keys_mapUpdate (side : Side) (f : PriceLevel → PriceLevel) (m : Ladder)
    (p x : Int) (h : x ∈ (mapUpdate side f m p).map Prod.fst) :
    x = p ∨ x ∈ m.map Prod.fst := by
  induction m with
  | nil => simp [mapUpdate] at h; exact Or.inl h
  | cons e rest ih =>
    obtain ⟨k, l⟩ := e
    by_cases hk : k = p
    · simp [mapUpdate, hk] at h
      rcases h with h | h
      · exact Or.inl h
      · right; simp; right; simpa using h
    · by_cases hb : keyBefore side p k = true
      · simp [mapUpdate, hk, hb] at h
        rcases h with h | h | h
        · exact Or.inl h
        · right; simp [h]
        · right; simp; right; simpa using h
      · simp [mapUpdate, hk, hb] at h
        rcases h with h | h
        · right; simp [h]
        · rcases ih (by simpa using h) with h' | h'
          · exact Or.inl h'
          · right; simp; right; simpa using h'

/-- The iteration order of the map is kept by `map[p]`. -/
theorem keys_sorted_mapUpdate (side : Side) (f : PriceLevel → PriceLevel) (m : Ladder)
    (p : Int) (h : (m.map Prod.fst).Pairwise (fun a b => keyBefore side a b = true)) :
    ((mapUpdate side f m p).map Prod.fst).Pairwise (fun a b => keyBefore side a b = true) := by
  induction m with
  | nil => simp [mapUpdate]
  | cons e rest ih =>
    obtain ⟨k, l⟩ := e
    simp only [List.map_cons, List.pairwise_cons] at h
    by_cases hk : k = p
    · simp only [mapUpdate, hk, if_true, List.map_cons, List.pairwise_cons]
      subst hk
      exact h
    · by_cases hb : keyBefore side p k = true
      · simp only [mapUpdate, hk, hb, if_false, if_true, List.map_cons, List.pairwise_cons]
        refine ⟨?_, h⟩
        intro x hx
        rcases List.mem_cons.mp hx with hx | hx
        · rw [hx]; exact hb
        · exact keyBefore_trans side p k x hb (h.1 x hx)
      · rw [mapUpdate, if_neg hk, if_neg hb]
        simp only [List.map_cons, List.pairwise_cons]
        refine ⟨?_, ih h.2⟩
        intro x hx
        rcases mem_keys_mapUpdate side f rest p x hx with hx | hx
        · rw [hx]; exact keyBefore_total side p k (Ne.symm hk) hb
        · exact h.1 x hx

/-! ## The trades of a run -/

theorem sameIdentity_refl (a : Order) : SameIdentity a a := ⟨rfl, rfl, rfl, rfl, rfl, rfl, rfl⟩

theorem sameIdentity_trans {a b c : Order} (h1 : SameIdentity a b) (h2 : SameIdentity b c) :
    SameIdentity a c := by
  obtain ⟨a1, a2, a3, a4, a5, a6, a7⟩ := h1
  obtain ⟨b1, b2, b3, b4, b5, b6, b7⟩ := h2
  exact ⟨a1.trans b1, a2.trans b2, a3.trans b3, a4.trans b4, a5.trans b5, a6.trans b6,
    a7.trans b7⟩

theorem sameIdentity_stepState (st : MatchState) (r : Order) :
    SameIdentity (stepState st r).remaining_order st.remaining_order :=
  ⟨rfl, rfl, rfl, rfl, rfl, rfl, rfl⟩

theorem priceAcceptable_congr {a b : Order} (h : SameIdentity a b) (l : PriceLevel) :
    priceAcceptable a l = priceAcceptable b l := by
  obtain ⟨_, _, h3, _, h5, h6, _⟩ := h
  simp [priceAcceptable, h3, h5, h6]

theorem sumQuantity_cons (t : Trade) (tl : List Trade) :
    sumQuantity (t :: tl) = t.quantity + sumQuantity tl := by
  simp [sumQuantity]

theorem sumQuantity_append (a b : List Trade) :
    sumQuantity (a ++ b) = sumQuantity a + sumQuantity b := by
  simp [sumQuantity]

theorem fills_nil (symbol : String) (tid : Nat) (ts : Int) (rem : Nat) (makers : List Order) :
    Fills symbol tid ts rem makers [] := by
  cases makers <;> simp [Fills]

/-- Trades against a queue that was used up, followed by trades against what
comes after it, are trades against the concatenation. -/
theorem fills_append (symbol : String) (tid : Nat) (ts : Int) :
    ∀ (makers : List Order) (rem : Nat) (t1 t2 : List Trade) (more : List Order),
      Fills symbol tid ts rem makers t1 → t1.length = makers.length →
      Fills symbol tid ts (rem - sumQuantity t1) more t2 →
      Fills symbol tid ts rem (makers ++ more) (t1 ++ t2) := by
  intro makers
  induction makers with
  | nil =>
    intro rem t1 t2 more _ hlen h2
    have : t1 = [] := List.length_eq_zero.mp hlen
    subst this
    simpa [sumQuantity] using h2
  | cons r rs ih =>
    intro rem t1 t2 more h1 hlen h2
    cases t1 with
    | nil => simp at hlen
    | cons t tl =>
      simp only [Fills] at h1
      obtain ⟨hpos, hs, hp, hq, hm, ht, hts, hrest⟩ := h1
      simp only [List.cons_append, Fills]
      refine ⟨hpos, hs, hp, hq, hm, ht, hts, ?_⟩
      apply ih _ tl t2 more hrest (by simpa using hlen)
      rw [sumQuantity_cons, hq] at h2
      rwa [Nat.sub_sub]

theorem fills_extend (symbol : String) (tid : Nat) (ts : Int) :
    ∀ (makers : List Order) (rem : Nat) (tl : List Trade) (more : List Order),
      Fills symbol tid ts rem makers tl → Fills symbol tid ts rem (makers ++ more) tl := by
  intro makers
  induction makers with
  | nil =>
    intro rem tl more h
    cases tl with
    | nil => exact fills_nil _ _ _ _ _
    | cons t tl => simp [Fills] at h
  | cons r rs ih =>
    intro rem tl more h
    cases tl with
    | nil => exact fills_nil _ _ _ _ _
    | cons t tl =>
      simp only [Fills] at h
      obtain ⟨hpos, hs, hp, hq, hm, ht, hts, hrest⟩ := h
      simp only [List.cons_append, Fills]
      exact ⟨hpos, hs, hp, hq, hm, ht, hts, ih _ tl more hrest⟩

/-- What one walk of a queue yields: its trades are `Fills` against the queue;
when the queue is used up there is one trade per order; the taker keeps its
identity and loses what was traded. -/
theorem levelRun_fills {symbol : String} {orders : List Order} {total : Nat}
    {st : MatchState} {w : LevelWalk} (h : LevelRun symbol orders total st w) :
    Fills symbol st.remaining_order.id st.remaining_order.timestamp
      st.remaining_order.remaining_quantity orders w.trades ∧
    (w.orders = [] → w.trades.length = orders.length) ∧
    SameIdentity w.st.remaining_order st.remaining_order ∧
    sumQuantity w.trades ≤ st.remaining_order.remaining_quantity ∧
    w.st.remaining_order.remaining_quantity =
      st.remaining_order.remaining_quantity - sumQuantity w.trades := by
  induction h with
  | nil total st => exact ⟨trivial, fun _ => rfl, sameIdentity_refl _, by simp [sumQuantity], by simp [sumQuantity]⟩
  | done r rest total st h =>
    exact ⟨trivial, fun he => absurd he (by simp), sameIdentity_refl _, by simp [sumQuantity],
      by simp [sumQuantity]⟩
  | full r rest total st w h0 h hw ih =>
    obtain ⟨ih1, ih2, ih3, ih4, ih5⟩ := ih
    have hmin : min st.remaining_order.remaining_quantity r.remaining_quantity
        = r.remaining_quantity := Nat.min_eq_right h
    have hrem : (stepState st r).remaining_order.remaining_quantity
        = st.remaining_order.remaining_quantity - r.remaining_quantity := by
      simp [stepState, Order.filled, hmin]
    have hq : (tradeOf symbol st r).quantity = r.remaining_quantity := by
      simp [tradeOf, hmin]
    rw [hrem] at ih1 ih4 ih5
    refine ⟨?_, ?_, sameIdentity_trans ih3 (sameIdentity_stepState st r), ?_, ?_⟩
    · simp only [Fills]
      refine ⟨h0, rfl, rfl, rfl, rfl, rfl, rfl, ?_⟩
      rw [hmin]
      exact ih1
    · intro he
      simp [ih2 he]
    · rw [sumQuantity_cons, hq]; omega
    · show w.st.remaining_order.remaining_quantity = _
      rw [ih5, sumQuantity_cons, hq]; omega
  | part r rest total st h0 h =>
    have hmin : min st.remaining_order.remaining_quantity r.remaining_quantity
        = st.remaining_order.remaining_quantity := Nat.min_eq_left (le_of_lt h)
    refine ⟨?_, fun he => absurd he (by simp), sameIdentity_stepState st r, ?_, ?_⟩
    · simp only [Fills]
      exact ⟨h0, rfl, rfl, rfl, rfl, rfl, rfl, trivial⟩
    · simp [sumQuantity, tradeOf, hmin]
    · simp [sumQuantity, tradeOf, hmin, stepState, Order.filled]

/-- What the walk of a side yields: its trades are `Fills` against the side's
orders taken best price first and FIFO within a level. -/
theorem ladderRun_fills {symbol : String} {m : Ladder} {st : MatchState} {r : LadderWalk}
    (h : LadderRun symbol m st r) :
    Fills symbol st.remaining_order.id st.remaining_order.timestamp
      st.remaining_order.remaining_quantity (restingOrders m) r.trades ∧
    SameIdentity r.st.remaining_order st.remaining_order ∧
    sumQuantity r.trades ≤ st.remaining_order.remaining_quantity ∧
    r.st.remaining_order.remaining_quantity =
      st.remaining_order.remaining_quantity - sumQuantity r.trades := by
  induction h with
  | done m st h => exact ⟨fills_nil _ _ _ _ _, sameIdentity_refl _, by simp [sumQuantity], by simp [sumQuantity]⟩
  | empty st h0 => exact ⟨trivial, sameIdentity_refl _, by simp [sumQuantity], by simp [sumQuantity]⟩
  | reject k best rest st h0 h =>
    exact ⟨fills_nil _ _ _ _ _, sameIdentity_refl _, by simp [sumQuantity], by simp [sumQuantity]⟩
  | sweep k best rest st w r h0 h hw he hr ih =>
    obtain ⟨l1, l2, l3, l4, l5⟩ := levelRun_fills hw
    obtain ⟨ih1, ih2, ih3, ih4⟩ := ih
    rw [l3.1, l3.2.2.2.2.2.2, l5] at ih1
    rw [l5] at ih3 ih4
    refine ⟨?_, sameIdentity_trans ih2 l3, ?_, ?_⟩
    · show Fills _ _ _ _ (best.orders ++ restingOrders rest) (w.trades ++ r.trades)
      exact fills_append symbol _ _ best.orders _ w.trades r.trades _ l1 (l2 he) ih1
    · show sumQuantity (w.trades ++ r.trades) ≤ _
      rw [sumQuantity_append]; omega
    · show r.st.remaining_order.remaining_quantity = _ - sumQuantity (w.trades ++ r.trades)
      rw [ih4, sumQuantity_append]; omega
  | stay k best rest st w h0 h hw hne =>
    obtain ⟨l1, l2, l3, l4, l5⟩ := levelRun_fills hw
    refine ⟨?_, l3, l4, l5⟩
    show Fills _ _ _ _ (best.orders ++ restingOrders rest) w.trades
    exact fills_extend symbol _ _ best.orders _ w.trades _ l1

/-! ## The book a run leaves behind -/

theorem sameIdentity_filled (o : Order) (q : Nat) : SameIdentity (o.filled q) o :=
  ⟨rfl, rfl, rfl, rfl, rfl, rfl, rfl⟩

/-- The queue a walk leaves: a tail of the queue it started from, whose first
order may have been filled in part. -/
theorem levelRun_orders {symbol : String} {orders : List Order} {total : Nat}
    {st : MatchState} {w : LevelWalk} (h : LevelRun symbol orders total st w) :
    ∃ pre, orders = pre ++ w.orders ∨
      ∃ r post q, orders = pre ++ r :: post ∧ w.orders = r.filled q :: post ∧
        0 < q ∧ q < r.remaining_quantity := by
  induction h with
  | nil total st => exact ⟨[], Or.inl rfl⟩
  | done r rest total st h => exact ⟨[], Or.inl rfl⟩
  | full r rest total st w h0 h hw ih =>
    obtain ⟨pre, ih⟩ := ih
    refine ⟨r :: pre, ?_⟩
    rcases ih with ih | ⟨r', post, q, h1, h2, h3⟩
    · left; simp [ih]
    · right; exact ⟨r', post, q, by simp [h1], h2, h3⟩
  | part r rest total st h0 h =>
    exact ⟨[], Or.inr ⟨r, rest, st.remaining_order.remaining_quantity, rfl, rfl, h0, h⟩⟩

theorem levelRun_ids_suffix {symbol : String} {orders : List Order} {total : Nat}
    {st : MatchState} {w : LevelWalk} (h : LevelRun symbol orders total st w) :
    w.orders.map (fun o => o.id) <:+ orders.map (fun o => o.id) := by
  obtain ⟨pre, h1 | ⟨r, post, q, h1, h2, _⟩⟩ := levelRun_orders h
  · exact ⟨pre.map (fun o => o.id), by rw [h1]; simp⟩
  · exact ⟨pre.map (fun o => o.id), by rw [h1, h2]; simp [Order.filled]⟩

theorem levelRun_index_sub {symbol : String} {orders : List Order} {total : Nat}
    {st : MatchState} {w : LevelWalk} (h : LevelRun symbol orders total st w)
    (j : Nat) (v : Side × Int) (hj : indexFind w.st.order_lookup j = some v) :
    indexFind st.order_lookup j = some v := by
  induction h with
  | nil => exact hj
  | done => exact hj
  | full r rest total st w h0 h hw ih =>
    have := ih hj
    simp only [stepState, if_pos h] at this
    exact indexFind_indexErase_sub _ _ _ _ this
  | part r rest total st h0 h =>
    have hn : ¬ r.remaining_quantity ≤ st.remaining_order.remaining_quantity := by omega
    simpa only [stepState, if_neg hn] using hj

theorem ladderRun_index_sub {symbol : String} {m : Ladder} {st : MatchState} {r : LadderWalk}
    (h : LadderRun symbol m st r) (j : Nat) (v : Side × Int)
    (hj : indexFind r.st.order_lookup j = some v) : indexFind st.order_lookup j = some v := by
  induction h with
  | done => exact hj
  | empty => exact hj
  | reject => exact hj
  | sweep k best rest st w r h0 h hw he hr ih => exact levelRun_index_sub hw j v (ih hj)
  | stay k best rest st w h0 h hw hne => exact levelRun_index_sub hw j v hj

/-- Every level a walk leaves is a level it found, under the same key and with
the same price, queueing a tail of the orders it queued (by id). -/
theorem ladderRun_levels {symbol : String} {m : Ladder} {st : MatchState} {r : LadderWalk}
    (h : LadderRun symbol m st r) :
    ∀ e' ∈ r.ladder, ∃ e ∈ m, e'.1 = e.1 ∧ e'.2.price = e.2.price ∧
      e'.2.orders.map (fun o => o.id) <:+ e.2.orders.map (fun o => o.id) := by
  induction h with
  | done m st h => intro e' he'; exact ⟨e', he', rfl, rfl, List.suffix_refl _⟩
  | empty st h0 => intro e' he'; exact absurd he' (List.not_mem_nil _)
  | reject k best rest st h0 h => intro e' he'; exact ⟨e', he', rfl, rfl, List.suffix_refl _⟩
  | sweep k best rest st w r h0 h hw he hr ih =>
    intro e' he'
    obtain ⟨e, hmem, h1, h2, h3⟩ := ih e' he'
    exact ⟨e, List.mem_cons_of_mem _ hmem, h1, h2, h3⟩
  | stay k best rest st w h0 h hw hne =>
    intro e' he'
    rcases List.mem_cons.mp he' with he' | he'
    · subst he'
      exact ⟨(k, best), List.mem_cons_self _ _, rfl, rfl, levelRun_ids_suffix hw⟩
    · exact ⟨e', List.mem_cons_of_mem _ he', rfl, rfl, List.suffix_refl _⟩

/-- The keys a walk leaves are a tail of the keys it found. -/
theorem ladderRun_keys_suffix {symbol : String} {m : Ladder} {st : MatchState}
    {r : LadderWalk} (h : LadderRun symbol m st r) :
    r.ladder.map Prod.fst <:+ m.map Prod.fst := by
  induction h with
  | done => exact List.suffix_refl _
  | empty => exact List.suffix_refl _
  | reject => exact List.suffix_refl _
  | sweep k best rest st w r h0 h hw he hr ih =>
    exact ih.trans (List.suffix_cons k _)
  | stay => exact List.suffix_refl _

/-- The orders a walk leaves on the side, read best price first, are a tail of
the orders it found (by id). -/
theorem ladderRun_ids_suffix {symbol : String} {m : Ladder} {st : MatchState}
    {r : LadderWalk} (h : LadderRun symbol m st r) :
    (restingOrders r.ladder).map (fun o => o.id) <:+ (restingOrders m).map (fun o => o.id) := by
  induction h with
  | done => exact List.suffix_refl _
  | empty => exact List.suffix_refl _
  | reject => exact List.suffix_refl _
  | sweep k best rest st w r h0 h hw he hr ih =>
    show _ <:+ List.map _ (best.orders ++ restingOrders rest)
    rw [List.map_append]
    exact ih.trans (List.suffix_append _ _)
  | stay k best rest st w h0 h hw hne =>
    show List.map _ (w.orders ++ restingOrders rest) <:+
      List.map _ (best.orders ++ restingOrders rest)
    rw [List.map_append, List.map_append]
    obtain ⟨t, ht⟩ := levelRun_ids_suffix hw
    exact ⟨t, by rw [← ht, List.append_assoc]⟩

/-- Every order a walk leaves is an order it found, unchanged or filled in part. -/
theorem ladderRun_members {symbol : String} {m : Ladder} {st : MatchState}
    {r : LadderWalk} (h : LadderRun symbol m st r) :
    ∀ o' ∈ restingOrders r.ladder, ∃ o ∈ restingOrders m, SameIdentity o' o := by
  induction h with
  | done m st h => intro o' ho'; exact ⟨o', ho', sameIdentity_refl _⟩
  | empty st h0 => intro o' ho'; exact ⟨o', ho', sameIdentity_refl _⟩
  | reject k best rest st h0 h => intro o' ho'; exact ⟨o', ho', sameIdentity_refl _⟩
  | sweep k best rest st w r h0 h hw he hr ih =>
    intro o' ho'
    obtain ⟨o, hmem, hs⟩ := ih o' ho'
    exact ⟨o, List.mem_append_right _ hmem, hs⟩
  | stay k best rest st w h0 h hw hne =>
    intro o' ho'
    have ho' : o' ∈ w.orders ++ restingOrders rest := ho'
    rcases List.mem_append.mp ho' with hin | hin
    · obtain ⟨pre, h1 | ⟨r0, post, q, h1, h2, _⟩⟩ := levelRun_orders hw
      · refine ⟨o', ?_, sameIdentity_refl _⟩
        show o' ∈ best.orders ++ restingOrders rest
        rw [h1]; simp [hin]
      · rw [h2] at hin
        rcases List.mem_cons.mp hin with hin | hin
        · refine ⟨r0, ?_, by rw [hin]; exact sameIdentity_filled r0 q⟩
          show r0 ∈ best.orders ++ restingOrders rest
          rw [h1]; simp
        · refine ⟨o', ?_, sameIdentity_refl _⟩
          show o' ∈ best.orders ++ restingOrders rest
          rw [h1]; simp [hin]
    · exact ⟨o', List.mem_append_right _ hin, sameIdentity_refl _⟩

theorem fills_maker_mem (symbol : String) (tid : Nat) (ts : Int) :
    ∀ (makers : List Order) (rem : Nat) (trades : List Trade),
      Fills symbol tid ts rem makers trades →
      ∀ t ∈ trades, ∃ o ∈ makers, o.id = t.maker_order_id ∧ t.price = o.price := by
  intro makers
  induction makers with
  | nil =>
    intro rem trades h t ht
    cases trades with
    | nil => exact absurd ht (List.not_mem_nil _)
    | cons a tl => simp [Fills] at h
  | cons r rs ih =>
    intro rem trades h t ht
    cases trades with
    | nil => exact absurd ht (List.not_mem_nil _)
    | cons a tl =>
      simp only [Fills] at h
      obtain ⟨_, _, hp, _, hm, _, _, hrest⟩ := h
      rcases List.mem_cons.mp ht with ht | ht
      · subst ht
        exact ⟨r, List.mem_cons_self _ _, hm.symm, hp⟩
      · obtain ⟨o, ho, h1, h2⟩ := ih _ tl hrest t ht
        exact ⟨o, List.mem_cons_of_mem _ ho, h1, h2⟩

/-- Every trade of a walk is against an order of a level that passed the
price test, at that order's price. -/
theorem ladderRun_trade_level {symbol : String} {m : Ladder} {st : MatchState}
    {r : LadderWalk} (h : LadderRun symbol m st r) :
    ∀ t ∈ r.trades, ∃ e ∈ m, ∃ o ∈ e.2.orders, o.id = t.maker_order_id ∧
      t.price = o.price ∧ priceAcceptable st.remaining_order e.2 = true := by
  induction h with
  | done m st h => intro t ht; exact absurd ht (List.not_mem_nil _)
  | empty st h0 => intro t ht; exact absurd ht (List.not_mem_nil _)
  | reject k best rest st h0 h => intro t ht; exact absurd ht (List.not_mem_nil _)
  | sweep k best rest st w r h0 h hw he hr ih =>
    intro t ht
    have ht : t ∈ w.trades ++ r.trades := ht
    rcases List.mem_append.mp ht with ht | ht
    · obtain ⟨o, ho, h1, h2⟩ := fills_maker_mem _ _ _ _ _ _ (levelRun_fills hw).1 t ht
      exact ⟨(k, best), List.mem_cons_self _ _, o, ho, h1, h2, h⟩
    · obtain ⟨e, he', o, ho, h1, h2, h3⟩ := ih t ht
      refine ⟨e, List.mem_cons_of_mem _ he', o, ho, h1, h2, ?_⟩
      rw [← priceAcceptable_congr (levelRun_fills hw).2.2.1]
      exact h3
  | stay k best rest st w h0 h hw hne =>
    intro t ht
    obtain ⟨o, ho, h1, h2⟩ := fills_maker_mem _ _ _ _ _ _ (levelRun_fills hw).1 t ht
    exact ⟨(k, best), List.mem_cons_self _ _, o, ho, h1, h2, h⟩

/-! ## `matchOrder` and `addOrder` in terms of the walk -/

theorem setSide_side (b : OrderBook) (s : Side) : b.setSide s (b.side s) = b := by
  cases s <;> rfl

theorem side_setSide (b : OrderBook) (s : Side) (m : Ladder) : (b.setSide s m).side s = m := by
  cases s <;> rfl

theorem side_setSide_opposite (b : OrderBook) (s : Side) (m : Ladder) :
    (b.setSide s.opposite m).side s = b.side s := by
  cases s <;> rfl

theorem side_opposite_setSide (b : OrderBook) (s : Side) (m : Ladder) :
    (b.setSide s m).side s.opposite = b.side s.opposite := by
  cases s <;> rfl

/-- The walk of `matchOrder` is a run of the outer loop: the fuel it is given suffices. -/
theorem walkOf_run (b : OrderBook) (order : Order) :
    LadderRun b.symbol (b.side order.side.opposite)
      { remaining_order := order, next_trade_id := b.next_trade_id,
        order_lookup := b.order_lookup } (walkOf b order) :=
  matchLadder_run b.symbol _ _ _ (Nat.lt_succ_self _)

theorem matchOrder_eq (b : OrderBook) (order : Order) :
    (matchOrder b order).book = afterMatch b order ∧
    (matchOrder b order).events = matchEvents (afterMatch b order) (walkOf b order).trades ∧
    (matchOrder b order).result = Except.ok (walkOf b order).trades := by
  by_cases h0 : order.remaining_quantity = 0
  · have hw : walkOf b order =
        LadderWalk.mk (b.side order.side.opposite)
          (MatchState.mk order b.next_trade_id b.order_lookup) [] none := by
      unfold walkOf
      exact matchLadder_done _ _ _ _ h0
    have hb : afterMatch b order = b := by
      unfold afterMatch
      rw [hw]
      simp only [setSide_side]
    unfold matchOrder
    rw [if_pos h0, hb, hw]
    exact ⟨rfl, rfl, rfl⟩
  · have ht := ladderRun_thrown_none (walkOf_run b order)
    unfold matchOrder
    rw [if_neg h0]
    simp only
    unfold walkOf at ht
    rw [ht]
    exact ⟨rfl, rfl, rfl⟩

/-- The trades `addOrder` returns for an order of the book's symbol. -/
theorem addOrder_result (b : OrderBook) (order : Order) (hsym : order.symbol = b.symbol) :
    (addOrder b order).result =
      Except.ok (if order.type = OrderType.LIMIT ∨ order.type = OrderType.MARKET
                 then (walkOf b order).trades else []) := by
  unfold addOrder
  rw [if_neg (by simpa using hsym)]
  by_cases ht : order.type = OrderType.LIMIT ∨ order.type = OrderType.MARKET
  · simp only [if_pos ht, (matchOrder_eq b order).2.2]
    split <;> rfl
  · simp only [if_neg ht]
    split <;> rfl

/-- The book `addOrder` leaves for an order of the book's symbol. -/
theorem addOrder_book (b : OrderBook) (order : Order) (hsym : order.symbol = b.symbol) :
    (addOrder b order).book =
      if order.type = OrderType.LIMIT then
        (if 0 < order.remaining_quantity then queueOrder (afterMatch b order) order
         else afterMatch b order)
      else if order.type = OrderType.MARKET then afterMatch b order
      else b := by
  unfold addOrder
  rw [if_neg (by simpa using hsym)]
  by_cases hl : order.type = OrderType.LIMIT
  · simp only [hl, true_or, if_true, (matchOrder_eq b order).2.2, (matchOrder_eq b order).1,
      and_true]
    split <;> rfl
  · by_cases hm : order.type = OrderType.MARKET
    · simp only [hm, or_true, if_true, (matchOrder_eq b order).2.2, (matchOrder_eq b order).1,
        and_false, if_false]
      simp
    · simp only [hl, hm, or_self, if_false, and_false]

/-! ## Reading trades off `Fills` -/

theorem mem_restingOrders (m : Ladder) (o : Order) :
    o ∈ restingOrders m ↔ ∃ e ∈ m, o ∈ e.2.orders := by
  induction m with
  | nil => simp [restingOrders]
  | cons e rest ih =>
    obtain ⟨k, l⟩ := e
    simp [restingOrders, ih]

theorem wellFormed_side (b : OrderBook) (h : WellFormed b) (s : Side) :
    LadderWF b.symbol s (b.side s) := by
  cases s
  · exact h.1
  · exact h.2.1

theorem fills_makers_isPrefix (symbol : String) (tid : Nat) (ts : Int) :
    ∀ (makers : List Order) (rem : Nat) (trades : List Trade),
      Fills symbol tid ts rem makers trades →
      trades.map (fun t => t.maker_order_id) <+: makers.map (fun o => o.id) := by
  intro makers
  induction makers with
  | nil =>
    intro rem trades h
    cases trades with
    | nil => exact List.prefix_refl _
    | cons a tl => simp [Fills] at h
  | cons r rs ih =>
    intro rem trades h
    cases trades with
    | nil => exact List.nil_prefix
    | cons a tl =>
      simp only [Fills] at h
      obtain ⟨_, _, _, _, hm, _, _, hrest⟩ := h
      simp only [List.map_cons, hm]
      exact (List.prefix_cons_inj r.id).mpr (ih _ tl hrest)

/-- The trade at a position of a `Fills` list: it is against the maker at the
same position, for the smaller of what the taker had left after the earlier
trades and the maker's remainder; a trade that is not the last exhausts its maker. -/
theorem fills_at (symbol : String) (tid : Nat) (ts : Int) :
    ∀ (pre : List Trade) (makers : List Order) (rem : Nat) (t : Trade) (post : List Trade),
      Fills symbol tid ts rem makers (pre ++ t :: post) →
      ∃ r, makers[pre.length]? = some r ∧ t.maker_order_id = r.id ∧ t.price = r.price ∧
        t.symbol = symbol ∧ t.taker_order_id = tid ∧ t.timestamp = ts ∧
        0 < rem - sumQuantity pre ∧
        t.quantity = min (rem - sumQuantity pre) r.remaining_quantity ∧
        (post ≠ [] → t.quantity = r.remaining_quantity) := by
  intro pre
  induction pre with
  | nil =>
    intro makers rem t post h
    cases makers with
    | nil => simp [Fills] at h
    | cons r rs =>
      simp only [List.nil_append, Fills] at h
      obtain ⟨hpos, hs, hp, hq, hm, ht, hts, hrest⟩ := h
      refine ⟨r, by simp, hm, hp, hs, ht, hts, by simpa [sumQuantity] using hpos,
        by simpa [sumQuantity] using hq, ?_⟩
      intro hne
      cases post with
      | nil => exact absurd rfl hne
      | cons t2 tl2 =>
        cases rs with
        | nil => simp [Fills] at hrest
        | cons r2 rs2 =>
          simp only [Fills] at hrest
          have := hrest.1
          rw [hq]
          omega
  | cons a pre ih =>
    intro makers rem t post h
    cases makers with
    | nil => simp [Fills] at h
    | cons r0 rs =>
      simp only [List.cons_append, Fills] at h
      obtain ⟨_, _, _, hq, _, _, _, hrest⟩ := h
      obtain ⟨r, h1, h2, h3, h4, h5, h6, h7, h8, h9⟩ := ih rs _ t post hrest
      rw [← hq, Nat.sub_sub, ← sumQuantity_cons] at h7 h8
      exact ⟨r, by simpa using h1, h2, h3, h4, h5, h6, h7, h8, h9⟩

theorem addOrder_result_of_symbol_ne (b : OrderBook) (order : Order)
    (h : order.symbol ≠ b.symbol) :
    (addOrder b order).result = Except.error Exception.invalid_argument := by
  unfold addOrder
  rw [if_pos h]

/-- An `addOrder` that returns was given an order of the book's symbol. -/
theorem symbol_of_addOrder_ok (b : OrderBook) (order : Order) (trades : List Trade)
    (h : (addOrder b order).result = Except.ok trades) : order.symbol = b.symbol := by
  by_contra hsym
  rw [addOrder_result_of_symbol_ne b order hsym] at h
  exact absurd h (by simp)

/-- The trades `addOrder` returns are `Fills` of the order against the opposite
side, best price first and FIFO within a level. -/
theorem addOrder_fills (b : OrderBook) (order : Order) (trades : List Trade)
    (h : (addOrder b order).result = Except.ok trades) :
    Fills b.symbol order.id order.timestamp order.remaining_quantity
      (restingOrders (b.side order.side.opposite)) trades := by
  have hsym := symbol_of_addOrder_ok b order trades h
  rw [addOrder_result b order hsym] at h
  injection h with h
  subst h
  split
  · exact (ladderRun_fills (walkOf_run b order)).1
  · exact fills_nil _ _ _ _ _

/-! ## The two sides after `addOrder` -/

theorem afterMatch_side_opposite (b : OrderBook) (order : Order) :
    (afterMatch b order).side order.side.opposite = (walkOf b order).ladder := by
  unfold afterMatch
  cases h : order.side <;> rfl

theorem afterMatch_side_own (b : OrderBook) (order : Order) :
    (afterMatch b order).side order.side = b.side order.side := by
  unfold afterMatch
  cases h : order.side <;> rfl

theorem queueOrder_side_opposite (b : OrderBook) (order : Order) :
    (queueOrder b order).side order.side.opposite = b.side order.side.opposite := by
  unfold queueOrder
  cases h : order.side <;> rfl

theorem queueOrder_side_own (b : OrderBook) (order : Order) :
    (queueOrder b order).side order.side =
      mapUpdate order.side (enqueue order) (b.side order.side) order.price := by
  unfold queueOrder
  cases h : order.side <;> rfl

/-- The opposite side after `addOrder`: what the walk left. -/
theorem addOrder_side_opposite (b : OrderBook) (order : Order)
    (hsym : order.symbol = b.symbol) :
    (addOrder b order).book.side order.side.opposite =
      if order.type = OrderType.LIMIT ∨ order.type = OrderType.MARKET
      then (walkOf b order).ladder else b.side order.side.opposite := by
  rw [addOrder_book b order hsym]
  by_cases hl : order.type = OrderType.LIMIT
  · simp only [hl, true_or, if_true]
    split
    · rw [queueOrder_side_opposite, afterMatch_side_opposite]
    · rw [afterMatch_side_opposite]
  · by_cases hm : order.type = OrderType.MARKET
    · simp only [hm, or_true, if_true, if_false]
      rw [if_neg (by simp), afterMatch_side_opposite]
    · simp only [hl, hm, or_self, if_false]

/-- The own side after `addOrder`: the order queued, or nothing changed. -/
theorem addOrder_side_own (b : OrderBook) (order : Order)
    (hsym : order.symbol = b.symbol) :
    (addOrder b order).book.side order.side =
      if order.type = OrderType.LIMIT ∧ 0 < order.remaining_quantity
      then mapUpdate order.side (enqueue order) (b.side order.side) order.price
      else b.side order.side := by
  rw [addOrder_book b order hsym]
  by_cases hl : order.type = OrderType.LIMIT
  · rw [if_pos hl]
    by_cases hr : 0 < order.remaining_quantity
    · rw [if_pos hr, if_pos ⟨hl, hr⟩, queueOrder_side_own, afterMatch_side_own]
    · have hn : ¬ (order.type = OrderType.LIMIT ∧ 0 < order.remaining_quantity) :=
        fun h => hr h.2
      rw [if_neg hr, if_neg hn, afterMatch_side_own]
  · have hn : ¬ (order.type = OrderType.LIMIT ∧ 0 < order.remaining_quantity) :=
      fun h => hl h.1
    rw [if_neg hl, if_neg hn]
    by_cases hm : order.type = OrderType.MARKET
    · rw [if_pos hm, afterMatch_side_own]
    · rw [if_neg hm]

/-- Queueing an order keeps every level, each with its queue extended at most at the tail. -/
theorem mapUpdate_enqueue_levels (side : Side) (o : Order) (m : Ladder) (p : Int) :
    ∀ e ∈ m, ∃ e' ∈ mapUpdate side (enqueue o) m p, e'.1 = e.1 ∧ e.2.orders <+: e'.2.orders := by
  induction m with
  | nil => intro e he; exact absurd he (List.not_mem_nil _)
  | cons a rest ih =>
    obtain ⟨k, l⟩ := a
    intro e he
    by_cases hk : k = p
    · rw [mapUpdate, if_pos hk]
      rcases List.mem_cons.mp he with he | he
      · subst he
        exact ⟨(k, enqueue o l), List.mem_cons_self _ _, rfl, List.prefix_append _ _⟩
      · exact ⟨e, List.mem_cons_of_mem _ he, rfl, List.prefix_refl _⟩
    · by_cases hb : keyBefore side p k = true
      · rw [mapUpdate, if_neg hk, if_pos hb]
        exact ⟨e, List.mem_cons_of_mem _ he, rfl, List.prefix_refl _⟩
      · rw [mapUpdate, if_neg hk, if_neg hb]
        rcases List.mem_cons.mp he with he | he
        · subst he
          exact ⟨(k, l), List.mem_cons_self _ _, rfl, List.prefix_refl _⟩
        · obtain ⟨e', he', h1, h2⟩ := ih e he
          exact ⟨e', List.mem_cons_of_mem _ he', h1, h2⟩

/-- A well-formed side, read level by level, lists its orders best price first. -/
theorem resting_best_first (symbol : String) (s : Side) (m : Ladder)
    (h : LadderWF symbol s m) :
    (restingOrders m).Pairwise
      (fun r1 r2 => r1.price = r2.price ∨ keyBefore s r1.price r2.price = true) := by
  induction m with
  | nil => simp [restingOrders]
  | cons a rest ih =>
    obtain ⟨k, l⟩ := a
    obtain ⟨hs, hl⟩ := h
    simp only [List.map_cons, List.pairwise_cons] at hs
    have hrest : LadderWF symbol s rest := ⟨hs.2, fun e he => hl e (List.mem_cons_of_mem _ he)⟩
    have hk := (hl (k, l) (List.mem_cons_self _ _)).2.2.2.2
    simp only [restingOrders, List.pairwise_append]
    refine ⟨?_, ih hrest, ?_⟩
    · apply List.pairwise_of_forall_mem_list
      intro x hx y hy
      exact Or.inl ((hk x hx).1.trans (hk y hy).1.symm)
    · intro x hx y hy
      obtain ⟨e, he, hye⟩ := (mem_restingOrders rest y).mp hy
      right
      rw [(hk x hx).1, ((hl e (List.mem_cons_of_mem _ he)).2.2.2.2 y hye).1]
      exact hs.1 e.1 (List.mem_map_of_mem _ he)

theorem uniqueIds_side (b : OrderBook) (h : UniqueIds b) (s : Side) :
    ((restingOrders (b.side s)).map (fun o => o.id)).Nodup := by
  unfold UniqueIds at h
  rw [List.map_append] at h
  cases s
  · exact (List.nodup_append.mp h).1
  · exact (List.nodup_append.mp h).2.1

/-! ## An empty or unacceptable opposite side -/

theorem walkOf_empty (b : OrderBook) (order : Order)
    (h : b.side order.side.opposite = []) :
    walkOf b order =
      LadderWalk.mk [] (MatchState.mk order b.next_trade_id b.order_lookup) [] none := by
  unfold walkOf
  rw [h]
  by_cases h0 : 0 < order.remaining_quantity
  · simp [matchLadder, h0]
  · simp [matchLadder, h0]

theorem afterMatch_empty (b : OrderBook) (order : Order)
    (h : b.side order.side.opposite = []) : afterMatch b order = b := by
  unfold afterMatch
  rw [walkOf_empty b order h, ← h, setSide_side]

theorem addOrder_events_market (b : OrderBook) (order : Order)
    (hsym : order.symbol = b.symbol) (hty : order.type = OrderType.MARKET) :
    (addOrder b order).events = matchEvents (afterMatch b order) (walkOf b order).trades := by
  unfold addOrder
  rw [if_neg (by simpa using hsym)]
  simp only [hty, or_true, if_true, (matchOrder_eq b order).2.2, (matchOrder_eq b order).2.1,
    and_false, if_false]
  simp

theorem mapFind_some_mem (m : Ladder) (p : Int) (l : PriceLevel) (h : mapFind m p = some l) :
    (p, l) ∈ m := by
  induction m with
  | nil => simp [mapFind] at h
  | cons e rest ih =>
    obtain ⟨k, l0⟩ := e
    by_cases hk : k = p
    · simp [mapFind, hk] at h
      simp [hk, h]
    · simp [mapFind, hk] at h
      exact List.mem_cons_of_mem _ (ih h)

/-- The walk of `matchOrder` for a limit order whose price does not cross:
the price test fails at once (or the side is empty) and nothing is touched. -/
theorem walkOf_passive (b : OrderBook) (order : Order) (hty : order.type = OrderType.LIMIT)
    (hp : Passive b order) :
    walkOf b order =
      LadderWalk.mk (b.side order.side.opposite)
        (MatchState.mk order b.next_trade_id b.order_lookup) [] none := by
  unfold walkOf
  unfold Passive at hp
  by_cases h0 : 0 < order.remaining_quantity
  · cases hm : b.side order.side.opposite with
    | nil => simp [matchLadder, h0]
    | cons e rest =>
      obtain ⟨k, best⟩ := e
      rw [hm] at hp
      have hacc : priceAcceptable order best = false := by
        cases hs : order.side
        · rw [hs] at hp
          simp only at hp
          simp [priceAcceptable, hs, hty]
          exact hp
        · rw [hs] at hp
          simp only at hp
          simp [priceAcceptable, hs, hty]
          exact hp
      simp [matchLadder, h0, hacc]
  · exact matchLadder_done _ _ _ _ (Nat.eq_zero_of_not_pos h0)

theorem afterMatch_passive (b : OrderBook) (order : Order) (hty : order.type = OrderType.LIMIT)
    (hp : Passive b order) : afterMatch b order = b := by
  unfold afterMatch
  rw [walkOf_passive b order hty hp, setSide_side]

/-! ## Locating a resting order -/

theorem restingOrders_append (a c : Ladder) :
    restingOrders (a ++ c) = restingOrders a ++ restingOrders c := by
  induction a with
  | nil => rfl
  | cons e rest ih =>
    obtain ⟨k, l⟩ := e
    simp [restingOrders, ih]

theorem mapFind_append_cons (a c : Ladder) (k : Int) (l : PriceLevel)
    (h : k ∉ a.map Prod.fst) : mapFind (a ++ (k, l) :: c) k = some l := by
  induction a with
  | nil => simp [mapFind]
  | cons e rest ih =>
    obtain ⟨k0, l0⟩ := e
    simp only [List.map_cons, List.mem_cons, not_or] at h
    simp [mapFind, Ne.symm h.1, ih h.2]

theorem mapErase_append_cons (a c : Ladder) (k : Int) (l : PriceLevel)
    (h : k ∉ a.map Prod.fst) : mapErase (a ++ (k, l) :: c) k = a ++ c := by
  induction a with
  | nil => simp [mapErase]
  | cons e rest ih =>
    obtain ⟨k0, l0⟩ := e
    simp only [List.map_cons, List.mem_cons, not_or] at h
    simp [mapErase, Ne.symm h.1, ih h.2]

theorem mapSet_append_cons (a c : Ladder) (k : Int) (l l' : PriceLevel)
    (h : k ∉ a.map Prod.fst) : mapSet (a ++ (k, l) :: c) k l' = a ++ (k, l') :: c := by
  induction a with
  | nil => simp [mapSet]
  | cons e rest ih =>
    obtain ⟨k0, l0⟩ := e
    simp only [List.map_cons, List.mem_cons, not_or] at h
    simp [mapSet, Ne.symm h.1, ih h.2]

theorem findOrder_append_cons (pre post : List Order) (r : Order)
    (h : ∀ o ∈ pre, o.id ≠ r.id) : findOrder (pre ++ r :: post) r.id = some r := by
  induction pre with
  | nil => simp [findOrder]
  | cons a rest ih =>
    have ha := h a (List.mem_cons_self _ _)
    simp [findOrder, ha, ih (fun o ho => h o (List.mem_cons_of_mem _ ho))]

theorem eraseOrder_append_cons (pre post : List Order) (r : Order)
    (h : ∀ o ∈ pre, o.id ≠ r.id) : eraseOrder (pre ++ r :: post) r.id = pre ++ post := by
  induction pre with
  | nil => simp [eraseOrder]
  | cons a rest ih =>
    have ha := h a (List.mem_cons_self _ _)
    simp [eraseOrder, ha, ih (fun o ho => h o (List.mem_cons_of_mem _ ho))]

theorem u64_sub_exact (a c : Nat) (hc : c ≤ a) (ha : a < U64_MOD) : u64_sub a c = a - c := by
  unfold u64_sub
  have hcm : c % U64_MOD = c := Nat.mod_eq_of_lt (lt_of_le_of_lt hc ha)
  rw [hcm]
  have : a + (U64_MOD - c) = (a - c) + U64_MOD := by omega
  rw [this, Nat.add_mod_right]
  exact Nat.mod_eq_of_lt (by omega)

theorem key_not_mem_left (s : Side) (a c : Ladder) (k : Int) (l : PriceLevel)
    (h : ((a ++ (k, l) :: c).map Prod.fst).Pairwise (fun x y => keyBefore s x y = true)) :
    k ∉ a.map Prod.fst := by
  rw [List.map_append, List.pairwise_append] at h
  intro hk
  exact keyBefore_irrefl s k (h.2.2 k hk k (by simp))

theorem sumRemaining_mid (pre post : List Order) (r : Order) :
    r.remaining_quantity ≤ sumRemaining (pre ++ r :: post) := by
  simp [sumRemaining]
  omega

/-! ## C1, C2: the residue test of `addOrder` reads the caller's order -/

/-- C1, at the input of `test_order_book_matching`: with SELL id 1 100 @ 15000
resting, `addOrder` of BUY id 2 50 @ 15000 returns one trade of 50 against
maker 1, so nothing of the buy is left; the code still queues the buy on the
bid side with remaining 50 and indexes it, and the top of book is
bid 15000 x 50, ask 15000 x 50 where the test asserts bid 0 x 0. -/
theorem addOrder_queues_filled_taker :
    (addOrder s1_book s1_buy).result =
      Except.ok [{ id := 1, symbol := "AAPL", price := 15000, quantity := 50,
                   maker_order_id := 1, taker_order_id := 2, timestamp := 2000000 }] ∧
    (addOrder s1_book s1_buy).book.bids =
      [(15000, { price := 15000, total_quantity := 50, orders := [s1_buy] })] ∧
    indexFind (addOrder s1_book s1_buy).book.order_lookup 2 = some (Side.BUY, 15000) ∧
    getTopOfBook (addOrder s1_book s1_buy).book =
      { bid_price := 15000, bid_size := 50, ask_price := 15000, ask_size := 50 } := by
  refine ⟨rfl, rfl, rfl, rfl⟩

/-- C2, at the same input: the book is built from an empty book by two
`addOrder` calls and, when the second returns, both sides are non-empty with
best bid 15000 not below best ask 15000. -/
theorem addOrder_leaves_crossed_book :
    (addOrder s1_book s1_buy).book.bids ≠ [] ∧ (addOrder s1_book s1_buy).book.asks ≠ [] ∧
    (getTopOfBook (addOrder s1_book s1_buy).book).bid_price = 15000 ∧
    (getTopOfBook (addOrder s1_book s1_buy).book).ask_price = 15000 ∧
    ¬ NotCrossed (addOrder s1_book s1_buy).book := by
  decide

/-! ## C3: symbol mismatch -/

/-- C3: `addOrder` of an order whose symbol differs from the book's throws
`invalid_argument` and leaves the book (both ladders, the index, the next trade
id) as it was; no trade is returned and no callback fires. -/
theorem addOrder_symbol_mismatch (b : OrderBook) (order : Order)
    (h : order.symbol ≠ b.symbol) :
    (addOrder b order).result = Except.error Exception.invalid_argument ∧
    (addOrder b order).book = b ∧ (addOrder b order).events = [] := by
  unfold addOrder
  rw [if_pos h]
  exact ⟨rfl, rfl, rfl⟩

theorem addOrder_symbol_mismatch_witness :
    (addOrder s1_book (Order.new 7 "MSFT" 15000 10 Side.BUY OrderType.LIMIT 5)).result
      = Except.error Exception.invalid_argument ∧
    (addOrder s1_book (Order.new 7 "MSFT" 15000 10 Side.BUY OrderType.LIMIT 5)).book = s1_book ∧
    (addOrder s1_book (Order.new 7 "MSFT" 15000 10 Side.BUY OrderType.LIMIT 5)).events = [] :=
  addOrder_symbol_mismatch s1_book (Order.new 7 "MSFT" 15000 10 Side.BUY OrderType.LIMIT 5)
    (by decide)

/-! ## C4: a limit order that does not cross -/

/-- C4 (as amended): on a well-formed book, `addOrder` of a LIMIT order with
remaining > 0, of the book's symbol and with a price that does not cross the
opposite side returns no trades; the opposite side and the trade counter are
unchanged; the level at the order's price on its own side carries that price,
queues the previous orders followed by the order (a new level queues the order
alone) and caches the previous total (0 for a new level) plus the order's
remainder modulo 2^64, which is the exact sum whenever that fits in 64 bits;
every other key of the own side maps to the level it mapped to, and the keys
stay in the side's order; the index maps the order's id to (side, price) and is
unchanged elsewhere. -/
theorem addOrder_passive_limit (b : OrderBook) (order : Order) (hwf : WellFormed b)
    (hty : order.type = OrderType.LIMIT) (hrem : 0 < order.remaining_quantity)
    (hsym : order.symbol = b.symbol) (hp : Passive b order) :
    (addOrder b order).result = Except.ok [] ∧
    (addOrder b order).book.side order.side.opposite = b.side order.side.opposite ∧
    (addOrder b order).book.next_trade_id = b.next_trade_id ∧
    mapFind ((addOrder b order).book.side order.side) order.price =
      some { price := order.price,
             total_quantity :=
               u64_add ((mapFind (b.side order.side) order.price).getD
                 PriceLevel.empty).total_quantity order.remaining_quantity,
             orders := ((mapFind (b.side order.side) order.price).getD
                 PriceLevel.empty).orders ++ [order] } ∧
    (((mapFind (b.side order.side) order.price).getD PriceLevel.empty).total_quantity
        + order.remaining_quantity < U64_MOD →
      u64_add ((mapFind (b.side order.side) order.price).getD
          PriceLevel.empty).total_quantity order.remaining_quantity =
        ((mapFind (b.side order.side) order.price).getD PriceLevel.empty).total_quantity
          + order.remaining_quantity) ∧
    (∀ p, p ≠ order.price →
      mapFind ((addOrder b order).book.side order.side) p = mapFind (b.side order.side) p) ∧
    (((addOrder b order).book.side order.side).map Prod.fst).Pairwise
      (fun x y => keyBefore order.side x y = true) ∧
    indexFind (addOrder b order).book.order_lookup order.id = some (order.side, order.price) ∧
    (∀ j, j ≠ order.id →
      indexFind (addOrder b order).book.order_lookup j = indexFind b.order_lookup j) := by
  have hbook : (addOrder b order).book = queueOrder b order := by
    rw [addOrder_book b order hsym, if_pos hty, if_pos hrem, afterMatch_passive b order hty hp]
  have hsorted := (wellFormed_side b hwf order.side).1
  have hres : (addOrder b order).result = Except.ok [] := by
    rw [addOrder_result b order hsym, if_pos (Or.inl hty), walkOf_passive b order hty hp]
  have hidx : (addOrder b order).book.order_lookup
      = indexSet b.order_lookup order.id (order.side, order.price) := by
    rw [hbook]
    unfold queueOrder
    cases order.side <;> rfl
  have hnid : (addOrder b order).book.next_trade_id = b.next_trade_id := by
    rw [hbook]
    unfold queueOrder
    cases order.side <;> rfl
  refine ⟨hres, ?_, hnid, ?_, ?_, ?_, ?_, ?_, ?_⟩
  · rw [hbook, queueOrder_side_opposite]
  · rw [hbook, queueOrder_side_own, mapFind_mapUpdate_self _ _ _ _ hsorted]
    cases hf : mapFind (b.side order.side) order.price with
    | none => simp [enqueue, PriceLevel.empty]
    | some l =>
      have hl := (wellFormed_side b hwf order.side).2 _ (mapFind_some_mem _ _ _ hf)
      have hne : l.orders.isEmpty = false := by
        cases ho : l.orders with
        | nil => exact absurd ho hl.2.1
        | cons a t => rfl
      have hprice : l.price = order.price := hl.1
      simp [enqueue, hne, hprice]
  · intro hlt
    exact Nat.mod_eq_of_lt hlt
  · intro p hpne
    rw [hbook, queueOrder_side_own]
    exact mapFind_mapUpdate_other _ _ _ _ _ hpne
  · rw [hbook, queueOrder_side_own]
    exact keys_sorted_mapUpdate _ _ _ _ hsorted
  · rw [hidx]
    exact indexFind_indexSet_self _ _ _
  · intro j hj
    rw [hidx]
    exact indexFind_indexSet_other _ _ _ _ hj

theorem addOrder_passive_limit_witness :
    (WellFormed s3_book ∧ Passive s3_book s3_sell) ∧
    ((addOrder s3_book s3_sell).result = Except.ok [] ∧
    (addOrder s3_book s3_sell).book.side s3_sell.side.opposite
      = s3_book.side s3_sell.side.opposite ∧
    (addOrder s3_book s3_sell).book.next_trade_id = s3_book.next_trade_id ∧
    mapFind ((addOrder s3_book s3_sell).book.side s3_sell.side) s3_sell.price =
      some { price := s3_sell.price,
             total_quantity :=
               u64_add ((mapFind (s3_book.side s3_sell.side) s3_sell.price).getD
                 PriceLevel.empty).total_quantity s3_sell.remaining_quantity,
             orders := ((mapFind (s3_book.side s3_sell.side) s3_sell.price).getD
                 PriceLevel.empty).orders ++ [s3_sell] } ∧
    (((mapFind (s3_book.side s3_sell.side) s3_sell.price).getD PriceLevel.empty).total_quantity
        + s3_sell.remaining_quantity < U64_MOD →
      u64_add ((mapFind (s3_book.side s3_sell.side) s3_sell.price).getD
          PriceLevel.empty).total_quantity s3_sell.remaining_quantity =
        ((mapFind (s3_book.side s3_sell.side) s3_sell.price).getD PriceLevel.empty).total_quantity
          + s3_sell.remaining_quantity) ∧
    (∀ p, p ≠ s3_sell.price →
      mapFind ((addOrder s3_book s3_sell).book.side s3_sell.side) p
        = mapFind (s3_book.side s3_sell.side) p) ∧
    (((addOrder s3_book s3_sell).book.side s3_sell.side).map Prod.fst).Pairwise
      (fun x y => keyBefore s3_sell.side x y = true) ∧
    indexFind (addOrder s3_book s3_sell).book.order_lookup s3_sell.id
      = some (s3_sell.side, s3_sell.price) ∧
    (∀ j, j ≠ s3_sell.id →
      indexFind (addOrder s3_book s3_sell).book.order_lookup j
        = indexFind s3_book.order_lookup j)) :=
  ⟨by decide, addOrder_passive_limit s3_book s3_sell (by decide) (by decide) (by decide)
    (by decide) (by decide)⟩

/-- C4 (counterexample): the book holds one buy of 2^64 - 1 at 100 (total
2^64 - 1) and is well formed; a buy of 1 at 100 has nothing to cross. After
`addOrder` the level queues both orders and its total is 0, not the previous
total plus 1. -/
theorem passive_limit_total_wraps :
    WellFormed full_level_book ∧ one_more_buy.type = OrderType.LIMIT ∧
    0 < one_more_buy.remaining_quantity ∧ one_more_buy.symbol = full_level_book.symbol ∧
    Passive full_level_book one_more_buy ∧
    (mapFind full_level_book.bids 100).map (fun l => l.total_quantity)
      = some (2 ^ 64 - 1) ∧
    (mapFind (addOrder full_level_book one_more_buy).book.bids 100).map
      (fun l => l.total_quantity) = some 0 ∧
    (mapFind (addOrder full_level_book one_more_buy).book.bids 100).map
      (fun l => l.total_quantity) ≠
    (mapFind full_level_book.bids 100).map
      (fun l => l.total_quantity + one_more_buy.remaining_quantity) := by
  decide

/-! ## C5: trades are priced at the resting order's price -/

/-- C5: on a well-formed book `addOrder` returns for every order of the book's
symbol, and every trade it returns is priced at the price of the resting
(maker) order it names, which is the price and key of the level that order
rested on; hence a BUY LIMIT taker never pays more than its limit and a SELL
LIMIT taker never receives less. -/
theorem trade_price_is_resting_price (b : OrderBook) (order : Order) (hwf : WellFormed b) :
    (order.symbol = b.symbol → ∃ trades, (addOrder b order).result = Except.ok trades) ∧
    ∀ trades, (addOrder b order).result = Except.ok trades → ∀ t ∈ trades,
      (∃ e ∈ b.side order.side.opposite, ∃ r ∈ e.2.orders,
        r.id = t.maker_order_id ∧ t.price = r.price ∧ t.price = e.2.price ∧ t.price = e.1) ∧
      (order.type = OrderType.LIMIT → order.side = Side.BUY → t.price ≤ order.price) ∧
      (order.type = OrderType.LIMIT → order.side = Side.SELL → order.price ≤ t.price) := by
  refine ⟨fun hsym => ⟨_, addOrder_result b order hsym⟩, ?_⟩
  intro trades hres t ht
  have hsym := symbol_of_addOrder_ok b order trades hres
  rw [addOrder_result b order hsym] at hres
  injection hres with hres
  subst hres
  by_cases hty : order.type = OrderType.LIMIT ∨ order.type = OrderType.MARKET
  · rw [if_pos hty] at ht
    obtain ⟨e, he, r, hr, h1, h2, hacc⟩ := ladderRun_trade_level (walkOf_run b order) t ht
    obtain ⟨hlp, _, _, _, hord⟩ := (wellFormed_side b hwf order.side.opposite).2 e he
    have hrp := (hord r hr).1
    have hacc : priceAcceptable order e.2 = true := hacc
    refine ⟨⟨e, he, r, hr, h1, h2, by rw [h2, hrp, hlp], by rw [h2, hrp]⟩, ?_, ?_⟩
    · intro hl hb
      simp [priceAcceptable, hb, hl] at hacc
      rw [h2, hrp, ← hlp]; exact hacc
    · intro hl hs
      simp [priceAcceptable, hs, hl] at hacc
      rw [h2, hrp, ← hlp]; exact hacc
  · rw [if_neg hty] at ht
    exact absurd ht (List.not_mem_nil _)

theorem trade_price_is_resting_price_witness :
    WellFormed s2_book ∧
    (addOrder s2_book s2_buy).result =
      Except.ok [{ id := 1, symbol := "AAPL", price := 14995, quantity := 40,
                   maker_order_id := 1, taker_order_id := 2, timestamp := 2 }] ∧
    ((s2_buy.symbol = s2_book.symbol →
        ∃ trades, (addOrder s2_book s2_buy).result = Except.ok trades) ∧
     ∀ trades, (addOrder s2_book s2_buy).result = Except.ok trades → ∀ t ∈ trades,
      (∃ e ∈ s2_book.side s2_buy.side.opposite, ∃ r ∈ e.2.orders,
        r.id = t.maker_order_id ∧ t.price = r.price ∧ t.price = e.2.price ∧ t.price = e.1) ∧
      (s2_buy.type = OrderType.LIMIT → s2_buy.side = Side.BUY → t.price ≤ s2_buy.price) ∧
      (s2_buy.type = OrderType.LIMIT → s2_buy.side = Side.SELL → s2_buy.price ≤ t.price)) :=
  ⟨by decide, rfl, trade_price_is_resting_price s2_book s2_buy (by decide)⟩

/-! ## C6: price-time priority -/

/-- C6: on a well-formed book with unique resting ids, `addOrder` returns for
every order of the book's symbol, and for the trades it returns: the opposite
side read level by level lists its orders best price first (and in arrival
order within a level); the maker ids of the trades, in order, are a prefix of
that list; no maker id occurs twice; every trade but the last takes the whole
remainder of its maker; every level left on the opposite side queues a tail of
what it queued before, and every level of the order's own side keeps its queue
with at most the new order appended, so no level is reordered. -/
theorem price_time_priority (b : OrderBook) (order : Order) (hwf : WellFormed b)
    (hu : UniqueIds b) :
    (order.symbol = b.symbol → ∃ trades, (addOrder b order).result = Except.ok trades) ∧
    ∀ trades, (addOrder b order).result = Except.ok trades →
      (restingOrders (b.side order.side.opposite)).Pairwise
        (fun r1 r2 => r1.price = r2.price ∨
          keyBefore order.side.opposite r1.price r2.price = true) ∧
      trades.map (fun t => t.maker_order_id) <+:
        (restingOrders (b.side order.side.opposite)).map (fun o => o.id) ∧
      (trades.map (fun t => t.maker_order_id)).Nodup ∧
      (∀ pre t post, trades = pre ++ t :: post → post ≠ [] →
        ∃ r, (restingOrders (b.side order.side.opposite))[pre.length]? = some r ∧
          t.maker_order_id = r.id ∧ t.quantity = r.remaining_quantity) ∧
      (∀ e' ∈ (addOrder b order).book.side order.side.opposite,
        ∃ e ∈ b.side order.side.opposite, e'.1 = e.1 ∧
          e'.2.orders.map (fun o => o.id) <:+ e.2.orders.map (fun o => o.id)) ∧
      (∀ e ∈ b.side order.side,
        ∃ e' ∈ (addOrder b order).book.side order.side, e'.1 = e.1 ∧
          e.2.orders <+: e'.2.orders) := by
  refine ⟨fun hsym => ⟨_, addOrder_result b order hsym⟩, ?_⟩
  intro trades hres
  have hsym := symbol_of_addOrder_ok b order trades hres
  have hfills := addOrder_fills b order trades hres
  have hpre := fills_makers_isPrefix _ _ _ _ _ _ hfills
  refine ⟨resting_best_first b.symbol _ _ (wellFormed_side b hwf _), hpre,
    (uniqueIds_side b hu _).sublist hpre.sublist, ?_, ?_, ?_⟩
  · intro pre t post htr hne
    rw [htr] at hfills
    obtain ⟨r, h1, h2, _, _, _, _, _, _, h9⟩ := fills_at _ _ _ _ _ _ _ _ hfills
    exact ⟨r, h1, h2, h9 hne⟩
  · intro e' he'
    rw [addOrder_side_opposite b order hsym] at he'
    by_cases hty : order.type = OrderType.LIMIT ∨ order.type = OrderType.MARKET
    · rw [if_pos hty] at he'
      obtain ⟨e, he, h1, _, h3⟩ := ladderRun_levels (walkOf_run b order) e' he'
      exact ⟨e, he, h1, h3⟩
    · rw [if_neg hty] at he'
      exact ⟨e', he', rfl, List.suffix_refl _⟩
  · intro e he
    rw [addOrder_side_own b order hsym]
    split
    · exact mapUpdate_enqueue_levels _ _ _ _ e he
    · exact ⟨e, he, rfl, List.prefix_refl _⟩

theorem price_time_priority_witness :
    (WellFormed s3_book ∧ UniqueIds s3_book) ∧
    (addOrder s3_book s3_buy).result =
      Except.ok [{ id := 1, symbol := "AAPL", price := 15000, quantity := 30,
                   maker_order_id := 1, taker_order_id := 3, timestamp := 3 },
                 { id := 2, symbol := "AAPL", price := 15000, quantity := 20,
                   maker_order_id := 2, taker_order_id := 3, timestamp := 3 }] ∧
    ((s3_buy.symbol = s3_book.symbol →
        ∃ trades, (addOrder s3_book s3_buy).result = Except.ok trades) ∧
     ∀ trades, (addOrder s3_book s3_buy).result = Except.ok trades →
      (restingOrders (s3_book.side s3_buy.side.opposite)).Pairwise
        (fun r1 r2 => r1.price = r2.price ∨
          keyBefore s3_buy.side.opposite r1.price r2.price = true) ∧
      trades.map (fun t => t.maker_order_id) <+:
        (restingOrders (s3_book.side s3_buy.side.opposite)).map (fun o => o.id) ∧
      (trades.map (fun t => t.maker_order_id)).Nodup ∧
      (∀ pre t post, trades = pre ++ t :: post → post ≠ [] →
        ∃ r, (restingOrders (s3_book.side s3_buy.side.opposite))[pre.length]? = some r ∧
          t.maker_order_id = r.id ∧ t.quantity = r.remaining_quantity) ∧
      (∀ e' ∈ (addOrder s3_book s3_buy).book.side s3_buy.side.opposite,
        ∃ e ∈ s3_book.side s3_buy.side.opposite, e'.1 = e.1 ∧
          e'.2.orders.map (fun o => o.id) <:+ e.2.orders.map (fun o => o.id)) ∧
      (∀ e ∈ s3_book.side s3_buy.side,
        ∃ e' ∈ (addOrder s3_book s3_buy).book.side s3_buy.side, e'.1 = e.1 ∧
          e.2.orders <+: e'.2.orders)) :=
  ⟨by decide, rfl, price_time_priority s3_book s3_buy (by decide) (by decide)⟩

/-! ## C7: the fields of a trade -/

/-- C7: on a well-formed book `addOrder` returns for every order of the book's
symbol, and the trade at each position of the returned list has a positive
quantity, the book's symbol, the order's id as taker and the order's
timestamp; its maker is the resting order at the same position of the opposite
side (best price first, FIFO), and its quantity is the smaller of what the
order had left after the earlier trades and that maker's remainder. -/
theorem trade_fields (b : OrderBook) (order : Order) (hwf : WellFormed b) :
    (order.symbol = b.symbol → ∃ trades, (addOrder b order).result = Except.ok trades) ∧
    ∀ trades, (addOrder b order).result = Except.ok trades →
      ∀ pre t post, trades = pre ++ t :: post →
        0 < t.quantity ∧ t.symbol = b.symbol ∧ t.taker_order_id = order.id ∧
        t.timestamp = order.timestamp ∧
        ∃ r, (restingOrders (b.side order.side.opposite))[pre.length]? = some r ∧
          t.maker_order_id = r.id ∧
          t.quantity = min (order.remaining_quantity - sumQuantity pre) r.remaining_quantity := by
  refine ⟨fun hsym => ⟨_, addOrder_result b order hsym⟩, ?_⟩
  intro trades hres pre t post htr
  have hfills := addOrder_fills b order trades hres
  rw [htr] at hfills
  obtain ⟨r, h1, h2, _, h4, h5, h6, h7, h8, _⟩ := fills_at _ _ _ _ _ _ _ _ hfills
  have hmem : r ∈ restingOrders (b.side order.side.opposite) := List.getElem?_mem h1
  obtain ⟨e, he, hre⟩ := (mem_restingOrders _ r).mp hmem
  have hrpos := ((wellFormed_side b hwf order.side.opposite).2 e he).2.2.2.2 r hre
  refine ⟨?_, h4, h5, h6, r, h1, h2, h8⟩
  rw [h8]
  exact Nat.lt_min.mpr ⟨h7, hrpos.2.2.2.1⟩

theorem trade_fields_witness :
    WellFormed s4_book ∧
    (addOrder s4_book s4_buy).result =
      Except.ok [{ id := 1, symbol := "AAPL", price := 15000, quantity := 20,
                   maker_order_id := 1, taker_order_id := 9, timestamp := 4 },
                 { id := 2, symbol := "AAPL", price := 15005, quantity := 20,
                   maker_order_id := 2, taker_order_id := 9, timestamp := 4 },
                 { id := 3, symbol := "AAPL", price := 15010, quantity := 10,
                   maker_order_id := 3, taker_order_id := 9, timestamp := 4 }] ∧
    ((s4_buy.symbol = s4_book.symbol →
        ∃ trades, (addOrder s4_book s4_buy).result = Except.ok trades) ∧
     ∀ trades, (addOrder s4_book s4_buy).result = Except.ok trades →
      ∀ pre t post, trades = pre ++ t :: post →
        0 < t.quantity ∧ t.symbol = s4_book.symbol ∧ t.taker_order_id = s4_buy.id ∧
        t.timestamp = s4_buy.timestamp ∧
        ∃ r, (restingOrders (s4_book.side s4_buy.side.opposite))[pre.length]? = some r ∧
          t.maker_order_id = r.id ∧
          t.quantity =
            min (s4_buy.remaining_quantity - sumQuantity pre) r.remaining_quantity) :=
  ⟨by decide, rfl, trade_fields s4_book s4_buy (by decide)⟩

/-! ## C8: market orders never rest -/

/-- C8: on a well-formed book, `addOrder` of a MARKET order of the book's symbol
returns, and afterwards the order is on neither ladder, its own side is as
before, every order on the opposite side is an order that rested there before
(unchanged or filled in part) and every index entry is an entry that was there
before, so the order is neither queued nor indexed whatever part of it went
unfilled (an id that was not indexed, or not resting, before the call is not
afterwards); when the opposite side is empty no trade is returned, the book
(ladders, index, trade counter) is unchanged and no callback fires. -/
theorem market_order_never_rests (b : OrderBook) (order : Order) (hwf : WellFormed b)
    (hty : order.type = OrderType.MARKET) (hsym : order.symbol = b.symbol) :
    ∃ trades, (addOrder b order).result = Except.ok trades ∧
      order ∉ restingOrders (addOrder b order).book.bids ∧
      order ∉ restingOrders (addOrder b order).book.asks ∧
      (addOrder b order).book.side order.side = b.side order.side ∧
      (∀ o' ∈ restingOrders ((addOrder b order).book.side order.side.opposite),
        ∃ o ∈ restingOrders (b.side order.side.opposite), SameIdentity o' o) ∧
      (∀ j v, indexFind (addOrder b order).book.order_lookup j = some v →
        indexFind b.order_lookup j = some v) ∧
      (indexFind b.order_lookup order.id = none →
        indexFind (addOrder b order).book.order_lookup order.id = none) ∧
      ((∀ s, ∀ o ∈ restingOrders (b.side s), o.id ≠ order.id) →
        ∀ s, ∀ o ∈ restingOrders ((addOrder b order).book.side s), o.id ≠ order.id) ∧
      (b.side order.side.opposite = [] →
        trades = [] ∧ (addOrder b order).book = b ∧ (addOrder b order).events = []) := by
  have hnl : ¬ order.type = OrderType.LIMIT := by rw [hty]; decide
  have hbook : (addOrder b order).book = afterMatch b order := by
    rw [addOrder_book b order hsym, if_neg hnl, if_pos hty]
  have hown : (addOrder b order).book.side order.side = b.side order.side := by
    rw [hbook, afterMatch_side_own]
  have hopp : ∀ o' ∈ restingOrders ((addOrder b order).book.side order.side.opposite),
      ∃ o ∈ restingOrders (b.side order.side.opposite), SameIdentity o' o := by
    rw [hbook, afterMatch_side_opposite]
    exact ladderRun_members (walkOf_run b order)
  have hlimit : ∀ s, ∀ o ∈ restingOrders (b.side s), o.type = OrderType.LIMIT := by
    intro s o ho
    obtain ⟨e, he, hoe⟩ := (mem_restingOrders _ o).mp ho
    exact (((wellFormed_side b hwf s).2 e he).2.2.2.2 o hoe).2.2.2.2
  have hnot : ∀ s, order ∉ restingOrders ((addOrder b order).book.side s) := by
    intro s hmem
    by_cases hs : s = order.side
    · subst hs
      rw [hown] at hmem
      exact hnl (hlimit _ order hmem)
    · have hs' : s = order.side.opposite := by
        cases s <;> cases h : order.side <;> simp_all [Side.opposite]
      subst hs'
      obtain ⟨o, ho, hsame⟩ := hopp order hmem
      exact hnl (hsame.2.2.2.2.2.1.trans (hlimit _ o ho))
  have hsub : ∀ j v, indexFind (addOrder b order).book.order_lookup j = some v →
      indexFind b.order_lookup j = some v := by
    intro j v hj
    rw [hbook] at hj
    exact ladderRun_index_sub (walkOf_run b order) j v hj
  refine ⟨_, addOrder_result b order hsym, hnot Side.BUY, hnot Side.SELL, hown, hopp, hsub,
    ?_, ?_, ?_⟩
  · intro hnone
    cases hf : indexFind (addOrder b order).book.order_lookup order.id with
    | none => rfl
    | some v => rw [hsub _ v hf] at hnone; exact absurd hnone (by simp)
  · intro hfresh s o ho
    by_cases hs : s = order.side
    · subst hs
      rw [hown] at ho
      exact hfresh _ o ho
    · have hs' : s = order.side.opposite := by
        cases s <;> cases h : order.side <;> simp_all [Side.opposite]
      subst hs'
      obtain ⟨o0, ho0, hsame⟩ := hopp o ho
      rw [hsame.1]
      exact hfresh _ o0 ho0
  · intro hempty
    rw [if_pos (Or.inr hty), walkOf_empty b order hempty]
    refine ⟨rfl, by rw [hbook, afterMatch_empty b order hempty], ?_⟩
    rw [addOrder_events_market b order hsym hty, walkOf_empty b order hempty]
    rfl

theorem market_order_never_rests_witness :
    WellFormed s4_book ∧
    ∃ trades, (addOrder s4_book s4_market_buy).result = Except.ok trades ∧
      s4_market_buy ∉ restingOrders (addOrder s4_book s4_market_buy).book.bids ∧
      s4_market_buy ∉ restingOrders (addOrder s4_book s4_market_buy).book.asks ∧
      (addOrder s4_book s4_market_buy).book.side s4_market_buy.side =
        s4_book.side s4_market_buy.side ∧
      (∀ o' ∈ restingOrders
          ((addOrder s4_book s4_market_buy).book.side s4_market_buy.side.opposite),
        ∃ o ∈ restingOrders (s4_book.side s4_market_buy.side.opposite), SameIdentity o' o) ∧
      (∀ j v, indexFind (addOrder s4_book s4_market_buy).book.order_lookup j = some v →
        indexFind s4_book.order_lookup j = some v) ∧
      (indexFind s4_book.order_lookup s4_market_buy.id = none →
        indexFind (addOrder s4_book s4_market_buy).book.order_lookup s4_market_buy.id = none) ∧
      ((∀ s, ∀ o ∈ restingOrders (s4_book.side s), o.id ≠ s4_market_buy.id) →
        ∀ s, ∀ o ∈ restingOrders ((addOrder s4_book s4_market_buy).book.side s),
          o.id ≠ s4_market_buy.id) ∧
      (s4_book.side s4_market_buy.side.opposite = [] →
        trades = [] ∧ (addOrder s4_book s4_market_buy).book = s4_book ∧
        (addOrder s4_book s4_market_buy).events = []) :=
  ⟨by decide, market_order_never_rests s4_book s4_market_buy (by decide) (by decide)
    (by decide)⟩

/-! ## C9: unknown order id -/

/-- C9: for an id that is not in the order index, `cancelOrder` and
`modifyOrder` (for every price and quantity) return `false` without throwing;
the book (ladders, index, next trade id) is as before and no callback fires. -/
theorem cancel_modify_unknown_id (b : OrderBook) (order_id : Nat)
    (h : indexFind b.order_lookup order_id = none) :
    ((cancelOrder b order_id).result = Except.ok false ∧
      (cancelOrder b order_id).book = b ∧ (cancelOrder b order_id).events = []) ∧
    ∀ (p : Int) (q : Nat),
      (modifyOrder b order_id p q).result = Except.ok false ∧
      (modifyOrder b order_id p q).book = b ∧ (modifyOrder b order_id p q).events = [] := by
  refine ⟨?_, fun p q => ?_⟩
  · unfold cancelOrder
    rw [h]
    exact ⟨rfl, rfl, rfl⟩
  · unfold modifyOrder
    rw [h]
    exact ⟨rfl, rfl, rfl⟩

theorem cancel_modify_unknown_id_witness :
    ((cancelOrder s1_book 9).result = Except.ok false ∧
      (cancelOrder s1_book 9).book = s1_book ∧ (cancelOrder s1_book 9).events = []) ∧
    ∀ (p : Int) (q : Nat),
      (modifyOrder s1_book 9 p q).result = Except.ok false ∧
      (modifyOrder s1_book 9 p q).book = s1_book ∧ (modifyOrder s1_book 9 p q).events = [] :=
  cancel_modify_unknown_id s1_book 9 (by decide)

/-! ## C10: cancelling a resting order -/

/-- C10: on a well-formed book with a consistent index, let R
rest on side `s` in the level `l` under key `k`, with the orders `pre` before
it and `post` after it in the queue (head, middle or tail). Then
`cancelOrder(R.id)` returns true; R's remainder is not more than the level's
total; the side is as before except that the level queues `pre ++ post` with
its total decreased by exactly R's remainder, or is erased when R was its only
order; the opposite side, the trade counter and the symbol are unchanged; the
index has no entry for R.id and is unchanged for every other id. -/
theorem cancelOrder_resting (b : OrderBook) (s : Side) (A B : Ladder) (k : Int)
    (l : PriceLevel) (pre post : List Order) (R : Order)
    (hwf : WellFormed b) (hidx : IndexConsistent b)
    (hside : b.side s = A ++ (k, l) :: B) (hq : l.orders = pre ++ R :: post) :
    (cancelOrder b R.id).result = Except.ok true ∧
    R.remaining_quantity ≤ l.total_quantity ∧
    (cancelOrder b R.id).book.side s =
      (if pre ++ post = [] then A ++ B
       else A ++ (k,
              { price := l.price,
                total_quantity := l.total_quantity - R.remaining_quantity,
                orders := pre ++ post }) :: B) ∧
    (cancelOrder b R.id).book.side s.opposite = b.side s.opposite ∧
    indexFind (cancelOrder b R.id).book.order_lookup R.id = none ∧
    (∀ j, j ≠ R.id →
      indexFind (cancelOrder b R.id).book.order_lookup j = indexFind b.order_lookup j) ∧
    (cancelOrder b R.id).book.next_trade_id = b.next_trade_id ∧
    (cancelOrder b R.id).book.symbol = b.symbol := by
  have hlw := wellFormed_side b hwf s
  have hmem : (k, l) ∈ b.side s := by rw [hside]; simp
  have hRl : R ∈ l.orders := by rw [hq]; simp
  have hkA : k ∉ A.map Prod.fst := key_not_mem_left s A B k l (by rw [← hside]; exact hlw.1)
  obtain ⟨_, _, htot, hlt, _⟩ := hlw.2 (k, l) hmem
  have hle : R.remaining_quantity ≤ l.total_quantity := by
    rw [htot, hq]; exact sumRemaining_mid pre post R
  have hfindIdx : indexFind b.order_lookup R.id = some (s, k) := by
    cases s
    · exact hidx.2.1 (k, l) hmem R hRl
    · exact hidx.2.2 (k, l) hmem R hRl
  have hnodup : (l.orders.map (fun o => o.id)).Nodup := by
    have h1 := uniqueIds_side b hidx.1 s
    rw [hside, restingOrders_append] at h1
    simp only [restingOrders, List.map_append] at h1
    exact (List.nodup_append.mp (List.nodup_append.mp h1).2.1).1
  have hpre : ∀ o ∈ pre, o.id ≠ R.id := by
    rw [hq, List.map_append, List.map_cons] at hnodup
    have h2 := (List.nodup_append.mp hnodup).2.2
    intro o ho heq
    exact h2 (List.mem_map_of_mem _ ho) (by simp [heq])
  have hfindL : mapFind (b.side s) k = some l := by
    rw [hside]; exact mapFind_append_cons A B k l hkA
  have hfindO : findOrder l.orders R.id = some R := by
    rw [hq]; exact findOrder_append_cons pre post R hpre
  have herase : eraseOrder l.orders R.id = pre ++ post := by
    rw [hq]; exact eraseOrder_append_cons pre post R hpre
  have hcancel : (cancelOrder b R.id).book = removeResting b s k l R ∧
      (cancelOrder b R.id).result = Except.ok true := by
    unfold cancelOrder
    rw [hfindIdx]
    simp only [hfindL, hfindO]
    exact ⟨trivial, trivial⟩
  have hbook := hcancel.1
  have hlookup : (cancelOrder b R.id).book.order_lookup = indexErase b.order_lookup R.id := by
    rw [hbook]; unfold removeResting; cases s <;> rfl
  refine ⟨hcancel.2, hle, ?_, ?_, ?_, ?_, ?_, ?_⟩
  · rw [hbook]
    unfold removeResting
    simp only [herase, u64_sub_exact _ _ hle hlt]
    have hs : ∀ m, ({ b.setSide s m with
        order_lookup := indexErase b.order_lookup R.id } : OrderBook).side s = m := by
      intro m; cases s <;> rfl
    rw [hs]
    by_cases hemp : pre ++ post = []
    · rw [if_pos hemp]
      simp only [hemp, List.isEmpty_nil, if_true]
      rw [hside]; exact mapErase_append_cons A B k l hkA
    · rw [if_neg hemp]
      have hne : (pre ++ post).isEmpty = false := by
        cases hpp : pre ++ post with
        | nil => exact absurd hpp hemp
        | cons a t => rfl
      simp only [hne, Bool.false_eq_true, if_false]
      rw [hside]; exact mapSet_append_cons A B k l _ hkA
  · rw [hbook]; unfold removeResting; cases s <;> rfl
  · rw [hlookup]; exact indexFind_indexErase_self _ _
  · intro j hj
    rw [hlookup]; exact indexFind_indexErase_other _ _ _ hj
  · rw [hbook]; unfold removeResting; cases s <;> rfl
  · rw [hbook]; unfold removeResting; cases s <;> rfl

theorem cancelOrder_resting_witness :
    (WellFormed queue_book ∧ IndexConsistent queue_book ∧
      queue_book.side Side.BUY = [] ++ (14900, queue_level) :: [] ∧
      queue_level.orders = [q_head] ++ q_mid :: [q_tail]) ∧
    ((cancelOrder queue_book q_mid.id).result = Except.ok true ∧
    q_mid.remaining_quantity ≤ queue_level.total_quantity ∧
    (cancelOrder queue_book q_mid.id).book.side Side.BUY =
      (if [q_head] ++ [q_tail] = [] then [] ++ []
       else [] ++ (14900,
              { price := queue_level.price,
                total_quantity := queue_level.total_quantity - q_mid.remaining_quantity,
                orders := [q_head] ++ [q_tail] }) :: []) ∧
    (cancelOrder queue_book q_mid.id).book.side Side.BUY.opposite
      = queue_book.side Side.BUY.opposite ∧
    indexFind (cancelOrder queue_book q_mid.id).book.order_lookup q_mid.id = none ∧
    (∀ j, j ≠ q_mid.id →
      indexFind (cancelOrder queue_book q_mid.id).book.order_lookup j
        = indexFind queue_book.order_lookup j) ∧
    (cancelOrder queue_book q_mid.id).book.next_trade_id = queue_book.next_trade_id ∧
    (cancelOrder queue_book q_mid.id).book.symbol = queue_book.symbol) :=
  ⟨by decide,
   cancelOrder_resting queue_book Side.BUY [] [] 14900 queue_level [q_head] [q_tail] q_mid
     (by decide) (by decide) (by decide) (by decide)⟩

/-! ## The head of a side -/

/-- On a side kept in the comparator's order, no key comes before the first. -/
theorem head_key_best (side : Side) (k : Int) (l : PriceLevel) (rest : Ladder)
    (h : (((k, l) :: rest).map Prod.fst).Pairwise (fun a b => keyBefore side a b = true)) :
    ∀ e ∈ (k, l) :: rest, e.1 = k ∨ keyBefore side k e.1 = true := by
  intro e he
  simp only [List.map_cons, List.pairwise_cons] at h
  rcases List.mem_cons.mp he with he | he
  · left; rw [he]
  · right; exact h.1 e.1 (List.mem_map_of_mem _ he)

theorem depthLevels_eq (n : Nat) (m : Ladder) :
    depthLevels n m = (m.take n).map Prod.snd := by
  induction m generalizing n with
  | nil => cases n <;> simp [depthLevels]
  | cons e rest ih =>
    obtain ⟨k, l⟩ := e
    cases n with
    | zero => simp [depthLevels]
    | succ n => simp [depthLevels, ih]

/-- The first levels of a well-formed side: their prices are pairwise in the
side's order, each level beyond them is priced after all of them, and each is
stored under its own price. -/
theorem take_levels (symbol : String) (side : Side) (m : Ladder) (n : Nat)
    (h : LadderWF symbol side m) :
    (((m.take n).map Prod.snd).map (fun l => l.price)).Pairwise
      (fun a b => keyBefore side a b = true) ∧
    (∀ x ∈ (m.take n).map Prod.snd, ∀ e ∈ m.drop n, keyBefore side x.price e.1 = true) ∧
    (∀ x ∈ (m.take n).map Prod.snd, mapFind m x.price = some x) := by
  obtain ⟨hs, hl⟩ := h
  have hprice : ∀ e ∈ m, e.2.price = e.1 := fun e he => (hl e he).1
  have hkeys : ((m.take n).map Prod.snd).map (fun l => l.price) = (m.take n).map Prod.fst := by
    rw [List.map_map]
    apply List.map_congr_left
    intro e he
    exact hprice e (List.mem_of_mem_take he)
  have hsplit : m.map Prod.fst = (m.take n).map Prod.fst ++ (m.drop n).map Prod.fst := by
    rw [← List.map_append, List.take_append_drop]
  rw [hsplit, List.pairwise_append] at hs
  refine ⟨by rw [hkeys]; exact hs.1, ?_, ?_⟩
  · intro x hx e he
    obtain ⟨e0, he0, rfl⟩ := List.mem_map.mp hx
    rw [hprice e0 (List.mem_of_mem_take he0)]
    exact hs.2.2 e0.1 (List.mem_map_of_mem _ he0) e.1 (List.mem_map_of_mem _ he)
  · intro x hx
    obtain ⟨e0, he0, rfl⟩ := List.mem_map.mp hx
    have hmem : e0 ∈ m := List.mem_of_mem_take he0
    rw [hprice e0 hmem]
    obtain ⟨a, c, hac⟩ := List.append_of_mem hmem
    have hnot : e0.1 ∉ a.map Prod.fst := by
      have hs' : ((a ++ (e0.1, e0.2) :: c).map Prod.fst).Pairwise
          (fun x y => keyBefore side x y = true) := by
        have : a ++ (e0.1, e0.2) :: c = m := hac.symm
        rw [this, hsplit, List.pairwise_append]
        exact hs
      exact key_not_mem_left side a c e0.1 e0.2 hs'
    have : m = a ++ (e0.1, e0.2) :: c := hac
    rw [this]
    exact mapFind_append_cons a c e0.1 e0.2 hnot

/-! ## C14: top of book -/

/-- C14: on a well-formed book `getTopOfBook` reports, for the bids, the key of
the first bid level, which no bid key exceeds, with the total cached by the
level stored under that key, and for the asks the key of the first ask level,
below which no ask key lies, with that level's cached total; a side without
levels is reported as price 0 and size 0. -/
theorem getTopOfBook_best (b : OrderBook) (hwf : WellFormed b) :
    (b.bids = [] → (getTopOfBook b).bid_price = 0 ∧ (getTopOfBook b).bid_size = 0) ∧
    (∀ k l rest, b.bids = (k, l) :: rest →
      (getTopOfBook b).bid_price = k ∧ (getTopOfBook b).bid_size = l.total_quantity ∧
      mapFind b.bids k = some l ∧ ∀ e ∈ b.bids, e.1 ≤ k) ∧
    (b.asks = [] → (getTopOfBook b).ask_price = 0 ∧ (getTopOfBook b).ask_size = 0) ∧
    (∀ k l rest, b.asks = (k, l) :: rest →
      (getTopOfBook b).ask_price = k ∧ (getTopOfBook b).ask_size = l.total_quantity ∧
      mapFind b.asks k = some l ∧ ∀ e ∈ b.asks, k ≤ e.1) := by
  refine ⟨?_, ?_, ?_, ?_⟩
  · intro h
    simp [getTopOfBook, h]
  · intro k l rest h
    have hw := hwf.1
    rw [h] at hw
    have hp : l.price = k := (hw.2 (k, l) (List.mem_cons_self _ _)).1
    refine ⟨by simp [getTopOfBook, h, hp], by simp [getTopOfBook, h], by rw [h]; simp [mapFind], ?_⟩
    intro e he
    rw [h] at he
    rcases head_key_best Side.BUY k l rest hw.1 e he with h1 | h1
    · exact le_of_eq h1
    · simp [keyBefore] at h1
      exact le_of_lt h1
  · intro h
    simp [getTopOfBook, h]
  · intro k l rest h
    have hw := hwf.2.1
    rw [h] at hw
    have hp : l.price = k := (hw.2 (k, l) (List.mem_cons_self _ _)).1
    refine ⟨by simp [getTopOfBook, h, hp], by simp [getTopOfBook, h], by rw [h]; simp [mapFind], ?_⟩
    intro e he
    rw [h] at he
    rcases head_key_best Side.SELL k l rest hw.1 e he with h1 | h1
    · exact le_of_eq h1.symm
    · simp [keyBefore] at h1
      exact le_of_lt h1

theorem getTopOfBook_best_witness :
    WellFormed depth_book ∧
    getTopOfBook depth_book =
      { bid_price := 15000, bid_size := 100, ask_price := 15050, ask_size := 150 } ∧
    ((depth_book.bids = [] →
      (getTopOfBook depth_book).bid_price = 0 ∧ (getTopOfBook depth_book).bid_size = 0) ∧
    (∀ k l rest, depth_book.bids = (k, l) :: rest →
      (getTopOfBook depth_book).bid_price = k ∧
      (getTopOfBook depth_book).bid_size = l.total_quantity ∧
      mapFind depth_book.bids k = some l ∧ ∀ e ∈ depth_book.bids, e.1 ≤ k) ∧
    (depth_book.asks = [] →
      (getTopOfBook depth_book).ask_price = 0 ∧ (getTopOfBook depth_book).ask_size = 0) ∧
    (∀ k l rest, depth_book.asks = (k, l) :: rest →
      (getTopOfBook depth_book).ask_price = k ∧
      (getTopOfBook depth_book).ask_size = l.total_quantity ∧
      mapFind depth_book.asks k = some l ∧ ∀ e ∈ depth_book.asks, k ≤ e.1)) :=
  ⟨by decide, by decide, getTopOfBook_best depth_book (by decide)⟩

/-! ## C15: depth -/

/-- C15: on a well-formed book, for every `n`, `getDepth(n)` returns as bids
the levels of the first `n` bid entries (all of them when there are fewer), so
`min n (number of bid levels)` levels, with strictly decreasing prices, each
priced above every bid level left out and each the level stored under its
price (so price and cached total are the level's); and as asks the levels of
the first `n` ask entries, with strictly increasing prices, each priced below
every ask level left out and each the level stored under its price. -/
theorem getDepth_levels (b : OrderBook) (n : Nat) (hwf : WellFormed b) :
    ((getDepth b n).1 = (b.bids.take n).map Prod.snd ∧
     (getDepth b n).1.length = min n b.bids.length ∧
     ((getDepth b n).1.map (fun l => l.price)).Pairwise (fun x y => x > y) ∧
     (∀ x ∈ (getDepth b n).1, ∀ e ∈ b.bids.drop n, e.1 < x.price) ∧
     (∀ x ∈ (getDepth b n).1, mapFind b.bids x.price = some x)) ∧
    ((getDepth b n).2 = (b.asks.take n).map Prod.snd ∧
     (getDepth b n).2.length = min n b.asks.length ∧
     ((getDepth b n).2.map (fun l => l.price)).Pairwise (fun x y => x < y) ∧
     (∀ x ∈ (getDepth b n).2, ∀ e ∈ b.asks.drop n, x.price < e.1) ∧
     (∀ x ∈ (getDepth b n).2, mapFind b.asks x.price = some x)) := by
  have hb := take_levels b.symbol Side.BUY b.bids n hwf.1
  have ha := take_levels b.symbol Side.SELL b.asks n hwf.2.1
  have e1 : (getDepth b n).1 = (b.bids.take n).map Prod.snd := depthLevels_eq n b.bids
  have e2 : (getDepth b n).2 = (b.asks.take n).map Prod.snd := depthLevels_eq n b.asks
  refine ⟨⟨e1, by rw [e1]; simp, ?_, ?_, ?_⟩, ⟨e2, by rw [e2]; simp, ?_, ?_, ?_⟩⟩
  · rw [e1]
    exact hb.1.imp (fun h => by simpa [keyBefore] using h)
  · intro x hx e he
    rw [e1] at hx
    simpa [keyBefore] using hb.2.1 x hx e he
  · intro x hx
    rw [e1] at hx
    exact hb.2.2 x hx
  · rw [e2]
    exact ha.1.imp (fun h => by simpa [keyBefore] using h)
  · intro x hx e he
    rw [e2] at hx
    simpa [keyBefore] using ha.2.1 x hx e he
  · intro x hx
    rw [e2] at hx
    exact ha.2.2 x hx

theorem getDepth_levels_witness :
    WellFormed depth_book ∧
    ((getDepth depth_book 2).1.map (fun l => (l.price, l.total_quantity))
        = [(15000, 100), (14950, 200)] ∧
     (getDepth depth_book 2).2.map (fun l => (l.price, l.total_quantity))
        = [(15050, 150), (15100, 250)]) ∧
    (((getDepth depth_book 2).1 = (depth_book.bids.take 2).map Prod.snd ∧
     (getDepth depth_book 2).1.length = min 2 depth_book.bids.length ∧
     ((getDepth depth_book 2).1.map (fun l => l.price)).Pairwise (fun x y => x > y) ∧
     (∀ x ∈ (getDepth depth_book 2).1, ∀ e ∈ depth_book.bids.drop 2, e.1 < x.price) ∧
     (∀ x ∈ (getDepth depth_book 2).1, mapFind depth_book.bids x.price = some x)) ∧
    ((getDepth depth_book 2).2 = (depth_book.asks.take 2).map Prod.snd ∧
     (getDepth depth_book 2).2.length = min 2 depth_book.asks.length ∧
     ((getDepth depth_book 2).2.map (fun l => l.price)).Pairwise (fun x y => x < y) ∧
     (∀ x ∈ (getDepth depth_book 2).2, ∀ e ∈ depth_book.asks.drop 2, x.price < e.1) ∧
     (∀ x ∈ (getDepth depth_book 2).2, mapFind depth_book.asks x.price = some x))) :=
  ⟨by decide, by decide, getDepth_levels depth_book 2 (by decide)⟩

/-! ## C18: clear -/

/-- C18: for every book, `clear` leaves both ladders and the index empty, so
the top of book is 0 x 0 on both sides, `getDepth` returns two empty lists for
every `n` and `cancelOrder` returns false for every id; the call fires one
top-of-book callback (with that empty top of book) and no other callback. -/
theorem clear_empties_book (b : OrderBook) :
    (clear b).book.bids = [] ∧ (clear b).book.asks = [] ∧ (clear b).book.order_lookup = [] ∧
    getTopOfBook (clear b).book =
      { bid_price := 0, bid_size := 0, ask_price := 0, ask_size := 0 } ∧
    (∀ n, getDepth (clear b).book n = ([], [])) ∧
    (∀ order_id, (cancelOrder (clear b).book order_id).result = Except.ok false) ∧
    (clear b).events =
      [Event.book_update { bid_price := 0, bid_size := 0, ask_price := 0, ask_size := 0 }] ∧
    (bookUpdates (clear b).events).length = 1 := by
  refine ⟨rfl, rfl, rfl, rfl, ?_, ?_, rfl, rfl⟩
  · intro n
    cases n <;> rfl
  · intro order_id
    rfl

/-! ## Reachable books -/

theorem reachable_run (b : OrderBook) (ops : List Op) (h : Reachable b) :
    Reachable (run b ops).1 := by
  induction ops generalizing b with
  | nil => exact h
  | cons op ops ih => exact ih _ (Reachable.step b op h)

/-! ## C16, C17: the volumes of `calculateOrderFlowImbalance` are added in `uint64_t` -/

/-- C16, at a failing input: with one buy of 2^64 - 1 and one sell of 2 resting
(a book two `addOrder` calls build, well formed and not crossed), the volumes
at depth 1 are B = 2^64 - 1 and A = 2, their `uint64_t` sum is 1, and the
function returns (B - A) / 1 = 2^64 - 3, not (B - A) / (B + A). On the book of
scenario S5 the sums do not wrap and the values are the claimed 1/3 and, after
cancelling the 100, 50/350. -/
theorem ofi_divides_by_wrapped_sum :
    WellFormed ofi_wrap_book ∧ NotCrossed ofi_wrap_book ∧
    volumeSum 1 ofi_wrap_book.bids 0 = 2 ^ 64 - 1 ∧ volumeSum 1 ofi_wrap_book.asks 0 = 2 ∧
    calculateOrderFlowImbalance ofi_wrap_book 1 = 2 ^ 64 - 3 ∧
    calculateOrderFlowImbalance ofi_wrap_book 1 ≠
      (((2 : ℚ) ^ 64 - 1) - 2) / (((2 : ℚ) ^ 64 - 1) + 2) ∧
    calculateOrderFlowImbalance s5_book 2 = 1 / 3 ∧
    calculateOrderFlowImbalance (cancelOrder s5_book 1).book 2 = 50 / 350 := by
  have hb : volumeSum 1 ofi_wrap_book.bids 0 = 18446744073709551615 := by decide
  have ha : volumeSum 1 ofi_wrap_book.asks 0 = 2 := by decide
  have hv : calculateOrderFlowImbalance ofi_wrap_book 1 = 2 ^ 64 - 3 := by
    unfold calculateOrderFlowImbalance
    simp only [hb, ha]
    have ht : u64_add 18446744073709551615 2 = 1 := by decide
    rw [ht]
    norm_num
  have hb5 : volumeSum 2 s5_book.bids 0 = 300 := by decide
  have ha5 : volumeSum 2 s5_book.asks 0 = 150 := by decide
  have hb5' : volumeSum 2 (cancelOrder s5_book 1).book.bids 0 = 200 := by decide
  have ha5' : volumeSum 2 (cancelOrder s5_book 1).book.asks 0 = 150 := by decide
  refine ⟨by decide, by decide, by rw [hb]; norm_num, ha, hv, ?_, ?_, ?_⟩
  · rw [hv]; norm_num
  · unfold calculateOrderFlowImbalance
    simp only [hb5, ha5]
    have ht : u64_add 300 150 = 450 := by decide
    rw [ht]
    norm_num
  · unfold calculateOrderFlowImbalance
    simp only [hb5', ha5']
    have ht : u64_add 200 150 = 350 := by decide
    rw [ht]
    norm_num

/-- C17, at a failing input: the same book is reachable (two `addOrder` calls
on a new book), and `calculateOrderFlowImbalance(1)` is 2^64 - 3 on it, which
is above 1. -/
theorem ofi_leaves_unit_interval :
    Reachable ofi_wrap_book ∧ calculateOrderFlowImbalance ofi_wrap_book 1 = 2 ^ 64 - 3 ∧
    ¬ (calculateOrderFlowImbalance ofi_wrap_book 1 ≤ 1) := by
  have hb : volumeSum 1 ofi_wrap_book.bids 0 = 18446744073709551615 := by decide
  have ha : volumeSum 1 ofi_wrap_book.asks 0 = 2 := by decide
  have hv : calculateOrderFlowImbalance ofi_wrap_book 1 = 2 ^ 64 - 3 := by
    unfold calculateOrderFlowImbalance
    simp only [hb, ha]
    have ht : u64_add 18446744073709551615 2 = 1 := by decide
    rw [ht]
    norm_num
  refine ⟨?_, hv, ?_⟩
  · exact reachable_run _ ofi_wrap_ops (Reachable.new "AAPL")
  · rw [hv]; norm_num

/-! ## The callbacks of `addOrder` -/

theorem addOrder_events_of_symbol_ne (b : OrderBook) (order : Order)
    (h : order.symbol ≠ b.symbol) : (addOrder b order).events = [] := by
  unfold addOrder
  rw [if_pos h]

/-- The callbacks `addOrder` fires for an order of the book's symbol: those of
`matchOrder` when it is called, then one update when the order is queued. -/
theorem addOrder_events (b : OrderBook) (order : Order) (hsym : order.symbol = b.symbol) :
    (addOrder b order).events =
      (if order.type = OrderType.LIMIT ∨ order.type = OrderType.MARKET
       then matchEvents (afterMatch b order) (walkOf b order).trades else []) ++
      (if order.type = OrderType.LIMIT ∧ 0 < order.remaining_quantity
       then [Event.book_update (getTopOfBook (addOrder b order).book)] else []) := by
  by_cases hq : order.type = OrderType.LIMIT ∧ 0 < order.remaining_quantity
  · have hq' : order.remaining_quantity > 0 ∧ order.type = OrderType.LIMIT := ⟨hq.2, hq.1⟩
    rw [if_pos hq, if_pos (Or.inl hq.1)]
    unfold addOrder
    rw [if_neg (by simpa using hsym)]
    simp only [if_pos (Or.inl hq.1), (matchOrder_eq b order).2.2, (matchOrder_eq b order).2.1,
      (matchOrder_eq b order).1, if_pos hq']
  · have hq' : ¬ (order.remaining_quantity > 0 ∧ order.type = OrderType.LIMIT) :=
      fun h => hq ⟨h.2, h.1⟩
    rw [if_neg hq, List.append_nil]
    unfold addOrder
    rw [if_neg (by simpa using hsym)]
    by_cases hty : order.type = OrderType.LIMIT ∨ order.type = OrderType.MARKET
    · simp only [if_pos hty, (matchOrder_eq b order).2.2, (matchOrder_eq b order).2.1,
        if_neg hq']
    · simp only [if_neg hty, if_neg hq']

/-! ## C19: the callbacks of one `addOrder` call -/

/-- C19 (as amended): an `addOrder` that throws for a foreign symbol fires no
callback. An `addOrder` that returns fires the trade callback once per returned
trade, in the order of the returned list; then the top-of-book callback once
(with the top of book after matching) if at least one trade was returned; then
the top-of-book callback once more (with the final top of book) if the order
passed the residue test and was queued. So the top-of-book callback fires
twice when the call both trades and queues, once when it does one of the two
and not at all when it does neither. -/
theorem addOrder_callbacks (b : OrderBook) (order : Order) :
    (order.symbol ≠ b.symbol → (addOrder b order).events = []) ∧
    ∀ trades, (addOrder b order).result = Except.ok trades →
      (addOrder b order).events =
        trades.map Event.trade ++
        (if trades = [] then []
         else [Event.book_update (getTopOfBook (afterMatch b order))]) ++
        (if order.type = OrderType.LIMIT ∧ 0 < order.remaining_quantity
         then [Event.book_update (getTopOfBook (addOrder b order).book)] else []) ∧
      producedTrades (addOrder b order).events = trades ∧
      (bookUpdates (addOrder b order).events).length =
        (if trades = [] then 0 else 1) +
        (if order.type = OrderType.LIMIT ∧ 0 < order.remaining_quantity then 1 else 0) := by
  refine ⟨addOrder_events_of_symbol_ne b order, ?_⟩
  intro trades hres
  have hsym := symbol_of_addOrder_ok b order trades hres
  have hev := addOrder_events b order hsym
  rw [addOrder_result b order hsym] at hres
  injection hres with hres
  have hshape : (addOrder b order).events =
      trades.map Event.trade ++
      (if trades = [] then []
       else [Event.book_update (getTopOfBook (afterMatch b order))]) ++
      (if order.type = OrderType.LIMIT ∧ 0 < order.remaining_quantity
       then [Event.book_update (getTopOfBook (addOrder b order).book)] else []) := by
    rw [hev]
    congr 1
    by_cases hty : order.type = OrderType.LIMIT ∨ order.type = OrderType.MARKET
    · rw [if_pos hty] at hres ⊢
      subst hres
      unfold matchEvents
      cases (walkOf b order).trades <;> simp
    · rw [if_neg hty] at hres ⊢
      subst hres
      simp
  have hpt : ∀ (ts : List Trade) (es : List Event),
      producedTrades (ts.map Event.trade ++ es) = ts ++ producedTrades es := by
    intro ts es
    induction ts with
    | nil => rfl
    | cons t ts ih => simp [producedTrades, ih]
  have hbu : ∀ (ts : List Trade) (es : List Event),
      bookUpdates (ts.map Event.trade ++ es) = bookUpdates es := by
    intro ts es
    induction ts with
    | nil => rfl
    | cons t ts ih => simp [bookUpdates, ih]
  refine ⟨hshape, ?_, ?_⟩
  · rw [hshape, List.append_assoc, hpt]
    by_cases h1 : trades = [] <;>
      by_cases h2 : order.type = OrderType.LIMIT ∧ 0 < order.remaining_quantity <;>
      simp [h1, h2, producedTrades]
  · rw [hshape, List.append_assoc, hbu]
    by_cases h1 : trades = [] <;>
      by_cases h2 : order.type = OrderType.LIMIT ∧ 0 < order.remaining_quantity <;>
      simp [h1, h2, bookUpdates]

theorem addOrder_callbacks_witness :
    (addOrder s4_book s4_market_buy).events =
      ([{ id := 1, symbol := "AAPL", price := 15000, quantity := 20,
          maker_order_id := 1, taker_order_id := 9, timestamp := 4 },
        { id := 2, symbol := "AAPL", price := 15005, quantity := 20,
          maker_order_id := 2, taker_order_id := 9, timestamp := 4 },
        { id := 3, symbol := "AAPL", price := 15010, quantity := 20,
          maker_order_id := 3, taker_order_id := 9, timestamp := 4 }] : List Trade).map
        Event.trade ++
      [Event.book_update { bid_price := 0, bid_size := 0, ask_price := 0, ask_size := 0 }] ∧
    ((s4_market_buy.symbol ≠ s4_book.symbol → (addOrder s4_book s4_market_buy).events = []) ∧
    ∀ trades, (addOrder s4_book s4_market_buy).result = Except.ok trades →
      (addOrder s4_book s4_market_buy).events =
        trades.map Event.trade ++
        (if trades = [] then []
         else [Event.book_update (getTopOfBook (afterMatch s4_book s4_market_buy))]) ++
        (if s4_market_buy.type = OrderType.LIMIT ∧ 0 < s4_market_buy.remaining_quantity
         then [Event.book_update (getTopOfBook (addOrder s4_book s4_market_buy).book)]
         else []) ∧
      producedTrades (addOrder s4_book s4_market_buy).events = trades ∧
      (bookUpdates (addOrder s4_book s4_market_buy).events).length =
        (if trades = [] then 0 else 1) +
        (if s4_market_buy.type = OrderType.LIMIT ∧ 0 < s4_market_buy.remaining_quantity
         then 1 else 0)) :=
  ⟨by decide, addOrder_callbacks s4_book s4_market_buy⟩

/-- C19 (counterexample): with a sell of 20 at 15000 resting, `addOrder` of a
buy of 50 at 15000 returns one trade and queues the buy, so the call mutated
the book; it fires the trade callback once and the top-of-book callback twice,
after the match and after the insertion. -/
theorem addOrder_fires_two_updates :
    (addOrder partial_book partial_buy).result =
      Except.ok [{ id := 1, symbol := "AAPL", price := 15000, quantity := 20,
                   maker_order_id := 1, taker_order_id := 2, timestamp := 2 }] ∧
    (addOrder partial_book partial_buy).events =
      [Event.trade { id := 1, symbol := "AAPL", price := 15000, quantity := 20,
                     maker_order_id := 1, taker_order_id := 2, timestamp := 2 },
       Event.book_update { bid_price := 0, bid_size := 0, ask_price := 0, ask_size := 0 },
       Event.book_update { bid_price := 15000, bid_size := 50, ask_price := 0, ask_size := 0 }] ∧
    (bookUpdates (addOrder partial_book partial_buy).events).length = 2 ∧
    (bookUpdates (addOrder partial_book partial_buy).events).length ≠ 1 := by
  refine ⟨rfl, ?_, ?_, ?_⟩ <;> decide

/-! ## Removing a resting order -/

/-- What `cancelOrder` and `modifyOrder` find for a resting order on a
well-formed book with a consistent index: the index entry, the level, the
order itself; and the queue without it. -/
theorem locate_resting (b : OrderBook) (s : Side) (A B : Ladder) (k : Int)
    (l : PriceLevel) (pre post : List Order) (R : Order)
    (hwf : WellFormed b) (hidx : IndexConsistent b)
    (hside : b.side s = A ++ (k, l) :: B) (hq : l.orders = pre ++ R :: post) :
    indexFind b.order_lookup R.id = some (s, k) ∧ mapFind (b.side s) k = some l ∧
    findOrder l.orders R.id = some R ∧ eraseOrder l.orders R.id = pre ++ post ∧
    R.remaining_quantity ≤ l.total_quantity ∧ l.total_quantity < U64_MOD ∧
    k ∉ A.map Prod.fst := by
  have hlw := wellFormed_side b hwf s
  have hmem : (k, l) ∈ b.side s := by rw [hside]; simp
  have hRl : R ∈ l.orders := by rw [hq]; simp
  have hkA : k ∉ A.map Prod.fst := key_not_mem_left s A B k l (by rw [← hside]; exact hlw.1)
  obtain ⟨_, _, htot, hlt, _⟩ := hlw.2 (k, l) hmem
  have hle : R.remaining_quantity ≤ l.total_quantity := by
    rw [htot, hq]; exact sumRemaining_mid pre post R
  have hfindIdx : indexFind b.order_lookup R.id = some (s, k) := by
    cases s
    · exact hidx.2.1 (k, l) hmem R hRl
    · exact hidx.2.2 (k, l) hmem R hRl
  have hnodup : (l.orders.map (fun o => o.id)).Nodup := by
    have h1 := uniqueIds_side b hidx.1 s
    rw [hside, restingOrders_append] at h1
    simp only [restingOrders, List.map_append] at h1
    exact (List.nodup_append.mp (List.nodup_append.mp h1).2.1).1
  have hpre : ∀ o ∈ pre, o.id ≠ R.id := by
    rw [hq, List.map_append, List.map_cons] at hnodup
    have h2 := (List.nodup_append.mp hnodup).2.2
    intro o ho heq
    exact h2 (List.mem_map_of_mem _ ho) (by simp [heq])
  refine ⟨hfindIdx, ?_, ?_, ?_, hle, hlt, hkA⟩
  · rw [hside]; exact mapFind_append_cons A B k l hkA
  · rw [hq]; exact findOrder_append_cons pre post R hpre
  · rw [hq]; exact eraseOrder_append_cons pre post R hpre

theorem removeResting_fields (b : OrderBook) (s : Side) (k : Int) (l : PriceLevel)
    (R : Order) :
    (removeResting b s k l R).side s.opposite = b.side s.opposite ∧
    (removeResting b s k l R).symbol = b.symbol ∧
    (removeResting b s k l R).next_trade_id = b.next_trade_id ∧
    (removeResting b s k l R).order_lookup = indexErase b.order_lookup R.id := by
  unfold removeResting
  cases s <;> exact ⟨rfl, rfl, rfl, rfl⟩

/-- The side of a resting order after its removal. -/
theorem removeResting_side (b : OrderBook) (s : Side) (A B : Ladder) (k : Int)
    (l : PriceLevel) (pre post : List Order) (R : Order)
    (hside : b.side s = A ++ (k, l) :: B) (herase : eraseOrder l.orders R.id = pre ++ post)
    (hle : R.remaining_quantity ≤ l.total_quantity) (hlt : l.total_quantity < U64_MOD)
    (hkA : k ∉ A.map Prod.fst) :
    (removeResting b s k l R).side s =
      (if pre ++ post = [] then A ++ B
       else A ++ (k,
              { price := l.price,
                total_quantity := l.total_quantity - R.remaining_quantity,
                orders := pre ++ post }) :: B) := by
  unfold removeResting
  simp only [herase, u64_sub_exact _ _ hle hlt]
  have hs : ∀ m, ({ b.setSide s m with
      order_lookup := indexErase b.order_lookup R.id } : OrderBook).side s = m := by
    intro m; cases s <;> rfl
  rw [hs]
  by_cases hemp : pre ++ post = []
  · rw [if_pos hemp]
    simp only [hemp, List.isEmpty_nil, if_true]
    rw [hside]; exact mapErase_append_cons A B k l hkA
  · rw [if_neg hemp]
    have hne : (pre ++ post).isEmpty = false := by
      cases hpp : pre ++ post with
      | nil => exact absurd hpp hemp
      | cons a t => rfl
    simp only [hne, Bool.false_eq_true, if_false]
    rw [hside]; exact mapSet_append_cons A B k l _ hkA

theorem cancelOrder_found (b : OrderBook) (id : Nat) (s : Side) (k : Int) (l : PriceLevel)
    (R : Order) (h1 : indexFind b.order_lookup id = some (s, k))
    (h2 : mapFind (b.side s) k = some l) (h3 : findOrder l.orders id = some R) :
    (cancelOrder b id).book = removeResting b s k l R ∧
    (cancelOrder b id).result = Except.ok true ∧
    (cancelOrder b id).events = [Event.book_update (getTopOfBook (removeResting b s k l R))] := by
  unfold cancelOrder
  rw [h1]
  simp only [h2, h3]
  exact ⟨trivial, trivial, trivial⟩

theorem modifyOrder_found (b : OrderBook) (id : Nat) (p : Int) (q : Nat) (s : Side) (k : Int)
    (l : PriceLevel) (R : Order) (trades : List Trade)
    (h1 : indexFind b.order_lookup id = some (s, k))
    (h2 : mapFind (b.side s) k = some l) (h3 : findOrder l.orders id = some R)
    (h4 : (addOrder (removeResting b s k l R) ((R.setPrice p).setQuantity q)).result
      = Except.ok trades) :
    (modifyOrder b id p q).book =
      (addOrder (removeResting b s k l R) ((R.setPrice p).setQuantity q)).book ∧
    (modifyOrder b id p q).result = Except.ok true ∧
    (modifyOrder b id p q).events =
      (addOrder (removeResting b s k l R) ((R.setPrice p).setQuantity q)).events := by
  unfold modifyOrder
  rw [h1]
  simp only [h2, h3, h4]
  exact ⟨trivial, trivial, trivial⟩

/-! ## C12: modify is cancel then add -/

/-- C12: on a well-formed book with a consistent index, let R rest on side `s`
in the level `l` under key `k`, anywhere in its queue. For every price `p` and
quantity `q`, `modifyOrder(R.id, p, q)` returns true, and the book it leaves
(ladders, index, trade counter, symbol) is the book left by `cancelOrder(R.id)`
(which returns true) followed by `addOrder` of R with price `p` and both
quantities `q` and every other field kept (which returns, whether or not it
matches). -/
theorem modifyOrder_is_cancel_then_add (b : OrderBook) (s : Side) (A B : Ladder) (k : Int)
    (l : PriceLevel) (pre post : List Order) (R : Order) (p : Int) (q : Nat)
    (hwf : WellFormed b) (hidx : IndexConsistent b)
    (hside : b.side s = A ++ (k, l) :: B) (hq : l.orders = pre ++ R :: post) :
    (modifyOrder b R.id p q).result = Except.ok true ∧
    (cancelOrder b R.id).result = Except.ok true ∧
    (∃ trades,
      (addOrder (cancelOrder b R.id).book
        { R with price := p, quantity := q, remaining_quantity := q }).result
        = Except.ok trades) ∧
    (modifyOrder b R.id p q).book =
      (addOrder (cancelOrder b R.id).book
        { R with price := p, quantity := q, remaining_quantity := q }).book := by
  obtain ⟨h1, h2, h3, _, _, _, _⟩ := locate_resting b s A B k l pre post R hwf hidx hside hq
  obtain ⟨hcb, hcr, _⟩ := cancelOrder_found b R.id s k l R h1 h2 h3
  have hmod : (R.setPrice p).setQuantity q
      = { R with price := p, quantity := q, remaining_quantity := q } := rfl
  have hRsym : R.symbol = b.symbol := by
    have hmem : (k, l) ∈ b.side s := by rw [hside]; simp
    have hRl : R ∈ l.orders := by rw [hq]; simp
    exact (((wellFormed_side b hwf s).2 (k, l) hmem).2.2.2.2 R hRl).2.2.1
  have hsym : ({ R with price := p, quantity := q, remaining_quantity := q } : Order).symbol
      = (removeResting b s k l R).symbol := by
    rw [(removeResting_fields b s k l R).2.1]
    exact hRsym
  have hadd := addOrder_result (removeResting b s k l R) _ hsym
  obtain ⟨hmb, hmr, _⟩ := modifyOrder_found b R.id p q s k l R _ h1 h2 h3 (by rw [hmod]; exact hadd)
  refine ⟨hmr, hcr, ⟨_, by rw [hcb]; exact hadd⟩, ?_⟩
  rw [hmb, hcb, hmod]

theorem modifyOrder_is_cancel_then_add_witness :
    (WellFormed queue_book ∧ IndexConsistent queue_book ∧
      queue_book.side Side.BUY = [] ++ (14900, queue_level) :: [] ∧
      queue_level.orders = [q_head] ++ q_mid :: [q_tail]) ∧
    (modifyOrder queue_book q_mid.id 15100 210).book.asks = [] ∧
    ((modifyOrder queue_book q_mid.id 15100 210).result = Except.ok true ∧
    (cancelOrder queue_book q_mid.id).result = Except.ok true ∧
    (∃ trades,
      (addOrder (cancelOrder queue_book q_mid.id).book
        { q_mid with price := 15100, quantity := 210, remaining_quantity := 210 }).result
        = Except.ok trades) ∧
    (modifyOrder queue_book q_mid.id 15100 210).book =
      (addOrder (cancelOrder queue_book q_mid.id).book
        { q_mid with price := 15100, quantity := 210, remaining_quantity := 210 }).book) :=
  ⟨by decide, by decide,
   modifyOrder_is_cancel_then_add queue_book Side.BUY [] [] 14900 queue_level [q_head] [q_tail]
     q_mid 15100 210 (by decide) (by decide) (by decide) (by decide)⟩

/-! ## Re-queueing at an existing level -/

theorem keyBefore_asymm (side : Side) (a b : Int) (h : keyBefore side a b = true) :
    ¬ keyBefore side b a = true := fun h' =>
  keyBefore_irrefl side a (keyBefore_trans side a b a h h')

/-- On a side kept in order, `map[k]` for a key that is present updates that
level in place. -/
theorem mapUpdate_append_cons (side : Side) (f : PriceLevel → PriceLevel) (a c : Ladder)
    (k : Int) (l : PriceLevel)
    (h : ((a ++ (k, l) :: c).map Prod.fst).Pairwise (fun x y => keyBefore side x y = true)) :
    mapUpdate side f (a ++ (k, l) :: c) k = a ++ (k, f l) :: c := by
  induction a with
  | nil => simp [mapUpdate]
  | cons e rest ih =>
    obtain ⟨k0, l0⟩ := e
    simp only [List.cons_append, List.map_cons, List.pairwise_cons] at h
    have hb : keyBefore side k0 k = true := h.1 k (by simp)
    have hne : ¬ k0 = k := fun heq => keyBefore_irrefl side k (by rw [heq] at hb; exact hb)
    have hnb : ¬ keyBefore side k k0 = true := keyBefore_asymm side k0 k hb
    rw [List.cons_append, mapUpdate, if_neg hne, if_neg hnb, ih h.2]
    rfl

/-- Two splits of a list at the same element agree when the element does not
occur elsewhere in the second. -/
theorem split_unique {α : Type} (a : α) :
    ∀ (x x' y y' : List α), a ∉ y → a ∉ y' → x ++ a :: x' = y ++ a :: y' → x = y := by
  intro x
  induction x with
  | nil =>
    intro x' y y' hy hy' h
    cases y with
    | nil => rfl
    | cons d y1 =>
      simp only [List.nil_append, List.cons_append, List.cons.injEq] at h
      exact absurd (by rw [h.1]; simp) hy
  | cons c x1 ih =>
    intro x' y y' hy hy' h
    cases y with
    | nil =>
      simp only [List.nil_append, List.cons_append, List.cons.injEq] at h
      exact absurd (by rw [← h.2]; simp) hy'
    | cons d y1 =>
      simp only [List.cons_append, List.cons.injEq] at h
      rw [h.1, ih x' y1 y' (fun hm => hy (List.mem_cons_of_mem _ hm)) hy' h.2]

theorem opposite_opposite (s : Side) : s.opposite.opposite = s := by
  cases s <;> rfl

/-- On a book that is not crossed, an order re-added at the price of a level of
its own side does not cross the opposite side. -/
theorem passive_at_own_level (b b1 : OrderBook) (s : Side) (X Y : Ladder) (k : Int)
    (l : PriceLevel) (o : Order) (hwf : WellFormed b) (hnc : NotCrossed b)
    (hside : b.side s = X ++ (k, l) :: Y) (hopp : b1.side s.opposite = b.side s.opposite)
    (hos : o.side = s) (hop : o.price = k) : Passive b1 o := by
  have hlw := wellFormed_side b hwf s
  rw [hside] at hlw
  have hhead : ∀ k0 l0 rest, X ++ (k, l) :: Y = (k0, l0) :: rest → l0.price = k0 ∧
      (k0 = k ∨ keyBefore s k0 k = true) := by
    intro k0 l0 rest heq
    rw [heq] at hlw
    refine ⟨(hlw.2 (k0, l0) (List.mem_cons_self _ _)).1, ?_⟩
    have hm : (k, l) ∈ (k0, l0) :: rest := by rw [← heq]; simp
    rcases head_key_best s k0 l0 rest hlw.1 (k, l) hm with h | h
    · exact Or.inl h.symm
    · exact Or.inr h
  unfold Passive
  rw [hos, hopp]
  cases hs : s with
  | BUY =>
    subst hs
    simp only [Side.opposite, OrderBook.side] at hside ⊢
    cases ha : b.asks with
    | nil => trivial
    | cons e rest =>
      obtain ⟨ka, la⟩ := e
      simp only
      unfold NotCrossed at hnc
      cases hX : X ++ (k, l) :: Y with
      | nil => simp at hX
      | cons e0 rest0 =>
        obtain ⟨k0, l0⟩ := e0
        rw [hside, hX, ha] at hnc
        simp only at hnc
        obtain ⟨h1, h2⟩ := hhead k0 l0 rest0 hX
        rw [hop]
        rcases h2 with h2 | h2
        · omega
        · simp [keyBefore] at h2; omega
  | SELL =>
    subst hs
    simp only [Side.opposite, OrderBook.side] at hside ⊢
    cases hb : b.bids with
    | nil => trivial
    | cons e rest =>
      obtain ⟨kb, lb⟩ := e
      simp only
      unfold NotCrossed at hnc
      cases hX : X ++ (k, l) :: Y with
      | nil => simp at hX
      | cons e0 rest0 =>
        obtain ⟨k0, l0⟩ := e0
        rw [hside, hX, hb] at hnc
        simp only at hnc
        obtain ⟨h1, h2⟩ := hhead k0 l0 rest0 hX
        rw [hop]
        rcases h2 with h2 | h2
        · omega
        · simp [keyBefore] at h2; omega

/-! ## C13: modify loses time priority -/

/-- C13: on a well-formed book with a consistent index that is not crossed, let
A rest before B in the queue of the level `l` under key `k` on side `s`.
`modifyOrder(A.id, A.price, q)` for a positive `q` (A's own quantity included)
returns true and leaves the opposite side as it was and side `s` as it was
except that the level queues the other orders in their previous order,
followed by A (with quantity `q`) at the tail, behind B. An order of the
opposite side added afterwards then trades with B before A: in the trades it
returns, a trade against A is preceded by a trade against B. -/
theorem modify_loses_time_priority (b : OrderBook) (s : Side) (X Y : Ladder) (k : Int)
    (l : PriceLevel) (pre mid post : List Order) (A B : Order) (q : Nat)
    (hwf : WellFormed b) (hidx : IndexConsistent b) (hnc : NotCrossed b)
    (hside : b.side s = X ++ (k, l) :: Y)
    (hq : l.orders = pre ++ A :: (mid ++ B :: post)) (hpos : 0 < q) :
    (modifyOrder b A.id A.price q).result = Except.ok true ∧
    (modifyOrder b A.id A.price q).book.side s =
      X ++ (k,
        { price := l.price,
          total_quantity := u64_add (l.total_quantity - A.remaining_quantity) q,
          orders := pre ++ (mid ++ B :: post) ++
            [{ A with quantity := q, remaining_quantity := q }] }) :: Y ∧
    (modifyOrder b A.id A.price q).book.side s.opposite = b.side s.opposite ∧
    ∀ taker trades, taker.side = s.opposite →
      (addOrder (modifyOrder b A.id A.price q).book taker).result = Except.ok trades →
      ∀ p t r, trades = p ++ t :: r → t.maker_order_id = A.id →
        ∃ t' ∈ p, t'.maker_order_id = B.id := by
  obtain ⟨h1, h2, h3, herase, hle, hlt, hkX⟩ :=
    locate_resting b s X Y k l pre (mid ++ B :: post) A hwf hidx hside hq
  have hlw := wellFormed_side b hwf s
  have hmem : (k, l) ∈ b.side s := by rw [hside]; simp
  have hAl : A ∈ l.orders := by rw [hq]; simp
  obtain ⟨hAp, hAs, hAsym, _, hAty⟩ := (hlw.2 (k, l) hmem).2.2.2.2 A hAl
  have hAp : A.price = k := hAp
  have hmod : (A.setPrice A.price).setQuantity q
      = { A with quantity := q, remaining_quantity := q } := rfl
  have f1 : ({ A with quantity := q, remaining_quantity := q } : Order).side = s := hAs
  have f2 : ({ A with quantity := q, remaining_quantity := q } : Order).price = k := hAp
  have f3 : ({ A with quantity := q, remaining_quantity := q } : Order).symbol = b.symbol :=
    hAsym
  have f4 : ({ A with quantity := q, remaining_quantity := q } : Order).type
      = OrderType.LIMIT := hAty
  have f5 : 0 < ({ A with quantity := q, remaining_quantity := q } : Order).remaining_quantity :=
    hpos
  have f6 : ({ A with quantity := q, remaining_quantity := q } : Order).remaining_quantity = q :=
    rfl
  have f7 : ({ A with quantity := q, remaining_quantity := q } : Order).id = A.id := rfl
  generalize ({ A with quantity := q, remaining_quantity := q } : Order) = A'
    at hmod f1 f2 f3 f4 f5 f6 f7 ⊢
  have hne : ¬ (pre ++ (mid ++ B :: post) = []) := by simp
  have hb1side := removeResting_side b s X Y k l pre (mid ++ B :: post) A hside herase hle hlt hkX
  rw [if_neg hne] at hb1side
  obtain ⟨hb1opp, hb1sym, _, _⟩ := removeResting_fields b s k l A
  have hpass : Passive (removeResting b s k l A) A' :=
    passive_at_own_level b _ s X Y k l A' hwf hnc hside hb1opp f1 f2
  have hsym' : A'.symbol = (removeResting b s k l A).symbol := by rw [hb1sym]; exact f3
  have hbook : (addOrder (removeResting b s k l A) A').book
      = queueOrder (removeResting b s k l A) A' := by
    rw [addOrder_book _ A' hsym', if_pos f4, if_pos f5,
      afterMatch_passive (removeResting b s k l A) A' f4 hpass]
  obtain ⟨hmb, hmr, _⟩ := modifyOrder_found b A.id A.price q s k l A _ h1 h2 h3
    (by rw [hmod]; exact addOrder_result _ A' hsym')
  rw [hmod, hbook] at hmb
  have hsorted : ((X ++ (k,
      ({ price := l.price, total_quantity := l.total_quantity - A.remaining_quantity,
         orders := pre ++ (mid ++ B :: post) } : PriceLevel)) :: Y).map Prod.fst).Pairwise
      (fun x y => keyBefore s x y = true) := by
    have := hlw.1
    rw [hside] at this
    simpa using this
  have hnewside : (modifyOrder b A.id A.price q).book.side s =
      X ++ (k,
        { price := l.price,
          total_quantity := u64_add (l.total_quantity - A.remaining_quantity) q,
          orders := pre ++ (mid ++ B :: post) ++ [A'] }) :: Y := by
    rw [hmb]
    have hown := queueOrder_side_own (removeResting b s k l A) A'
    rw [f1, f2, hb1side, mapUpdate_append_cons s _ X Y k _ hsorted] at hown
    rw [hown]
    simp [enqueue, f6]
  refine ⟨hmr, hnewside, ?_, ?_⟩
  · rw [hmb]
    have := queueOrder_side_opposite (removeResting b s k l A) A'
    rw [f1] at this
    rw [this, hb1opp]
  · intro taker trades hts hres p t r htr htA
    have hfills := addOrder_fills _ taker trades hres
    rw [hts, opposite_opposite, hnewside] at hfills
    have hpre := fills_makers_isPrefix _ _ _ _ _ _ hfills
    obtain ⟨tail, htail⟩ := hpre
    have huniq := uniqueIds_side b hidx.1 s
    rw [hside, restingOrders_append] at huniq
    simp only [restingOrders, hq, List.map_append, List.map_cons] at huniq
    rw [restingOrders_append] at htail
    simp only [restingOrders, List.map_append, List.map_cons, List.map_nil, htr, htA, f7]
      at htail
    have hmid : ((List.map (fun o => o.id) (restingOrders X) ++ List.map (fun o => o.id) pre)
        ++ A.id :: (List.map (fun o => o.id) mid ++ B.id :: List.map (fun o => o.id) post
          ++ List.map (fun o => o.id) (restingOrders Y))).Nodup := by
      simpa [List.append_assoc] using huniq
    have hnot := (List.nodup_cons.mp (List.nodup_middle.mp hmid)).1
    have hsplit := split_unique A.id (List.map (fun t => t.maker_order_id) p)
      (List.map (fun t => t.maker_order_id) r ++ tail)
      (List.map (fun o => o.id) (restingOrders X) ++ (List.map (fun o => o.id) pre ++
        (List.map (fun o => o.id) mid ++ B.id :: List.map (fun o => o.id) post)))
      (List.map (fun o => o.id) (restingOrders Y))
      (by
        intro hm
        apply hnot
        simp only [List.mem_append, List.mem_cons] at hm ⊢
        tauto)
      (by
        intro hm
        apply hnot
        simp only [List.mem_append, List.mem_cons]
        tauto)
      (by simpa [List.append_assoc] using htail)
    have hB : B.id ∈ List.map (fun t => t.maker_order_id) p := by
      rw [hsplit]; simp
    obtain ⟨t', ht', hid⟩ := List.mem_map.mp hB
    exact ⟨t', ht', hid⟩


theorem modify_loses_time_priority_witness :
    (WellFormed queue_book ∧ IndexConsistent queue_book ∧ NotCrossed queue_book ∧
      queue_book.side Side.BUY = [] ++ (14900, queue_level) :: [] ∧
      queue_level.orders = [] ++ q_head :: ([] ++ q_mid :: [q_tail])) ∧
    (addOrder (modifyOrder queue_book q_head.id q_head.price 100).book
        (Order.new 7 "AAPL" 14900 250 Side.SELL OrderType.LIMIT 9)).result =
      Except.ok [{ id := 1, symbol := "AAPL", price := 14900, quantity := 200,
                   maker_order_id := 2, taker_order_id := 7, timestamp := 9 },
                 { id := 2, symbol := "AAPL", price := 14900, quantity := 50,
                   maker_order_id := 4, taker_order_id := 7, timestamp := 9 }] ∧
    ((modifyOrder queue_book q_head.id q_head.price 100).result = Except.ok true ∧
    (modifyOrder queue_book q_head.id q_head.price 100).book.side Side.BUY =
      [] ++ (14900,
        { price := queue_level.price,
          total_quantity :=
            u64_add (queue_level.total_quantity - q_head.remaining_quantity) 100,
          orders := [] ++ ([] ++ q_mid :: [q_tail]) ++
            [{ q_head with quantity := 100, remaining_quantity := 100 }] }) :: [] ∧
    (modifyOrder queue_book q_head.id q_head.price 100).book.side Side.BUY.opposite
      = queue_book.side Side.BUY.opposite ∧
    ∀ taker trades, taker.side = Side.BUY.opposite →
      (addOrder (modifyOrder queue_book q_head.id q_head.price 100).book taker).result
        = Except.ok trades →
      ∀ p t r, trades = p ++ t :: r → t.maker_order_id = q_head.id →
        ∃ t' ∈ p, t'.maker_order_id = q_mid.id) :=
  ⟨by decide, rfl,
   modify_loses_time_priority queue_book Side.BUY [] [] 14900 queue_level [] [] [q_tail]
     q_head q_mid 100 (by decide) (by decide) (by decide) (by decide) (by decide) (by decide)⟩

/-! ## What every call keeps true -/

theorem u64_add_lt (a c : Nat) : u64_add a c < U64_MOD := by
  unfold u64_add
  exact Nat.mod_lt _ (by decide)

theorem u64_sub_lt (a c : Nat) : u64_sub a c < U64_MOD := by
  unfold u64_sub
  exact Nat.mod_lt _ (by decide)

theorem levelRun_sane {symbol : String} {orders : List Order} {total : Nat}
    {st : MatchState} {w : LevelWalk} (h : LevelRun symbol orders total st w)
    (ht : total < U64_MOD) (hn : st.next_trade_id < U64_MOD) :
    w.total_quantity < U64_MOD ∧ w.st.next_trade_id < U64_MOD := by
  induction h with
  | nil => exact ⟨ht, hn⟩
  | done => exact ⟨ht, hn⟩
  | full r rest total st w h0 h hw ih => exact ih (u64_sub_lt _ _) (u64_add_lt _ _)
  | part r rest total st h0 h => exact ⟨u64_sub_lt _ _, u64_add_lt _ _⟩

theorem ladderSane_tail (side : Side) (e : Int × PriceLevel) (rest : Ladder)
    (h : LadderSane side (e :: rest)) : LadderSane side rest := by
  obtain ⟨hs, hl⟩ := h
  simp only [List.map_cons, List.pairwise_cons] at hs
  exact ⟨hs.2, fun x hx => hl x (List.mem_cons_of_mem _ hx)⟩

theorem ladderRun_sane {symbol : String} {m : Ladder} {st : MatchState} {r : LadderWalk}
    (h : LadderRun symbol m st r) (side : Side) (hm : LadderSane side m)
    (hn : st.next_trade_id < U64_MOD) :
    LadderSane side r.ladder ∧ r.st.next_trade_id < U64_MOD := by
  induction h with
  | done => exact ⟨hm, hn⟩
  | empty => exact ⟨hm, hn⟩
  | reject => exact ⟨hm, hn⟩
  | sweep k best rest st w r h0 h hw he hr ih =>
    have hb := (hm.2 (k, best) (List.mem_cons_self _ _)).2
    exact ih (ladderSane_tail side _ _ hm) (levelRun_sane hw hb hn).2
  | stay k best rest st w h0 h hw hne =>
    have hb := (hm.2 (k, best) (List.mem_cons_self _ _)).2
    obtain ⟨h1, h2⟩ := levelRun_sane hw hb hn
    refine ⟨⟨?_, ?_⟩, h2⟩
    · simpa using hm.1
    · intro e he
      rcases List.mem_cons.mp he with he | he
      · rw [he]; exact ⟨hne, h1⟩
      · exact hm.2 e (List.mem_cons_of_mem _ he)

theorem mem_mapUpdate (side : Side) (f : PriceLevel → PriceLevel) (m : Ladder) (p : Int)
    (e : Int × PriceLevel) (h : e ∈ mapUpdate side f m p) : e ∈ m ∨ ∃ l, e = (p, f l) := by
  induction m with
  | nil =>
    simp only [mapUpdate, List.mem_singleton] at h
    exact Or.inr ⟨_, h⟩
  | cons a rest ih =>
    obtain ⟨k, l⟩ := a
    by_cases hk : k = p
    · rw [mapUpdate, if_pos hk] at h
      rcases List.mem_cons.mp h with h | h
      · exact Or.inr ⟨l, by rw [h, hk]⟩
      · exact Or.inl (List.mem_cons_of_mem _ h)
    · by_cases hb : keyBefore side p k = true
      · rw [mapUpdate, if_neg hk, if_pos hb] at h
        rcases List.mem_cons.mp h with h | h
        · exact Or.inr ⟨_, h⟩
        · exact Or.inl h
      · rw [mapUpdate, if_neg hk, if_neg hb] at h
        rcases List.mem_cons.mp h with h | h
        · exact Or.inl (by rw [h]; exact List.mem_cons_self _ _)
        · rcases ih h with h' | h'
          · exact Or.inl (List.mem_cons_of_mem _ h')
          · exact Or.inr h'

theorem ladderSane_mapUpdate (side : Side) (o : Order) (m : Ladder) (p : Int)
    (h : LadderSane side m) : LadderSane side (mapUpdate side (enqueue o) m p) := by
  refine ⟨keys_sorted_mapUpdate side _ m p h.1, ?_⟩
  intro e he
  rcases mem_mapUpdate side _ m p e he with he | ⟨l, rfl⟩
  · exact h.2 e he
  · exact ⟨by simp [enqueue], u64_add_lt _ _⟩

theorem mapErase_sublist (m : Ladder) (p : Int) : (mapErase m p).Sublist m := by
  induction m with
  | nil => exact List.Sublist.refl _
  | cons a rest ih =>
    obtain ⟨k, l⟩ := a
    by_cases hk : k = p
    · rw [mapErase, if_pos hk]; exact List.sublist_cons_self _ _
    · rw [mapErase, if_neg hk]; exact ih.cons₂ _

theorem ladderSane_mapErase (side : Side) (m : Ladder) (p : Int) (h : LadderSane side m) :
    LadderSane side (mapErase m p) :=
  ⟨h.1.sublist ((mapErase_sublist m p).map Prod.fst),
   fun e he => h.2 e ((mapErase_sublist m p).subset he)⟩

theorem keys_mapSet (m : Ladder) (p : Int) (l : PriceLevel) :
    (mapSet m p l).map Prod.fst = m.map Prod.fst := by
  induction m with
  | nil => rfl
  | cons a rest ih =>
    obtain ⟨k, l0⟩ := a
    by_cases hk : k = p
    · rw [mapSet, if_pos hk]; rfl
    · rw [mapSet, if_neg hk]; simp [ih]

theorem mem_mapSet (m : Ladder) (p : Int) (l : PriceLevel) (e : Int × PriceLevel)
    (h : e ∈ mapSet m p l) : e ∈ m ∨ e.2 = l := by
  induction m with
  | nil => simp [mapSet] at h
  | cons a rest ih =>
    obtain ⟨k, l0⟩ := a
    by_cases hk : k = p
    · rw [mapSet, if_pos hk] at h
      rcases List.mem_cons.mp h with h | h
      · exact Or.inr (by rw [h])
      · exact Or.inl (List.mem_cons_of_mem _ h)
    · rw [mapSet, if_neg hk] at h
      rcases List.mem_cons.mp h with h | h
      · exact Or.inl (by rw [h]; exact List.mem_cons_self _ _)
      · rcases ih h with h' | h'
        · exact Or.inl (List.mem_cons_of_mem _ h')
        · exact Or.inr h'

theorem ladderSane_mapSet (side : Side) (m : Ladder) (p : Int) (l : PriceLevel)
    (h : LadderSane side m) (hl : l.orders ≠ [] ∧ l.total_quantity < U64_MOD) :
    LadderSane side (mapSet m p l) := by
  refine ⟨by rw [keys_mapSet]; exact h.1, ?_⟩
  intro e he
  rcases mem_mapSet m p l e he with he | he
  · exact h.2 e he
  · rw [he]; exact hl

theorem bookSane_side (b : OrderBook) (h : BookSane b) (s : Side) :
    LadderSane s (b.side s) := by
  cases s
  · exact h.1
  · exact h.2.1

theorem bookSane_of_sides (b : OrderBook) (h : ∀ s, LadderSane s (b.side s))
    (hn : b.next_trade_id < U64_MOD) : BookSane b :=
  ⟨h Side.BUY, h Side.SELL, hn⟩

theorem side_ne_cases (s t : Side) : t = s ∨ t = s.opposite := by
  cases s <;> cases t <;> simp [Side.opposite]

theorem bookSane_afterMatch (b : OrderBook) (order : Order) (h : BookSane b) :
    BookSane (afterMatch b order) := by
  have hrun := ladderRun_sane (walkOf_run b order) order.side.opposite
    (bookSane_side b h _) h.2.2
  apply bookSane_of_sides
  · intro t
    rcases side_ne_cases order.side t with ht | ht
    · rw [ht, afterMatch_side_own]; exact bookSane_side b h _
    · rw [ht, afterMatch_side_opposite]; exact hrun.1
  · have : (afterMatch b order).next_trade_id = (walkOf b order).st.next_trade_id := by
      unfold afterMatch; cases order.side <;> rfl
    rw [this]; exact hrun.2

theorem bookSane_queueOrder (b : OrderBook) (order : Order) (h : BookSane b) :
    BookSane (queueOrder b order) := by
  apply bookSane_of_sides
  · intro t
    rcases side_ne_cases order.side t with ht | ht
    · rw [ht, queueOrder_side_own]
      exact ladderSane_mapUpdate _ _ _ _ (bookSane_side b h _)
    · rw [ht, queueOrder_side_opposite]; exact bookSane_side b h _
  · have : (queueOrder b order).next_trade_id = b.next_trade_id := by
      unfold queueOrder; cases order.side <;> rfl
    rw [this]; exact h.2.2

theorem bookSane_addOrder (b : OrderBook) (order : Order) (h : BookSane b) :
    BookSane (addOrder b order).book := by
  by_cases hsym : order.symbol = b.symbol
  · rw [addOrder_book b order hsym]
    split
    · split
      · exact bookSane_queueOrder _ _ (bookSane_afterMatch b order h)
      · exact bookSane_afterMatch b order h
    · split
      · exact bookSane_afterMatch b order h
      · exact h
  · have : (addOrder b order).book = b := by
      unfold addOrder; rw [if_pos hsym]
    rw [this]; exact h

theorem bookSane_removeResting (b : OrderBook) (s : Side) (k : Int) (l : PriceLevel)
    (R : Order) (h : BookSane b) : BookSane (removeResting b s k l R) := by
  apply bookSane_of_sides
  · intro t
    rcases side_ne_cases s t with ht | ht
    · rw [ht]
      have hs : ∀ m, ({ b.setSide s m with
          order_lookup := indexErase b.order_lookup R.id } : OrderBook).side s = m := by
        intro m; cases s <;> rfl
      unfold removeResting
      simp only [hs]
      split
      · exact ladderSane_mapErase _ _ _ (bookSane_side b h _)
      · rename_i hne
        refine ladderSane_mapSet _ _ _ _ (bookSane_side b h _) ⟨?_, u64_sub_lt _ _⟩
        intro hnil
        apply hne
        simp only at hnil
        rw [hnil]; rfl
    · rw [ht, (removeResting_fields b s k l R).1]; exact bookSane_side b h _
  · rw [(removeResting_fields b s k l R).2.2.1]; exact h.2.2

theorem bookSane_cancelOrder (b : OrderBook) (id : Nat) (h : BookSane b) :
    BookSane (cancelOrder b id).book := by
  unfold cancelOrder
  split
  · exact h
  · split
    · exact h
    · split
      · exact h
      · exact bookSane_removeResting _ _ _ _ _ h

theorem bookSane_modifyOrder (b : OrderBook) (id : Nat) (p : Int) (q : Nat) (h : BookSane b) :
    BookSane (modifyOrder b id p q).book := by
  unfold modifyOrder
  split
  · exact h
  · split
    · exact h
    · split
      · exact h
      · simp only
        split <;> exact bookSane_addOrder _ _ (bookSane_removeResting _ _ _ _ _ h)

/-- Every reachable book has its keys in order, no empty level, and totals and
trade counter within `uint64_t`. -/
theorem reachable_sane (b : OrderBook) (h : Reachable b) : BookSane b := by
  induction h with
  | new symbol =>
    exact ⟨⟨List.Pairwise.nil, fun e he => absurd he (List.not_mem_nil _)⟩,
      ⟨List.Pairwise.nil, fun e he => absurd he (List.not_mem_nil _)⟩,
      (by decide : (1 : Nat) < U64_MOD)⟩
  | step b op h ih =>
    cases op with
    | add order => exact bookSane_addOrder b order ih
    | cancel id => exact bookSane_cancelOrder b id ih
    | modify id p q => exact bookSane_modifyOrder b id p q ih
    | clear =>
      exact ⟨⟨List.Pairwise.nil, fun e he => absurd he (List.not_mem_nil _)⟩,
        ⟨List.Pairwise.nil, fun e he => absurd he (List.not_mem_nil _)⟩, ih.2.2⟩

/-! ## Adding and cancelling an order that did not trade -/

theorem levelRun_no_trades {symbol : String} {orders : List Order} {total : Nat}
    {st : MatchState} {w : LevelWalk} (h : LevelRun symbol orders total st w)
    (ht : w.trades = []) : w.orders = orders ∧ w.total_quantity = total ∧ w.st = st := by
  cases h with
  | nil => exact ⟨rfl, rfl, rfl⟩
  | done => exact ⟨rfl, rfl, rfl⟩
  | full r rest total st w h0 h hw => exact absurd ht (by simp)
  | part r rest total st h0 h => exact absurd ht (by simp)

theorem ladderRun_no_trades {symbol : String} {m : Ladder} {st : MatchState} {r : LadderWalk}
    (h : LadderRun symbol m st r) (ht : r.trades = [])
    (hne : ∀ e ∈ m, e.2.orders ≠ []) : r.ladder = m ∧ r.st = st := by
  cases h with
  | done => exact ⟨rfl, rfl⟩
  | empty => exact ⟨rfl, rfl⟩
  | reject => exact ⟨rfl, rfl⟩
  | sweep k best rest st w r h0 h hw he hr =>
    have hwt : w.trades = [] := (List.append_eq_nil.mp ht).1
    have h1 := (levelRun_no_trades hw hwt).1
    exact absurd (h1.symm.trans he) (hne (k, best) (List.mem_cons_self _ _))
  | stay k best rest st w h0 h hw hne' =>
    obtain ⟨h1, h2, h3⟩ := levelRun_no_trades hw ht
    refine ⟨?_, h3⟩
    show (k, { best with orders := w.orders, total_quantity := w.total_quantity }) :: rest = _
    rw [h1, h2]

theorem afterMatch_no_trades (b : OrderBook) (order : Order) (hs : BookSane b)
    (ht : (walkOf b order).trades = []) : afterMatch b order = b := by
  have h := ladderRun_no_trades (walkOf_run b order) ht
    (fun e he => ((bookSane_side b hs _).2 e he).1)
  unfold afterMatch
  rw [h.2]
  cases b
  cases hside : order.side <;> rw [hside] at h <;>
    simp only [OrderBook.setSide, Side.opposite, OrderBook.side] at h ⊢ <;> rw [h.1]

theorem mapErase_mapUpdate (side : Side) (f : PriceLevel → PriceLevel) (m : Ladder) (p : Int)
    (h : mapFind m p = none) : mapErase (mapUpdate side f m p) p = m := by
  induction m with
  | nil => simp [mapUpdate, mapErase]
  | cons e rest ih =>
    obtain ⟨k, l⟩ := e
    by_cases hk : k = p
    · simp [mapFind, hk] at h
    · have hr : mapFind rest p = none := by simpa [mapFind, hk] using h
      by_cases hb : keyBefore side p k = true
      · simp [mapUpdate, mapErase, hk, hb]
      · simp [mapUpdate, mapErase, hk, hb, ih hr]

theorem mapSet_mapUpdate (side : Side) (f : PriceLevel → PriceLevel) (m : Ladder) (p : Int)
    (l : PriceLevel) (hs : (m.map Prod.fst).Pairwise (fun a b => keyBefore side a b = true))
    (h : mapFind m p = some l) : mapSet (mapUpdate side f m p) p l = m := by
  induction m with
  | nil => simp [mapFind] at h
  | cons e rest ih =>
    obtain ⟨k, l0⟩ := e
    simp only [List.map_cons, List.pairwise_cons] at hs
    by_cases hk : k = p
    · have hl : l0 = l := by simpa [mapFind, hk] using h
      simp [mapUpdate, mapSet, hk, hl]
    · have hr : mapFind rest p = some l := by simpa [mapFind, hk] using h
      by_cases hb : keyBefore side p k = true
      · have hnot : p ∉ rest.map Prod.fst := by
          intro hmem
          exact keyBefore_irrefl side p (keyBefore_trans side p k p hb (hs.1 p hmem))
        rw [mapFind_none_of_not_mem rest p hnot] at hr
        exact absurd hr (by simp)
      · simp [mapUpdate, mapSet, hk, hb, ih hs.2 hr]

theorem indexErase_indexSet (idx : Index) (id : Nat) (v : Side × Int)
    (h : indexFind idx id = none) : indexErase (indexSet idx id v) id = idx := by
  induction idx with
  | nil => simp [indexSet, indexErase]
  | cons e rest ih =>
    obtain ⟨k, w⟩ := e
    by_cases hk : k = id
    · simp [indexFind, hk] at h
    · have hr : indexFind rest id = none := by simpa [indexFind, hk] using h
      simp [indexSet, indexErase, hk, ih hr]

theorem u64_sub_add_cancel (t r : Nat) (h : t < U64_MOD) : u64_sub (u64_add t r) r = t := by
  unfold u64_sub u64_add
  have hM : 0 < U64_MOD := by decide
  have hr : r % U64_MOD < U64_MOD := Nat.mod_lt _ hM
  have h1 : ((t + r) % U64_MOD + (U64_MOD - r % U64_MOD)) % U64_MOD
      = ((t + r) + (U64_MOD - r % U64_MOD)) % U64_MOD := by
    rw [Nat.add_mod, Nat.mod_mod, ← Nat.add_mod]
  rw [h1]
  have h2 : t + r + (U64_MOD - r % U64_MOD) = t + U64_MOD * (r / U64_MOD + 1) := by
    have := Nat.div_add_mod r U64_MOD
    have h3 : U64_MOD * (r / U64_MOD + 1) = U64_MOD * (r / U64_MOD) + U64_MOD := by ring
    omega
  rw [h2, Nat.add_mul_mod_self_left, Nat.mod_eq_of_lt h]

theorem fresh_not_in_level (b : OrderBook) (id : Nat) (s : Side) (p : Int) (l : PriceLevel)
    (hf : FreshId b id) (h : mapFind (b.side s) p = some l) : ∀ o ∈ l.orders, o.id ≠ id := by
  intro o ho
  apply hf.2 o
  have hmem := mapFind_some_mem _ _ _ h
  have : o ∈ restingOrders (b.side s) := (mem_restingOrders _ o).mpr ⟨(p, l), hmem, ho⟩
  cases s
  · exact List.mem_append_left _ this
  · exact List.mem_append_right _ this

theorem cancelOrder_not_found (b : OrderBook) (id : Nat)
    (h : indexFind b.order_lookup id = none) :
    (cancelOrder b id).book = b ∧ (cancelOrder b id).result = Except.ok false := by
  unfold cancelOrder
  rw [h]
  exact ⟨rfl, rfl⟩

/-- Queueing an order under a fresh id and removing it again gives the book back. -/
theorem queue_then_cancel (b : OrderBook) (O : Order) (hs : BookSane b)
    (hfresh : FreshId b O.id) :
    (cancelOrder (queueOrder b O) O.id).book = b ∧
    (cancelOrder (queueOrder b O) O.id).result = Except.ok true := by
  have hsane := bookSane_side b hs O.side
  have hidx : indexFind (queueOrder b O).order_lookup O.id = some (O.side, O.price) := by
    have : (queueOrder b O).order_lookup = indexSet b.order_lookup O.id (O.side, O.price) := rfl
    rw [this, indexFind_indexSet_self]
  have hlev := mapFind_mapUpdate_self O.side (enqueue O) (b.side O.side) O.price hsane.1
  rw [← queueOrder_side_own] at hlev
  have hbook : ∀ m, ({ (queueOrder b O).setSide O.side m with
      order_lookup := indexErase (queueOrder b O).order_lookup O.id } : OrderBook) =
      b.setSide O.side m := by
    intro m
    have hi : indexErase (queueOrder b O).order_lookup O.id = b.order_lookup :=
      indexErase_indexSet _ _ _ hfresh.1
    rw [hi]
    unfold queueOrder
    cases b
    cases O.side <;> rfl
  have hback : b.setSide O.side (b.side O.side) = b := by
    cases b
    cases O.side <;> rfl
  cases hfind : mapFind (b.side O.side) O.price with
  | none =>
    rw [hfind, Option.getD_none] at hlev
    have hfo : findOrder (enqueue O PriceLevel.empty).orders O.id = some O := by
      simp [enqueue, PriceLevel.empty, findOrder]
    obtain ⟨h1, h2, _⟩ := cancelOrder_found _ _ _ _ _ _ hidx hlev hfo
    refine ⟨?_, h2⟩
    rw [h1]
    unfold removeResting
    have he : eraseOrder (enqueue O PriceLevel.empty).orders O.id = [] := by
      simp [enqueue, PriceLevel.empty, eraseOrder]
    simp only [he, List.isEmpty_nil, if_true]
    rw [hbook, queueOrder_side_own, mapErase_mapUpdate _ _ _ _ hfind, hback]
  | some l =>
    rw [hfind, Option.getD_some] at hlev
    have hne := (hsane.2 (O.price, l) (mapFind_some_mem _ _ _ hfind))
    have hnot := fresh_not_in_level b O.id O.side O.price l hfresh hfind
    have hfo : findOrder (enqueue O l).orders O.id = some O := by
      have := findOrder_append_cons l.orders [] O hnot
      simpa [enqueue] using this
    have he : eraseOrder (enqueue O l).orders O.id = l.orders := by
      have := eraseOrder_append_cons l.orders [] O hnot
      simpa [enqueue] using this
    obtain ⟨h1, h2, _⟩ := cancelOrder_found _ _ _ _ _ _ hidx hlev hfo
    refine ⟨?_, h2⟩
    rw [h1]
    unfold removeResting
    have hemp : l.orders.isEmpty = false := by
      cases hl : l.orders with
      | nil => exact absurd hl hne.1
      | cons a t => rfl
    simp only [he, hemp]
    have hl' : ({ enqueue O l with
        total_quantity := u64_sub (enqueue O l).total_quantity O.remaining_quantity,
        orders := l.orders } : PriceLevel) = l := by
      have ht : u64_sub (enqueue O l).total_quantity O.remaining_quantity = l.total_quantity :=
        u64_sub_add_cancel _ _ hne.2
      rw [ht]
      simp only [enqueue, hemp]
      cases l
      rfl
    rw [hl', hbook, queueOrder_side_own, mapSet_mapUpdate _ _ _ _ _ hsane.1 hfind]
    simpa using hback


/-! ## C11: add then cancel -/

/-- C11 (amended): on a reachable book, when a LIMIT order with a fresh id is
added and `addOrder` returns no trade, `cancelOrder` of its id gives back the
book as it was before the add, and so the same top of book; the cancel
returns true exactly when the order was queued. -/
theorem add_then_cancel_restores (b : OrderBook) (O : Order) (hr : Reachable b)
    (hty : O.type = OrderType.LIMIT) (hfresh : FreshId b O.id)
    (hno : ∀ trades, (addOrder b O).result = Except.ok trades → trades = []) :
    (cancelOrder (addOrder b O).book O.id).book = b ∧
    getTopOfBook (cancelOrder (addOrder b O).book O.id).book = getTopOfBook b ∧
    (cancelOrder (addOrder b O).book O.id).result =
      Except.ok (decide (O.symbol = b.symbol ∧ 0 < O.remaining_quantity)) := by
  have hs := reachable_sane b hr
  have key : (cancelOrder (addOrder b O).book O.id).book = b ∧
      (cancelOrder (addOrder b O).book O.id).result =
        Except.ok (decide (O.symbol = b.symbol ∧ 0 < O.remaining_quantity)) := by
    by_cases hsym : O.symbol = b.symbol
    · have hres := addOrder_result b O hsym
      rw [if_pos (Or.inl hty)] at hres
      have ht := hno _ hres
      have hm := afterMatch_no_trades b O hs ht
      rw [addOrder_book b O hsym, if_pos hty, hm]
      by_cases hq : 0 < O.remaining_quantity
      · rw [if_pos hq]
        have := queue_then_cancel b O hs hfresh
        exact ⟨this.1, by rw [this.2]; simp [hsym, hq]⟩
      · rw [if_neg hq]
        have := cancelOrder_not_found b O.id hfresh.1
        exact ⟨this.1, by rw [this.2]; simp [hq]⟩
    · have hb : (addOrder b O).book = b := by
        unfold addOrder; rw [if_pos hsym]
      rw [hb]
      have := cancelOrder_not_found b O.id hfresh.1
      exact ⟨this.1, by rw [this.2]; simp [hsym]⟩
  exact ⟨key.1, by rw [key.1], key.2⟩

theorem add_then_cancel_restores_witness :
    Reachable partial_book ∧ passive_buy.type = OrderType.LIMIT ∧
    FreshId partial_book passive_buy.id ∧
    (addOrder partial_book passive_buy).result = Except.ok [] ∧
    getTopOfBook partial_book =
      { bid_price := 0, bid_size := 0, ask_price := 15000, ask_size := 20 } ∧
    getTopOfBook (addOrder partial_book passive_buy).book =
      { bid_price := 14900, bid_size := 10, ask_price := 15000, ask_size := 20 } ∧
    (cancelOrder (addOrder partial_book passive_buy).book passive_buy.id).book = partial_book ∧
    getTopOfBook (cancelOrder (addOrder partial_book passive_buy).book passive_buy.id).book =
      getTopOfBook partial_book ∧
    (cancelOrder (addOrder partial_book passive_buy).book passive_buy.id).result =
      Except.ok (decide (passive_buy.symbol = partial_book.symbol ∧
        0 < passive_buy.remaining_quantity)) :=
  ⟨reachable_run _ partial_ops (Reachable.new "AAPL"), rfl, by decide, rfl, by decide,
    by decide,
    add_then_cancel_restores partial_book passive_buy
      (reachable_run _ partial_ops (Reachable.new "AAPL")) rfl (by decide)
      (fun trades h => by
        have h0 : (addOrder partial_book passive_buy).result = Except.ok [] := rfl
        rw [h0] at h
        exact (Except.ok.inj h).symm)⟩

/-- C11 (counterexample): on the reachable book with one sell of 20 at 15000,
the LIMIT buy of 50 at 15000 under the fresh id 2 is matched for 20 only and
is queued; after `cancelOrder(2)` the top of book is (0, 0, 0, 0), while it
was (0, 0, 15000, 20) before the add. -/
theorem add_then_cancel_after_partial_fill :
    Reachable partial_book ∧ partial_buy.type = OrderType.LIMIT ∧
    FreshId partial_book partial_buy.id ∧
    ((addOrder partial_book partial_buy).result.toOption.map
      (fun trades => (trades.map (fun t => t.quantity)).sum)) = some 20 ∧
    partial_buy.quantity = 50 ∧
    indexFind (addOrder partial_book partial_buy).book.order_lookup 2 =
      some (Side.BUY, 15000) ∧
    getTopOfBook partial_book =
      { bid_price := 0, bid_size := 0, ask_price := 15000, ask_size := 20 } ∧
    (cancelOrder (addOrder partial_book partial_buy).book partial_buy.id).result =
      Except.ok true ∧
    getTopOfBook (cancelOrder (addOrder partial_book partial_buy).book partial_buy.id).book =
      { bid_price := 0, bid_size := 0, ask_price := 0, ask_size := 0 } ∧
    getTopOfBook (cancelOrder (addOrder partial_book partial_buy).book partial_buy.id).book ≠
      getTopOfBook partial_book := by
  refine ⟨reachable_run _ partial_ops (Reachable.new "AAPL"), rfl, by decide, rfl, rfl,
    by decide, by decide, rfl, by decide, by decide⟩

/-- An id that is only absent from the index is not fresh enough for the round
trip: on `reused_id_book` the index has no entry for id 1, the buy of 5 added
under id 1 trades with nothing, and `cancelOrder(1)` then removes the older buy
of 7 that rests under the same id, so the best bid goes from 100 x 7 to 100 x 5. -/
theorem index_fresh_is_not_enough :
    Reachable reused_id_book ∧ indexFind reused_id_book.order_lookup reused_id_buy.id = none ∧
    ¬ FreshId reused_id_book reused_id_buy.id ∧
    (addOrder reused_id_book reused_id_buy).result = Except.ok [] ∧
    getTopOfBook reused_id_book =
      { bid_price := 100, bid_size := 7, ask_price := 0, ask_size := 0 } ∧
    getTopOfBook (cancelOrder (addOrder reused_id_book reused_id_buy).book reused_id_buy.id).book =
      { bid_price := 100, bid_size := 5, ask_price := 0, ask_size := 0 } := by
  refine ⟨reachable_run _ reused_id_ops (Reachable.new "AAPL"), by decide, by decide, rfl,
    by decide, by decide⟩

/-! ## The trade counter -/

theorem consecutiveIds_append (n : Nat) (a c : List Trade) :
    ConsecutiveIds n (a ++ c) ↔ ConsecutiveIds n a ∧ ConsecutiveIds (idAfter n a) c := by
  induction a generalizing n with
  | nil => simp [ConsecutiveIds, idAfter]
  | cons t rest ih => simp [ConsecutiveIds, idAfter, ih, and_assoc]

theorem idAfter_append (n : Nat) (a c : List Trade) :
    idAfter n (a ++ c) = idAfter (idAfter n a) c := by
  induction a generalizing n with
  | nil => rfl
  | cons t rest ih => simp [idAfter, ih]

theorem levelRun_ids {symbol : String} {orders : List Order} {total : Nat}
    {st : MatchState} {w : LevelWalk} (h : LevelRun symbol orders total st w) :
    ConsecutiveIds st.next_trade_id w.trades ∧
    w.st.next_trade_id = idAfter st.next_trade_id w.trades := by
  induction h with
  | nil => exact ⟨trivial, rfl⟩
  | done => exact ⟨trivial, rfl⟩
  | full r rest total st w h0 h hw ih => exact ⟨⟨rfl, ih.1⟩, ih.2⟩
  | part r rest total st h0 h => exact ⟨⟨rfl, trivial⟩, rfl⟩

theorem ladderRun_ids {symbol : String} {m : Ladder} {st : MatchState} {r : LadderWalk}
    (h : LadderRun symbol m st r) :
    ConsecutiveIds st.next_trade_id r.trades ∧
    r.st.next_trade_id = idAfter st.next_trade_id r.trades := by
  induction h with
  | done => exact ⟨trivial, rfl⟩
  | empty => exact ⟨trivial, rfl⟩
  | reject => exact ⟨trivial, rfl⟩
  | sweep k best rest st w r h0 h hw he hr ih =>
    have hl := levelRun_ids hw
    refine ⟨(consecutiveIds_append _ _ _).mpr ⟨hl.1, ?_⟩, ?_⟩
    · rw [← hl.2]; exact ih.1
    · rw [idAfter_append, ← hl.2]; exact ih.2
  | stay k best rest st w h0 h hw hne => exact levelRun_ids hw

theorem producedTrades_append (a c : List Event) :
    producedTrades (a ++ c) = producedTrades a ++ producedTrades c := by
  induction a with
  | nil => rfl
  | cons e rest ih => cases e <;> simp [producedTrades, ih]

theorem producedTrades_trades (trades : List Trade) :
    producedTrades (trades.map Event.trade) = trades := by
  induction trades with
  | nil => rfl
  | cons t rest ih => simp [producedTrades, ih]

theorem producedTrades_matchEvents (b : OrderBook) (trades : List Trade) :
    producedTrades (matchEvents b trades) = trades := by
  unfold matchEvents
  rw [producedTrades_append, producedTrades_trades]
  split <;> simp [producedTrades]

theorem afterMatch_next_trade_id (b : OrderBook) (order : Order) :
    (afterMatch b order).next_trade_id = (walkOf b order).st.next_trade_id := by
  unfold afterMatch
  cases order.side <;> rfl

theorem queueOrder_next_trade_id (b : OrderBook) (order : Order) :
    (queueOrder b order).next_trade_id = b.next_trade_id := by
  unfold queueOrder
  cases order.side <;> rfl

/-- The trades one `addOrder` hands to the trade callback are numbered from the
book's counter, and the counter is left after the last of them. -/
theorem addOrder_ids (b : OrderBook) (order : Order) :
    ConsecutiveIds b.next_trade_id (producedTrades (addOrder b order).events) ∧
    (addOrder b order).book.next_trade_id =
      idAfter b.next_trade_id (producedTrades (addOrder b order).events) := by
  by_cases hsym : order.symbol = b.symbol
  · have hrun := ladderRun_ids (walkOf_run b order)
    simp only at hrun
    have hq : producedTrades (if order.type = OrderType.LIMIT ∧ 0 < order.remaining_quantity
        then [Event.book_update (getTopOfBook (addOrder b order).book)] else []) = [] := by
      split <;> rfl
    rw [addOrder_events b order hsym, producedTrades_append, hq, List.append_nil,
      addOrder_book b order hsym]
    by_cases hl : order.type = OrderType.LIMIT
    · rw [if_pos (Or.inl hl), if_pos hl, producedTrades_matchEvents]
      refine ⟨hrun.1, ?_⟩
      split
      · rw [queueOrder_next_trade_id, afterMatch_next_trade_id]; exact hrun.2
      · rw [afterMatch_next_trade_id]; exact hrun.2
    · by_cases hm : order.type = OrderType.MARKET
      · rw [if_pos (Or.inr hm), if_neg hl, if_pos hm, producedTrades_matchEvents,
          afterMatch_next_trade_id]
        exact hrun
      · rw [if_neg (by tauto), if_neg hl, if_neg hm]
        exact ⟨trivial, rfl⟩
  · have hb : (addOrder b order).book = b := by
      unfold addOrder; rw [if_pos hsym]
    rw [addOrder_events_of_symbol_ne b order hsym, hb]
    exact ⟨trivial, rfl⟩

theorem step_ids (b : OrderBook) (op : Op) :
    ConsecutiveIds b.next_trade_id (producedTrades (step b op).2) ∧
    (step b op).1.next_trade_id = idAfter b.next_trade_id (producedTrades (step b op).2) := by
  cases op with
  | add order => exact addOrder_ids b order
  | cancel id =>
    show ConsecutiveIds _ (producedTrades (cancelOrder b id).events) ∧
      (cancelOrder b id).book.next_trade_id = idAfter _ (producedTrades (cancelOrder b id).events)
    unfold cancelOrder
    split
    · exact ⟨trivial, rfl⟩
    · split
      · exact ⟨trivial, rfl⟩
      · split
        · exact ⟨trivial, rfl⟩
        · exact ⟨trivial, (removeResting_fields _ _ _ _ _).2.2.1⟩
  | modify id p q =>
    show ConsecutiveIds _ (producedTrades (modifyOrder b id p q).events) ∧
      (modifyOrder b id p q).book.next_trade_id =
        idAfter _ (producedTrades (modifyOrder b id p q).events)
    unfold modifyOrder
    split
    · exact ⟨trivial, rfl⟩
    · split
      · exact ⟨trivial, rfl⟩
      · split
        · exact ⟨trivial, rfl⟩
        · have key : ∀ (b1 : OrderBook) (o : Order), b1.next_trade_id = b.next_trade_id →
              ConsecutiveIds b.next_trade_id (producedTrades (addOrder b1 o).events) ∧
              (addOrder b1 o).book.next_trade_id =
                idAfter b.next_trade_id (producedTrades (addOrder b1 o).events) := by
            intro b1 o hb
            rw [← hb]
            exact addOrder_ids b1 o
          simp only
          split <;> exact key _ _ (removeResting_fields _ _ _ _ _).2.2.1
  | clear => exact ⟨trivial, rfl⟩

theorem run_ids (b : OrderBook) (ops : List Op) :
    ConsecutiveIds b.next_trade_id (producedTrades (run b ops).2) ∧
    (run b ops).1.next_trade_id = idAfter b.next_trade_id (producedTrades (run b ops).2) := by
  induction ops generalizing b with
  | nil => exact ⟨trivial, rfl⟩
  | cons op ops ih =>
    have hs := step_ids b op
    have hr := ih (step b op).1
    show ConsecutiveIds _ (producedTrades ((step b op).2 ++ (run (step b op).1 ops).2)) ∧
      (run (step b op).1 ops).1.next_trade_id =
        idAfter _ (producedTrades ((step b op).2 ++ (run (step b op).1 ops).2))
    rw [producedTrades_append, consecutiveIds_append, idAfter_append, ← hs.2]
    exact ⟨⟨hs.1, hr.1⟩, hr.2⟩

theorem consecutiveIds_closed (n : Nat) (trades : List Trade) (hn : n < U64_MOD)
    (h : ConsecutiveIds n trades) :
    trades.map (fun t => t.id) =
      (List.range trades.length).map (fun i => (n + i) % U64_MOD) := by
  induction trades generalizing n with
  | nil => rfl
  | cons t rest ih =>
    obtain ⟨h1, h2⟩ := h
    have := ih (u64_add n 1) (u64_add_lt _ _) h2
    rw [List.map_cons, this, List.length_cons, List.range_succ_eq_map, List.map_cons,
      List.map_map]
    congr 1
    · rw [h1, Nat.add_zero, Nat.mod_eq_of_lt hn]
    · apply List.map_congr_left
      intro i _
      simp only [Function.comp, u64_add]
      rw [Nat.add_mod, Nat.mod_mod, ← Nat.add_mod]
      congr 1
      omega


theorem run_append (b : OrderBook) (a c : List Op) :
    run b (a ++ c) = ((run (run b a).1 c).1, (run b a).2 ++ (run (run b a).1 c).2) := by
  induction a generalizing b with
  | nil => rfl
  | cons op ops ih =>
    show ((run (step b op).1 (ops ++ c)).1, (step b op).2 ++ (run (step b op).1 (ops ++ c)).2) = _
    rw [ih]
    simp [run, List.append_assoc]

/-- One round on the empty book: one trade, numbered by the counter, and the
book is empty again with the counter one further. -/
theorem wrap_round_run (n : Nat) :
    run { OrderBook.new "AAPL" with next_trade_id := n } wrap_round =
      ({ OrderBook.new "AAPL" with next_trade_id := u64_add n 1 },
       [Event.book_update { bid_price := 0, bid_size := 0, ask_price := 100, ask_size := 1 },
        Event.trade { id := n, symbol := "AAPL", price := 100, quantity := 1,
                      maker_order_id := 1, taker_order_id := 2, timestamp := 2 },
        Event.book_update { bid_price := 0, bid_size := 0, ask_price := 0, ask_size := 0 }]) := by
  rfl

theorem wrap_rounds_trades (k n : Nat) :
    (producedTrades
      (run { OrderBook.new "AAPL" with next_trade_id := n } (wrap_rounds k)).2).length = k := by
  induction k generalizing n with
  | zero => rfl
  | succ k ih =>
    show (producedTrades (run _ (wrap_round ++ wrap_rounds k)).2).length = k + 1
    rw [run_append, wrap_round_run]
    simp only [producedTrades_append, List.length_append, ih]
    simp [producedTrades]
    omega

/-! ## C20: trade ids -/

/-- C20 (amended): over any sequence of calls on a new book, the produced
trades, in production order, are numbered by a `uint64_t` counter that starts
at 1: the first trade has id 1, each later trade has the id of the one before
it plus 1 modulo 2^64, so the trade at position `i` has id `(1 + i) mod 2^64`. -/
theorem trade_ids_consecutive (symbol : String) (ops : List Op) :
    ConsecutiveIds 1 (producedTrades (run (OrderBook.new symbol) ops).2) ∧
    (producedTrades (run (OrderBook.new symbol) ops).2).map (fun t => t.id) =
      (List.range (producedTrades (run (OrderBook.new symbol) ops).2).length).map
        (fun i => (1 + i) % U64_MOD) :=
  ⟨(run_ids (OrderBook.new symbol) ops).1,
   consecutiveIds_closed 1 _ (by decide) (run_ids (OrderBook.new symbol) ops).1⟩

/-- C20 (counterexample): 2^64 rounds of "queue a sell of 1, take it with a
market buy of 1" on a new book produce 2^64 trades; the trade at position
2^64 - 2 has id 2^64 - 1 and the next one has id 0, not 2^64. -/
theorem trade_ids_wrap :
    (producedTrades (run (OrderBook.new "AAPL") wrap_ops).2).length = 2 ^ 64 ∧
    ((producedTrades (run (OrderBook.new "AAPL") wrap_ops).2).map (fun t => t.id))[2 ^ 64 - 2]? =
      some (2 ^ 64 - 1) ∧
    ((producedTrades (run (OrderBook.new "AAPL") wrap_ops).2).map (fun t => t.id))[2 ^ 64 - 1]? =
      some 0 := by
  have hlen : (producedTrades (run (OrderBook.new "AAPL") wrap_ops).2).length = 2 ^ 64 :=
    wrap_rounds_trades (2 ^ 64) 1
  have hids := consecutiveIds_closed 1 _ (by decide) (run_ids (OrderBook.new "AAPL") wrap_ops).1
  refine ⟨hlen, ?_, ?_⟩
  · rw [hids, hlen, List.getElem?_map, List.getElem?_range (by norm_num)]
    simp only [Option.map_some', U64_MOD]
    norm_num
  · rw [hids, hlen, List.getElem?_map, List.getElem?_range (by norm_num)]
    simp only [Option.map_some', U64_MOD]
    norm_num

/-! ## C21: `Order::fill` -/

/-- C21: for every order and every `n`, `fill(n)` returns exactly when
`n <= remaining_quantity`. When it returns, the remaining quantity is the old
one minus `n`, the status is PARTIALLY_FILLED if that is positive and FILLED
otherwise, and no other field changes. When `n > remaining_quantity` it throws
`std::invalid_argument` and the order is as it was. -/
theorem fill_contract (o : Order) (n : Nat) :
    ((∃ o', o.fill n = Except.ok o') ↔ n ≤ o.remaining_quantity) ∧
    (n ≤ o.remaining_quantity →
      o.fill n = Except.ok (o.afterFill n) ∧
      (o.afterFill n).remaining_quantity + n = o.remaining_quantity ∧
      (o.afterFill n).status =
        (if 0 < (o.afterFill n).remaining_quantity then OrderStatus.PARTIALLY_FILLED
         else OrderStatus.FILLED) ∧
      (o.afterFill n).id = o.id ∧ (o.afterFill n).symbol = o.symbol ∧
      (o.afterFill n).price = o.price ∧ (o.afterFill n).quantity = o.quantity ∧
      (o.afterFill n).side = o.side ∧ (o.afterFill n).type = o.type ∧
      (o.afterFill n).timestamp = o.timestamp) ∧
    (o.remaining_quantity < n →
      o.fill n = Except.error Exception.invalid_argument ∧ o.afterFill n = o) := by
  refine ⟨?_, ?_, ?_⟩
  · constructor
    · rintro ⟨o', h⟩
      by_contra hn
      unfold Order.fill at h
      rw [if_pos (by omega)] at h
      exact absurd h (by simp)
    · intro h
      exact ⟨_, fill_ok o n h⟩
  · intro h
    have hf := fill_ok o n h
    have ha : o.afterFill n = o.filled n := by
      unfold Order.afterFill
      rw [hf]
    rw [ha]
    refine ⟨hf, ?_, ?_, rfl, rfl, rfl, rfl, rfl, rfl, rfl⟩
    · show o.remaining_quantity - n + n = o.remaining_quantity
      omega
    · show (if o.remaining_quantity - n = 0 then OrderStatus.FILLED
          else OrderStatus.PARTIALLY_FILLED) =
        (if 0 < o.remaining_quantity - n then OrderStatus.PARTIALLY_FILLED
          else OrderStatus.FILLED)
      by_cases h0 : o.remaining_quantity - n = 0
      · rw [if_pos h0, if_neg (by omega)]
      · rw [if_neg h0, if_pos (by omega)]
  · intro h
    have hf : o.fill n = Except.error Exception.invalid_argument := by
      unfold Order.fill
      rw [if_pos h]
    refine ⟨hf, ?_⟩
    unfold Order.afterFill
    rw [hf]

theorem fill_contract_witness :
    (Order.new 1 "AAPL" 15000 100 Side.BUY OrderType.LIMIT 1000000).fill 50 =
      Except.ok { id := 1, symbol := "AAPL", price := 15000, quantity := 100,
                  remaining_quantity := 50, side := Side.BUY, type := OrderType.LIMIT,
                  status := OrderStatus.PARTIALLY_FILLED, timestamp := 1000000 } ∧
    ((Order.new 1 "AAPL" 15000 100 Side.BUY OrderType.LIMIT 1000000).afterFill 50).afterFill 50 =
      { id := 1, symbol := "AAPL", price := 15000, quantity := 100,
        remaining_quantity := 0, side := Side.BUY, type := OrderType.LIMIT,
        status := OrderStatus.FILLED, timestamp := 1000000 } ∧
    (((Order.new 1 "AAPL" 15000 100 Side.BUY OrderType.LIMIT 1000000).afterFill 50).afterFill
      50).fill 1 = Except.error Exception.invalid_argument ∧
    (50 ≤ (Order.new 1 "AAPL" 15000 100 Side.BUY OrderType.LIMIT 1000000).remaining_quantity ∧
     ((∃ o', (Order.new 1 "AAPL" 15000 100 Side.BUY OrderType.LIMIT 1000000).fill 50
        = Except.ok o') ↔
      50 ≤ (Order.new 1 "AAPL" 15000 100 Side.BUY OrderType.LIMIT 1000000).remaining_quantity)) :=
  ⟨rfl, rfl, rfl, by decide,
    (fill_contract (Order.new 1 "AAPL" 15000 100 Side.BUY OrderType.LIMIT 1000000) 50).1⟩

/-! ## C22: `Order::cancel` -/

/-- C22: `cancel()` leaves an order whose status is FILLED as it is; on every
other order it sets the status to CANCELED and the remaining quantity to 0 and
changes nothing else; a second `cancel()` changes nothing more. -/
theorem cancel_contract (o : Order) :
    (o.status = OrderStatus.FILLED → o.cancel = o) ∧
    (o.status ≠ OrderStatus.FILLED →
      o.cancel.status = OrderStatus.CANCELED ∧ o.cancel.remaining_quantity = 0 ∧
      o.cancel.id = o.id ∧ o.cancel.symbol = o.symbol ∧ o.cancel.price = o.price ∧
      o.cancel.quantity = o.quantity ∧ o.cancel.side = o.side ∧ o.cancel.type = o.type ∧
      o.cancel.timestamp = o.timestamp) ∧
    o.cancel.cancel = o.cancel := by
  refine ⟨?_, ?_, ?_⟩
  · intro h
    unfold Order.cancel
    rw [if_neg (by simpa using h)]
  · intro h
    unfold Order.cancel
    rw [if_pos h]
    exact ⟨rfl, rfl, rfl, rfl, rfl, rfl, rfl, rfl, rfl⟩
  · by_cases h : o.status = OrderStatus.FILLED
    · have : o.cancel = o := by
        unfold Order.cancel
        rw [if_neg (by simpa using h)]
      rw [this, this]
    · have hc : o.cancel = { o with status := OrderStatus.CANCELED, remaining_quantity := 0 } := by
        unfold Order.cancel
        rw [if_pos h]
      rw [hc]
      unfold Order.cancel
      rw [if_pos (by simp)]

theorem cancel_contract_witness :
    (Order.new 1 "AAPL" 15000 100 Side.BUY OrderType.LIMIT 1000000).cancel =
      { id := 1, symbol := "AAPL", price := 15000, quantity := 100,
        remaining_quantity := 0, side := Side.BUY, type := OrderType.LIMIT,
        status := OrderStatus.CANCELED, timestamp := 1000000 } ∧
    ((Order.new 2 "AAPL" 15000 100 Side.BUY OrderType.LIMIT 1000000).afterFill 100).status =
      OrderStatus.FILLED ∧
    ((Order.new 2 "AAPL" 15000 100 Side.BUY OrderType.LIMIT 1000000).afterFill 100).cancel =
      (Order.new 2 "AAPL" 15000 100 Side.BUY OrderType.LIMIT 1000000).afterFill 100 :=
  ⟨rfl, rfl,
    (cancel_contract
      ((Order.new 2 "AAPL" 15000 100 Side.BUY OrderType.LIMIT 1000000).afterFill 100)).1 rfl⟩

/-! ## C23: `Trade::getValue` -/

theorem i64_to_u64_cast (x : Int) : ((i64_to_u64 x : Nat) : Int) = x % (U64_MOD : Int) := by
  unfold i64_to_u64
  exact Int.toNat_of_nonneg (Int.emod_nonneg _ (by decide))

theorem getValue_product_cast (t : Trade) :
    (((i64_to_u64 t.price * t.quantity) % U64_MOD : Nat) : Int) =
      (t.price * (t.quantity : Int)) % 18446744073709551616 := by
  have hM : (U64_MOD : Int) = 18446744073709551616 := by
    unfold U64_MOD
    norm_num
  push_cast
  rw [i64_to_u64_cast, hM, Int.mul_emod, Int.emod_emod_of_dvd _ (dvd_refl _), ← Int.mul_emod]

/-- C23: for every trade whose exact product `price * quantity` is
representable as a signed 64-bit integer, `getValue()` returns that product,
negative prices included. -/
theorem getValue_exact (t : Trade)
    (hlo : -(2 : Int) ^ 63 ≤ t.price * (t.quantity : Int))
    (hhi : t.price * (t.quantity : Int) < (2 : Int) ^ 63) :
    t.getValue = t.price * (t.quantity : Int) := by
  have hM : (U64_MOD : Int) = 18446744073709551616 := by
    unfold U64_MOD
    norm_num
  have hcast := getValue_product_cast t
  unfold Trade.getValue u64_to_i64
  rw [hM]
  generalize (i64_to_u64 t.price * t.quantity) % U64_MOD = n at hcast ⊢
  generalize t.price * (t.quantity : Int) = v at hcast hlo hhi ⊢
  norm_num at hlo hhi
  split
  · rename_i h
    norm_num at h
    omega
  · rename_i h
    norm_num at h
    omega

theorem getValue_exact_witness :
    ({ id := 1, symbol := "AAPL", price := -15000, quantity := 50, maker_order_id := 1,
       taker_order_id := 2, timestamp := 2 } : Trade).getValue = -750000 ∧
    ({ id := 1, symbol := "AAPL", price := -15000, quantity := 50, maker_order_id := 1,
       taker_order_id := 2, timestamp := 2 } : Trade).getValue = (-15000 : Int) * ((50 : Nat) : Int) :=
  ⟨by decide,
   getValue_exact { id := 1, symbol := "AAPL", price := -15000, quantity := 50,
                    maker_order_id := 1, taker_order_id := 2, timestamp := 2 }
     (by norm_num) (by norm_num)⟩

/-! ## C26: the matcher returns -/

/-- C26: for every book and every order, `matchOrder` returns: the walk of the
opposite side comes to its end within `number of levels + 1` evaluations of
the loop condition and no `fill` throws, since every trade is for the smaller
of what the taker has left and the maker's remainder (`Fills`); the call
returns the trades of the walk, and none when the opposite side is empty. -/
theorem matchOrder_returns (b : OrderBook) (order : Order) :
    (walkOf b order).thrown = none ∧
    (matchOrder b order).result = Except.ok (walkOf b order).trades ∧
    (matchOrder b order).result ≠ Except.error Exception.invalid_argument ∧
    (matchOrder b order).result ≠ Except.error Exception.fuel_exhausted ∧
    Fills b.symbol order.id order.timestamp order.remaining_quantity
      (restingOrders (b.side order.side.opposite)) (walkOf b order).trades ∧
    (b.side order.side.opposite = [] → (matchOrder b order).result = Except.ok []) := by
  have hrun := walkOf_run b order
  have hres := (matchOrder_eq b order).2.2
  refine ⟨ladderRun_thrown_none hrun, hres, by rw [hres]; simp, by rw [hres]; simp,
    (ladderRun_fills hrun).1, ?_⟩
  intro he
  rw [hres, walkOf_empty b order he]

theorem matchOrder_returns_witness :
    (matchOrder s4_book s4_buy).result =
      Except.ok (walkOf s4_book s4_buy).trades ∧
    ((walkOf s4_book s4_buy).trades.map (fun t => (t.price, t.quantity, t.maker_order_id))) =
      [(15000, 20, 1), (15005, 20, 2), (15010, 10, 3)] ∧
    ((OrderBook.new "AAPL").side s4_buy.side.opposite = [] ∧
     (matchOrder (OrderBook.new "AAPL") s4_buy).result = Except.ok []) :=
  ⟨(matchOrder_returns s4_book s4_buy).2.1, by decide,
   rfl, (matchOrder_returns (OrderBook.new "AAPL") s4_buy).2.2.2.2.2 rfl⟩

/-! ## The cases of `cancelOrder` and `modifyOrder` -/

theorem mapFind_split (m : Ladder) (k : Int) (l : PriceLevel) (h : mapFind m k = some l) :
    ∃ A B, m = A ++ (k, l) :: B ∧ k ∉ A.map Prod.fst := by
  induction m with
  | nil => simp [mapFind] at h
  | cons e rest ih =>
    obtain ⟨k0, l0⟩ := e
    by_cases hk : k0 = k
    · have hl : l0 = l := by simpa [mapFind, hk] using h
      subst hk
      subst hl
      exact ⟨[], rest, rfl, by simp⟩
    · have hr : mapFind rest k = some l := by simpa [mapFind, hk] using h
      obtain ⟨A, B, hAB, hA⟩ := ih hr
      refine ⟨(k0, l0) :: A, B, by rw [hAB]; rfl, ?_⟩
      simp only [List.map_cons, List.mem_cons, not_or]
      exact ⟨Ne.symm hk, hA⟩

theorem findOrder_split (orders : List Order) (id : Nat) (R : Order)
    (h : findOrder orders id = some R) :
    R.id = id ∧ ∃ pre post, orders = pre ++ R :: post ∧ ∀ o ∈ pre, o.id ≠ R.id := by
  induction orders with
  | nil => simp [findOrder] at h
  | cons a rest ih =>
    by_cases ha : a.id = id
    · have hR : a = R := by simpa [findOrder, ha] using h
      subst hR
      exact ⟨ha, [], rest, rfl, by simp⟩
    · have hr : findOrder rest id = some R := by simpa [findOrder, ha] using h
      obtain ⟨hid, pre, post, hpp, hpre⟩ := ih hr
      refine ⟨hid, a :: pre, post, by rw [hpp]; rfl, ?_⟩
      intro o ho
      rcases List.mem_cons.mp ho with ho | ho
      · rw [ho, hid]; exact ha
      · exact hpre o ho

/-- The side a removal works on, before and after: the order is taken out of
its queue, the level's total is reduced by the order's remainder, and the
level goes with its last order. -/
theorem removeResting_split (b : OrderBook) (s : Side) (k : Int) (l : PriceLevel) (id : Nat)
    (R : Order) (h2 : mapFind (b.side s) k = some l) (h3 : findOrder l.orders id = some R) :
    R.id = id ∧ ∃ A B pre post, b.side s = A ++ (k, l) :: B ∧ l.orders = pre ++ R :: post ∧
      (removeResting b s k l R).side s =
        (if pre ++ post = [] then A ++ B
         else A ++ (k, { price := l.price,
                         total_quantity := u64_sub l.total_quantity R.remaining_quantity,
                         orders := pre ++ post }) :: B) := by
  obtain ⟨A, B, hAB, hA⟩ := mapFind_split _ _ _ h2
  obtain ⟨hid, pre, post, hpp, hpre⟩ := findOrder_split _ _ _ h3
  refine ⟨hid, A, B, pre, post, hAB, hpp, ?_⟩
  have herase : eraseOrder l.orders R.id = pre ++ post := by
    rw [hpp]; exact eraseOrder_append_cons pre post R hpre
  have hs : ∀ m, ({ b.setSide s m with
      order_lookup := indexErase b.order_lookup R.id } : OrderBook).side s = m := by
    intro m; cases s <;> rfl
  unfold removeResting
  simp only [hs, herase, hAB]
  by_cases he : pre ++ post = []
  · rw [if_pos he]
    simp only [he, List.isEmpty_nil, if_true]
    exact mapErase_append_cons A B k l hA
  · rw [if_neg he]
    have hne : (pre ++ post).isEmpty = false := by
      cases hpq : pre ++ post with
      | nil => exact absurd hpq he
      | cons a t => rfl
    simp only [hne]
    exact mapSet_append_cons A B k l _ hA

/-- A `cancelOrder` either finds nothing and leaves the book alone, or removes
the order the index and the level's queue lead it to. -/
theorem cancelOrder_cases (b : OrderBook) (id : Nat) :
    ((cancelOrder b id).book = b ∧ (cancelOrder b id).events = [] ∧
      (cancelOrder b id).result = Except.ok false) ∨
    ∃ s k l R, indexFind b.order_lookup id = some (s, k) ∧ mapFind (b.side s) k = some l ∧
      findOrder l.orders id = some R ∧ (cancelOrder b id).book = removeResting b s k l R ∧
      (cancelOrder b id).result = Except.ok true := by
  cases h1 : indexFind b.order_lookup id with
  | none =>
    left
    unfold cancelOrder
    rw [h1]
    exact ⟨rfl, rfl, rfl⟩
  | some v =>
    obtain ⟨s, k⟩ := v
    cases h2 : mapFind (b.side s) k with
    | none =>
      left
      unfold cancelOrder
      rw [h1]
      simp only [h2]
      exact ⟨trivial, trivial, trivial⟩
    | some l =>
      cases h3 : findOrder l.orders id with
      | none =>
        left
        unfold cancelOrder
        rw [h1]
        simp only [h2, h3]
        exact ⟨trivial, trivial, trivial⟩
      | some R =>
        right
        obtain ⟨hb, hr, _⟩ := cancelOrder_found b id s k l R h1 h2 h3
        exact ⟨s, k, l, R, rfl, h2, h3, hb, hr⟩

/-- A `modifyOrder` either finds nothing and leaves the book alone, or removes
the order it finds and hands the modified copy to `addOrder`. -/
theorem modifyOrder_cases (b : OrderBook) (id : Nat) (p : Int) (q : Nat) :
    ((modifyOrder b id p q).book = b ∧ (modifyOrder b id p q).events = [] ∧
      (modifyOrder b id p q).result = Except.ok false) ∨
    ∃ s k l R, indexFind b.order_lookup id = some (s, k) ∧ mapFind (b.side s) k = some l ∧
      findOrder l.orders id = some R ∧
      (modifyOrder b id p q).book =
        (addOrder (removeResting b s k l R) ((R.setPrice p).setQuantity q)).book ∧
      (modifyOrder b id p q).events =
        (addOrder (removeResting b s k l R) ((R.setPrice p).setQuantity q)).events := by
  cases h1 : indexFind b.order_lookup id with
  | none =>
    left
    unfold modifyOrder
    rw [h1]
    exact ⟨rfl, rfl, rfl⟩
  | some v =>
    obtain ⟨s, k⟩ := v
    cases h2 : mapFind (b.side s) k with
    | none =>
      left
      unfold modifyOrder
      rw [h1]
      simp only [h2]
      exact ⟨trivial, trivial, trivial⟩
    | some l =>
      cases h3 : findOrder l.orders id with
      | none =>
        left
        unfold modifyOrder
        rw [h1]
        simp only [h2, h3]
        exact ⟨trivial, trivial, trivial⟩
      | some R =>
        right
        refine ⟨s, k, l, R, rfl, h2, h3, ?_, ?_⟩
        · unfold modifyOrder
          rw [h1]
          simp only [h2, h3]
          split <;> rfl
        · unfold modifyOrder
          rw [h1]
          simp only [h2, h3]
          split <;> rfl

/-! ## What every call keeps true of the levels -/

theorem u64_sub_mod (S q : Nat) (h : q ≤ S) : u64_sub (S % U64_MOD) q = (S - q) % U64_MOD := by
  unfold u64_sub
  have hM : 0 < U64_MOD := by decide
  have h1 : (S % U64_MOD + (U64_MOD - q % U64_MOD)) % U64_MOD
      = (S + (U64_MOD - q % U64_MOD)) % U64_MOD := by
    rw [Nat.add_mod, Nat.mod_mod, ← Nat.add_mod]
  rw [h1]
  have hq : q % U64_MOD < U64_MOD := Nat.mod_lt _ hM
  have h2 : S + (U64_MOD - q % U64_MOD) = (S - q) + U64_MOD * (q / U64_MOD + 1) := by
    have := Nat.div_add_mod q U64_MOD
    have h3 : U64_MOD * (q / U64_MOD + 1) = U64_MOD * (q / U64_MOD) + U64_MOD := by ring
    omega
  rw [h2, Nat.add_mul_mod_self_left]

theorem u64_add_mod (S r : Nat) : u64_add (S % U64_MOD) r = (S + r) % U64_MOD := by
  unfold u64_add
  rw [Nat.add_mod, Nat.mod_mod, ← Nat.add_mod]

theorem sumRemaining_cons (o : Order) (rest : List Order) :
    sumRemaining (o :: rest) = o.remaining_quantity + sumRemaining rest := by
  simp [sumRemaining]

theorem sumRemaining_append (a c : List Order) :
    sumRemaining (a ++ c) = sumRemaining a + sumRemaining c := by
  simp [sumRemaining]

theorem levelRun_kept {symbol : String} {orders : List Order} {total : Nat}
    {st : MatchState} {w : LevelWalk} (h : LevelRun symbol orders total st w)
    (P : Order → Prop) (hP : ∀ o q, P o → q < o.remaining_quantity → P (o.filled q))
    (ht : total = sumRemaining orders % U64_MOD) (ho : ∀ o ∈ orders, P o) :
    w.total_quantity = sumRemaining w.orders % U64_MOD ∧ ∀ o ∈ w.orders, P o := by
  induction h with
  | nil => exact ⟨ht, ho⟩
  | done => exact ⟨ht, ho⟩
  | full r rest total st w h0 h hw ih =>
    apply ih
    · rw [ht, sumRemaining_cons, u64_sub_mod _ _ (by omega)]
      congr 1
      omega
    · exact fun o hmem => ho o (List.mem_cons_of_mem _ hmem)
  | part r rest total st h0 h =>
    refine ⟨?_, ?_⟩
    · show u64_sub total st.remaining_order.remaining_quantity =
        sumRemaining (r.filled st.remaining_order.remaining_quantity :: rest) % U64_MOD
      rw [ht, sumRemaining_cons, sumRemaining_cons, u64_sub_mod _ _ (by omega)]
      congr 1
      show _ = r.remaining_quantity - st.remaining_order.remaining_quantity + sumRemaining rest
      omega
    · intro o hmem
      rcases List.mem_cons.mp hmem with hmem | hmem
      · rw [hmem]; exact hP r _ (ho r (List.mem_cons_self _ _)) h
      · exact ho o (List.mem_cons_of_mem _ hmem)

theorem ladderRun_kept {symbol : String} {m : Ladder} {st : MatchState} {r : LadderWalk}
    (h : LadderRun symbol m st r) (sym : String) (side : Side) (hm : LadderKept sym side m) :
    LadderKept sym side r.ladder := by
  induction h with
  | done => exact hm
  | empty => exact hm
  | reject => exact hm
  | sweep k best rest st w r h0 h hw he hr ih =>
    exact ih (fun e hmem => hm e (List.mem_cons_of_mem _ hmem))
  | stay k best rest st w h0 h hw hne =>
    obtain ⟨h1, h2, h3, h4⟩ := hm (k, best) (List.mem_cons_self _ _)
    have hk := levelRun_kept hw
      (fun o => o.price = k ∧ o.side = side ∧ o.symbol = sym ∧
        0 < o.remaining_quantity ∧ o.type = OrderType.LIMIT)
      (fun o q hPo hq => ⟨hPo.1, hPo.2.1, hPo.2.2.1, by
        show 0 < o.remaining_quantity - q
        omega, hPo.2.2.2.2⟩)
      h3 h4
    intro e hmem
    rcases List.mem_cons.mp hmem with hmem | hmem
    · rw [hmem]
      exact ⟨h1, hne, hk.1, hk.2⟩
    · exact hm e (List.mem_cons_of_mem _ hmem)

theorem mem_mapUpdate_level (side : Side) (f : PriceLevel → PriceLevel) (m : Ladder) (p : Int)
    (e : Int × PriceLevel) (h : e ∈ mapUpdate side f m p) :
    e ∈ m ∨ e = (p, f PriceLevel.empty) ∨ ∃ l, (p, l) ∈ m ∧ e = (p, f l) := by
  induction m with
  | nil =>
    simp only [mapUpdate, List.mem_singleton] at h
    exact Or.inr (Or.inl h)
  | cons a rest ih =>
    obtain ⟨k, l⟩ := a
    by_cases hk : k = p
    · rw [mapUpdate, if_pos hk] at h
      rcases List.mem_cons.mp h with h | h
      · exact Or.inr (Or.inr ⟨l, by rw [hk]; exact List.mem_cons_self _ _, by rw [h, hk]⟩)
      · exact Or.inl (List.mem_cons_of_mem _ h)
    · by_cases hb : keyBefore side p k = true
      · rw [mapUpdate, if_neg hk, if_pos hb] at h
        rcases List.mem_cons.mp h with h | h
        · exact Or.inr (Or.inl h)
        · exact Or.inl h
      · rw [mapUpdate, if_neg hk, if_neg hb] at h
        rcases List.mem_cons.mp h with h | h
        · exact Or.inl (by rw [h]; exact List.mem_cons_self _ _)
        · rcases ih h with h' | h' | ⟨l', h1, h2⟩
          · exact Or.inl (List.mem_cons_of_mem _ h')
          · exact Or.inr (Or.inl h')
          · exact Or.inr (Or.inr ⟨l', List.mem_cons_of_mem _ h1, h2⟩)

theorem ladderKept_mapUpdate (sym : String) (o : Order) (m : Ladder)
    (h : LadderKept sym o.side m) (hsym : o.symbol = sym) (hq : 0 < o.remaining_quantity)
    (hty : o.type = OrderType.LIMIT) :
    LadderKept sym o.side (mapUpdate o.side (enqueue o) m o.price) := by
  intro e he
  rcases mem_mapUpdate_level _ _ _ _ e he with he | he | ⟨l, hl, he⟩
  · exact h e he
  · rw [he]
    refine ⟨rfl, by simp [enqueue, PriceLevel.empty], ?_, ?_⟩
    · simp [enqueue, PriceLevel.empty, sumRemaining, u64_add]
    · intro x hx
      have : x = o := by simpa [enqueue, PriceLevel.empty] using hx
      rw [this]
      exact ⟨rfl, rfl, hsym, hq, hty⟩
  · rw [he]
    obtain ⟨h1, h2, h3, h4⟩ := h (o.price, l) hl
    have hemp : l.orders.isEmpty = false := by
      cases hl' : l.orders with
      | nil => exact absurd hl' h2
      | cons a t => rfl
    refine ⟨?_, by simp [enqueue], ?_, ?_⟩
    · simp only [enqueue, hemp]
      exact h1
    · show u64_add l.total_quantity o.remaining_quantity =
        sumRemaining (l.orders ++ [o]) % U64_MOD
      rw [h3, u64_add_mod, sumRemaining_append, sumRemaining_cons]
      rfl
    · intro x hx
      have hx' : x ∈ l.orders ∨ x = o := by simpa [enqueue] using hx
      rcases hx' with hx' | hx'
      · exact h4 x hx'
      · rw [hx']
        exact ⟨rfl, rfl, hsym, hq, hty⟩

theorem bookKept_side (b : OrderBook) (h : BookKept b) (s : Side) :
    LadderKept b.symbol s (b.side s) := by
  cases s
  · exact h.1
  · exact h.2

theorem bookKept_of_sides (b b' : OrderBook) (hsym : b'.symbol = b.symbol)
    (h : ∀ s, LadderKept b.symbol s (b'.side s)) : BookKept b' := by
  unfold BookKept
  rw [hsym]
  exact ⟨h Side.BUY, h Side.SELL⟩

theorem afterMatch_symbol (b : OrderBook) (order : Order) :
    (afterMatch b order).symbol = b.symbol := by
  unfold afterMatch
  cases order.side <;> rfl

theorem queueOrder_symbol (b : OrderBook) (order : Order) :
    (queueOrder b order).symbol = b.symbol := by
  unfold queueOrder
  cases order.side <;> rfl

theorem bookKept_afterMatch (b : OrderBook) (order : Order) (h : BookKept b) :
    BookKept (afterMatch b order) := by
  apply bookKept_of_sides b _ (afterMatch_symbol b order)
  intro t
  rcases side_ne_cases order.side t with ht | ht
  · rw [ht, afterMatch_side_own]; exact bookKept_side b h _
  · rw [ht, afterMatch_side_opposite]
    exact ladderRun_kept (walkOf_run b order) _ _ (bookKept_side b h _)

theorem bookKept_queueOrder (b : OrderBook) (order : Order) (h : BookKept b)
    (hsym : order.symbol = b.symbol) (hq : 0 < order.remaining_quantity)
    (hty : order.type = OrderType.LIMIT) : BookKept (queueOrder b order) := by
  apply bookKept_of_sides b _ (queueOrder_symbol b order)
  intro t
  rcases side_ne_cases order.side t with ht | ht
  · rw [ht, queueOrder_side_own]
    exact ladderKept_mapUpdate _ _ _ (bookKept_side b h _) hsym hq hty
  · rw [ht, queueOrder_side_opposite]; exact bookKept_side b h _

theorem bookKept_addOrder (b : OrderBook) (order : Order) (h : BookKept b) :
    BookKept (addOrder b order).book := by
  by_cases hsym : order.symbol = b.symbol
  · rw [addOrder_book b order hsym]
    split
    · rename_i hty
      split
      · rename_i hq
        exact bookKept_queueOrder _ _ (bookKept_afterMatch b order h)
          (by rw [afterMatch_symbol]; exact hsym) hq hty
      · exact bookKept_afterMatch b order h
    · split
      · exact bookKept_afterMatch b order h
      · exact h
  · have : (addOrder b order).book = b := by
      unfold addOrder; rw [if_pos hsym]
    rw [this]; exact h

theorem bookKept_removeResting (b : OrderBook) (s : Side) (k : Int) (l : PriceLevel) (id : Nat)
    (R : Order) (h : BookKept b) (h2 : mapFind (b.side s) k = some l)
    (h3 : findOrder l.orders id = some R) : BookKept (removeResting b s k l R) := by
  apply bookKept_of_sides b _ (removeResting_fields b s k l R).2.1
  intro t
  rcases side_ne_cases s t with ht | ht
  · rw [ht]
    obtain ⟨_, A, B, pre, post, hAB, hpp, hside⟩ := removeResting_split b s k l id R h2 h3
    have hk := bookKept_side b h s
    rw [hAB] at hk
    rw [hside]
    obtain ⟨h1, _, h3', h4⟩ := hk (k, l) (by simp)
    split
    · intro e he
      apply hk e
      rcases List.mem_append.mp he with he | he
      · exact List.mem_append_left _ he
      · exact List.mem_append_right _ (List.mem_cons_of_mem _ he)
    · rename_i hne
      intro e he
      rcases List.mem_append.mp he with he | he
      · exact hk e (List.mem_append_left _ he)
      · rcases List.mem_cons.mp he with he | he
        · rw [he]
          refine ⟨h1, hne, ?_, ?_⟩
          · show u64_sub l.total_quantity R.remaining_quantity =
              sumRemaining (pre ++ post) % U64_MOD
            rw [h3', hpp, sumRemaining_append, sumRemaining_cons,
              u64_sub_mod _ _ (by omega), sumRemaining_append]
            congr 1
            omega
          · intro o ho
            apply h4 o
            rw [hpp]
            rcases List.mem_append.mp ho with ho | ho
            · exact List.mem_append_left _ ho
            · exact List.mem_append_right _ (List.mem_cons_of_mem _ ho)
        · exact hk e (List.mem_append_right _ (List.mem_cons_of_mem _ he))
  · rw [ht, (removeResting_fields b s k l R).1]; exact bookKept_side b h _

theorem bookKept_step (b : OrderBook) (op : Op) (h : BookKept b) : BookKept (step b op).1 := by
  cases op with
  | add order => exact bookKept_addOrder b order h
  | cancel id =>
    rcases cancelOrder_cases b id with ⟨hb, _, _⟩ | ⟨s, k, l, R, _, h2, h3, hb, _⟩
    · show BookKept (cancelOrder b id).book
      rw [hb]; exact h
    · show BookKept (cancelOrder b id).book
      rw [hb]; exact bookKept_removeResting b s k l id R h h2 h3
  | modify id p q =>
    rcases modifyOrder_cases b id p q with ⟨hb, _, _⟩ | ⟨s, k, l, R, _, h2, h3, hb, _⟩
    · show BookKept (modifyOrder b id p q).book
      rw [hb]; exact h
    · show BookKept (modifyOrder b id p q).book
      rw [hb]
      exact bookKept_addOrder _ _ (bookKept_removeResting b s k l id R h h2 h3)
  | clear =>
    exact ⟨fun _ he => absurd he (List.not_mem_nil _), fun _ he => absurd he (List.not_mem_nil _)⟩

theorem bookKept_run (b : OrderBook) (ops : List Op) (h : BookKept b) :
    BookKept (run b ops).1 := by
  induction ops generalizing b with
  | nil => exact h
  | cons op ops ih => exact ih _ (bookKept_step b op h)

theorem bookKept_new (symbol : String) : BookKept (OrderBook.new symbol) :=
  ⟨fun _ he => absurd he (List.not_mem_nil _), fun _ he => absurd he (List.not_mem_nil _)⟩


theorem addOrder_symbol (b : OrderBook) (order : Order) :
    (addOrder b order).book.symbol = b.symbol := by
  by_cases hsym : order.symbol = b.symbol
  · rw [addOrder_book b order hsym]
    split
    · split
      · rw [queueOrder_symbol, afterMatch_symbol]
      · rw [afterMatch_symbol]
    · split
      · rw [afterMatch_symbol]
      · rfl
  · have : (addOrder b order).book = b := by
      unfold addOrder; rw [if_pos hsym]
    rw [this]

theorem step_symbol (b : OrderBook) (op : Op) : (step b op).1.symbol = b.symbol := by
  cases op with
  | add order => exact addOrder_symbol b order
  | cancel id =>
    show (cancelOrder b id).book.symbol = b.symbol
    rcases cancelOrder_cases b id with ⟨hb, _, _⟩ | ⟨s, k, l, R, _, _, _, hb, _⟩
    · rw [hb]
    · rw [hb, (removeResting_fields b s k l R).2.1]
  | modify id p q =>
    show (modifyOrder b id p q).book.symbol = b.symbol
    rcases modifyOrder_cases b id p q with ⟨hb, _, _⟩ | ⟨s, k, l, R, _, _, _, hb, _⟩
    · rw [hb]
    · rw [hb, addOrder_symbol, (removeResting_fields b s k l R).2.1]
  | clear => rfl

theorem run_symbol (b : OrderBook) (ops : List Op) : (run b ops).1.symbol = b.symbol := by
  induction ops generalizing b with
  | nil => rfl
  | cons op ops ih =>
    show (run (step b op).1 ops).1.symbol = b.symbol
    rw [ih, step_symbol]

/-! ## C27: cached totals -/

/-- C27: after every sequence of `addOrder`, `cancelOrder`, `modifyOrder` and
`clear` calls on a new book, every level of either side caches as
`total_quantity` the sum of the remaining quantities of the orders it queues,
reduced modulo 2^64. -/
theorem level_totals_kept (symbol : String) (ops : List Op) :
    (∀ e ∈ (run (OrderBook.new symbol) ops).1.bids,
      e.2.total_quantity = sumRemaining e.2.orders % U64_MOD) ∧
    (∀ e ∈ (run (OrderBook.new symbol) ops).1.asks,
      e.2.total_quantity = sumRemaining e.2.orders % U64_MOD) := by
  have h := bookKept_run _ ops (bookKept_new symbol)
  exact ⟨fun e he => (h.1 e he).2.2.1, fun e he => (h.2 e he).2.2.1⟩

theorem level_totals_kept_witness :
    (run (OrderBook.new "AAPL") s4_ops).1.bids.map
      (fun e => (e.1, e.2.total_quantity, e.2.orders.map (fun o => o.remaining_quantity))) =
      [(15010, 50, [50])] ∧
    (run (OrderBook.new "AAPL") s4_ops).1.asks.map
      (fun e => (e.1, e.2.total_quantity, e.2.orders.map (fun o => o.remaining_quantity))) =
      [(15020, 30, [30])] ∧
    (100, full_level) ∈ (run (OrderBook.new "AAPL") full_level_ops).1.bids ∧
    sumRemaining full_level.orders = 2 ^ 64 ∧
    full_level.total_quantity = sumRemaining full_level.orders % U64_MOD :=
  ⟨by decide, by decide, by decide, by decide,
   (level_totals_kept "AAPL" full_level_ops).1 (100, full_level) (by decide)⟩

/-! ## C29: the shape of the levels -/

/-- C29: after every sequence of `addOrder`, `cancelOrder`, `modifyOrder` and
`clear` calls on a new book, no level of either side has an empty queue, every
level's price is its key, and every queued order is a LIMIT order with a
positive remaining quantity, the book's symbol, the level's key as price and
the side of its ladder (BUY in the bids, SELL in the asks). -/
theorem levels_well_formed (symbol : String) (ops : List Op) :
    (run (OrderBook.new symbol) ops).1.symbol = symbol ∧
    (∀ e ∈ (run (OrderBook.new symbol) ops).1.bids,
      e.2.orders ≠ [] ∧ e.2.price = e.1 ∧
      ∀ o ∈ e.2.orders, o.type = OrderType.LIMIT ∧ 0 < o.remaining_quantity ∧
        o.symbol = symbol ∧ o.price = e.1 ∧ o.side = Side.BUY) ∧
    (∀ e ∈ (run (OrderBook.new symbol) ops).1.asks,
      e.2.orders ≠ [] ∧ e.2.price = e.1 ∧
      ∀ o ∈ e.2.orders, o.type = OrderType.LIMIT ∧ 0 < o.remaining_quantity ∧
        o.symbol = symbol ∧ o.price = e.1 ∧ o.side = Side.SELL) := by
  have h := bookKept_run _ ops (bookKept_new symbol)
  have hs : (run (OrderBook.new symbol) ops).1.symbol = symbol := run_symbol _ ops
  rw [BookKept, hs] at h
  refine ⟨hs, ?_, ?_⟩
  · intro e he
    obtain ⟨h1, h2, _, h4⟩ := h.1 e he
    exact ⟨h2, h1, fun o ho => ⟨(h4 o ho).2.2.2.2, (h4 o ho).2.2.2.1, (h4 o ho).2.2.1,
      (h4 o ho).1, (h4 o ho).2.1⟩⟩
  · intro e he
    obtain ⟨h1, h2, _, h4⟩ := h.2 e he
    exact ⟨h2, h1, fun o ho => ⟨(h4 o ho).2.2.2.2, (h4 o ho).2.2.2.1, (h4 o ho).2.2.1,
      (h4 o ho).1, (h4 o ho).2.1⟩⟩

theorem levels_well_formed_witness :
    (run (OrderBook.new "AAPL") s4_ops).1.bids =
      [(15010, { price := 15010, total_quantity := 50,
                 orders := [Order.new 9 "AAPL" 15010 50 Side.BUY OrderType.LIMIT 4] })] ∧
    (run (OrderBook.new "AAPL") s4_ops).1.asks = [(15020, s4_modified_level)] ∧
    s4_modified_sell ∈ s4_modified_level.orders ∧
    (s4_modified_sell.type = OrderType.LIMIT ∧ 0 < s4_modified_sell.remaining_quantity ∧
      s4_modified_sell.symbol = "AAPL" ∧ s4_modified_sell.price = 15020 ∧
      s4_modified_sell.side = Side.SELL) :=
  ⟨by decide, by decide, by decide,
   ((levels_well_formed "AAPL" s4_ops).2.2 (15020, s4_modified_level) (by decide)).2.2
     s4_modified_sell (by decide)⟩

/-! ## How much a walk trades -/

theorem priceAcceptable_eq_acceptableTo (order : Order) (level : PriceLevel) :
    priceAcceptable order level = acceptableTo order level := by
  unfold priceAcceptable acceptableTo
  cases hs : order.side <;> simp

theorem acceptableTo_congr {a b : Order} (h : SameIdentity a b) (l : PriceLevel) :
    acceptableTo a l = acceptableTo b l := by
  rw [← priceAcceptable_eq_acceptableTo, ← priceAcceptable_eq_acceptableTo]
  exact priceAcceptable_congr h l

theorem acceptableVolume_congr {a b : Order} (h : SameIdentity a b) (m : Ladder) :
    acceptableVolume a m = acceptableVolume b m := by
  unfold acceptableVolume
  have : (fun e : Int × PriceLevel => acceptableTo a e.2) = (fun e => acceptableTo b e.2) := by
    funext e
    exact acceptableTo_congr h e.2
  rw [this]

theorem acceptableVolume_cons (order : Order) (k : Int) (l : PriceLevel) (rest : Ladder) :
    acceptableVolume order ((k, l) :: rest) =
      (if acceptableTo order l then l.total_quantity else 0) + acceptableVolume order rest := by
  unfold acceptableVolume
  by_cases h : acceptableTo order l = true
  · simp [List.filter, h]
  · simp [List.filter, h]

/-- What one level gives: the smaller of what the taker wants and what the
queue holds; the queue is emptied only if the taker wanted that much, and is
left non-empty only when the taker is exhausted. -/
theorem levelRun_sum {symbol : String} {orders : List Order} {total : Nat}
    {st : MatchState} {w : LevelWalk} (h : LevelRun symbol orders total st w)
    (hpos : ∀ o ∈ orders, 0 < o.remaining_quantity) :
    sumQuantity w.trades = min st.remaining_order.remaining_quantity (sumRemaining orders) ∧
    (w.orders = [] → sumRemaining orders ≤ st.remaining_order.remaining_quantity) ∧
    (w.orders ≠ [] → st.remaining_order.remaining_quantity ≤ sumRemaining orders ∧
      w.st.remaining_order.remaining_quantity = 0) := by
  induction h with
  | nil => exact ⟨by simp [sumQuantity, sumRemaining], fun _ => by simp [sumRemaining],
      fun hne => absurd rfl hne⟩
  | done r rest total st h =>
    refine ⟨by simp [sumQuantity, h], fun he => absurd he (by simp), fun _ => ⟨by omega, h⟩⟩
  | full r rest total st w h0 h hw ih =>
    obtain ⟨i1, i2, i3⟩ := ih (fun o ho => hpos o (List.mem_cons_of_mem _ ho))
    have hq : (tradeOf symbol st r).quantity = r.remaining_quantity := by
      show min _ _ = _
      omega
    have hrem : (stepState st r).remaining_order.remaining_quantity =
        st.remaining_order.remaining_quantity - r.remaining_quantity := by
      show st.remaining_order.remaining_quantity - min _ _ = _
      omega
    rw [hrem] at i1 i2 i3
    refine ⟨?_, ?_, ?_⟩
    · show sumQuantity (tradeOf symbol st r :: w.trades) = _
      rw [sumQuantity_cons, hq, i1, sumRemaining_cons]
      omega
    · intro he
      have := i2 he
      rw [sumRemaining_cons]
      omega
    · intro hne
      have := i3 hne
      rw [sumRemaining_cons]
      exact ⟨by omega, this.2⟩
  | part r rest total st h0 h =>
    refine ⟨?_, fun he => absurd he (by simp), fun _ => ⟨?_, ?_⟩⟩
    · show sumQuantity [tradeOf symbol st r] = _
      rw [sumQuantity_cons, sumRemaining_cons]
      show min _ _ + sumQuantity [] = _
      simp only [sumQuantity, List.map_nil, List.sum_nil]
      omega
    · rw [sumRemaining_cons]; omega
    · show st.remaining_order.remaining_quantity - min _ _ = 0
      omega

/-- On a side in key order, a level that the taker's price test rejects is
followed by levels it rejects. -/
theorem acceptableVolume_rejected (sym : String) (taker : Order) (k : Int) (best : PriceLevel)
    (rest : Ladder) (hwf : LadderWF sym taker.side.opposite ((k, best) :: rest))
    (h : acceptableTo taker best = false) :
    acceptableVolume taker ((k, best) :: rest) = 0 := by
  have hall : ∀ e ∈ (k, best) :: rest, acceptableTo taker e.2 = false := by
    intro e he
    rcases List.mem_cons.mp he with he | he
    · rw [he]; exact h
    · have hkey : keyBefore taker.side.opposite k e.1 = true := by
        have := hwf.1
        simp only [List.map_cons, List.pairwise_cons] at this
        exact this.1 e.1 (List.mem_map_of_mem _ he)
      have hp : e.2.price = e.1 := (hwf.2 e (List.mem_cons_of_mem _ he)).1
      have hb : best.price = k := (hwf.2 (k, best) (List.mem_cons_self _ _)).1
      unfold acceptableTo at h ⊢
      cases hs : taker.side <;> rw [hs] at hkey <;>
        simp [keyBefore, Side.opposite, hs] at hkey h ⊢ <;>
        refine ⟨h.1, ?_⟩ <;> omega
  unfold acceptableVolume
  rw [List.filter_eq_nil_iff.mpr (fun e he => by simp [hall e he])]
  rfl

theorem ladderRun_sum {symbol : String} {m : Ladder} {st : MatchState} {r : LadderWalk}
    (h : LadderRun symbol m st r) (sym : String)
    (hwf : LadderWF sym st.remaining_order.side.opposite m) :
    sumQuantity r.trades =
      min st.remaining_order.remaining_quantity (acceptableVolume st.remaining_order m) := by
  induction h with
  | done m st h => simp [sumQuantity, h]
  | empty st h0 => simp [sumQuantity, acceptableVolume]
  | reject k best rest st h0 h =>
    rw [priceAcceptable_eq_acceptableTo] at h
    rw [acceptableVolume_rejected sym _ k best rest hwf h]
    simp [sumQuantity]
  | sweep k best rest st w r h0 h hw he hr ih =>
    obtain ⟨_, _, htot, _, hord⟩ := hwf.2 (k, best) (List.mem_cons_self _ _)
    obtain ⟨s1, s2, _⟩ := levelRun_sum hw (fun o ho => (hord o ho).2.2.2.1)
    have hle := s2 he
    have hid := (levelRun_fills hw).2.2.1
    have hrem := (levelRun_fills hw).2.2.2.2
    have hside : w.st.remaining_order.side = st.remaining_order.side := hid.2.2.2.2.1
    have hwf' : LadderWF sym w.st.remaining_order.side.opposite rest := by
      rw [hside]
      refine ⟨?_, fun e he' => hwf.2 e (List.mem_cons_of_mem _ he')⟩
      have := hwf.1
      simp only [List.map_cons, List.pairwise_cons] at this
      exact this.2
    have ih' := ih hwf'
    rw [acceptableVolume_congr hid, hrem] at ih'
    rw [priceAcceptable_eq_acceptableTo] at h
    show sumQuantity (w.trades ++ r.trades) = _
    have htot' : best.total_quantity = sumRemaining best.orders := htot
    rw [sumQuantity_append, ih', s1, acceptableVolume_cons, if_pos h, htot']
    omega
  | stay k best rest st w h0 h hw hne =>
    obtain ⟨_, _, htot, _, hord⟩ := hwf.2 (k, best) (List.mem_cons_self _ _)
    obtain ⟨s1, _, s3⟩ := levelRun_sum hw (fun o ho => (hord o ho).2.2.2.1)
    have hle := (s3 hne).1
    rw [priceAcceptable_eq_acceptableTo] at h
    show sumQuantity w.trades = _
    have htot' : best.total_quantity = sumRemaining best.orders := htot
    rw [s1, acceptableVolume_cons, if_pos h, htot']
    omega

/-- Where a walk stops: the taker is exhausted, the side is empty, or the best
level left fails the taker's price test. -/
theorem ladderRun_stop {symbol : String} {m : Ladder} {st : MatchState} {r : LadderWalk}
    (h : LadderRun symbol m st r) :
    r.st.remaining_order.remaining_quantity = 0 ∨ r.ladder = [] ∨
    ∃ k best rest, r.ladder = (k, best) :: rest ∧
      priceAcceptable r.st.remaining_order best = false := by
  induction h with
  | done m st h => exact Or.inl h
  | empty st h0 => exact Or.inr (Or.inl rfl)
  | reject k best rest st h0 h => exact Or.inr (Or.inr ⟨k, best, rest, rfl, h⟩)
  | sweep k best rest st w r h0 h hw he hr ih => exact ih
  | stay k best rest st w h0 h hw hne =>
    left
    have hrem := (levelRun_fills hw).2.2.2.2
    have hlast : ∀ {orders : List Order} {total : Nat} {st : MatchState} {w : LevelWalk},
        LevelRun symbol orders total st w → w.orders ≠ [] →
        w.st.remaining_order.remaining_quantity = 0 := by
      intro orders total st w hrun
      induction hrun with
      | nil => intro hne; exact absurd rfl hne
      | done r rest total st h => intro _; exact h
      | full r rest total st w h0 h hw ih => exact ih
      | part r rest total st h0 h =>
        intro _
        show st.remaining_order.remaining_quantity - min _ _ = 0
        omega
    exact hlast hw hne


/-! ## C24: how much an incoming order trades -/

/-- C24: on a well-formed book, an `addOrder` of a LIMIT or MARKET order O that
returns (it does for an order of the book's symbol) returns trades whose
quantities sum to `min(O.remaining, L)`, where L is the sum of
`total_quantity` over the levels of the opposite side whose price is
acceptable to O. Matching stopped because O was exhausted, or the opposite
side is empty, or the best opposite level left fails O's price test. -/
theorem addOrder_traded_volume (b : OrderBook) (O : Order) (hwf : WellFormed b)
    (hty : O.type = OrderType.LIMIT ∨ O.type = OrderType.MARKET) :
    (O.symbol = b.symbol → ∃ trades, (addOrder b O).result = Except.ok trades) ∧
    ∀ trades, (addOrder b O).result = Except.ok trades →
      sumQuantity trades =
        min O.remaining_quantity (acceptableVolume O (b.side O.side.opposite)) ∧
      (sumQuantity trades = O.remaining_quantity ∨
       (addOrder b O).book.side O.side.opposite = [] ∨
       ∃ k best rest, (addOrder b O).book.side O.side.opposite = (k, best) :: rest ∧
         acceptableTo O best = false) := by
  refine ⟨fun hsym => ⟨_, addOrder_result b O hsym⟩, ?_⟩
  intro trades hres
  have hsym := symbol_of_addOrder_ok b O trades hres
  rw [addOrder_result b O hsym, if_pos hty] at hres
  injection hres with hres
  have hrun := walkOf_run b O
  have hsum := ladderRun_sum hrun b.symbol (wellFormed_side b hwf O.side.opposite)
  have hfill := ladderRun_fills hrun
  simp only at hsum hfill
  rw [← hres]
  refine ⟨hsum, ?_⟩
  rw [addOrder_side_opposite b O hsym, if_pos hty]
  rcases ladderRun_stop hrun with h0 | h0 | ⟨k, best, rest, h1, h2⟩
  · left
    have := hfill.2.2.2
    have := hfill.2.2.1
    omega
  · exact Or.inr (Or.inl h0)
  · right; right
    refine ⟨k, best, rest, h1, ?_⟩
    rw [← priceAcceptable_eq_acceptableTo, ← priceAcceptable_congr hfill.2.1]
    exact h2

theorem addOrder_traded_volume_witness :
    WellFormed s4_book ∧ acceptableVolume s4_buy (s4_book.side s4_buy.side.opposite) = 60 ∧
    (addOrder s4_book s4_buy).result = Except.ok (walkOf s4_book s4_buy).trades ∧
    sumQuantity (walkOf s4_book s4_buy).trades = 50 ∧
    (addOrder s4_book s4_market_buy).result.toOption.map sumQuantity = some 60 ∧
    (addOrder s4_book s4_market_buy).book.side s4_market_buy.side.opposite = [] ∧
    (sumQuantity (walkOf s4_book s4_buy).trades =
        min s4_buy.remaining_quantity
          (acceptableVolume s4_buy (s4_book.side s4_buy.side.opposite)) ∧
      (sumQuantity (walkOf s4_book s4_buy).trades = s4_buy.remaining_quantity ∨
       (addOrder s4_book s4_buy).book.side s4_buy.side.opposite = [] ∨
       ∃ k best rest, (addOrder s4_book s4_buy).book.side s4_buy.side.opposite =
           (k, best) :: rest ∧ acceptableTo s4_buy best = false)) :=
  ⟨by decide, by decide, rfl, by decide, rfl, by decide,
   (addOrder_traded_volume s4_book s4_buy (by decide) (Or.inl rfl)).2
     (walkOf s4_book s4_buy).trades rfl⟩

/-! ## Where the resting quantity goes -/

theorem levelRun_volume {symbol : String} {orders : List Order} {total : Nat}
    {st : MatchState} {w : LevelWalk} (h : LevelRun symbol orders total st w) :
    sumRemaining w.orders + sumQuantity w.trades = sumRemaining orders := by
  induction h with
  | nil => simp [sumQuantity]
  | done => simp [sumQuantity]
  | full r rest total st w h0 h hw ih =>
    show sumRemaining w.orders + sumQuantity (tradeOf symbol st r :: w.trades) = _
    rw [sumQuantity_cons, sumRemaining_cons]
    have hq : (tradeOf symbol st r).quantity = r.remaining_quantity := by
      show min _ _ = _
      omega
    omega
  | part r rest total st h0 h =>
    show sumRemaining (r.filled st.remaining_order.remaining_quantity :: rest) +
      sumQuantity [tradeOf symbol st r] = _
    rw [sumQuantity_cons, sumRemaining_cons, sumRemaining_cons]
    have hq : (tradeOf symbol st r).quantity = st.remaining_order.remaining_quantity := by
      show min _ _ = _
      omega
    have hf : (r.filled st.remaining_order.remaining_quantity).remaining_quantity =
        r.remaining_quantity - st.remaining_order.remaining_quantity := rfl
    simp only [sumQuantity, List.map_nil, List.sum_nil]
    omega

theorem ladderRun_volume {symbol : String} {m : Ladder} {st : MatchState} {r : LadderWalk}
    (h : LadderRun symbol m st r) :
    sumRemaining (restingOrders r.ladder) + sumQuantity r.trades =
      sumRemaining (restingOrders m) := by
  induction h with
  | done => simp [sumQuantity]
  | empty => simp [sumQuantity]
  | reject => simp [sumQuantity]
  | sweep k best rest st w r h0 h hw he hr ih =>
    have hv := levelRun_volume hw
    rw [he] at hv
    show sumRemaining (restingOrders r.ladder) + sumQuantity (w.trades ++ r.trades) = _
    rw [sumQuantity_append, restingOrders, sumRemaining_append]
    simp only [sumRemaining, List.map_nil, List.sum_nil] at hv ih ⊢
    omega
  | stay k best rest st w h0 h hw hne =>
    have hv := levelRun_volume hw
    show sumRemaining (w.orders ++ restingOrders rest) + sumQuantity w.trades =
      sumRemaining (best.orders ++ restingOrders rest)
    rw [sumRemaining_append, sumRemaining_append]
    omega

theorem restingOrders_mapUpdate_perm (side : Side) (o : Order) (m : Ladder) (p : Int) :
    (restingOrders (mapUpdate side (enqueue o) m p)).Perm (o :: restingOrders m) := by
  induction m with
  | nil => simp [mapUpdate, restingOrders, enqueue, PriceLevel.empty]
  | cons e rest ih =>
    obtain ⟨k, l⟩ := e
    by_cases hk : k = p
    · rw [mapUpdate, if_pos hk]
      show (l.orders ++ [o] ++ restingOrders rest).Perm (o :: (l.orders ++ restingOrders rest))
      rw [List.append_assoc]
      exact List.perm_middle
    · by_cases hb : keyBefore side p k = true
      · rw [mapUpdate, if_neg hk, if_pos hb]
        simp [restingOrders, enqueue, PriceLevel.empty]
      · rw [mapUpdate, if_neg hk, if_neg hb]
        show (l.orders ++ restingOrders (mapUpdate side (enqueue o) rest p)).Perm
          (o :: (l.orders ++ restingOrders rest))
        exact (List.Perm.append_left _ ih).trans List.perm_middle

theorem restingOrders_removeResting_perm (b : OrderBook) (s : Side) (k : Int) (l : PriceLevel)
    (id : Nat) (R : Order) (h2 : mapFind (b.side s) k = some l)
    (h3 : findOrder l.orders id = some R) :
    (R :: restingOrders ((removeResting b s k l R).side s)).Perm (restingOrders (b.side s)) := by
  obtain ⟨_, A, B, pre, post, hAB, hpp, hside⟩ := removeResting_split b s k l id R h2 h3
  have hafter : restingOrders ((removeResting b s k l R).side s) =
      restingOrders A ++ ((pre ++ post) ++ restingOrders B) := by
    rw [hside]
    split
    · rename_i he
      rw [he, restingOrders_append]
      rfl
    · rw [restingOrders_append]
      rfl
  rw [hafter, hAB, restingOrders_append]
  show (R :: (restingOrders A ++ ((pre ++ post) ++ restingOrders B))).Perm
    (restingOrders A ++ (l.orders ++ restingOrders B))
  rw [hpp]
  have h1 : (R :: (restingOrders A ++ ((pre ++ post) ++ restingOrders B))).Perm
      (restingOrders A ++ (R :: ((pre ++ post) ++ restingOrders B))) :=
    List.perm_middle.symm
  refine h1.trans (List.Perm.append_left _ ?_)
  rw [List.append_assoc, List.append_assoc]
  show (R :: (pre ++ (post ++ restingOrders B))).Perm (pre ++ (R :: post ++ restingOrders B))
  exact List.perm_middle.symm

theorem sumRemaining_perm {a c : List Order} (h : a.Perm c) : sumRemaining a = sumRemaining c :=
  (h.map _).sum_eq

theorem restingVolume_sides (b : OrderBook) (s : Side) :
    restingVolume b =
      sumRemaining (restingOrders (b.side s)) + sumRemaining (restingOrders (b.side s.opposite)) := by
  unfold restingVolume
  cases s
  · rfl
  · exact Nat.add_comm _ _

theorem addOrder_producedTrades (b : OrderBook) (order : Order)
    (hsym : order.symbol = b.symbol) :
    producedTrades (addOrder b order).events =
      if order.type = OrderType.LIMIT ∨ order.type = OrderType.MARKET
      then (walkOf b order).trades else [] := by
  have hq : producedTrades (if order.type = OrderType.LIMIT ∧ 0 < order.remaining_quantity
      then [Event.book_update (getTopOfBook (addOrder b order).book)] else []) = [] := by
    split <;> rfl
  rw [addOrder_events b order hsym, producedTrades_append, hq, List.append_nil]
  split
  · exact producedTrades_matchEvents _ _
  · rfl

/-- One `addOrder`: what rests afterwards plus what was traded is what rested
before plus what the call queued. -/
theorem addOrder_volume (b : OrderBook) (order : Order) :
    restingVolume (addOrder b order).book + sumQuantity (producedTrades (addOrder b order).events) =
      restingVolume b +
        (if order.symbol = b.symbol ∧ order.type = OrderType.LIMIT
         then order.remaining_quantity else 0) := by
  by_cases hsym : order.symbol = b.symbol
  · rw [restingVolume_sides _ order.side, restingVolume_sides b order.side,
      addOrder_side_own b order hsym, addOrder_side_opposite b order hsym,
      addOrder_producedTrades b order hsym]
    have hvol := ladderRun_volume (walkOf_run b order)
    have hperm := sumRemaining_perm
      (restingOrders_mapUpdate_perm order.side order (b.side order.side) order.price)
    rw [sumRemaining_cons] at hperm
    by_cases hl : order.type = OrderType.LIMIT
    · simp only [hl, hsym, and_self, true_or, true_and, if_true]
      by_cases hq : 0 < order.remaining_quantity
      · rw [if_pos hq]
        omega
      · rw [if_neg hq]
        omega
    · simp only [hl, false_and, and_false, false_or, if_false]
      by_cases hm : order.type = OrderType.MARKET
      · simp only [hm, if_true]
        omega
      · simp only [hm, if_false]
        simp [sumQuantity]
  · have hb : (addOrder b order).book = b := by
      unfold addOrder; rw [if_pos hsym]
    rw [hb, addOrder_events_of_symbol_ne b order hsym, if_neg (by tauto)]
    simp [producedTrades, sumQuantity]

theorem cancelTarget_cases (b : OrderBook) (id : Nat) :
    ((cancelOrder b id).book = b ∧ cancelTarget b id = none) ∨
    ∃ s k l R, mapFind (b.side s) k = some l ∧ findOrder l.orders id = some R ∧
      (cancelOrder b id).book = removeResting b s k l R ∧ cancelTarget b id = some R := by
  rcases cancelOrder_cases b id with ⟨hb, _, hr⟩ | ⟨s, k, l, R, h1, h2, h3, hb, _⟩
  · left
    refine ⟨hb, ?_⟩
    unfold cancelTarget
    unfold cancelOrder at hr
    cases h1 : indexFind b.order_lookup id with
    | none => rfl
    | some v =>
      obtain ⟨s, k⟩ := v
      rw [h1] at hr
      simp only
      cases h2 : mapFind (b.side s) k with
      | none => rfl
      | some l =>
        simp only [h2] at hr ⊢
        cases h3 : findOrder l.orders id with
        | none => rfl
        | some R =>
          simp only [h3] at hr
          exact absurd hr (by simp)
  · right
    refine ⟨s, k, l, R, h2, h3, hb, ?_⟩
    unfold cancelTarget
    rw [h1]
    simp only [h2, h3]

/-- One `cancelOrder`: what rests afterwards plus the remainder of the order
taken out is what rested before; the call produces no trade. -/
theorem cancelOrder_volume (b : OrderBook) (id : Nat) :
    restingVolume (cancelOrder b id).book +
      ((cancelTarget b id).map (fun o => o.remaining_quantity)).getD 0 = restingVolume b ∧
    producedTrades (cancelOrder b id).events = [] := by
  constructor
  · rcases cancelTarget_cases b id with ⟨hb, ht⟩ | ⟨s, k, l, R, h2, h3, hb, ht⟩
    · rw [hb, ht]; rfl
    · rw [hb, ht, restingVolume_sides _ s, restingVolume_sides b s,
        (removeResting_fields b s k l R).1,
        ← sumRemaining_perm (restingOrders_removeResting_perm b s k l id R h2 h3),
        sumRemaining_cons]
      simp only [Option.map_some', Option.getD_some]
      omega
  · exact (List.eq_nil_iff_forall_not_mem.mpr (by
      intro t ht
      unfold cancelOrder at ht
      split at ht
      · exact absurd ht (by simp [producedTrades])
      · split at ht
        · exact absurd ht (by simp [producedTrades])
        · split at ht
          · exact absurd ht (by simp [producedTrades])
          · exact absurd ht (by simp [producedTrades])))

/-- Over a sequence of `addOrder` and `cancelOrder` calls from any book: what
was traded, what rests at the end and what was cancelled add up to what
rested at the start plus what the `addOrder` calls queued. -/
theorem run_volume (b : OrderBook) (ops : List Op) (h : ops.all Op.isAddOrCancel = true) :
    sumQuantity (producedTrades (run b ops).2) + restingVolume (run b ops).1 +
      cancelledQuantity b ops = restingVolume b + limitQuantity b.symbol ops := by
  induction ops generalizing b with
  | nil => simp [run, producedTrades, sumQuantity, cancelledQuantity, limitQuantity]
  | cons op ops ih =>
    simp only [List.all_cons, Bool.and_eq_true] at h
    have ih' := ih (step b op).1 h.2
    rw [step_symbol] at ih'
    show sumQuantity (producedTrades ((step b op).2 ++ (run (step b op).1 ops).2)) +
      restingVolume (run (step b op).1 ops).1 + cancelledQuantity b (op :: ops) = _
    rw [producedTrades_append, sumQuantity_append]
    cases op with
    | add order =>
      have hv := addOrder_volume b order
      show sumQuantity (producedTrades (addOrder b order).events) + _ + _ +
        cancelledQuantity (step b (Op.add order)).1 ops =
        restingVolume b + ((if order.symbol = b.symbol ∧ order.type = OrderType.LIMIT
          then order.remaining_quantity else 0) + limitQuantity b.symbol ops)
      have ih'' : sumQuantity (producedTrades (run (step b (Op.add order)).1 ops).2) +
          restingVolume (run (step b (Op.add order)).1 ops).1 +
          cancelledQuantity (step b (Op.add order)).1 ops =
          restingVolume (addOrder b order).book + limitQuantity b.symbol ops := ih'
      omega
    | cancel id =>
      obtain ⟨hv, ht⟩ := cancelOrder_volume b id
      show sumQuantity (producedTrades (cancelOrder b id).events) + _ + _ +
        (((cancelTarget b id).map (fun o => o.remaining_quantity)).getD 0 +
          cancelledQuantity (step b (Op.cancel id)).1 ops) =
        restingVolume b + limitQuantity b.symbol ops
      have ih'' : sumQuantity (producedTrades (run (step b (Op.cancel id)).1 ops).2) +
          restingVolume (run (step b (Op.cancel id)).1 ops).1 +
          cancelledQuantity (step b (Op.cancel id)).1 ops =
          restingVolume (cancelOrder b id).book + limitQuantity b.symbol ops := ih'
      rw [ht]
      simp only [sumQuantity, List.map_nil, List.sum_nil] at ih'' ⊢
      omega
    | modify id p q => exact absurd h.1 (by simp [Op.isAddOrCancel])
    | clear => exact absurd h.1 (by simp [Op.isAddOrCancel])


/-! ## C30: conservation -/

/-- A LIMIT order of a sequence in which no LIMIT order crosses does not cross
the book it is added to. -/
theorem limitsPassive_at (b : OrderBook) (pre : List Op) (order : Order) (post : List Op)
    (hp : limitsPassive b (pre ++ Op.add order :: post) = true)
    (hl : order.type = OrderType.LIMIT) : Passive (run b pre).1 order := by
  induction pre generalizing b with
  | nil =>
    simp only [List.nil_append, limitsPassive, Bool.and_eq_true, decide_eq_true_eq] at hp
    exact hp.1 hl
  | cons op pre ih =>
    have hrest : limitsPassive (step b op).1 (pre ++ Op.add order :: post) = true := by
      cases op with
      | add o =>
        simp only [List.cons_append, limitsPassive, Bool.and_eq_true] at hp
        exact hp.2
      | cancel id => exact hp
      | modify id p q => exact hp
      | clear => exact hp
    exact ih _ hrest

/-- C30 (amended): take a sequence of `addOrder` and `cancelOrder` calls on a
new book in which no LIMIT order crosses the opposite side when it is added,
so that the trades are those of MARKET orders. The quantities of the produced
trades, the remaining quantities of the orders resting at the end and the
remaining quantities the cancelled orders had when they were cancelled add up
to the sum of the quantities of the LIMIT orders of the book's symbol passed
to `addOrder` (what they have remaining at the call: the original quantity,
for orders as constructed). No `addOrder` of a LIMIT order produces a trade. -/
theorem conservation (symbol : String) (ops : List Op)
    (h : ops.all Op.isAddOrCancel = true)
    (hp : limitsPassive (OrderBook.new symbol) ops = true) :
    sumQuantity (producedTrades (run (OrderBook.new symbol) ops).2) +
      restingVolume (run (OrderBook.new symbol) ops).1 +
      cancelledQuantity (OrderBook.new symbol) ops = limitQuantity symbol ops ∧
    ∀ pre order post, ops = pre ++ Op.add order :: post → order.type = OrderType.LIMIT →
      producedTrades (addOrder (run (OrderBook.new symbol) pre).1 order).events = [] := by
  constructor
  · have hv := run_volume (OrderBook.new symbol) ops h
    have h0 : restingVolume (OrderBook.new symbol) = 0 := rfl
    have hs : (OrderBook.new symbol).symbol = symbol := rfl
    rw [h0, hs] at hv
    omega
  · intro pre order post hops hl
    rw [hops] at hp
    have hpass := limitsPassive_at (OrderBook.new symbol) pre order post hp hl
    by_cases hsym : order.symbol = (run (OrderBook.new symbol) pre).1.symbol
    · rw [addOrder_producedTrades _ order hsym, if_pos (Or.inl hl),
        walkOf_passive _ order hl hpass]
    · rw [addOrder_events_of_symbol_ne _ order hsym]
      rfl

theorem conservation_witness :
    (passive_ops.all Op.isAddOrCancel = true ∧
     limitsPassive (OrderBook.new "AAPL") passive_ops = true) ∧
    sumQuantity (producedTrades (run (OrderBook.new "AAPL") passive_ops).2) = 50 ∧
    restingVolume (run (OrderBook.new "AAPL") passive_ops).1 = 80 ∧
    cancelledQuantity (OrderBook.new "AAPL") passive_ops = 40 ∧
    limitQuantity "AAPL" passive_ops = 170 ∧ addedQuantity passive_ops = 220 ∧
    sumQuantity (producedTrades (run (OrderBook.new "AAPL") passive_ops).2) +
      restingVolume (run (OrderBook.new "AAPL") passive_ops).1 +
      cancelledQuantity (OrderBook.new "AAPL") passive_ops = limitQuantity "AAPL" passive_ops :=
  ⟨⟨by decide, by decide⟩, by decide, by decide, by decide, by decide, by decide,
   (conservation "AAPL" passive_ops (by decide) (by decide)).1⟩

/-- C30 (counterexample): a sell of 100 at 15000 is added to a new book, then a
market buy of 50. One trade of 50 is produced, 50 of the sell rest at the end
and nothing was cancelled: 100 in all, while the original quantities of the
two orders passed to `addOrder` sum to 150. -/
theorem conservation_fails_with_market_order :
    market_ops.all Op.isAddOrCancel = true ∧
    sumQuantity (producedTrades (run (OrderBook.new "AAPL") market_ops).2) = 50 ∧
    restingVolume (run (OrderBook.new "AAPL") market_ops).1 = 50 ∧
    cancelledQuantity (OrderBook.new "AAPL") market_ops = 0 ∧
    addedQuantity market_ops = 150 ∧
    sumQuantity (producedTrades (run (OrderBook.new "AAPL") market_ops).2) +
      restingVolume (run (OrderBook.new "AAPL") market_ops).1 +
      cancelledQuantity (OrderBook.new "AAPL") market_ops ≠ addedQuantity market_ops := by
  refine ⟨by decide, by decide, by decide, by decide, by decide, by decide⟩

/-! ## The keys of the index -/

theorem keys_indexErase (idx : Index) (id : Nat) :
    (indexErase idx id).map Prod.fst = (idx.map Prod.fst).filter (fun k => decide (k ≠ id)) := by
  induction idx with
  | nil => rfl
  | cons e rest ih =>
    obtain ⟨k, v⟩ := e
    by_cases hk : k = id
    · simp [indexErase, hk, ih]
    · simp [indexErase, hk, ih]

theorem indexFind_none_iff (idx : Index) (id : Nat) :
    indexFind idx id = none ↔ id ∉ idx.map Prod.fst := by
  induction idx with
  | nil => simp [indexFind]
  | cons e rest ih =>
    obtain ⟨k, v⟩ := e
    by_cases hk : k = id
    · simp [indexFind, hk]
    · simp [indexFind, hk, ih, Ne.symm hk]

theorem keys_indexSet_fresh (idx : Index) (id : Nat) (v : Side × Int)
    (h : id ∉ idx.map Prod.fst) : (indexSet idx id v).map Prod.fst = idx.map Prod.fst ++ [id] := by
  induction idx with
  | nil => rfl
  | cons e rest ih =>
    obtain ⟨k, w⟩ := e
    simp only [List.map_cons, List.mem_cons, not_or] at h
    simp [indexSet, Ne.symm h.1, ih h.2]

theorem filter_not_mem_cons (keys : List Nat) (a : Nat) (gone : List Nat) :
    (List.filter (fun k => decide (k ∉ gone)) (List.filter (fun k => decide (k ≠ a)) keys)) =
      List.filter (fun k => decide (k ∉ a :: gone)) keys := by
  rw [List.filter_filter]
  congr 1
  funext k
  simp [Bool.and_comm]

/-- The ids the inner loop takes out: a prefix of the queue's ids, erased from
the index. -/
theorem levelRun_gone {symbol : String} {orders : List Order} {total : Nat}
    {st : MatchState} {w : LevelWalk} (h : LevelRun symbol orders total st w) :
    ∃ gone : List Nat, orders.map (fun o => o.id) = gone ++ w.orders.map (fun o => o.id) ∧
      w.st.order_lookup.map Prod.fst =
        (st.order_lookup.map Prod.fst).filter (fun k => decide (k ∉ gone)) := by
  induction h with
  | nil => exact ⟨[], rfl, by simp⟩
  | done => exact ⟨[], rfl, by simp⟩
  | full r rest total st w h0 h hw ih =>
    obtain ⟨gone, h1, h2⟩ := ih
    refine ⟨r.id :: gone, ?_, ?_⟩
    · show r.id :: rest.map (fun o => o.id) = r.id :: gone ++ w.orders.map (fun o => o.id)
      rw [h1]; rfl
    · show w.st.order_lookup.map Prod.fst = _
      rw [h2]
      have hs : (stepState st r).order_lookup = indexErase st.order_lookup r.id := by
        show (if _ then _ else _) = _
        rw [if_pos h]
      rw [hs, keys_indexErase, filter_not_mem_cons]
  | part r rest total st h0 h =>
    refine ⟨[], rfl, ?_⟩
    have hs : (stepState st r).order_lookup = st.order_lookup := by
      show (if _ then _ else _) = _
      rw [if_neg (by omega)]
    show (stepState st r).order_lookup.map Prod.fst = _
    rw [hs]
    simp

/-- The ids the walk of a side takes out: a prefix of the side's ids in
priority order, erased from the index. -/
theorem ladderRun_gone {symbol : String} {m : Ladder} {st : MatchState} {r : LadderWalk}
    (h : LadderRun symbol m st r) :
    ∃ gone : List Nat,
      (restingOrders m).map (fun o => o.id) =
        gone ++ (restingOrders r.ladder).map (fun o => o.id) ∧
      r.st.order_lookup.map Prod.fst =
        (st.order_lookup.map Prod.fst).filter (fun k => decide (k ∉ gone)) := by
  induction h with
  | done => exact ⟨[], rfl, by simp⟩
  | empty => exact ⟨[], rfl, by simp⟩
  | reject => exact ⟨[], rfl, by simp⟩
  | sweep k best rest st w r h0 h hw he hr ih =>
    obtain ⟨g1, a1, a2⟩ := levelRun_gone hw
    obtain ⟨g2, c1, c2⟩ := ih
    rw [he] at a1
    refine ⟨g1 ++ g2, ?_, ?_⟩
    · show (best.orders ++ restingOrders rest).map (fun o => o.id) = _
      rw [List.map_append, a1, c1]
      simp
    · show r.st.order_lookup.map Prod.fst = _
      rw [c2, a2, List.filter_filter]
      congr 1
      funext x
      simp [Bool.and_comm]
  | stay k best rest st w h0 h hw hne =>
    obtain ⟨g1, a1, a2⟩ := levelRun_gone hw
    refine ⟨g1, ?_, a2⟩
    show (best.orders ++ restingOrders rest).map (fun o => o.id) =
      g1 ++ (w.orders ++ restingOrders rest).map (fun o => o.id)
    rw [List.map_append, a1, List.map_append, List.append_assoc]

/-- Taking ids out of the ladders and erasing them from the index keeps the
index exact. -/
theorem index_after_removal (keys ids gone ids' : List Nat) (hn : ids.Nodup)
    (hk : keys.Perm ids) (hi : ids.Perm (gone ++ ids')) :
    ids'.Nodup ∧ (keys.filter (fun k => decide (k ∉ gone))).Perm ids' := by
  have hn' : (gone ++ ids').Nodup := hi.nodup_iff.mp hn
  have hdis := List.nodup_append.mp hn'
  refine ⟨hdis.2.1, ?_⟩
  have hp := (hk.trans hi).filter (fun k => decide (k ∉ gone))
  rw [List.filter_append] at hp
  have h1 : List.filter (fun k => decide (k ∉ gone)) gone = [] := by
    rw [List.filter_eq_nil_iff]
    intro a ha
    simp [ha]
  have h2 : List.filter (fun k => decide (k ∉ gone)) ids' = ids' := by
    rw [List.filter_eq_self]
    intro a ha
    simp only [decide_eq_true_eq]
    intro hg
    exact hdis.2.2 hg ha
  rw [h1, h2] at hp
  exact hp

/-- Queueing an order under an id the index does not hold keeps the index exact. -/
theorem index_after_insert (keys ids ids' : List Nat) (id : Nat) (hn : ids.Nodup)
    (hk : keys.Perm ids) (hid : id ∉ keys) (hi : ids'.Perm (id :: ids)) :
    ids'.Nodup ∧ (keys ++ [id]).Perm ids' := by
  have hid' : id ∉ ids := fun h => hid (hk.mem_iff.mpr h)
  refine ⟨hi.nodup_iff.mpr (List.nodup_cons.mpr ⟨hid', hn⟩), ?_⟩
  have h1 : (keys ++ [id]).Perm (id :: keys) := List.perm_append_singleton id keys
  exact h1.trans ((hk.cons id).trans hi.symm)

theorem restingIds_sides (b : OrderBook) (s : Side) :
    (restingIds b).Perm ((restingOrders (b.side s)).map (fun o => o.id) ++
      (restingOrders (b.side s.opposite)).map (fun o => o.id)) := by
  unfold restingIds
  rw [List.map_append]
  cases s
  · exact List.Perm.refl _
  · exact List.perm_append_comm


theorem afterMatch_order_lookup (b : OrderBook) (order : Order) :
    (afterMatch b order).order_lookup = (walkOf b order).st.order_lookup := by
  unfold afterMatch
  cases order.side <;> rfl

theorem indexExact_afterMatch (b : OrderBook) (order : Order) (h : IndexExact b) :
    IndexExact (afterMatch b order) ∧
    ∀ id, id ∈ (afterMatch b order).order_lookup.map Prod.fst → id ∈ b.order_lookup.map Prod.fst := by
  obtain ⟨gone, g1, g2⟩ := ladderRun_gone (walkOf_run b order)
  simp only at g2
  have hafter := restingIds_sides (afterMatch b order) order.side
  rw [afterMatch_side_own, afterMatch_side_opposite] at hafter
  have hbefore := restingIds_sides b order.side
  rw [g1] at hbefore
  have hperm : (restingIds b).Perm (gone ++ restingIds (afterMatch b order)) := by
    refine hbefore.trans ?_
    refine List.Perm.trans ?_ (List.Perm.append_left gone hafter.symm)
    rw [← List.append_assoc, ← List.append_assoc]
    exact List.Perm.append_right _ List.perm_append_comm
  have hk := index_after_removal _ _ gone _ h.1 h.2 hperm
  rw [← g2, ← afterMatch_order_lookup] at hk
  refine ⟨hk, ?_⟩
  intro id hid
  rw [afterMatch_order_lookup, g2] at hid
  exact (List.mem_filter.mp hid).1

theorem queueOrder_order_lookup (b : OrderBook) (order : Order) :
    (queueOrder b order).order_lookup =
      indexSet b.order_lookup order.id (order.side, order.price) := by
  unfold queueOrder
  cases order.side <;> rfl

theorem indexExact_queueOrder (b : OrderBook) (order : Order) (h : IndexExact b)
    (hid : order.id ∉ b.order_lookup.map Prod.fst) : IndexExact (queueOrder b order) := by
  have hafter := restingIds_sides (queueOrder b order) order.side
  rw [queueOrder_side_own, queueOrder_side_opposite] at hafter
  have hq := (restingOrders_mapUpdate_perm order.side order (b.side order.side) order.price).map
    (fun o => o.id)
  have hperm : (restingIds (queueOrder b order)).Perm (order.id :: restingIds b) := by
    refine hafter.trans ?_
    refine (List.Perm.append_right _ hq).trans ?_
    exact List.Perm.cons _ (restingIds_sides b order.side).symm
  have hk := index_after_insert _ _ _ order.id h.1 h.2 hid hperm
  rw [← keys_indexSet_fresh _ _ (order.side, order.price) hid, ← queueOrder_order_lookup] at hk
  exact hk

theorem indexExact_addOrder (b : OrderBook) (order : Order) (h : IndexExact b)
    (hid : indexFind b.order_lookup order.id = none) : IndexExact (addOrder b order).book := by
  have hid' := (indexFind_none_iff _ _).mp hid
  have hm := indexExact_afterMatch b order h
  by_cases hsym : order.symbol = b.symbol
  · rw [addOrder_book b order hsym]
    split
    · split
      · exact indexExact_queueOrder _ _ hm.1 (fun hmem => hid' (hm.2 _ hmem))
      · exact hm.1
    · split
      · exact hm.1
      · exact h
  · have : (addOrder b order).book = b := by
      unfold addOrder; rw [if_pos hsym]
    rw [this]; exact h

theorem indexExact_removeResting (b : OrderBook) (s : Side) (k : Int) (l : PriceLevel) (id : Nat)
    (R : Order) (h : IndexExact b) (h2 : mapFind (b.side s) k = some l)
    (h3 : findOrder l.orders id = some R) : IndexExact (removeResting b s k l R) := by
  have hafter := restingIds_sides (removeResting b s k l R) s
  rw [(removeResting_fields b s k l R).1] at hafter
  have hr := (restingOrders_removeResting_perm b s k l id R h2 h3).map (fun o => o.id)
  have hperm : (restingIds b).Perm ([R.id] ++ restingIds (removeResting b s k l R)) := by
    refine (restingIds_sides b s).trans ?_
    refine (List.Perm.append_right _ hr.symm).trans ?_
    exact List.Perm.cons _ hafter.symm
  have hk := index_after_removal _ _ [R.id] _ h.1 h.2 hperm
  have hkeys : (removeResting b s k l R).order_lookup.map Prod.fst =
      (b.order_lookup.map Prod.fst).filter (fun k => decide (k ∉ [R.id])) := by
    rw [(removeResting_fields b s k l R).2.2.2, keys_indexErase]
    congr 1
    funext x
    simp
  rw [← hkeys] at hk
  exact hk

theorem indexExact_run (b : OrderBook) (ops : List Op) (h : IndexExact b)
    (hf : freshAdds b ops = true) : IndexExact (run b ops).1 := by
  induction ops generalizing b with
  | nil => exact h
  | cons op ops ih =>
    cases op with
    | add order =>
      simp only [freshAdds, Bool.and_eq_true, decide_eq_true_eq] at hf
      exact ih _ (indexExact_addOrder b order h hf.1.1) hf.2
    | cancel id =>
      have hf' : freshAdds (step b (Op.cancel id)).1 ops = true := hf
      apply ih _ _ hf'
      show IndexExact (cancelOrder b id).book
      rcases cancelOrder_cases b id with ⟨hb, _, _⟩ | ⟨s, k, l, R, _, h2, h3, hb, _⟩
      · rw [hb]; exact h
      · rw [hb]; exact indexExact_removeResting b s k l id R h h2 h3
    | modify id p q =>
      have hf' : freshAdds (step b (Op.modify id p q)).1 ops = true := hf
      apply ih _ _ hf'
      show IndexExact (modifyOrder b id p q).book
      rcases modifyOrder_cases b id p q with ⟨hb, _, _⟩ | ⟨s, k, l, R, _, h2, h3, hb, _⟩
      · rw [hb]; exact h
      · rw [hb]
        apply indexExact_addOrder _ _ (indexExact_removeResting b s k l id R h h2 h3)
        rw [(removeResting_fields b s k l R).2.2.2]
        exact indexFind_indexErase_self _ _
    | clear =>
      have hf' : freshAdds (step b Op.clear).1 ops = true := hf
      apply ih _ _ hf'
      exact ⟨List.nodup_nil, List.Perm.refl _⟩

/-! ## C28: the size of the index -/

/-- C28 (amended): after every sequence of `addOrder`, `cancelOrder`,
`modifyOrder` and `clear` calls on a new book in which every `addOrder` is
given an id that is new to the book at the time of the call, the index has as
many entries as orders are queued in the levels of both sides; its keys are
the ids of the resting orders and these are pairwise different. -/
theorem index_size_is_resting_count (symbol : String) (ops : List Op)
    (hf : freshAdds (OrderBook.new symbol) ops = true) :
    (run (OrderBook.new symbol) ops).1.order_lookup.length =
      (restingOrders (run (OrderBook.new symbol) ops).1.bids).length +
      (restingOrders (run (OrderBook.new symbol) ops).1.asks).length ∧
    IndexExact (run (OrderBook.new symbol) ops).1 := by
  have h := indexExact_run (OrderBook.new symbol) ops ⟨List.nodup_nil, List.Perm.refl _⟩ hf
  refine ⟨?_, h⟩
  have hl := h.2.length_eq
  simp only [restingIds, List.length_map, List.length_append] at hl
  exact hl

theorem index_size_is_resting_count_witness :
    freshAdds (OrderBook.new "AAPL") s4_ops = true ∧
    (run (OrderBook.new "AAPL") s4_ops).1.order_lookup = [(9, (Side.BUY, 15010)), (3, (Side.SELL, 15020))] ∧
    (run (OrderBook.new "AAPL") s4_ops).1.order_lookup.length =
      (restingOrders (run (OrderBook.new "AAPL") s4_ops).1.bids).length +
      (restingOrders (run (OrderBook.new "AAPL") s4_ops).1.asks).length :=
  ⟨by decide, by decide, (index_size_is_resting_count "AAPL" s4_ops (by decide)).1⟩

/-- C28 (counterexample): two buys are added to a new book under the same
id 1, at 100 and at 99. Both are queued, and the index has one entry, which
the second `addOrder` overwrote. -/
theorem index_size_with_duplicate_id :
    (run (OrderBook.new "AAPL") duplicate_id_ops).1.order_lookup = [(1, (Side.BUY, 99))] ∧
    (restingOrders (run (OrderBook.new "AAPL") duplicate_id_ops).1.bids).length = 2 ∧
    (restingOrders (run (OrderBook.new "AAPL") duplicate_id_ops).1.asks).length = 0 ∧
    (run (OrderBook.new "AAPL") duplicate_id_ops).1.order_lookup.length ≠
      (restingOrders (run (OrderBook.new "AAPL") duplicate_id_ops).1.bids).length +
      (restingOrders (run (OrderBook.new "AAPL") duplicate_id_ops).1.asks).length := by
  refine ⟨by decide, by decide, by decide, by decide⟩

/-! ## What a walk takes from each maker -/

theorem tradedWith_nil (id : Nat) : tradedWith id [] = 0 := rfl

theorem tradedWith_cons (id : Nat) (t : Trade) (ts : List Trade) :
    tradedWith id (t :: ts) =
      (if t.maker_order_id = id then t.quantity else 0) + tradedWith id ts := by
  unfold tradedWith
  by_cases h : t.maker_order_id = id
  · simp [List.filter, h, sumQuantity_cons]
  · simp [List.filter, h]

theorem tradedWith_append (id : Nat) (a c : List Trade) :
    tradedWith id (a ++ c) = tradedWith id a + tradedWith id c := by
  unfold tradedWith
  rw [List.filter_append, sumQuantity_append]

theorem tradedAt_nil (p : Int) : tradedAt p [] = 0 := rfl

theorem tradedAt_append (p : Int) (a c : List Trade) :
    tradedAt p (a ++ c) = tradedAt p a + tradedAt p c := by
  unfold tradedAt
  rw [List.filter_append, sumQuantity_append]

theorem tradedWith_zero (id : Nat) (trades : List Trade)
    (h : ∀ t ∈ trades, t.maker_order_id ≠ id) : tradedWith id trades = 0 := by
  unfold tradedWith
  rw [List.filter_eq_nil_iff.mpr (fun t ht => by simp [h t ht])]
  rfl

theorem tradedAt_zero (p : Int) (trades : List Trade)
    (h : ∀ t ∈ trades, t.price ≠ p) : tradedAt p trades = 0 := by
  unfold tradedAt
  rw [List.filter_eq_nil_iff.mpr (fun t ht => by simp [h t ht])]
  rfl

theorem tradedAt_all (p : Int) (trades : List Trade)
    (h : ∀ t ∈ trades, t.price = p) : tradedAt p trades = sumQuantity trades := by
  unfold tradedAt
  rw [List.filter_eq_self.mpr (fun t ht => by simp [h t ht])]

/-- The makers of a level's trades are orders of its queue, at their prices. -/
theorem levelRun_makers {symbol : String} {orders : List Order} {total : Nat}
    {st : MatchState} {w : LevelWalk} (h : LevelRun symbol orders total st w) :
    ∀ t ∈ w.trades, ∃ o ∈ orders, o.id = t.maker_order_id ∧ t.price = o.price :=
  fills_maker_mem symbol _ _ orders _ w.trades (levelRun_fills h).1

/-- An id that is not in the queue is not traded with, and the walk of the
queue leaves its index entry alone. -/
theorem levelRun_other {symbol : String} {orders : List Order} {total : Nat}
    {st : MatchState} {w : LevelWalk} (h : LevelRun symbol orders total st w) (id : Nat)
    (hid : id ∉ orders.map (fun o => o.id)) :
    tradedWith id w.trades = 0 ∧
    indexFind w.st.order_lookup id = indexFind st.order_lookup id := by
  refine ⟨tradedWith_zero id _ ?_, ?_⟩
  · intro t ht hm
    obtain ⟨o, ho, h1, _⟩ := levelRun_makers h t ht
    exact hid (List.mem_map.mpr ⟨o, ho, h1.trans hm⟩)
  · induction h with
    | nil => rfl
    | done => rfl
    | full r rest total st w h0 h hw ih =>
      simp only [List.map_cons, List.mem_cons, not_or] at hid
      rw [ih hid.2]
      show indexFind (if _ then _ else _) id = _
      rw [if_pos h]
      exact indexFind_indexErase_other _ _ _ hid.1
    | part r rest total st h0 h =>
      show indexFind (if _ then _ else _) id = _
      rw [if_neg (by omega)]

/-- What the walk of a queue does to one of its orders: what is traded with
it does not exceed its remainder; if something is left of it, it stays in the
queue with that remainder and its index entry is untouched; if nothing is
left, it is gone from the queue and from the index. -/
theorem levelRun_account {symbol : String} {orders : List Order} {total : Nat}
    {st : MatchState} {w : LevelWalk} (h : LevelRun symbol orders total st w)
    (hpos : ∀ o ∈ orders, 0 < o.remaining_quantity)
    (hnd : (orders.map (fun o => o.id)).Nodup) :
    ∀ R ∈ orders,
      tradedWith R.id w.trades ≤ R.remaining_quantity ∧
      (tradedWith R.id w.trades < R.remaining_quantity →
        (∃ R' ∈ w.orders, SameIdentity R' R ∧
          R'.remaining_quantity = R.remaining_quantity - tradedWith R.id w.trades) ∧
        indexFind w.st.order_lookup R.id = indexFind st.order_lookup R.id) ∧
      (tradedWith R.id w.trades = R.remaining_quantity →
        (∀ o ∈ w.orders, o.id ≠ R.id) ∧ indexFind w.st.order_lookup R.id = none) := by
  induction h with
  | nil => intro R hR; exact absurd hR (List.not_mem_nil _)
  | done r rest total st h =>
    intro R hR
    have hp := hpos R hR
    rw [tradedWith_nil]
    refine ⟨Nat.zero_le _, fun _ => ⟨⟨R, hR, sameIdentity_refl R, rfl⟩, rfl⟩, fun h0 => ?_⟩
    omega
  | full r rest total st w h0 h hw ih =>
    simp only [List.map_cons, List.nodup_cons] at hnd
    have hq : (tradeOf symbol st r).quantity = r.remaining_quantity := by
      show min _ _ = _
      omega
    have hidx : (stepState st r).order_lookup = indexErase st.order_lookup r.id := by
      show (if _ then _ else _) = _
      rw [if_pos h]
    intro R hR
    show tradedWith R.id (tradeOf symbol st r :: w.trades) ≤ _ ∧
      (tradedWith R.id (tradeOf symbol st r :: w.trades) < _ →
        (∃ R' ∈ w.orders, SameIdentity R' R ∧ R'.remaining_quantity =
          R.remaining_quantity - tradedWith R.id (tradeOf symbol st r :: w.trades)) ∧
        indexFind w.st.order_lookup R.id = indexFind st.order_lookup R.id) ∧
      (tradedWith R.id (tradeOf symbol st r :: w.trades) = _ →
        (∀ o ∈ w.orders, o.id ≠ R.id) ∧ indexFind w.st.order_lookup R.id = none)
    rw [tradedWith_cons]
    have hmk : (tradeOf symbol st r).maker_order_id = r.id := rfl
    rcases List.mem_cons.mp hR with hR | hR
    · subst hR
      obtain ⟨o1, o2⟩ := levelRun_other hw R.id hnd.1
      rw [hmk, if_pos rfl, hq, o1]
      refine ⟨by omega, fun hlt => by omega, fun _ => ⟨?_, ?_⟩⟩
      · intro o ho heq
        have hsuf := levelRun_ids_suffix hw
        have : o.id ∈ rest.map (fun o => o.id) :=
          hsuf.subset (List.mem_map_of_mem _ ho)
        rw [heq] at this
        exact hnd.1 this
      · rw [o2, hidx]
        exact indexFind_indexErase_self _ _
    · have hne : r.id ≠ R.id := by
        intro heq
        apply hnd.1
        rw [heq]
        exact List.mem_map_of_mem _ hR
      rw [hmk, if_neg hne, Nat.zero_add]
      obtain ⟨i1, i2, i3⟩ := ih (fun o ho => hpos o (List.mem_cons_of_mem _ ho)) hnd.2 R hR
      have hsame : indexFind (stepState st r).order_lookup R.id = indexFind st.order_lookup R.id := by
        rw [hidx]
        exact indexFind_indexErase_other _ _ _ (Ne.symm hne)
      refine ⟨i1, fun hlt => ⟨(i2 hlt).1, ?_⟩, i3⟩
      rw [(i2 hlt).2, hsame]
  | part r rest total st h0 h =>
    simp only [List.map_cons, List.nodup_cons] at hnd
    have hq : (tradeOf symbol st r).quantity = st.remaining_order.remaining_quantity := by
      show min _ _ = _
      omega
    have hidx : (stepState st r).order_lookup = st.order_lookup := by
      show (if _ then _ else _) = _
      rw [if_neg (by omega)]
    have hmk : (tradeOf symbol st r).maker_order_id = r.id := rfl
    intro R hR
    show tradedWith R.id [tradeOf symbol st r] ≤ _ ∧
      (tradedWith R.id [tradeOf symbol st r] < _ →
        (∃ R' ∈ r.filled st.remaining_order.remaining_quantity :: rest, SameIdentity R' R ∧
          R'.remaining_quantity =
            R.remaining_quantity - tradedWith R.id [tradeOf symbol st r]) ∧
        indexFind (stepState st r).order_lookup R.id = indexFind st.order_lookup R.id) ∧
      (tradedWith R.id [tradeOf symbol st r] = _ →
        (∀ o ∈ r.filled st.remaining_order.remaining_quantity :: rest, o.id ≠ R.id) ∧
        indexFind (stepState st r).order_lookup R.id = none)
    rw [tradedWith_cons, tradedWith_nil, Nat.add_zero, hidx]
    rcases List.mem_cons.mp hR with hR | hR
    · subst hR
      rw [hmk, if_pos rfl, hq]
      refine ⟨by omega, fun _ => ⟨⟨_, List.mem_cons_self _ _, sameIdentity_filled R _, rfl⟩, rfl⟩,
        fun heq => by omega⟩
    · have hne : r.id ≠ R.id := by
        intro heq
        apply hnd.1
        rw [heq]
        exact List.mem_map_of_mem _ hR
      have hp := hpos R (List.mem_cons_of_mem _ hR)
      rw [hmk, if_neg hne]
      refine ⟨Nat.zero_le _, fun _ => ⟨⟨R, List.mem_cons_of_mem _ hR, sameIdentity_refl R, rfl⟩,
        rfl⟩, fun heq => by omega⟩


theorem ladderRun_makers {symbol : String} {m : Ladder} {st : MatchState} {r : LadderWalk}
    (h : LadderRun symbol m st r) :
    ∀ t ∈ r.trades, ∃ o ∈ restingOrders m, o.id = t.maker_order_id ∧ t.price = o.price :=
  fills_maker_mem symbol _ _ (restingOrders m) _ r.trades (ladderRun_fills h).1

/-- An id that no order of the side carries is not traded with, and the walk
of the side leaves its index entry alone. -/
theorem ladderRun_other {symbol : String} {m : Ladder} {st : MatchState} {r : LadderWalk}
    (h : LadderRun symbol m st r) (id : Nat)
    (hid : id ∉ (restingOrders m).map (fun o => o.id)) :
    tradedWith id r.trades = 0 ∧
    indexFind r.st.order_lookup id = indexFind st.order_lookup id := by
  refine ⟨tradedWith_zero id _ ?_, ?_⟩
  · intro t ht hm
    obtain ⟨o, ho, h1, _⟩ := ladderRun_makers h t ht
    exact hid (List.mem_map.mpr ⟨o, ho, h1.trans hm⟩)
  · induction h with
    | done => rfl
    | empty => rfl
    | reject => rfl
    | sweep k best rest st w r h0 h hw he hr ih =>
      have hsplit : id ∉ best.orders.map (fun o => o.id) ∧
          id ∉ (restingOrders rest).map (fun o => o.id) := by
        have : (restingOrders ((k, best) :: rest)).map (fun o => o.id) =
            best.orders.map (fun o => o.id) ++ (restingOrders rest).map (fun o => o.id) := by
          show (best.orders ++ restingOrders rest).map (fun o => o.id) = _
          rw [List.map_append]
        rw [this, List.mem_append, not_or] at hid
        exact hid
      rw [ih hsplit.2]
      exact (levelRun_other hw id hsplit.1).2
    | stay k best rest st w h0 h hw hne =>
      have hsplit : id ∉ best.orders.map (fun o => o.id) := by
        intro hmem
        apply hid
        show id ∈ (best.orders ++ restingOrders rest).map (fun o => o.id)
        rw [List.map_append]
        exact List.mem_append_left _ hmem
      exact (levelRun_other hw id hsplit).2

theorem mapFind_of_mem (side : Side) (m : Ladder) (e : Int × PriceLevel)
    (hs : (m.map Prod.fst).Pairwise (fun a b => keyBefore side a b = true)) (he : e ∈ m) :
    mapFind m e.1 = some e.2 := by
  obtain ⟨A, B, hAB⟩ := List.append_of_mem he
  rw [hAB] at hs ⊢
  exact mapFind_append_cons A B e.1 e.2 (key_not_mem_left side A B e.1 e.2 hs)

theorem ladderWF_tail (sym : String) (side : Side) (e : Int × PriceLevel) (rest : Ladder)
    (h : LadderWF sym side (e :: rest)) : LadderWF sym side rest := by
  obtain ⟨hs, hl⟩ := h
  simp only [List.map_cons, List.pairwise_cons] at hs
  exact ⟨hs.2, fun x hx => hl x (List.mem_cons_of_mem _ hx)⟩

theorem ladderWF_head_key (sym : String) (side : Side) (k : Int) (best : PriceLevel)
    (rest : Ladder) (h : LadderWF sym side ((k, best) :: rest)) :
    ∀ e ∈ rest, e.1 ≠ k := by
  intro e he heq
  have hs := h.1
  simp only [List.map_cons, List.pairwise_cons] at hs
  have := hs.1 e.1 (List.mem_map_of_mem _ he)
  rw [heq] at this
  exact keyBefore_irrefl side k this

theorem restingIds_cons (k : Int) (best : PriceLevel) (rest : Ladder) :
    (restingOrders ((k, best) :: rest)).map (fun o => o.id) =
      best.orders.map (fun o => o.id) ++ (restingOrders rest).map (fun o => o.id) := by
  show (best.orders ++ restingOrders rest).map (fun o => o.id) = _
  rw [List.map_append]

/-- What the walk of a side does to one of its orders R, resting in the level
under key `e.1`: what is traded with R does not exceed its remainder; if
something is left of R, it is still queued in the level under that key, with
that remainder, and its index entry is untouched; if nothing is left, no
order of the side carries its id any more and the index has no entry for it. -/
theorem ladderRun_account {symbol : String} {m : Ladder} {st : MatchState} {r : LadderWalk}
    (h : LadderRun symbol m st r) (sym : String) (side : Side) (hwf : LadderWF sym side m)
    (hnd : ((restingOrders m).map (fun o => o.id)).Nodup) :
    ∀ e ∈ m, ∀ R ∈ e.2.orders,
      tradedWith R.id r.trades ≤ R.remaining_quantity ∧
      (tradedWith R.id r.trades < R.remaining_quantity →
        (∃ l', mapFind r.ladder e.1 = some l' ∧ ∃ R' ∈ l'.orders, SameIdentity R' R ∧
          R'.remaining_quantity = R.remaining_quantity - tradedWith R.id r.trades) ∧
        indexFind r.st.order_lookup R.id = indexFind st.order_lookup R.id) ∧
      (tradedWith R.id r.trades = R.remaining_quantity →
        (∀ o ∈ restingOrders r.ladder, o.id ≠ R.id) ∧
        indexFind r.st.order_lookup R.id = none) := by
  have hstill : ∀ (m : Ladder), LadderWF sym side m → ∀ e ∈ m, ∀ R ∈ e.2.orders,
      ∀ idx : Index,
      tradedWith R.id [] ≤ R.remaining_quantity ∧
      (tradedWith R.id [] < R.remaining_quantity →
        (∃ l', mapFind m e.1 = some l' ∧ ∃ R' ∈ l'.orders, SameIdentity R' R ∧
          R'.remaining_quantity = R.remaining_quantity - tradedWith R.id []) ∧
        indexFind idx R.id = indexFind idx R.id) ∧
      (tradedWith R.id [] = R.remaining_quantity →
        (∀ o ∈ restingOrders m, o.id ≠ R.id) ∧ indexFind idx R.id = none) := by
    intro m hwf e he R hR idx
    have hp : 0 < R.remaining_quantity := ((hwf.2 e he).2.2.2.2 R hR).2.2.2.1
    rw [tradedWith_nil]
    refine ⟨Nat.zero_le _, fun _ => ⟨⟨e.2, mapFind_of_mem side m e hwf.1 he, R, hR,
      sameIdentity_refl R, rfl⟩, rfl⟩, fun h0 => by omega⟩
  induction h with
  | done m st h => exact fun e he R hR => hstill m hwf e he R hR st.order_lookup
  | empty st h0 => exact fun e he R hR => hstill [] hwf e he R hR st.order_lookup
  | reject k best rest st h0 h =>
    exact fun e he R hR => hstill _ hwf e he R hR st.order_lookup
  | sweep k best rest st w r h0 h hw he hr ih =>
    rw [restingIds_cons, List.nodup_append] at hnd
    obtain ⟨nd1, nd2, nd3⟩ := hnd
    have hbest := hwf.2 (k, best) (List.mem_cons_self _ _)
    have hpos : ∀ o ∈ best.orders, 0 < o.remaining_quantity :=
      fun o ho => (hbest.2.2.2.2 o ho).2.2.2.1
    have ih' := ih (ladderWF_tail sym side _ rest hwf) nd2
    intro e hmem R hR
    show tradedWith R.id (w.trades ++ r.trades) ≤ _ ∧
      (tradedWith R.id (w.trades ++ r.trades) < _ →
        (∃ l', mapFind r.ladder e.1 = some l' ∧ ∃ R' ∈ l'.orders, SameIdentity R' R ∧
          R'.remaining_quantity =
            R.remaining_quantity - tradedWith R.id (w.trades ++ r.trades)) ∧
        indexFind r.st.order_lookup R.id = indexFind st.order_lookup R.id) ∧
      (tradedWith R.id (w.trades ++ r.trades) = _ →
        (∀ o ∈ restingOrders r.ladder, o.id ≠ R.id) ∧ indexFind r.st.order_lookup R.id = none)
    rw [tradedWith_append]
    rcases List.mem_cons.mp hmem with hmem | hmem
    · subst hmem
      have hRid : R.id ∈ best.orders.map (fun o => o.id) := List.mem_map_of_mem _ hR
      have hnot : R.id ∉ (restingOrders rest).map (fun o => o.id) := fun hm => nd3 hRid hm
      obtain ⟨o1, o2⟩ := ladderRun_other hr R.id hnot
      obtain ⟨a1, a2, a3⟩ := levelRun_account hw hpos nd1 R hR
      rw [o1, Nat.add_zero]
      have hfull : tradedWith R.id w.trades = R.remaining_quantity := by
        rcases Nat.lt_or_ge (tradedWith R.id w.trades) R.remaining_quantity with hlt | hge
        · obtain ⟨⟨R', hR', _⟩, _⟩ := a2 hlt
          rw [he] at hR'
          exact absurd hR' (List.not_mem_nil _)
        · omega
      refine ⟨a1, fun hlt => by omega, fun _ => ⟨?_, ?_⟩⟩
      · intro o ho heq
        have hsuf := ladderRun_ids_suffix hr
        have : o.id ∈ (restingOrders rest).map (fun o => o.id) :=
          hsuf.subset (List.mem_map_of_mem _ ho)
        rw [heq] at this
        exact hnot this
      · rw [o2]
        exact (a3 hfull).2
    · have hRid : R.id ∈ (restingOrders rest).map (fun o => o.id) :=
        List.mem_map_of_mem _ ((mem_restingOrders rest R).mpr ⟨e, hmem, hR⟩)
      have hnot : R.id ∉ best.orders.map (fun o => o.id) := fun hm => nd3 hm hRid
      obtain ⟨o1, o2⟩ := levelRun_other hw R.id hnot
      obtain ⟨i1, i2, i3⟩ := ih' e hmem R hR
      rw [o1, Nat.zero_add]
      refine ⟨i1, fun hlt => ⟨(i2 hlt).1, ?_⟩, i3⟩
      rw [(i2 hlt).2, o2]
  | stay k best rest st w h0 h hw hne =>
    rw [restingIds_cons, List.nodup_append] at hnd
    obtain ⟨nd1, nd2, nd3⟩ := hnd
    have hbest := hwf.2 (k, best) (List.mem_cons_self _ _)
    have hpos : ∀ o ∈ best.orders, 0 < o.remaining_quantity :=
      fun o ho => (hbest.2.2.2.2 o ho).2.2.2.1
    intro e hmem R hR
    show tradedWith R.id w.trades ≤ _ ∧
      (tradedWith R.id w.trades < _ →
        (∃ l', mapFind ((k, PriceLevel.mk best.price w.total_quantity w.orders) :: rest) e.1
            = some l' ∧ ∃ R' ∈ l'.orders, SameIdentity R' R ∧
          R'.remaining_quantity = R.remaining_quantity - tradedWith R.id w.trades) ∧
        indexFind w.st.order_lookup R.id = indexFind st.order_lookup R.id) ∧
      (tradedWith R.id w.trades = _ →
        (∀ o ∈ w.orders ++ restingOrders rest, o.id ≠ R.id) ∧
        indexFind w.st.order_lookup R.id = none)
    rcases List.mem_cons.mp hmem with hmem | hmem
    · subst hmem
      have hRid : R.id ∈ best.orders.map (fun o => o.id) := List.mem_map_of_mem _ hR
      obtain ⟨a1, a2, a3⟩ := levelRun_account hw hpos nd1 R hR
      refine ⟨a1, fun hlt => ⟨⟨PriceLevel.mk best.price w.total_quantity w.orders,
        by simp [mapFind], (a2 hlt).1⟩, (a2 hlt).2⟩, fun heq => ⟨?_, (a3 heq).2⟩⟩
      intro o ho
      rcases List.mem_append.mp ho with ho | ho
      · exact (a3 heq).1 o ho
      · intro hid
        apply nd3 hRid
        rw [← hid]
        exact List.mem_map_of_mem _ ho
    · have hRid : R.id ∈ (restingOrders rest).map (fun o => o.id) :=
        List.mem_map_of_mem _ ((mem_restingOrders rest R).mpr ⟨e, hmem, hR⟩)
      have hnot : R.id ∉ best.orders.map (fun o => o.id) := fun hm => nd3 hm hRid
      obtain ⟨o1, o2⟩ := levelRun_other hw R.id hnot
      have hp : 0 < R.remaining_quantity :=
        ((hwf.2 e (List.mem_cons_of_mem _ hmem)).2.2.2.2 R hR).2.2.2.1
      have hk : e.1 ≠ k := ladderWF_head_key sym side k best rest hwf e hmem
      rw [o1]
      refine ⟨Nat.zero_le _, fun _ => ⟨⟨e.2, ?_, R, hR, sameIdentity_refl R, rfl⟩, o2⟩,
        fun heq => by omega⟩
      rw [mapFind, if_neg (Ne.symm hk)]
      exact mapFind_of_mem side rest e (ladderWF_tail sym side _ rest hwf).1 hmem


theorem sumRemaining_pos (orders : List Order) (hne : orders ≠ [])
    (hpos : ∀ o ∈ orders, 0 < o.remaining_quantity) : 0 < sumRemaining orders := by
  cases orders with
  | nil => exact absurd rfl hne
  | cons a rest =>
    rw [sumRemaining_cons]
    have := hpos a (List.mem_cons_self _ _)
    omega

/-- On a queue whose cached total is exact, the walk keeps it exact and takes
from it what it trades. -/
theorem levelRun_exact {symbol : String} {orders : List Order} {total : Nat}
    {st : MatchState} {w : LevelWalk} (h : LevelRun symbol orders total st w)
    (ht : total = sumRemaining orders) (hlt : total < U64_MOD)
    (hpos : ∀ o ∈ orders, 0 < o.remaining_quantity) :
    w.total_quantity = sumRemaining w.orders ∧
    w.total_quantity + sumQuantity w.trades = total ∧
    ∀ o ∈ w.orders, 0 < o.remaining_quantity := by
  have hk := levelRun_kept h (fun o => 0 < o.remaining_quantity)
    (fun o q hPo hq => by
      show 0 < o.remaining_quantity - q
      omega)
    (by rw [ht, Nat.mod_eq_of_lt (by omega)]) hpos
  have hv := levelRun_volume h
  have h1 : w.total_quantity = sumRemaining w.orders := by
    rw [hk.1]
    exact Nat.mod_eq_of_lt (by omega)
  exact ⟨h1, by omega, hk.2⟩

/-- What the walk of a side does to the level under a key: if the level is
still there, its cached total went down by what was traded at its price and
is the sum of its orders' remainders, which is positive; if the level is gone,
all of its total was traded at its price. -/
theorem ladderRun_level_total {symbol : String} {m : Ladder} {st : MatchState}
    {r : LadderWalk} (h : LadderRun symbol m st r) (sym : String) (side : Side)
    (hwf : LadderWF sym side m) :
    ∀ e ∈ m,
      (∀ l', mapFind r.ladder e.1 = some l' →
        l'.total_quantity + tradedAt e.1 r.trades = e.2.total_quantity ∧
        l'.total_quantity = sumRemaining l'.orders ∧ 0 < l'.total_quantity) ∧
      (mapFind r.ladder e.1 = none → tradedAt e.1 r.trades = e.2.total_quantity) := by
  have hstill : ∀ (m : Ladder), LadderWF sym side m → ∀ e ∈ m,
      (∀ l', mapFind m e.1 = some l' →
        l'.total_quantity + tradedAt e.1 [] = e.2.total_quantity ∧
        l'.total_quantity = sumRemaining l'.orders ∧ 0 < l'.total_quantity) ∧
      (mapFind m e.1 = none → tradedAt e.1 [] = e.2.total_quantity) := by
    intro m hwf e he
    have hfind := mapFind_of_mem side m e hwf.1 he
    obtain ⟨_, hne, htot, _, hord⟩ := hwf.2 e he
    refine ⟨fun l' hl' => ?_, fun hn => ?_⟩
    · rw [hfind] at hl'
      injection hl' with hl'
      subst hl'
      refine ⟨by rw [tradedAt_nil]; rfl, htot, ?_⟩
      rw [htot]
      exact sumRemaining_pos _ hne (fun o ho => (hord o ho).2.2.2.1)
    · rw [hfind] at hn
      exact absurd hn (by simp)
  induction h with
  | done m st h => exact hstill m hwf
  | empty st h0 => exact hstill [] hwf
  | reject k best rest st h0 h => exact hstill _ hwf
  | sweep k best rest st w r h0 h hw he hr ih =>
    obtain ⟨hbp, hbne, hbtot, hblt, hbord⟩ := hwf.2 (k, best) (List.mem_cons_self _ _)
    have hpos : ∀ o ∈ best.orders, 0 < o.remaining_quantity :=
      fun o ho => (hbord o ho).2.2.2.1
    have hwf' := ladderWF_tail sym side _ rest hwf
    have hkey := ladderWF_head_key sym side k best rest hwf
    obtain ⟨x1, x2, _⟩ := levelRun_exact hw hbtot hblt hpos
    have hwp : ∀ t ∈ w.trades, t.price = k := by
      intro t ht
      obtain ⟨o, ho, _, hp⟩ := levelRun_makers hw t ht
      rw [hp]
      exact (hbord o ho).1
    have hrp : ∀ t ∈ r.trades, ∃ e ∈ rest, t.price = e.1 := by
      intro t ht
      obtain ⟨o, ho, _, hp⟩ := ladderRun_makers hr t ht
      obtain ⟨e, he1, he2⟩ := (mem_restingOrders rest o).mp ho
      exact ⟨e, he1, by rw [hp]; exact ((hwf'.2 e he1).2.2.2.2 o he2).1⟩
    intro e hmem
    show (∀ l', mapFind r.ladder e.1 = some l' →
        l'.total_quantity + tradedAt e.1 (w.trades ++ r.trades) = e.2.total_quantity ∧
        l'.total_quantity = sumRemaining l'.orders ∧ 0 < l'.total_quantity) ∧
      (mapFind r.ladder e.1 = none →
        tradedAt e.1 (w.trades ++ r.trades) = e.2.total_quantity)
    rw [tradedAt_append]
    rcases List.mem_cons.mp hmem with hmem | hmem
    · subst hmem
      have hnone : mapFind r.ladder k = none := by
        apply mapFind_none_of_not_mem
        intro hk
        have hk' := (ladderRun_keys_suffix hr).subset hk
        obtain ⟨e, he1, he2⟩ := List.mem_map.mp hk'
        exact hkey e he1 he2
      have hz : tradedAt k r.trades = 0 := by
        apply tradedAt_zero
        intro t ht heq
        obtain ⟨e, he1, he2⟩ := hrp t ht
        exact hkey e he1 (by rw [← he2, heq])
      refine ⟨fun l' hl' => ?_, fun _ => ?_⟩
      · rw [hnone] at hl'
        exact absurd hl' (by simp)
      · show tradedAt k w.trades + tradedAt k r.trades = best.total_quantity
        rw [hz, tradedAt_all k _ hwp]
        rw [he] at x1
        simp only [sumRemaining, List.map_nil, List.sum_nil] at x1
        omega
    · have hz : tradedAt e.1 w.trades = 0 := by
        apply tradedAt_zero
        intro t ht heq
        exact hkey e hmem (by rw [← heq, hwp t ht])
      rw [hz, Nat.zero_add]
      exact ih hwf' e hmem
  | stay k best rest st w h0 h hw hne =>
    obtain ⟨hbp, hbne, hbtot, hblt, hbord⟩ := hwf.2 (k, best) (List.mem_cons_self _ _)
    have hpos : ∀ o ∈ best.orders, 0 < o.remaining_quantity :=
      fun o ho => (hbord o ho).2.2.2.1
    have hwf' := ladderWF_tail sym side _ rest hwf
    have hkey := ladderWF_head_key sym side k best rest hwf
    obtain ⟨x1, x2, x3⟩ := levelRun_exact hw hbtot hblt hpos
    have hwp : ∀ t ∈ w.trades, t.price = k := by
      intro t ht
      obtain ⟨o, ho, _, hp⟩ := levelRun_makers hw t ht
      rw [hp]
      exact (hbord o ho).1
    intro e hmem
    show (∀ l', mapFind ((k, PriceLevel.mk best.price w.total_quantity w.orders) :: rest) e.1
          = some l' →
        l'.total_quantity + tradedAt e.1 w.trades = e.2.total_quantity ∧
        l'.total_quantity = sumRemaining l'.orders ∧ 0 < l'.total_quantity) ∧
      (mapFind ((k, PriceLevel.mk best.price w.total_quantity w.orders) :: rest) e.1 = none →
        tradedAt e.1 w.trades = e.2.total_quantity)
    rcases List.mem_cons.mp hmem with hmem | hmem
    · subst hmem
      have hfind : mapFind ((k, PriceLevel.mk best.price w.total_quantity w.orders) :: rest) k
          = some (PriceLevel.mk best.price w.total_quantity w.orders) := by
        simp [mapFind]
      refine ⟨fun l' hl' => ?_, fun hn => ?_⟩
      · rw [hfind] at hl'
        injection hl' with hl'
        subst hl'
        refine ⟨?_, x1, ?_⟩
        · show w.total_quantity + tradedAt k w.trades = best.total_quantity
          rw [tradedAt_all k _ hwp]
          exact x2
        · show 0 < w.total_quantity
          rw [x1]
          exact sumRemaining_pos _ hne x3
      · rw [hfind] at hn
        exact absurd hn (by simp)
    · have hz : tradedAt e.1 w.trades = 0 := by
        apply tradedAt_zero
        intro t ht heq
        exact hkey e hmem (by rw [← heq, hwp t ht])
      have hk : e.1 ≠ k := hkey e hmem
      have hfind : mapFind ((k, PriceLevel.mk best.price w.total_quantity w.orders) :: rest) e.1
          = some e.2 := by
        rw [mapFind, if_neg (Ne.symm hk)]
        exact mapFind_of_mem side rest e hwf'.1 hmem
      obtain ⟨_, hne', htot', _, hord'⟩ := hwf'.2 e hmem
      rw [hz]
      refine ⟨fun l' hl' => ?_, fun hn => ?_⟩
      · rw [hfind] at hl'
        injection hl' with hl'
        subst hl'
        refine ⟨rfl, htot', ?_⟩
        rw [htot']
        exact sumRemaining_pos _ hne' (fun o ho => (hord' o ho).2.2.2.1)
      · rw [hfind] at hn
        exact absurd hn (by simp)


/-- The index `addOrder` leaves, away from the id of the incoming order: the
index the walk of the opposite side leaves. -/
theorem addOrder_index_other (b : OrderBook) (order : Order) (hsym : order.symbol = b.symbol)
    (id : Nat) (hid : order.id ≠ id) :
    indexFind (addOrder b order).book.order_lookup id =
      if order.type = OrderType.LIMIT ∨ order.type = OrderType.MARKET
      then indexFind (walkOf b order).st.order_lookup id
      else indexFind b.order_lookup id := by
  rw [addOrder_book b order hsym]
  by_cases hl : order.type = OrderType.LIMIT
  · simp only [hl, true_or, if_true]
    split
    · rw [queueOrder_order_lookup, indexFind_indexSet_other _ _ _ _ (Ne.symm hid),
        afterMatch_order_lookup]
    · rw [afterMatch_order_lookup]
  · rw [if_neg hl]
    by_cases hm : order.type = OrderType.MARKET
    · rw [if_pos hm, if_pos (Or.inr hm), afterMatch_order_lookup]
    · rw [if_neg hm, if_neg (by tauto)]

/-! ## C25: what `addOrder` takes from each resting order -/

/-- C25 (amended): on a well-formed book with a consistent index (resting ids
pairwise different), let R rest on the side opposite to the incoming order O,
in the level `l` under key `k`, and let `addOrder(O)` return `trades`. What
the trades take from R (the quantities of the trades whose maker is R.id) does
not exceed R's remainder. If something is left of R, R is still queued in the
level under `k` with its remainder reduced by exactly that amount; if nothing
is left, no order of that side carries R's id any more. The index entry of
R.id is kept in the first case and erased in the second, provided O does not
carry R's id. The level under `k`, if it is still there, has its total reduced
by what was traded at its price (the trades against its orders) and caches
the sum of its orders' remainders; it is gone exactly when all of its total
was traded. -/
theorem maker_accounting (b : OrderBook) (O : Order) (X Y : Ladder) (k : Int) (l : PriceLevel)
    (pre post : List Order) (R : Order) (trades : List Trade)
    (hwf : WellFormed b) (hidx : IndexConsistent b)
    (hside : b.side O.side.opposite = X ++ (k, l) :: Y)
    (hq : l.orders = pre ++ R :: post)
    (hres : (addOrder b O).result = Except.ok trades) :
    tradedWith R.id trades ≤ R.remaining_quantity ∧
    (tradedWith R.id trades < R.remaining_quantity →
      (∃ l' R', mapFind ((addOrder b O).book.side O.side.opposite) k = some l' ∧
        R' ∈ l'.orders ∧ SameIdentity R' R ∧
        R'.remaining_quantity = R.remaining_quantity - tradedWith R.id trades) ∧
      (O.id ≠ R.id →
        indexFind (addOrder b O).book.order_lookup R.id = some (O.side.opposite, k))) ∧
    (tradedWith R.id trades = R.remaining_quantity →
      (∀ o ∈ restingOrders ((addOrder b O).book.side O.side.opposite), o.id ≠ R.id) ∧
      (O.id ≠ R.id → indexFind (addOrder b O).book.order_lookup R.id = none)) ∧
    (∀ l', mapFind ((addOrder b O).book.side O.side.opposite) k = some l' →
      l'.total_quantity + tradedAt k trades = l.total_quantity ∧
      l'.total_quantity = sumRemaining l'.orders) ∧
    (mapFind ((addOrder b O).book.side O.side.opposite) k = none ↔
      tradedAt k trades = l.total_quantity) := by
  have hsym := symbol_of_addOrder_ok b O trades hres
  rw [addOrder_result b O hsym] at hres
  injection hres with hres
  have hlw := wellFormed_side b hwf O.side.opposite
  have hnd := uniqueIds_side b hidx.1 O.side.opposite
  have hmem : (k, l) ∈ b.side O.side.opposite := by rw [hside]; simp
  have hRl : R ∈ l.orders := by rw [hq]; simp
  have hloc := (locate_resting b O.side.opposite X Y k l pre post R hwf hidx hside hq).1
  have key : ∃ (st : MatchState) (r : LadderWalk),
      LadderRun b.symbol (b.side O.side.opposite) st r ∧ st.order_lookup = b.order_lookup ∧
      trades = r.trades ∧ (addOrder b O).book.side O.side.opposite = r.ladder ∧
      (O.id ≠ R.id →
        indexFind (addOrder b O).book.order_lookup R.id = indexFind r.st.order_lookup R.id) := by
    by_cases hty : O.type = OrderType.LIMIT ∨ O.type = OrderType.MARKET
    · refine ⟨_, _, walkOf_run b O, rfl, ?_, ?_, ?_⟩
      · rw [← hres, if_pos hty]
      · rw [addOrder_side_opposite b O hsym, if_pos hty]
      · intro hne
        rw [addOrder_index_other b O hsym R.id hne, if_pos hty]
    · refine ⟨MatchState.mk { O with remaining_quantity := 0 } b.next_trade_id b.order_lookup,
        _, LadderRun.done _ _ rfl, rfl, ?_, ?_, ?_⟩
      · rw [← hres, if_neg hty]
      · rw [addOrder_side_opposite b O hsym, if_neg hty]
      · intro hne
        rw [addOrder_index_other b O hsym R.id hne, if_neg hty]
  obtain ⟨st, r, hrun, hst, htr, hlad, hix⟩ := key
  obtain ⟨a1, a2, a3⟩ := ladderRun_account hrun b.symbol _ hlw hnd (k, l) hmem R hRl
  obtain ⟨t1, t2⟩ := ladderRun_level_total hrun b.symbol _ hlw (k, l) hmem
  rw [htr, hlad]
  refine ⟨a1, fun hlt => ⟨?_, fun hne => ?_⟩, fun heq => ⟨(a3 heq).1, fun hne => ?_⟩,
    fun l' hl' => ⟨(t1 l' hl').1, (t1 l' hl').2.1⟩, ⟨t2, fun hall => ?_⟩⟩
  · obtain ⟨⟨l', hl', R', hR', hs, hr'⟩, _⟩ := a2 hlt
    exact ⟨l', R', hl', hR', hs, hr'⟩
  · rw [hix hne, (a2 hlt).2, hst]
    exact hloc
  · rw [hix hne]
    exact (a3 heq).2
  · cases hfind : mapFind r.ladder k with
    | none => rfl
    | some l' =>
      have := t1 l' hfind
      have h1 : l'.total_quantity + tradedAt k r.trades = l.total_quantity := this.1
      have h2 : tradedAt k r.trades = l.total_quantity := hall
      omega

theorem maker_accounting_witness :
    WellFormed s4_book ∧ IndexConsistent s4_book ∧
    (addOrder s4_book s4_buy).result = Except.ok (walkOf s4_book s4_buy).trades ∧
    tradedWith s4_last_sell.id (walkOf s4_book s4_buy).trades = 10 ∧
    tradedAt 15010 (walkOf s4_book s4_buy).trades = 10 ∧
    (addOrder s4_book s4_buy).book.side s4_buy.side.opposite =
      [(15010, { price := 15010, total_quantity := 10,
                 orders := [s4_last_sell.filled 10] })] ∧
    tradedWith s4_last_sell.id (walkOf s4_book s4_buy).trades ≤
      s4_last_sell.remaining_quantity :=
  ⟨by decide, by decide, rfl, by decide, by decide, by decide,
   (maker_accounting s4_book s4_buy
      [(15000, { price := 15000, total_quantity := 20,
                 orders := [Order.new 1 "AAPL" 15000 20 Side.SELL OrderType.LIMIT 1] }),
       (15005, { price := 15005, total_quantity := 20,
                 orders := [Order.new 2 "AAPL" 15005 20 Side.SELL OrderType.LIMIT 2] })]
      [] 15010 { price := 15010, total_quantity := 20, orders := [s4_last_sell] } [] []
      s4_last_sell (walkOf s4_book s4_buy).trades (by decide) (by decide) (by decide) rfl rfl).1⟩

/-- C25 (counterexample): a sell of 10 at 100 rests under id 1 on a
well-formed book with a consistent index. A buy of 20 at 100 that also
carries id 1 takes all of it: the sell's remainder reaches 0 and the sell is
gone from its side, yet the index has an entry under id 1, the one written for
the buy. A buy of 5 at 90 under id 1 trades with nothing: the sell rests with
its 10, yet the index entry under id 1 no longer leads to it. -/
theorem maker_index_with_reused_id :
    WellFormed same_id_book ∧ IndexConsistent same_id_book ∧
    same_id_book.side same_id_taker.side.opposite =
      [(100, { price := 100, total_quantity := 10, orders := [same_id_sell] })] ∧
    indexFind same_id_book.order_lookup same_id_sell.id = some (Side.SELL, 100) ∧
    ((addOrder same_id_book same_id_taker).result.toOption.map
      (fun trades => tradedWith same_id_sell.id trades)) = some 10 ∧
    (addOrder same_id_book same_id_taker).book.side Side.SELL = [] ∧
    indexFind (addOrder same_id_book same_id_taker).book.order_lookup same_id_sell.id =
      some (Side.BUY, 100) ∧
    (addOrder same_id_book same_id_passive).result = Except.ok [] ∧
    (addOrder same_id_book same_id_passive).book.side Side.SELL =
      [(100, { price := 100, total_quantity := 10, orders := [same_id_sell] })] ∧
    indexFind (addOrder same_id_book same_id_passive).book.order_lookup same_id_sell.id =
      some (Side.BUY, 90) := by
  refine ⟨by decide, by decide, by decide, by decide, rfl, by decide, by decide, rfl,
    by decide, by decide⟩

/-! ## C31: order types that are not matched -/

/-- C31: for every book and every order of the book's symbol whose type is
STOP, STOP_LIMIT, IOC or FOK, `addOrder` returns an empty trade list, fires no
callback and leaves the book (both ladders, the index, the trade counter) as
it was, whatever the order's price and quantity. -/
theorem addOrder_unmatched_types (b : OrderBook) (order : Order)
    (hsym : order.symbol = b.symbol)
    (hty : order.type = OrderType.STOP ∨ order.type = OrderType.STOP_LIMIT ∨
      order.type = OrderType.IOC ∨ order.type = OrderType.FOK) :
    (addOrder b order).result = Except.ok [] ∧ (addOrder b order).book = b ∧
    (addOrder b order).events = [] := by
  have h1 : ¬ (order.type = OrderType.LIMIT ∨ order.type = OrderType.MARKET) := by
    rcases hty with h | h | h | h <;> rw [h] <;> simp
  have h2 : ¬ order.type = OrderType.LIMIT := fun h => h1 (Or.inl h)
  have h3 : ¬ order.type = OrderType.MARKET := fun h => h1 (Or.inr h)
  refine ⟨?_, ?_, ?_⟩
  · rw [addOrder_result b order hsym, if_neg h1]
  · rw [addOrder_book b order hsym, if_neg h2, if_neg h3]
  · rw [addOrder_events b order hsym, if_neg h1, if_neg (fun h => h2 h.1)]
    rfl

theorem addOrder_unmatched_types_witness :
    s4_stop_buy.symbol = s4_book.symbol ∧ s4_stop_buy.type = OrderType.STOP ∧
    (addOrder s4_book s4_stop_buy).result = Except.ok [] ∧
    (addOrder s4_book s4_stop_buy).book = s4_book ∧
    (addOrder s4_book s4_stop_buy).events = [] :=
  ⟨rfl, rfl, addOrder_unmatched_types s4_book s4_stop_buy rfl (Or.inl rfl)⟩

/-! ## Orders reached from the constructor -/

theorem fill_status (o o' : Order) (n : Nat) (h : o.fill n = Except.ok o') :
    n ≤ o.remaining_quantity ∧ o' = o.filled n := by
  by_cases hn : n ≤ o.remaining_quantity
  · rw [fill_ok o n hn] at h
    exact ⟨hn, (Except.ok.inj h).symm⟩
  · unfold Order.fill at h
    rw [if_pos (by omega)] at h
    exact absurd h (by simp)

theorem calls_append (o : Order) (a c : List OrderCall) :
    o.calls (a ++ c) =
      match o.calls a with
      | Except.ok o' => o'.calls c
      | Except.error e => Except.error e := by
  induction a generalizing o with
  | nil => rfl
  | cons x rest ih =>
    show (match o.call x with
      | Except.ok o' => o'.calls (rest ++ c)
      | Except.error e => Except.error e) = _
    cases hx : o.call x with
    | error e => simp [Order.calls, hx]
    | ok o1 => simp [Order.calls, hx, ih]

/-- A property that the constructed order has and that every returning call
keeps holds after every sequence of returning calls. -/
theorem calls_invariant (P : Order → Prop) (allowed : OrderCall → Bool)
    (hstep : ∀ o c o', P o → allowed c = true → o.call c = Except.ok o' → P o')
    (o : Order) (calls : List OrderCall) (o' : Order) (h0 : P o)
    (hall : calls.all allowed = true) (h : o.calls calls = Except.ok o') : P o' := by
  induction calls generalizing o with
  | nil =>
    have : o = o' := Except.ok.inj h
    rw [← this]; exact h0
  | cons c rest ih =>
    simp only [List.all_cons, Bool.and_eq_true] at hall
    cases hc : o.call c with
    | error e =>
      simp only [Order.calls, hc] at h
      exact absurd h (by simp)
    | ok o1 =>
      simp only [Order.calls, hc] at h
      exact ih o1 (hstep o c o1 h0 hall.1 hc) hall.2 h

/-- After a returning `fill` or `cancel` on an order whose status is FILLED
only if nothing remains, the remaining quantity is 0 exactly when the status
is FILLED, CANCELED or EXPIRED. -/
theorem call_settles (o : Order) (c : OrderCall) (o' : Order)
    (hJ : o.status = OrderStatus.FILLED → o.remaining_quantity = 0)
    (hc : c.isFillOrCancel = true) (h : o.call c = Except.ok o') :
    (o'.remaining_quantity = 0 ↔
      (o'.status = OrderStatus.FILLED ∨ o'.status = OrderStatus.CANCELED ∨
       o'.status = OrderStatus.EXPIRED)) := by
  cases c with
  | fill n =>
    obtain ⟨hn, ho⟩ := fill_status o o' n h
    have hs : (o.filled n).status = (if o.remaining_quantity - n = 0 then OrderStatus.FILLED
        else OrderStatus.PARTIALLY_FILLED) := rfl
    have hr : (o.filled n).remaining_quantity = o.remaining_quantity - n := rfl
    rw [ho, hr, hs]
    by_cases h0 : o.remaining_quantity - n = 0
    · simp [h0]
    · simp [h0]
  | cancel =>
    have ho : o' = o.cancel := (Except.ok.inj h).symm
    rw [ho]
    unfold Order.cancel
    by_cases hf : o.status = OrderStatus.FILLED
    · rw [if_neg (by simpa using hf)]
      simp [hf, hJ hf]
    · rw [if_pos hf]
      simp
  | setQuantity q => exact absurd hc (by simp [OrderCall.isFillOrCancel])


theorem calls_last (o : Order) (init : List OrderCall) (c : OrderCall) (o' : Order)
    (h : o.calls (init ++ [c]) = Except.ok o') :
    ∃ o1, o.calls init = Except.ok o1 ∧ o1.call c = Except.ok o' := by
  rw [calls_append] at h
  cases h1 : o.calls init with
  | error e =>
    rw [h1] at h
    exact absurd h (by simp)
  | ok o1 =>
    rw [h1] at h
    refine ⟨o1, rfl, ?_⟩
    cases h2 : o1.call c with
    | error e =>
      simp only [Order.calls, h2] at h
      exact absurd h (by simp)
    | ok o2 =>
      simp only [Order.calls, h2] at h
      rw [h]

theorem filled_means_nothing_left (o : Order) (calls : List OrderCall) (o' : Order)
    (h0 : o.status = OrderStatus.FILLED → o.remaining_quantity = 0)
    (hall : calls.all OrderCall.isFillOrCancel = true) (h : o.calls calls = Except.ok o') :
    o'.status = OrderStatus.FILLED → o'.remaining_quantity = 0 :=
  calls_invariant (fun x => x.status = OrderStatus.FILLED → x.remaining_quantity = 0)
    OrderCall.isFillOrCancel
    (fun x c x' hx hc hcall hf => (call_settles x c x' hx hc hcall).mpr (Or.inl hf))
    o calls o' h0 hall h

/-! ## C33: nothing remaining and the status -/

/-- C33 (amended): for every order obtained from the constructor by a sequence
of returning `fill` and `cancel` calls, the remaining quantity is 0 exactly
when the status is FILLED, CANCELED or EXPIRED, provided the order was
constructed with a positive quantity or at least one call was made. -/
theorem remaining_zero_iff_closed (id : Nat) (symbol : String) (price : Int) (quantity : Nat)
    (side : Side) (type : OrderType) (timestamp : Int) (calls : List OrderCall) (o : Order)
    (hall : calls.all OrderCall.isFillOrCancel = true)
    (h : (Order.new id symbol price quantity side type timestamp).calls calls = Except.ok o)
    (hq : 0 < quantity ∨ calls ≠ []) :
    (o.remaining_quantity = 0 ↔
      (o.status = OrderStatus.FILLED ∨ o.status = OrderStatus.CANCELED ∨
       o.status = OrderStatus.EXPIRED)) := by
  rcases List.eq_nil_or_concat calls with hnil | ⟨init, c, hcat⟩
  · subst hnil
    have ho : Order.new id symbol price quantity side type timestamp = o := Except.ok.inj h
    rw [← ho]
    have hpos : 0 < quantity := by
      rcases hq with hq | hq
      · exact hq
      · exact absurd rfl hq
    show quantity = 0 ↔ (OrderStatus.NEW = OrderStatus.FILLED ∨ _ ∨ _)
    constructor
    · intro hz; omega
    · intro hs
      rcases hs with hs | hs | hs <;> exact absurd hs (by simp [Order.new])
  · subst hcat
    simp only [List.concat_eq_append, List.all_append, Bool.and_eq_true, List.all_cons,
      List.all_nil, Bool.and_true] at hall
    rw [List.concat_eq_append] at h
    obtain ⟨o1, h1, h2⟩ := calls_last _ init c o h
    have hJ := filled_means_nothing_left _ init o1
      (fun hf => absurd hf (by simp [Order.new])) hall.1 h1
    exact call_settles o1 c o hJ hall.2 h2

theorem remaining_zero_iff_closed_witness :
    [OrderCall.fill 50, OrderCall.fill 50, OrderCall.cancel, OrderCall.fill 0].all
      OrderCall.isFillOrCancel = true ∧
    fresh_order.calls [OrderCall.fill 50, OrderCall.fill 50, OrderCall.cancel, OrderCall.fill 0] =
      Except.ok { fresh_order with remaining_quantity := 0, status := OrderStatus.FILLED } ∧
    ((0 : Nat) = 0 ↔ (OrderStatus.FILLED = OrderStatus.FILLED ∨
      OrderStatus.FILLED = OrderStatus.CANCELED ∨ OrderStatus.FILLED = OrderStatus.EXPIRED)) :=
  ⟨by decide, rfl,
   remaining_zero_iff_closed 1 "AAPL" 15000 100 Side.BUY OrderType.LIMIT 1000000
     [OrderCall.fill 50, OrderCall.fill 50, OrderCall.cancel, OrderCall.fill 0]
     { fresh_order with remaining_quantity := 0, status := OrderStatus.FILLED }
     (by decide) rfl (Or.inl (by decide))⟩

/-- C33 (counterexample): the order `Order(1, "AAPL", 15000, 0, BUY, LIMIT, t)`,
with no call made on it, has remaining quantity 0 and status NEW. -/
theorem zero_quantity_order_is_new :
    empty_order.calls [] = Except.ok empty_order ∧
    empty_order.remaining_quantity = 0 ∧ empty_order.status = OrderStatus.NEW ∧
    ¬ (empty_order.remaining_quantity = 0 ↔
      (empty_order.status = OrderStatus.FILLED ∨ empty_order.status = OrderStatus.CANCELED ∨
       empty_order.status = OrderStatus.EXPIRED)) := by
  refine ⟨rfl, rfl, rfl, by decide⟩


/-- What `fill` and `cancel` keep true of an order made by the constructor: its
status is NEW, PARTIALLY_FILLED, FILLED or CANCELED, and nothing remains of an
order that is FILLED or CANCELED. -/
theorem call_keeps_closed (o : Order) (c : OrderCall) (o' : Order)
    (hK : (o.status = OrderStatus.NEW ∨ o.status = OrderStatus.PARTIALLY_FILLED ∨
        o.status = OrderStatus.FILLED ∨ o.status = OrderStatus.CANCELED) ∧
      ((o.status = OrderStatus.FILLED ∨ o.status = OrderStatus.CANCELED) →
        o.remaining_quantity = 0))
    (hc : c.isFillOrCancel = true) (h : o.call c = Except.ok o') :
    (o'.status = OrderStatus.NEW ∨ o'.status = OrderStatus.PARTIALLY_FILLED ∨
        o'.status = OrderStatus.FILLED ∨ o'.status = OrderStatus.CANCELED) ∧
      ((o'.status = OrderStatus.FILLED ∨ o'.status = OrderStatus.CANCELED) →
        o'.remaining_quantity = 0) := by
  cases c with
  | fill n =>
    obtain ⟨hn, ho⟩ := fill_status o o' n h
    have hs : (o.filled n).status = (if o.remaining_quantity - n = 0 then OrderStatus.FILLED
        else OrderStatus.PARTIALLY_FILLED) := rfl
    have hr : (o.filled n).remaining_quantity = o.remaining_quantity - n := rfl
    rw [ho, hr, hs]
    by_cases h0 : o.remaining_quantity - n = 0
    · simp [h0]
    · simp [h0]
  | cancel =>
    have ho : o' = o.cancel := (Except.ok.inj h).symm
    rw [ho]
    unfold Order.cancel
    by_cases hf : o.status = OrderStatus.FILLED
    · rw [if_neg (by simpa using hf)]
      exact hK
    · rw [if_pos hf]
      simp
  | setQuantity q => exact absurd hc (by simp [OrderCall.isFillOrCancel])

/-! ## C34: the moves of the status -/

/-- C34 (amended): let `o` be obtained from the constructor by returning `fill`
and `cancel` calls, and let one more `fill` or `cancel` return. The status
stays the same, or moves from NEW or PARTIALLY_FILLED to PARTIALLY_FILLED,
FILLED or CANCELED, or moves from CANCELED to FILLED, which is what `fill(0)`
does to a cancelled order. An order whose status is FILLED keeps it; an order
whose status is CANCELED keeps it under `cancel` and goes to FILLED under the
only `fill` it accepts, `fill(0)`. -/
theorem status_moves (id : Nat) (symbol : String) (price : Int) (quantity : Nat)
    (side : Side) (type : OrderType) (timestamp : Int) (calls : List OrderCall)
    (o : Order) (c : OrderCall) (o' : Order)
    (hall : calls.all OrderCall.isFillOrCancel = true)
    (h : (Order.new id symbol price quantity side type timestamp).calls calls = Except.ok o)
    (hc : c.isFillOrCancel = true) (hcall : o.call c = Except.ok o') :
    (o'.status = o.status ∨
     ((o.status = OrderStatus.NEW ∨ o.status = OrderStatus.PARTIALLY_FILLED) ∧
      (o'.status = OrderStatus.PARTIALLY_FILLED ∨ o'.status = OrderStatus.FILLED ∨
       o'.status = OrderStatus.CANCELED)) ∨
     (o.status = OrderStatus.CANCELED ∧ c = OrderCall.fill 0 ∧
      o'.status = OrderStatus.FILLED)) ∧
    (o.status = OrderStatus.FILLED → o'.status = OrderStatus.FILLED) ∧
    (o.status = OrderStatus.CANCELED → c = OrderCall.cancel →
      o'.status = OrderStatus.CANCELED) := by
  have hK := calls_invariant
    (fun x => (x.status = OrderStatus.NEW ∨ x.status = OrderStatus.PARTIALLY_FILLED ∨
        x.status = OrderStatus.FILLED ∨ x.status = OrderStatus.CANCELED) ∧
      ((x.status = OrderStatus.FILLED ∨ x.status = OrderStatus.CANCELED) →
        x.remaining_quantity = 0))
    OrderCall.isFillOrCancel call_keeps_closed _ calls o
    ⟨Or.inl rfl, fun hs => by rcases hs with hs | hs <;> exact absurd hs (by simp [Order.new])⟩
    hall h
  obtain ⟨hst, hz⟩ := hK
  cases c with
  | fill n =>
    obtain ⟨hn, ho⟩ := fill_status o o' n hcall
    have hs : (o.filled n).status = (if o.remaining_quantity - n = 0 then OrderStatus.FILLED
        else OrderStatus.PARTIALLY_FILLED) := rfl
    rw [ho, hs]
    rcases hst with h1 | h1 | h1 | h1
    · refine ⟨Or.inr (Or.inl ⟨Or.inl h1, ?_⟩), fun hf => ?_, fun hcn => ?_⟩
      · by_cases h0 : o.remaining_quantity - n = 0
        · rw [if_pos h0]; exact Or.inr (Or.inl rfl)
        · rw [if_neg h0]; exact Or.inl rfl
      · rw [h1] at hf; exact absurd hf (by simp)
      · rw [h1] at hcn; exact absurd hcn (by simp)
    · refine ⟨Or.inr (Or.inl ⟨Or.inr h1, ?_⟩), fun hf => ?_, fun hcn => ?_⟩
      · by_cases h0 : o.remaining_quantity - n = 0
        · rw [if_pos h0]; exact Or.inr (Or.inl rfl)
        · rw [if_neg h0]; exact Or.inl rfl
      · rw [h1] at hf; exact absurd hf (by simp)
      · rw [h1] at hcn; exact absurd hcn (by simp)
    · have hr := hz (Or.inl h1)
      rw [if_pos (by omega)]
      exact ⟨Or.inl h1.symm, fun _ => rfl, fun hcn => by rw [h1] at hcn; exact absurd hcn (by simp)⟩
    · have hr := hz (Or.inr h1)
      have hn0 : n = 0 := by omega
      rw [if_pos (by omega)]
      refine ⟨Or.inr (Or.inr ⟨h1, by rw [hn0], rfl⟩), fun _ => rfl,
        fun _ hcc => absurd hcc (by simp)⟩
  | cancel =>
    have ho : o' = o.cancel := (Except.ok.inj hcall).symm
    rw [ho]
    unfold Order.cancel
    by_cases hf : o.status = OrderStatus.FILLED
    · rw [if_neg (by simpa using hf)]
      exact ⟨Or.inl rfl, fun h => h, fun hcn => by rw [hf] at hcn; exact absurd hcn (by simp)⟩
    · rw [if_pos hf]
      refine ⟨?_, fun h => absurd h hf, fun _ _ => rfl⟩
      rcases hst with h1 | h1 | h1 | h1
      · exact Or.inr (Or.inl ⟨Or.inl h1, Or.inr (Or.inr rfl)⟩)
      · exact Or.inr (Or.inl ⟨Or.inr h1, Or.inr (Or.inr rfl)⟩)
      · exact absurd h1 hf
      · exact Or.inl h1.symm
  | setQuantity q => exact absurd hc (by simp [OrderCall.isFillOrCancel])

theorem status_moves_witness :
    fresh_order.calls [OrderCall.fill 50] =
      Except.ok { fresh_order with remaining_quantity := 50,
                                   status := OrderStatus.PARTIALLY_FILLED } ∧
    ({ fresh_order with remaining_quantity := 50,
                        status := OrderStatus.PARTIALLY_FILLED } : Order).call
      (OrderCall.fill 50) =
      Except.ok { fresh_order with remaining_quantity := 0, status := OrderStatus.FILLED } ∧
    (OrderStatus.FILLED = OrderStatus.PARTIALLY_FILLED ∨
     ((OrderStatus.PARTIALLY_FILLED = OrderStatus.NEW ∨
       OrderStatus.PARTIALLY_FILLED = OrderStatus.PARTIALLY_FILLED) ∧
      (OrderStatus.FILLED = OrderStatus.PARTIALLY_FILLED ∨
       OrderStatus.FILLED = OrderStatus.FILLED ∨ OrderStatus.FILLED = OrderStatus.CANCELED)) ∨
     (OrderStatus.PARTIALLY_FILLED = OrderStatus.CANCELED ∧
      OrderCall.fill 50 = OrderCall.fill 0 ∧ OrderStatus.FILLED = OrderStatus.FILLED)) :=
  ⟨rfl, rfl,
   (status_moves 1 "AAPL" 15000 100 Side.BUY OrderType.LIMIT 1000000 [OrderCall.fill 50]
     { fresh_order with remaining_quantity := 50, status := OrderStatus.PARTIALLY_FILLED }
     (OrderCall.fill 50)
     { fresh_order with remaining_quantity := 0, status := OrderStatus.FILLED }
     (by decide) rfl rfl rfl).1⟩

/-- C34 (counterexample): the order of `test_order_cancel` is cancelled and
has status CANCELED; `fill(0)` on it returns, and its status is FILLED. -/
theorem cancelled_order_becomes_filled :
    fresh_order.status = OrderStatus.NEW ∧
    fresh_order.cancel.status = OrderStatus.CANCELED ∧
    fresh_order.cancel.fill 0 =
      Except.ok { fresh_order with remaining_quantity := 0, status := OrderStatus.FILLED } ∧
    (fresh_order.cancel.afterFill 0).status = OrderStatus.FILLED ∧
    (fresh_order.cancel.afterFill 0).status ≠ fresh_order.cancel.status := by
  refine ⟨rfl, rfl, rfl, rfl, by decide⟩


/-! ## Properties of the resting orders that every call keeps -/

theorem levelRun_forall {symbol : String} {orders : List Order} {total : Nat}
    {st : MatchState} {w : LevelWalk} (h : LevelRun symbol orders total st w)
    (P : Order → Prop) (hP : ∀ o q, P o → P (o.filled q)) (ho : ∀ o ∈ orders, P o) :
    ∀ o ∈ w.orders, P o := by
  induction h with
  | nil => exact ho
  | done => exact ho
  | full r rest total st w h0 h hw ih =>
    exact ih (fun o hmem => ho o (List.mem_cons_of_mem _ hmem))
  | part r rest total st h0 h =>
    intro o hmem
    rcases List.mem_cons.mp hmem with hmem | hmem
    · rw [hmem]; exact hP r _ (ho r (List.mem_cons_self _ _))
    · exact ho o (List.mem_cons_of_mem _ hmem)

theorem ladderRun_forall {symbol : String} {m : Ladder} {st : MatchState} {r : LadderWalk}
    (h : LadderRun symbol m st r) (P : Order → Prop) (hP : ∀ o q, P o → P (o.filled q))
    (ho : ∀ o ∈ restingOrders m, P o) : ∀ o ∈ restingOrders r.ladder, P o := by
  induction h with
  | done => exact ho
  | empty => exact ho
  | reject => exact ho
  | sweep k best rest st w r h0 h hw he hr ih =>
    exact ih (fun o hmem => ho o (List.mem_append_right _ hmem))
  | stay k best rest st w h0 h hw hne =>
    intro o hmem
    have hmem' : o ∈ w.orders ++ restingOrders rest := hmem
    rcases List.mem_append.mp hmem' with hmem' | hmem'
    · exact levelRun_forall hw P hP (fun x hx => ho x (List.mem_append_left _ hx)) o hmem'
    · exact ho o (List.mem_append_right _ hmem')

theorem mem_getAllOrders (b : OrderBook) (o : Order) :
    o ∈ getAllOrders b ↔ ∃ s, o ∈ restingOrders (b.side s) := by
  unfold getAllOrders
  rw [List.mem_append]
  constructor
  · rintro (h | h)
    · exact ⟨Side.BUY, h⟩
    · exact ⟨Side.SELL, h⟩
  · rintro ⟨s, h⟩
    cases s
    · exact Or.inl h
    · exact Or.inr h

theorem resting_forall_addOrder (P : Order → Prop) (hP : ∀ o q, P o → P (o.filled q))
    (b : OrderBook) (order : Order) (hb : ∀ o ∈ getAllOrders b, P o) (hO : P order) :
    ∀ o ∈ getAllOrders (addOrder b order).book, P o := by
  by_cases hsym : order.symbol = b.symbol
  · intro o ho
    obtain ⟨s, hs⟩ := (mem_getAllOrders _ o).mp ho
    rcases side_ne_cases order.side s with ht | ht
    · rw [ht, addOrder_side_own b order hsym] at hs
      split at hs
      · have := (restingOrders_mapUpdate_perm order.side order (b.side order.side)
          order.price).mem_iff.mp hs
        rcases List.mem_cons.mp this with h1 | h1
        · rw [h1]; exact hO
        · exact hb o ((mem_getAllOrders b o).mpr ⟨_, h1⟩)
      · exact hb o ((mem_getAllOrders b o).mpr ⟨_, hs⟩)
    · rw [ht, addOrder_side_opposite b order hsym] at hs
      split at hs
      · exact ladderRun_forall (walkOf_run b order) P hP
          (fun x hx => hb x ((mem_getAllOrders b x).mpr ⟨_, hx⟩)) o hs
      · exact hb o ((mem_getAllOrders b o).mpr ⟨_, hs⟩)
  · have : (addOrder b order).book = b := by
      unfold addOrder; rw [if_pos hsym]
    rw [this]; exact hb

theorem resting_forall_removeResting (P : Order → Prop) (b : OrderBook) (s : Side) (k : Int)
    (l : PriceLevel) (id : Nat) (R : Order) (hb : ∀ o ∈ getAllOrders b, P o)
    (h2 : mapFind (b.side s) k = some l) (h3 : findOrder l.orders id = some R) :
    P R ∧ ∀ o ∈ getAllOrders (removeResting b s k l R), P o := by
  have hperm := restingOrders_removeResting_perm b s k l id R h2 h3
  refine ⟨hb R ((mem_getAllOrders b R).mpr ⟨s, hperm.mem_iff.mp (List.mem_cons_self _ _)⟩), ?_⟩
  intro o ho
  obtain ⟨t, ht⟩ := (mem_getAllOrders _ o).mp ho
  rcases side_ne_cases s t with hst | hst
  · rw [hst] at ht
    exact hb o ((mem_getAllOrders b o).mpr ⟨s, hperm.mem_iff.mp (List.mem_cons_of_mem _ ht)⟩)
  · rw [hst, (removeResting_fields b s k l R).1] at ht
    exact hb o ((mem_getAllOrders b o).mpr ⟨_, ht⟩)

/-- A property that the orders passed to `addOrder` have, that a partial fill
keeps and that `modifyOrder` gives to the copy it re-adds holds of every
order resting after a sequence of calls. -/
theorem resting_forall_run (P : Order → Prop) (hP : ∀ o q, P o → P (o.filled q))
    (hmod : ∀ o p q, P o → P ((o.setPrice p).setQuantity q)) (b : OrderBook) (ops : List Op)
    (hb : ∀ o ∈ getAllOrders b, P o) (hops : ∀ order, Op.add order ∈ ops → P order) :
    ∀ o ∈ getAllOrders (run b ops).1, P o := by
  induction ops generalizing b with
  | nil => exact hb
  | cons op ops ih =>
    apply ih _ _ (fun order ho => hops order (List.mem_cons_of_mem _ ho))
    cases op with
    | add order => exact resting_forall_addOrder P hP b order hb (hops order (List.mem_cons_self _ _))
    | cancel id =>
      show ∀ o ∈ getAllOrders (cancelOrder b id).book, P o
      rcases cancelOrder_cases b id with ⟨hbk, _, _⟩ | ⟨s, k, l, R, _, h2, h3, hbk, _⟩
      · rw [hbk]; exact hb
      · rw [hbk]; exact (resting_forall_removeResting P b s k l id R hb h2 h3).2
    | modify id p q =>
      show ∀ o ∈ getAllOrders (modifyOrder b id p q).book, P o
      rcases modifyOrder_cases b id p q with ⟨hbk, _, _⟩ | ⟨s, k, l, R, _, h2, h3, hbk, _⟩
      · rw [hbk]; exact hb
      · rw [hbk]
        obtain ⟨hR, hrest⟩ := resting_forall_removeResting P b s k l id R hb h2 h3
        exact resting_forall_addOrder P hP _ _ hrest (hmod R p q hR)
    | clear =>
      intro o ho
      exact absurd ho (List.not_mem_nil _)

/-! ## C35: the constructor, and remaining against original quantity -/

/-- Calls of `fill`, `cancel` and `setQuantity` that return keep the remaining
quantity at most the original quantity. -/
theorem calls_within (o : Order) (calls : List OrderCall) (o' : Order)
    (h0 : o.remaining_quantity ≤ o.quantity) (h : o.calls calls = Except.ok o') :
    o'.remaining_quantity ≤ o'.quantity := by
  refine calls_invariant (fun x => x.remaining_quantity ≤ x.quantity) (fun _ => true) ?_
    o calls o' h0 (by simp) h
  intro x c x' hx _ hc
  cases c with
  | fill n =>
    obtain ⟨_, ho⟩ := fill_status x x' n hc
    rw [ho]
    show x.remaining_quantity - n ≤ x.quantity
    omega
  | cancel =>
    have ho : x' = x.cancel := (Except.ok.inj hc).symm
    rw [ho]
    unfold Order.cancel
    split
    · exact Nat.zero_le _
    · exact hx
  | setQuantity q =>
    have ho : x' = x.setQuantity q := (Except.ok.inj hc).symm
    rw [ho]
    exact Nat.le_refl _

/-- C35: a constructed order reports the constructor's arguments, has its
remaining quantity equal to its quantity and status NEW. Every order obtained
from it by returning `fill`, `cancel` and `setQuantity` calls has at most its
original quantity remaining. So has every order resting in a book after a
sequence of `addOrder`, `cancelOrder`, `modifyOrder` and `clear` calls on a
new book, the orders passed to `addOrder` being orders obtained in that way. -/
theorem remaining_at_most_original (id : Nat) (symbol : String) (price : Int)
    (quantity : Nat) (side : Side) (type : OrderType) (timestamp : Int) :
    ((Order.new id symbol price quantity side type timestamp).id = id ∧
     (Order.new id symbol price quantity side type timestamp).symbol = symbol ∧
     (Order.new id symbol price quantity side type timestamp).price = price ∧
     (Order.new id symbol price quantity side type timestamp).quantity = quantity ∧
     (Order.new id symbol price quantity side type timestamp).remaining_quantity = quantity ∧
     (Order.new id symbol price quantity side type timestamp).side = side ∧
     (Order.new id symbol price quantity side type timestamp).type = type ∧
     (Order.new id symbol price quantity side type timestamp).status = OrderStatus.NEW ∧
     (Order.new id symbol price quantity side type timestamp).timestamp = timestamp) ∧
    (∀ calls o, (Order.new id symbol price quantity side type timestamp).calls calls
        = Except.ok o → o.remaining_quantity ≤ o.quantity) ∧
    (∀ book_symbol ops, (∀ order, Op.add order ∈ ops → order.Built) →
      ∀ r ∈ getAllOrders (run (OrderBook.new book_symbol) ops).1,
        r.remaining_quantity ≤ r.quantity) := by
  refine ⟨⟨rfl, rfl, rfl, rfl, rfl, rfl, rfl, rfl, rfl⟩, ?_, ?_⟩
  · intro calls o h
    exact calls_within _ calls o (Nat.le_refl _) h
  · intro book_symbol ops hops
    apply resting_forall_run (fun x => x.remaining_quantity ≤ x.quantity)
    · intro o q ho
      show o.remaining_quantity - q ≤ o.quantity
      omega
    · intro o p q _
      exact Nat.le_refl _
    · intro o ho
      exact absurd ho (List.not_mem_nil _)
    · intro order hmem
      obtain ⟨i, sy, pr, qu, si, ty, ts, calls, hc⟩ := hops order hmem
      exact calls_within _ calls order (Nat.le_refl _) hc

theorem remaining_at_most_original_witness :
    fresh_order.calls [OrderCall.fill 30, OrderCall.setQuantity 80, OrderCall.fill 80,
      OrderCall.cancel] =
      Except.ok { fresh_order with quantity := 80, remaining_quantity := 0,
                                   status := OrderStatus.FILLED } ∧
    fresh_order.calls [OrderCall.fill 30] = Except.ok part_filled_order ∧
    part_filled_order ∈ getAllOrders (run (OrderBook.new "AAPL") built_ops).1 ∧
    part_filled_order.remaining_quantity = 70 ∧ part_filled_order.quantity = 100 ∧
    part_filled_order.remaining_quantity ≤ part_filled_order.quantity :=
  ⟨rfl, rfl, by decide, rfl, rfl,
   (remaining_at_most_original 1 "AAPL" 15000 100 Side.BUY OrderType.LIMIT 1000000).2.2
     "AAPL" built_ops
     (fun order h => by
       have h2 : order = Order.new 2 "AAPL" 15100 20 Side.SELL OrderType.LIMIT 2 ∨
           order = part_filled_order := by
         simpa [built_ops] using h
       rcases h2 with h2 | h2
       · exact ⟨2, "AAPL", 15100, 20, Side.SELL, OrderType.LIMIT, 2, [], by rw [h2]; rfl⟩
       · exact ⟨1, "AAPL", 15000, 100, Side.BUY, OrderType.LIMIT, 1000000,
           [OrderCall.fill 30], by rw [h2]; rfl⟩)
     part_filled_order (by decide)⟩

/-! ## C36: the priority comparison -/

/-- C36: `a < b` holds exactly when b's price is more aggressive than a's on
a's side (higher for a buy, lower for a sell), or the prices are equal and b's
timestamp is strictly earlier than a's; and `a > b` holds exactly when `b < a`
does. For two orders on the same side, a's side is their common side. -/
theorem order_priority (a b : Order) :
    (a.lt b = true ↔
      (moreAggressive a.side b.price a.price ∨
       (a.price = b.price ∧ b.timestamp < a.timestamp))) ∧
    (a.gt b = true ↔ b.lt a = true) := by
  refine ⟨?_, Iff.rfl⟩
  unfold Order.lt moreAggressive
  cases hside : a.side
  · by_cases hp : a.price = b.price
    · simp [hp]
    · simp only [ne_eq, hp, not_false_eq_true, if_true, decide_eq_true_eq, false_and, or_false]
  · by_cases hp : a.price = b.price
    · simp [hp]
    · simp only [ne_eq, hp, not_false_eq_true, if_true, decide_eq_true_eq, false_and, or_false,
        gt_iff_lt]

theorem order_priority_witness :
    q_head.side = q_mid.side ∧ q_mid.lt q_head = true ∧ q_head.lt q_mid = false ∧
    q_head.gt q_mid = true ∧
    (q_mid.lt q_head = true ↔
      (moreAggressive q_mid.side q_head.price q_mid.price ∨
       (q_mid.price = q_head.price ∧ q_head.timestamp < q_mid.timestamp))) :=
  ⟨rfl, rfl, rfl, rfl, (order_priority q_mid q_head).1⟩

/-! ## C39: cancel undoes a passive add -/

theorem bookSane_of_wellFormed (b : OrderBook) (h : WellFormed b) : BookSane b := by
  have side : ∀ s m, LadderWF b.symbol s m → LadderSane s m := by
    intro s m hm
    exact ⟨hm.1, fun e he => ⟨(hm.2 e he).2.1, (hm.2 e he).2.2.2.1⟩⟩
  exact ⟨side _ _ h.1, side _ _ h.2.1, h.2.2⟩

theorem freshId_of_unindexed (b : OrderBook) (id : Nat) (hidx : IndexConsistent b)
    (h : indexFind b.order_lookup id = none) : FreshId b id := by
  refine ⟨h, ?_⟩
  intro o ho heq
  rcases List.mem_append.mp ho with ho | ho
  · obtain ⟨e, he, hoe⟩ := (mem_restingOrders _ o).mp ho
    have := hidx.2.1 e he o hoe
    rw [heq, h] at this
    exact absurd this (by simp)
  · obtain ⟨e, he, hoe⟩ := (mem_restingOrders _ o).mp ho
    have := hidx.2.2 e he o hoe
    rw [heq, h] at this
    exact absurd this (by simp)

/-- C39: on a well-formed book with a consistent index, let O be a LIMIT order
of the book's symbol with a positive remaining quantity, an id the index does
not hold and a price that does not cross the opposite side. `addOrder(O)`
returns no trade, the following `cancelOrder(O.id)` returns true, and the
book after it (both ladders with their levels, queues and cached totals, the
index, the trade counter) is the book before the add. -/
theorem cancel_undoes_passive_add (b : OrderBook) (O : Order) (hwf : WellFormed b)
    (hidx : IndexConsistent b) (hty : O.type = OrderType.LIMIT)
    (hpos : 0 < O.remaining_quantity) (hsym : O.symbol = b.symbol)
    (hnew : indexFind b.order_lookup O.id = none) (hp : Passive b O) :
    (addOrder b O).result = Except.ok [] ∧
    (cancelOrder (addOrder b O).book O.id).result = Except.ok true ∧
    (cancelOrder (addOrder b O).book O.id).book = b := by
  have hbook : (addOrder b O).book = queueOrder b O := by
    rw [addOrder_book b O hsym, if_pos hty, if_pos hpos, afterMatch_passive b O hty hp]
  have hres : (addOrder b O).result = Except.ok [] := by
    rw [addOrder_result b O hsym, if_pos (Or.inl hty), walkOf_passive b O hty hp]
  have h := queue_then_cancel b O (bookSane_of_wellFormed b hwf)
    (freshId_of_unindexed b O.id hidx hnew)
  rw [hbook]
  exact ⟨hres, h.2, h.1⟩

theorem cancel_undoes_passive_add_witness :
    (WellFormed partial_book ∧ IndexConsistent partial_book ∧
     passive_buy.type = OrderType.LIMIT ∧ 0 < passive_buy.remaining_quantity ∧
     passive_buy.symbol = partial_book.symbol ∧
     indexFind partial_book.order_lookup passive_buy.id = none ∧
     Passive partial_book passive_buy) ∧
    (addOrder partial_book passive_buy).book ≠ partial_book ∧
    ((addOrder partial_book passive_buy).result = Except.ok [] ∧
     (cancelOrder (addOrder partial_book passive_buy).book passive_buy.id).result =
       Except.ok true ∧
     (cancelOrder (addOrder partial_book passive_buy).book passive_buy.id).book =
       partial_book) :=
  ⟨⟨by decide, by decide, rfl, by decide, rfl, by decide, by decide⟩, by decide,
   cancel_undoes_passive_add partial_book passive_buy (by decide) (by decide) rfl (by decide)
     rfl (by decide) (by decide)⟩

/-! ## C40: modify to quantity 0 -/

/-- An order with nothing remaining, of the book's symbol: `addOrder` returns
no trade, fires no callback and leaves the book as it was. -/
theorem addOrder_nothing_remaining (b : OrderBook) (order : Order)
    (hsym : order.symbol = b.symbol) (h0 : order.remaining_quantity = 0) :
    (addOrder b order).result = Except.ok [] ∧ (addOrder b order).book = b ∧
    (addOrder b order).events = [] := by
  unfold addOrder
  rw [if_neg (by simpa using hsym)]
  by_cases hty : order.type = OrderType.LIMIT ∨ order.type = OrderType.MARKET
  · simp [hty, matchOrder, h0]
  · simp [hty, h0]

/-- C40: on a well-formed book with a consistent index, for every resting
order R and every price `p`, `modifyOrder(R.id, p, 0)` returns true, produces
no trade (it fires no callback at all) and leaves the book that
`cancelOrder(R.id)` leaves: R is out of its level and of the index, its level
is gone if R was its last order, and no other level is touched or created. -/
theorem modify_to_zero_is_cancel (b : OrderBook) (s : Side) (A B : Ladder) (k : Int)
    (l : PriceLevel) (pre post : List Order) (R : Order) (p : Int)
    (hwf : WellFormed b) (hidx : IndexConsistent b)
    (hside : b.side s = A ++ (k, l) :: B) (hq : l.orders = pre ++ R :: post) :
    (modifyOrder b R.id p 0).result = Except.ok true ∧
    (modifyOrder b R.id p 0).events = [] ∧
    (cancelOrder b R.id).result = Except.ok true ∧
    (modifyOrder b R.id p 0).book = (cancelOrder b R.id).book ∧
    (modifyOrder b R.id p 0).book.side s =
      (if pre ++ post = [] then A ++ B
       else A ++ (k, { price := l.price,
                       total_quantity := l.total_quantity - R.remaining_quantity,
                       orders := pre ++ post }) :: B) ∧
    (modifyOrder b R.id p 0).book.side s.opposite = b.side s.opposite ∧
    indexFind (modifyOrder b R.id p 0).book.order_lookup R.id = none := by
  obtain ⟨h1, h2, h3, herase, hle, hlt, hkA⟩ :=
    locate_resting b s A B k l pre post R hwf hidx hside hq
  obtain ⟨hcb, hcr, _⟩ := cancelOrder_found b R.id s k l R h1 h2 h3
  have hRsym : R.symbol = b.symbol := by
    have hmem : (k, l) ∈ b.side s := by rw [hside]; simp
    have hRl : R ∈ l.orders := by rw [hq]; simp
    exact (((wellFormed_side b hwf s).2 (k, l) hmem).2.2.2.2 R hRl).2.2.1
  have hsym : ((R.setPrice p).setQuantity 0).symbol = (removeResting b s k l R).symbol := by
    rw [(removeResting_fields b s k l R).2.1]
    exact hRsym
  obtain ⟨a1, a2, a3⟩ := addOrder_nothing_remaining (removeResting b s k l R)
    ((R.setPrice p).setQuantity 0) hsym rfl
  obtain ⟨m1, m2, m3⟩ := modifyOrder_found b R.id p 0 s k l R [] h1 h2 h3 a1
  rw [m1, m3, a2, a3, hcb]
  refine ⟨m2, rfl, hcr, rfl, removeResting_side b s A B k l pre post R hside herase hle hlt hkA,
    (removeResting_fields b s k l R).1, ?_⟩
  rw [(removeResting_fields b s k l R).2.2.2]
  exact indexFind_indexErase_self _ _

theorem modify_to_zero_is_cancel_witness :
    (WellFormed queue_book ∧ IndexConsistent queue_book ∧
      queue_book.side Side.BUY = [] ++ (14900, queue_level) :: [] ∧
      queue_level.orders = [q_head] ++ q_mid :: [q_tail]) ∧
    (modifyOrder queue_book q_mid.id 15200 0).book.bids =
      [(14900, { price := 14900, total_quantity := 150, orders := [q_head, q_tail] })] ∧
    ((modifyOrder queue_book q_mid.id 15200 0).result = Except.ok true ∧
     (modifyOrder queue_book q_mid.id 15200 0).events = [] ∧
     (cancelOrder queue_book q_mid.id).result = Except.ok true ∧
     (modifyOrder queue_book q_mid.id 15200 0).book = (cancelOrder queue_book q_mid.id).book) :=
  ⟨⟨by decide, by decide, by decide, by decide⟩, by decide,
   (fun h => ⟨h.1, h.2.1, h.2.2.1, h.2.2.2.1⟩)
     (modify_to_zero_is_cancel queue_book Side.BUY [] [] 14900 queue_level [q_head] [q_tail]
       q_mid 15200 (by decide) (by decide) (by decide) (by decide))⟩

/-! ## C32: an id that is already resting -/

theorem mapFind_mapUpdate_some (side : Side) (f : PriceLevel → PriceLevel) (m : Ladder)
    (p : Int) : ∃ l0, mapFind (mapUpdate side f m p) p = some (f l0) := by
  induction m with
  | nil => exact ⟨PriceLevel.empty, by simp [mapUpdate, mapFind]⟩
  | cons e rest ih =>
    obtain ⟨k, l⟩ := e
    by_cases hk : k = p
    · exact ⟨l, by simp [mapUpdate, mapFind, hk]⟩
    · by_cases hb : keyBefore side p k = true
      · exact ⟨PriceLevel.empty, by simp [mapUpdate, mapFind, hk, hb]⟩
      · obtain ⟨l0, h0⟩ := ih
        exact ⟨l0, by simp [mapUpdate, mapFind, hk, hb, h0]⟩

theorem findOrder_of_mem (orders : List Order) (o : Order) (h : o ∈ orders) :
    ∃ C, findOrder orders o.id = some C := by
  induction orders with
  | nil => exact absurd h (List.not_mem_nil _)
  | cons a rest ih =>
    by_cases ha : a.id = o.id
    · exact ⟨a, by simp [findOrder, ha]⟩
    · rcases List.mem_cons.mp h with h | h
      · rw [h] at ha; exact absurd rfl ha
      · obtain ⟨C, hC⟩ := ih h
        exact ⟨C, by simp [findOrder, ha, hC]⟩

theorem getAllOrders_sides (b : OrderBook) (s : Side) :
    (getAllOrders b).Perm (restingOrders (b.side s) ++ restingOrders (b.side s.opposite)) := by
  unfold getAllOrders
  cases s
  · exact List.Perm.refl _
  · exact List.perm_append_comm

theorem getAllOrders_queueOrder (b : OrderBook) (order : Order) :
    (getAllOrders (queueOrder b order)).Perm (order :: getAllOrders b) := by
  refine (getAllOrders_sides _ order.side).trans ?_
  rw [queueOrder_side_own, queueOrder_side_opposite]
  refine (List.Perm.append_right _
    (restingOrders_mapUpdate_perm order.side order (b.side order.side) order.price)).trans ?_
  exact List.Perm.cons _ (getAllOrders_sides b order.side).symm

theorem getAllOrders_removeResting (b : OrderBook) (s : Side) (k : Int) (l : PriceLevel)
    (id : Nat) (R : Order) (h2 : mapFind (b.side s) k = some l)
    (h3 : findOrder l.orders id = some R) :
    (R :: getAllOrders (removeResting b s k l R)).Perm (getAllOrders b) := by
  refine List.Perm.trans ?_ (getAllOrders_sides b s).symm
  refine (List.Perm.cons _ (getAllOrders_sides _ s)).trans ?_
  rw [(removeResting_fields b s k l R).1]
  exact List.Perm.append_right _ (restingOrders_removeResting_perm b s k l id R h2 h3)

/-- C32 (amended): let an order R rest on a book, and let O be a LIMIT order of
the book's symbol with the id of R, a positive remaining quantity and a price
that does not cross. `addOrder(O)` returns no trade; afterwards the resting
orders are those before plus O, and the index entry of the id is O's side and
price. The following `cancelOrder` of the id returns true and takes out one
order that carries the id; an order with the id stays resting, the index has
no entry for it, and a further `cancelOrder` of the id returns false and
changes nothing. If R was the only order with the id, the order taken out is
O (and the resting orders are as before the add) or R (and O rests in its
place). -/
theorem duplicate_id_add_then_cancel (b : OrderBook) (O R : Order)
    (hsym : O.symbol = b.symbol) (hty : O.type = OrderType.LIMIT)
    (hpos : 0 < O.remaining_quantity) (hp : Passive b O)
    (hR : R ∈ getAllOrders b) (hid : R.id = O.id) :
    (addOrder b O).result = Except.ok [] ∧
    (getAllOrders (addOrder b O).book).Perm (O :: getAllOrders b) ∧
    indexFind (addOrder b O).book.order_lookup O.id = some (O.side, O.price) ∧
    (cancelOrder (addOrder b O).book O.id).result = Except.ok true ∧
    (∃ C, C.id = O.id ∧
      (C :: getAllOrders (cancelOrder (addOrder b O).book O.id).book).Perm
        (O :: getAllOrders b)) ∧
    (∃ o ∈ getAllOrders (cancelOrder (addOrder b O).book O.id).book, o.id = O.id) ∧
    indexFind (cancelOrder (addOrder b O).book O.id).book.order_lookup O.id = none ∧
    (cancelOrder (cancelOrder (addOrder b O).book O.id).book O.id).result = Except.ok false ∧
    (cancelOrder (cancelOrder (addOrder b O).book O.id).book O.id).book =
      (cancelOrder (addOrder b O).book O.id).book ∧
    ((∀ o ∈ getAllOrders b, o.id = O.id → o = R) →
      (getAllOrders (cancelOrder (addOrder b O).book O.id).book).Perm (getAllOrders b) ∨
      (R :: getAllOrders (cancelOrder (addOrder b O).book O.id).book).Perm
        (O :: getAllOrders b)) := by
  have hbook : (addOrder b O).book = queueOrder b O := by
    rw [addOrder_book b O hsym, if_pos hty, if_pos hpos, afterMatch_passive b O hty hp]
  have hres : (addOrder b O).result = Except.ok [] := by
    rw [addOrder_result b O hsym, if_pos (Or.inl hty), walkOf_passive b O hty hp]
  have hall := getAllOrders_queueOrder b O
  have hix : indexFind (queueOrder b O).order_lookup O.id = some (O.side, O.price) := by
    rw [queueOrder_order_lookup]
    exact indexFind_indexSet_self _ _ _
  obtain ⟨l0, hl0⟩ := mapFind_mapUpdate_some O.side (enqueue O) (b.side O.side) O.price
  rw [← queueOrder_side_own] at hl0
  have hOin : O ∈ (enqueue O l0).orders := by simp [enqueue]
  obtain ⟨C, hC⟩ := findOrder_of_mem _ O hOin
  obtain ⟨hcb, hcr, _⟩ := cancelOrder_found (queueOrder b O) O.id O.side O.price _ C hix hl0 hC
  have hCid : C.id = O.id := (findOrder_split _ _ _ hC).1
  have hrem := getAllOrders_removeResting (queueOrder b O) O.side O.price _ O.id C hl0 hC
  have hperm : (C :: getAllOrders (removeResting (queueOrder b O) O.side O.price
      (enqueue O l0) C)).Perm (O :: getAllOrders b) := hrem.trans hall
  have hnone : indexFind (removeResting (queueOrder b O) O.side O.price
      (enqueue O l0) C).order_lookup O.id = none := by
    rw [(removeResting_fields _ _ _ _ _).2.2.2, hCid]
    exact indexFind_indexErase_self _ _
  have hagain := cancelOrder_not_found _ O.id hnone
  rw [hbook, hcb]
  refine ⟨hres, hall, hix, hcr, ⟨C, hCid, hperm⟩, ?_, hnone, hagain.2, hagain.1, ?_⟩
  · have hcount := hperm.countP_eq (fun o => decide (o.id = O.id))
    rw [List.countP_cons_of_pos _ _ (by simpa using hCid),
      List.countP_cons_of_pos _ _ (by simp)] at hcount
    have hRpos : 0 < List.countP (fun o => decide (o.id = O.id)) (getAllOrders b) :=
      List.countP_pos_iff.mpr ⟨R, hR, by simpa using hid⟩
    have : 0 < List.countP (fun o => decide (o.id = O.id))
        (getAllOrders (removeResting (queueOrder b O) O.side O.price (enqueue O l0) C)) := by
      omega
    obtain ⟨o, ho, hoid⟩ := List.countP_pos_iff.mp this
    exact ⟨o, ho, by simpa using hoid⟩
  · intro huniq
    have hCmem : C ∈ O :: getAllOrders b := hperm.mem_iff.mp (List.mem_cons_self _ _)
    rcases List.mem_cons.mp hCmem with hCO | hCb
    · left
      subst hCO
      exact hperm.cons_inv
    · right
      have hCR : C = R := huniq C hCb hCid
      subst hCR
      exact hperm

theorem duplicate_id_add_then_cancel_witness :
    (same_id_passive.symbol = same_id_book.symbol ∧ same_id_passive.type = OrderType.LIMIT ∧
     0 < same_id_passive.remaining_quantity ∧ Passive same_id_book same_id_passive ∧
     same_id_sell ∈ getAllOrders same_id_book ∧ same_id_sell.id = same_id_passive.id) ∧
    getAllOrders (addOrder same_id_book same_id_passive).book =
      [same_id_passive, same_id_sell] ∧
    getAllOrders (cancelOrder (addOrder same_id_book same_id_passive).book 1).book =
      [same_id_sell] ∧
    ((addOrder same_id_book same_id_passive).result = Except.ok [] ∧
     (cancelOrder (addOrder same_id_book same_id_passive).book same_id_passive.id).result =
       Except.ok true ∧
     indexFind (cancelOrder (addOrder same_id_book same_id_passive).book
       same_id_passive.id).book.order_lookup same_id_passive.id = none ∧
     (cancelOrder (cancelOrder (addOrder same_id_book same_id_passive).book
       same_id_passive.id).book same_id_passive.id).result = Except.ok false) :=
  ⟨⟨rfl, rfl, by decide, by decide, by decide, rfl⟩, by decide, by decide,
   (fun h => ⟨h.1, h.2.2.2.1, h.2.2.2.2.2.2.1, h.2.2.2.2.2.2.2.1⟩)
     (duplicate_id_add_then_cancel same_id_book same_id_passive same_id_sell rfl rfl
       (by decide) (by decide) (by decide) rfl)⟩

/-- C32 (counterexample): a sell of 10 at 100 rests under id 1. `addOrder` of a
LIMIT buy at 90 under id 1 with quantity 0, which does not cross, returns
without error but queues nothing: one order rests, not two, and the index
entry of id 1 is still that of the sell. `cancelOrder(1)` then removes the
sell, and no order with id 1 stays resting. -/
theorem duplicate_id_with_zero_quantity :
    same_id_sell ∈ getAllOrders same_id_book ∧ same_id_sell.id = same_id_empty.id ∧
    same_id_empty.type = OrderType.LIMIT ∧ same_id_empty.symbol = same_id_book.symbol ∧
    Passive same_id_book same_id_empty ∧
    (addOrder same_id_book same_id_empty).result = Except.ok [] ∧
    getAllOrders (addOrder same_id_book same_id_empty).book = [same_id_sell] ∧
    indexFind (addOrder same_id_book same_id_empty).book.order_lookup 1 =
      some (Side.SELL, 100) ∧
    (cancelOrder (addOrder same_id_book same_id_empty).book 1).result = Except.ok true ∧
    getAllOrders (cancelOrder (addOrder same_id_book same_id_empty).book 1).book = [] := by
  refine ⟨by decide, rfl, rfl, rfl, by decide, rfl, by decide, by decide, rfl, by decide⟩

/-! ## C38: the index under unique ids -/

theorem side_own_or_opposite (s t : Side) : s = t ∨ s = t.opposite := by
  cases s <;> cases t <;> simp [Side.opposite]

theorem mem_restingIds (b : OrderBook) (s : Side) (e : Int × PriceLevel) (o : Order)
    (he : e ∈ b.side s) (ho : o ∈ e.2.orders) : o.id ∈ restingIds b := by
  unfold restingIds
  refine List.mem_map.mpr ⟨o, ?_, rfl⟩
  have hm : o ∈ restingOrders (b.side s) := (mem_restingOrders _ _).mpr ⟨e, he, ho⟩
  cases s
  · exact List.mem_append_left _ hm
  · exact List.mem_append_right _ hm

/-- The ids the inner loop takes out, and the index entries of the others,
which it leaves as they are. -/
theorem levelRun_gone_find {symbol : String} {orders : List Order} {total : Nat}
    {st : MatchState} {w : LevelWalk} (h : LevelRun symbol orders total st w) :
    ∃ gone : List Nat, orders.map (fun o => o.id) = gone ++ w.orders.map (fun o => o.id) ∧
      ∀ j, j ∉ gone → indexFind w.st.order_lookup j = indexFind st.order_lookup j := by
  induction h with
  | nil => exact ⟨[], rfl, fun _ _ => rfl⟩
  | done => exact ⟨[], rfl, fun _ _ => rfl⟩
  | full r rest total st w h0 h hw ih =>
    obtain ⟨gone, h1, h2⟩ := ih
    refine ⟨r.id :: gone, ?_, ?_⟩
    · show r.id :: rest.map (fun o => o.id) = r.id :: gone ++ w.orders.map (fun o => o.id)
      rw [h1]; rfl
    · intro j hj
      have hj1 : j ≠ r.id := fun e => hj (e ▸ List.mem_cons_self _ _)
      have hj2 : j ∉ gone := fun e => hj (List.mem_cons_of_mem _ e)
      have hs : (stepState st r).order_lookup = indexErase st.order_lookup r.id := by
        show (if _ then _ else _) = _
        rw [if_pos h]
      show indexFind w.st.order_lookup j = _
      rw [h2 j hj2, hs, indexFind_indexErase_other _ _ _ hj1]
  | part r rest total st h0 h =>
    refine ⟨[], rfl, ?_⟩
    intro j _
    have hs : (stepState st r).order_lookup = st.order_lookup := by
      show (if _ then _ else _) = _
      rw [if_neg (by omega)]
    show indexFind (stepState st r).order_lookup j = _
    rw [hs]

/-- The ids the walk of a side takes out, and the index entries of the others,
which it leaves as they are. -/
theorem ladderRun_gone_find {symbol : String} {m : Ladder} {st : MatchState} {r : LadderWalk}
    (h : LadderRun symbol m st r) :
    ∃ gone : List Nat,
      (restingOrders m).map (fun o => o.id) =
        gone ++ (restingOrders r.ladder).map (fun o => o.id) ∧
      ∀ j, j ∉ gone → indexFind r.st.order_lookup j = indexFind st.order_lookup j := by
  induction h with
  | done => exact ⟨[], rfl, fun _ _ => rfl⟩
  | empty => exact ⟨[], rfl, fun _ _ => rfl⟩
  | reject => exact ⟨[], rfl, fun _ _ => rfl⟩
  | sweep k best rest st w r h0 h hw he hr ih =>
    obtain ⟨g1, a1, a2⟩ := levelRun_gone_find hw
    obtain ⟨g2, c1, c2⟩ := ih
    rw [he] at a1
    refine ⟨g1 ++ g2, ?_, ?_⟩
    · show (best.orders ++ restingOrders rest).map (fun o => o.id) = _
      rw [List.map_append, a1, c1]
      simp
    · intro j hj
      have hj1 : j ∉ g1 := fun e => hj (List.mem_append_left _ e)
      have hj2 : j ∉ g2 := fun e => hj (List.mem_append_right _ e)
      show indexFind r.st.order_lookup j = _
      rw [c2 j hj2, a2 j hj1]
  | stay k best rest st w h0 h hw hne =>
    obtain ⟨g1, a1, a2⟩ := levelRun_gone_find hw
    refine ⟨g1, ?_, a2⟩
    show (best.orders ++ restingOrders rest).map (fun o => o.id) =
      g1 ++ (w.orders ++ restingOrders rest).map (fun o => o.id)
    rw [List.map_append, a1, List.map_append, List.append_assoc]

/-- Matching keeps the index entries of the orders it leaves resting, and
leaves no id resting that was not resting before. -/
theorem located_afterMatch (b : OrderBook) (order : Order) (hn : (restingIds b).Nodup)
    (hl : ∀ s, ∀ e ∈ b.side s, ∀ o ∈ e.2.orders,
      indexFind b.order_lookup o.id = some (s, e.1)) :
    (∀ id ∈ restingIds (afterMatch b order), id ∈ restingIds b) ∧
    ∀ s, ∀ e ∈ (afterMatch b order).side s, ∀ o ∈ e.2.orders,
      indexFind (afterMatch b order).order_lookup o.id = some (s, e.1) := by
  obtain ⟨gone, g1, g3⟩ := ladderRun_gone_find (walkOf_run b order)
  simp only at g3
  have hafter := restingIds_sides (afterMatch b order) order.side
  rw [afterMatch_side_own, afterMatch_side_opposite] at hafter
  have hbefore := restingIds_sides b order.side
  rw [g1] at hbefore
  have hperm : (restingIds b).Perm (gone ++ restingIds (afterMatch b order)) := by
    refine hbefore.trans ?_
    refine List.Perm.trans ?_ (List.Perm.append_left gone hafter.symm)
    rw [← List.append_assoc, ← List.append_assoc]
    exact List.Perm.append_right _ List.perm_append_comm
  have hdis := List.nodup_append.mp (hperm.nodup_iff.mp hn)
  refine ⟨fun id hid => hperm.mem_iff.mpr (List.mem_append_right _ hid), ?_⟩
  intro s e he o ho
  have hmem := mem_restingIds _ s e o he ho
  have hng : o.id ∉ gone := fun hg => hdis.2.2 hg hmem
  rw [afterMatch_order_lookup, g3 _ hng]
  rcases side_own_or_opposite s order.side with hs | hs
  · rw [hs] at he ⊢
    rw [afterMatch_side_own] at he
    exact hl _ e he o ho
  · rw [hs] at he ⊢
    rw [afterMatch_side_opposite] at he
    obtain ⟨e0, he0, hk, _, hsuf⟩ := ladderRun_levels (walkOf_run b order) e he
    have hin : o.id ∈ e0.2.orders.map (fun o => o.id) :=
      hsuf.subset (List.mem_map_of_mem _ ho)
    obtain ⟨o0, ho0, hid⟩ := List.mem_map.mp hin
    rw [← hid, hk]
    exact hl _ e0 he0 o0 ho0

/-- Queueing an order under an id that is not resting sets its index entry
and keeps those of the others. -/
theorem located_queueOrder (b : OrderBook) (order : Order) (hid : order.id ∉ restingIds b)
    (hl : ∀ s, ∀ e ∈ b.side s, ∀ o ∈ e.2.orders,
      indexFind b.order_lookup o.id = some (s, e.1)) :
    ∀ s, ∀ e ∈ (queueOrder b order).side s, ∀ o ∈ e.2.orders,
      indexFind (queueOrder b order).order_lookup o.id = some (s, e.1) := by
  have old : ∀ s, ∀ e ∈ b.side s, ∀ o ∈ e.2.orders,
      indexFind (indexSet b.order_lookup order.id (order.side, order.price)) o.id =
        some (s, e.1) := by
    intro s e he o ho
    have hne : o.id ≠ order.id := fun h => hid (h ▸ mem_restingIds b s e o he ho)
    rw [indexFind_indexSet_other _ _ _ _ hne]
    exact hl s e he o ho
  intro s e he o ho
  rw [queueOrder_order_lookup]
  rcases side_own_or_opposite s order.side with hs | hs
  · rw [hs] at he ⊢
    rw [queueOrder_side_own] at he
    rcases mem_mapUpdate_level _ _ _ _ e he with h1 | h1 | ⟨l, hl1, h1⟩
    · exact old _ e h1 o ho
    · rw [h1] at ho ⊢
      have ho' : o = order := by simpa [enqueue, PriceLevel.empty] using ho
      rw [ho']
      exact indexFind_indexSet_self _ _ _
    · rw [h1] at ho ⊢
      have ho' : o ∈ l.orders ++ [order] := ho
      rcases List.mem_append.mp ho' with h2 | h2
      · exact old _ (order.price, l) hl1 o h2
      · rw [List.mem_singleton.mp h2]
        exact indexFind_indexSet_self _ _ _
  · rw [hs] at he ⊢
    rw [queueOrder_side_opposite] at he
    exact old _ e he o ho

/-- Taking a resting order out keeps the index entries of the others. -/
theorem located_removeResting (b : OrderBook) (s : Side) (k : Int) (l : PriceLevel) (id : Nat)
    (R : Order) (hn : (restingIds b).Nodup)
    (hl : ∀ s, ∀ e ∈ b.side s, ∀ o ∈ e.2.orders,
      indexFind b.order_lookup o.id = some (s, e.1))
    (h2 : mapFind (b.side s) k = some l) (h3 : findOrder l.orders id = some R) :
    R.id ∉ restingIds (removeResting b s k l R) ∧
    ∀ t, ∀ e ∈ (removeResting b s k l R).side t, ∀ o ∈ e.2.orders,
      indexFind (removeResting b s k l R).order_lookup o.id = some (t, e.1) := by
  have hafter := restingIds_sides (removeResting b s k l R) s
  rw [(removeResting_fields b s k l R).1] at hafter
  have hr := (restingOrders_removeResting_perm b s k l id R h2 h3).map (fun o => o.id)
  have hperm : (restingIds b).Perm (R.id :: restingIds (removeResting b s k l R)) := by
    refine (restingIds_sides b s).trans ?_
    refine (List.Perm.append_right _ hr.symm).trans ?_
    exact List.Perm.cons _ hafter.symm
  have hnd := List.nodup_cons.mp (hperm.nodup_iff.mp hn)
  refine ⟨hnd.1, ?_⟩
  intro t e he o ho
  have hmem := mem_restingIds _ t e o he ho
  have hne : o.id ≠ R.id := fun h => hnd.1 (h ▸ hmem)
  rw [(removeResting_fields b s k l R).2.2.2, indexFind_indexErase_other _ _ _ hne]
  rcases side_own_or_opposite t s with ht | ht
  · rw [ht] at he ⊢
    obtain ⟨_, A, B, pre, post, hside, hq, hnew⟩ := removeResting_split b s k l id R h2 h3
    rw [hnew] at he
    by_cases hemp : pre ++ post = []
    · rw [if_pos hemp] at he
      have he' : e ∈ b.side s := by
        rw [hside]
        rcases List.mem_append.mp he with h | h
        · exact List.mem_append_left _ h
        · exact List.mem_append_right _ (List.mem_cons_of_mem _ h)
      exact hl _ e he' o ho
    · rw [if_neg hemp] at he
      rcases List.mem_append.mp he with h | h
      · exact hl _ e (by rw [hside]; exact List.mem_append_left _ h) o ho
      · rcases List.mem_cons.mp h with h | h
        · rw [h] at ho ⊢
          have ho' : o ∈ pre ++ post := ho
          have ho2 : o ∈ l.orders := by
            rw [hq]
            rcases List.mem_append.mp ho' with h | h
            · exact List.mem_append_left _ h
            · exact List.mem_append_right _ (List.mem_cons_of_mem _ h)
          have hkl : (k, l) ∈ b.side s := by
            rw [hside]; exact List.mem_append_right _ (List.mem_cons_self _ _)
          exact hl _ (k, l) hkl o ho2
        · exact hl _ e (by rw [hside]; exact List.mem_append_right _ (List.mem_cons_of_mem _ h))
            o ho
  · rw [ht] at he ⊢
    rw [(removeResting_fields b s k l R).1] at he
    exact hl _ e he o ho

/-- The call `addOrder` with an id that is not resting keeps the index exact
and the index entries right. -/
theorem indexed_addOrder (b : OrderBook) (order : Order) (hx : IndexExact b)
    (hl : ∀ s, ∀ e ∈ b.side s, ∀ o ∈ e.2.orders,
      indexFind b.order_lookup o.id = some (s, e.1))
    (hid : order.id ∉ restingIds b) :
    IndexExact (addOrder b order).book ∧
    ∀ s, ∀ e ∈ (addOrder b order).book.side s, ∀ o ∈ e.2.orders,
      indexFind (addOrder b order).book.order_lookup o.id = some (s, e.1) := by
  have hnone : indexFind b.order_lookup order.id = none :=
    (indexFind_none_iff _ _).mpr (fun hmem => hid (hx.2.mem_iff.mp hmem))
  refine ⟨indexExact_addOrder b order hx hnone, ?_⟩
  have hm := located_afterMatch b order hx.1 hl
  by_cases hsym : order.symbol = b.symbol
  · by_cases hty : order.type = OrderType.LIMIT
    · by_cases hpos : 0 < order.remaining_quantity
      · have hb : (addOrder b order).book = queueOrder (afterMatch b order) order := by
          rw [addOrder_book b order hsym, if_pos hty, if_pos hpos]
        rw [hb]
        exact located_queueOrder _ _ (fun h => hid (hm.1 _ h)) hm.2
      · have hb : (addOrder b order).book = afterMatch b order := by
          rw [addOrder_book b order hsym, if_pos hty, if_neg hpos]
        rw [hb]
        exact hm.2
    · by_cases hmk : order.type = OrderType.MARKET
      · have hb : (addOrder b order).book = afterMatch b order := by
          rw [addOrder_book b order hsym, if_neg hty, if_pos hmk]
        rw [hb]
        exact hm.2
      · have hb : (addOrder b order).book = b := by
          rw [addOrder_book b order hsym, if_neg hty, if_neg hmk]
        rw [hb]
        exact hl
  · have hb : (addOrder b order).book = b := by
      unfold addOrder; rw [if_pos hsym]
    rw [hb]
    exact hl

/-- A sequence of calls in which no `addOrder` is given a resting id keeps the
index exact and the index entries right. -/
theorem indexed_run (b : OrderBook) (ops : List Op) (hx : IndexExact b)
    (hl : ∀ s, ∀ e ∈ b.side s, ∀ o ∈ e.2.orders,
      indexFind b.order_lookup o.id = some (s, e.1))
    (hf : addsUnused b ops = true) :
    IndexExact (run b ops).1 ∧
    ∀ s, ∀ e ∈ (run b ops).1.side s, ∀ o ∈ e.2.orders,
      indexFind (run b ops).1.order_lookup o.id = some (s, e.1) := by
  induction ops generalizing b with
  | nil => exact ⟨hx, hl⟩
  | cons op ops ih =>
    cases op with
    | add order =>
      simp only [addsUnused, Bool.and_eq_true, decide_eq_true_eq] at hf
      have h := indexed_addOrder b order hx hl hf.1
      exact ih _ h.1 h.2 hf.2
    | cancel id =>
      have hf' : addsUnused (step b (Op.cancel id)).1 ops = true := hf
      have h : IndexExact (cancelOrder b id).book ∧
          ∀ s, ∀ e ∈ (cancelOrder b id).book.side s, ∀ o ∈ e.2.orders,
            indexFind (cancelOrder b id).book.order_lookup o.id = some (s, e.1) := by
        rcases cancelOrder_cases b id with ⟨hb, _, _⟩ | ⟨s, k, l, R, _, h2, h3, hb, _⟩
        · rw [hb]; exact ⟨hx, hl⟩
        · rw [hb]
          exact ⟨indexExact_removeResting b s k l id R hx h2 h3,
            (located_removeResting b s k l id R hx.1 hl h2 h3).2⟩
      exact ih _ h.1 h.2 hf'
    | modify id p q =>
      have hf' : addsUnused (step b (Op.modify id p q)).1 ops = true := hf
      have h : IndexExact (modifyOrder b id p q).book ∧
          ∀ s, ∀ e ∈ (modifyOrder b id p q).book.side s, ∀ o ∈ e.2.orders,
            indexFind (modifyOrder b id p q).book.order_lookup o.id = some (s, e.1) := by
        rcases modifyOrder_cases b id p q with ⟨hb, _, _⟩ | ⟨s, k, l, R, _, h2, h3, hb, _⟩
        · rw [hb]; exact ⟨hx, hl⟩
        · rw [hb]
          have hrem := located_removeResting b s k l id R hx.1 hl h2 h3
          exact indexed_addOrder _ _ (indexExact_removeResting b s k l id R hx h2 h3)
            hrem.2 hrem.1
      exact ih _ h.1 h.2 hf'
    | clear =>
      have hf' : addsUnused (step b Op.clear).1 ops = true := hf
      refine ih _ ⟨List.nodup_nil, List.Perm.refl _⟩ ?_ hf'
      intro s e he
      cases s <;> exact absurd he (List.not_mem_nil _)

theorem addsUnused_take (b : OrderBook) (ops : List Op) (n : Nat)
    (h : addsUnused b ops = true) : addsUnused b (ops.take n) = true := by
  induction ops generalizing b n with
  | nil => simpa using h
  | cons op ops ih =>
    cases n with
    | zero => rfl
    | succ n =>
      cases op with
      | add order =>
        simp only [addsUnused, Bool.and_eq_true, decide_eq_true_eq] at h
        simp only [List.take_succ_cons, addsUnused, Bool.and_eq_true, decide_eq_true_eq]
        exact ⟨h.1, ih _ n h.2⟩
      | cancel id => exact ih _ n h
      | modify id p q => exact ih _ n h
      | clear => exact ih _ n h

/-- C38: take a sequence of `addOrder`, `cancelOrder`, `modifyOrder` and
`clear` calls on a new book in which no `addOrder` is given an id that is
resting at the time of the call. After each of its calls (after the first `n`,
for every `n`) the keys of the index are the ids of the orders queued in the
ladders, no id is queued twice, the index entry of every queued order is its
side and the key of its level, and every index entry `(side, price)` names a
level of that side in which an order with the id is queued. -/
theorem index_exact_under_unique_ids (symbol : String) (ops : List Op)
    (h : addsUnused (OrderBook.new symbol) ops = true) (n : Nat) :
    (∀ id, id ∈ (run (OrderBook.new symbol) (ops.take n)).1.order_lookup.map Prod.fst ↔
      id ∈ restingIds (run (OrderBook.new symbol) (ops.take n)).1) ∧
    IndexExact (run (OrderBook.new symbol) (ops.take n)).1 ∧
    IndexConsistent (run (OrderBook.new symbol) (ops.take n)).1 ∧
    ∀ id s p, indexFind (run (OrderBook.new symbol) (ops.take n)).1.order_lookup id =
        some (s, p) →
      ∃ l, mapFind ((run (OrderBook.new symbol) (ops.take n)).1.side s) p = some l ∧
        ∃ o ∈ l.orders, o.id = id := by
  have hinv := indexed_run (OrderBook.new symbol) (ops.take n)
    ⟨List.nodup_nil, List.Perm.refl _⟩
    (by intro s e he; cases s <;> exact absurd he (List.not_mem_nil _))
    (addsUnused_take _ ops n h)
  have hsane := reachable_sane _
    (reachable_run (OrderBook.new symbol) (ops.take n) (Reachable.new symbol))
  generalize (run (OrderBook.new symbol) (ops.take n)).1 = b at hinv hsane ⊢
  obtain ⟨hx, hl⟩ := hinv
  refine ⟨fun id => hx.2.mem_iff, hx, ⟨hx.1, hl Side.BUY, hl Side.SELL⟩, ?_⟩
  intro id s p hfind
  have hkey : id ∈ b.order_lookup.map Prod.fst := by
    by_contra hno
    rw [(indexFind_none_iff _ _).mpr hno] at hfind
    exact Option.noConfusion hfind
  have hrest : id ∈ restingIds b := hx.2.mem_iff.mp hkey
  obtain ⟨o, ho, hoid⟩ := List.mem_map.mp hrest
  have ho' : o ∈ getAllOrders b := ho
  obtain ⟨t, ht⟩ := (mem_getAllOrders b o).mp ho'
  obtain ⟨e, he, hoe⟩ := (mem_restingOrders _ _).mp ht
  have hloc := hl t e he o hoe
  rw [hoid, hfind] at hloc
  have hst : s = t := congrArg Prod.fst (Option.some.inj hloc)
  have hpe : p = e.1 := congrArg Prod.snd (Option.some.inj hloc)
  have hsorted : ((b.side t).map Prod.fst).Pairwise (fun a c => keyBefore t a c = true) := by
    cases t
    · exact hsane.1.1
    · exact hsane.2.1.1
  rw [hst, hpe]
  exact ⟨e.2, mapFind_of_mem t _ e hsorted he, o, hoe, hoid⟩

theorem index_exact_under_unique_ids_witness :
    addsUnused (OrderBook.new "AAPL") s4_ops = true ∧
    (run (OrderBook.new "AAPL") (s4_ops.take 3)).1.order_lookup =
      [(1, (Side.SELL, 15000)), (2, (Side.SELL, 15005)), (3, (Side.SELL, 15010))] ∧
    restingIds (run (OrderBook.new "AAPL") (s4_ops.take 3)).1 = [1, 2, 3] ∧
    IndexExact (run (OrderBook.new "AAPL") (s4_ops.take 3)).1 ∧
    IndexConsistent (run (OrderBook.new "AAPL") (s4_ops.take 3)).1 :=
  ⟨by decide, by decide, by decide,
   (fun h => ⟨h.2.1, h.2.2.1⟩) (index_exact_under_unique_ids "AAPL" s4_ops (by decide) 3)⟩

/-! ## C37: what a reader can see while a call runs -/

theorem bookUpdates_append (a c : List Event) :
    bookUpdates (a ++ c) = bookUpdates a ++ bookUpdates c := by
  induction a with
  | nil => rfl
  | cons e rest ih => cases e <;> simp [bookUpdates, ih]

theorem bookUpdates_trades (trades : List Trade) :
    bookUpdates (trades.map Event.trade) = [] := by
  induction trades with
  | nil => rfl
  | cons t rest ih => simp [bookUpdates, ih]

theorem afterMatch_nothing_remaining (b : OrderBook) (order : Order)
    (h0 : order.remaining_quantity = 0) :
    afterMatch b order = b ∧ (walkOf b order).trades = [] := by
  have h := matchOrder_eq b order
  have hm : matchOrder b order = { book := b, events := [], result := Except.ok [] } := by
    unfold matchOrder
    rw [if_pos h0]
  rw [hm] at h
  refine ⟨h.1.symm, ?_⟩
  have h2 := h.2.2
  injection h2 with h3
  exact h3.symm

/-- The books `addOrder` releases for an order of the book's symbol: the book
as matching left it when `matchOrder` took the lock, then the book with the
order queued when the insertion took it. -/
theorem addOrder_released_eq (b : OrderBook) (order : Order) (hsym : order.symbol = b.symbol) :
    addOrder_released b order =
      (if (order.type = OrderType.LIMIT ∨ order.type = OrderType.MARKET) ∧
          0 < order.remaining_quantity
       then [afterMatch b order] else []) ++
      (if order.type = OrderType.LIMIT ∧ 0 < order.remaining_quantity
       then [queueOrder (afterMatch b order) order] else []) := by
  unfold addOrder_released matchOrder_released
  rw [if_neg (by simpa using hsym)]
  by_cases hpos : 0 < order.remaining_quantity
  · have hne : order.remaining_quantity ≠ 0 := by omega
    by_cases hl : order.type = OrderType.LIMIT
    · simp [hl, hpos, hne, (matchOrder_eq b order).2.2, (matchOrder_eq b order).1]
    · by_cases hm : order.type = OrderType.MARKET
      · simp [hm, hpos, hne, (matchOrder_eq b order).2.2, (matchOrder_eq b order).1]
      · simp [hl, hm, hpos]
  · have h0 : order.remaining_quantity = 0 := by omega
    by_cases ht : order.type = OrderType.LIMIT ∨ order.type = OrderType.MARKET
    · simp [ht, h0, (matchOrder_eq b order).2.2]
    · simp [ht, h0]

/-- The last book `addOrder` releases, or the book it was called on when it
took no lock, is the book it leaves. -/
theorem addOrder_released_last (b : OrderBook) (order : Order) :
    (b :: addOrder_released b order).getLast? = some (addOrder b order).book := by
  by_cases hsym : order.symbol = b.symbol
  · rw [addOrder_released_eq b order hsym, addOrder_book b order hsym]
    by_cases hpos : 0 < order.remaining_quantity
    · by_cases hl : order.type = OrderType.LIMIT
      · simp [hl, hpos]
      · by_cases hm : order.type = OrderType.MARKET
        · simp [hm, hpos]
        · simp [hl, hm]
    · have h0 : order.remaining_quantity = 0 := by omega
      simp [hpos, (afterMatch_nothing_remaining b order h0).1]
  · have h1 : addOrder_released b order = [] := by
      unfold addOrder_released; rw [if_pos hsym]
    have h2 : (addOrder b order).book = b := by
      unfold addOrder; rw [if_pos hsym]
    rw [h1, h2]
    rfl

theorem modifyOrder_released_cases (b : OrderBook) (id : Nat) (p : Int) (q : Nat) :
    (modifyOrder_released b id p q = [b] ∧ (modifyOrder b id p q).book = b ∧
      (modifyOrder b id p q).result = Except.ok false) ∨
    ∃ s k l R, indexFind b.order_lookup id = some (s, k) ∧ mapFind (b.side s) k = some l ∧
      findOrder l.orders id = some R ∧
      modifyOrder_released b id p q =
        removeResting b s k l R ::
          addOrder_released (removeResting b s k l R) ((R.setPrice p).setQuantity q) ∧
      (modifyOrder b id p q).book =
        (addOrder (removeResting b s k l R) ((R.setPrice p).setQuantity q)).book ∧
      (modifyOrder b id p q).result ≠ Except.ok false := by
  cases h1 : indexFind b.order_lookup id with
  | none =>
    left
    unfold modifyOrder modifyOrder_released
    rw [h1]
    exact ⟨rfl, rfl, rfl⟩
  | some v =>
    obtain ⟨s, k⟩ := v
    cases h2 : mapFind (b.side s) k with
    | none =>
      left
      unfold modifyOrder modifyOrder_released
      rw [h1]
      simp only [h2]
      exact ⟨trivial, trivial, trivial⟩
    | some l =>
      cases h3 : findOrder l.orders id with
      | none =>
        left
        unfold modifyOrder modifyOrder_released
        rw [h1]
        simp only [h2, h3]
        exact ⟨trivial, trivial, trivial⟩
      | some R =>
        right
        refine ⟨s, k, l, R, rfl, h2, h3, ?_, ?_, ?_⟩
        · unfold modifyOrder_released
          rw [h1]
          simp only [h2, h3]
        · unfold modifyOrder
          rw [h1]
          simp only [h2, h3]
          split <;> rfl
        · unfold modifyOrder
          rw [h1]
          simp only [h2, h3]
          split <;> simp

/-- C37 (amended): the exclusive lock is held during each step of a call and
given up between the steps. `addOrder` of an order of the book's symbol gives
it up with the book as matching left it (when the order is LIMIT or MARKET
and has a remaining quantity), and again with the order queued (when it is
LIMIT and has a remaining quantity); `modifyOrder` of an order it finds gives
it up with the order removed, and then as the `addOrder` of the modified copy
does. The last book released is the book the call leaves, and every snapshot
handed to the update callback by `addOrder` is the top of a released book. No
partial mutation is observable when `addOrder` is given a LIMIT order that
does not cross or has nothing remaining, or an order of another type, and
when `modifyOrder` does not find the order or is given the quantity 0. -/
theorem lock_released_between_steps (b : OrderBook) (O : Order) (id : Nat) (p : Int)
    (q : Nat) :
    (O.symbol = b.symbol →
      addOrder_released b O =
        (if (O.type = OrderType.LIMIT ∨ O.type = OrderType.MARKET) ∧ 0 < O.remaining_quantity
         then [afterMatch b O] else []) ++
        (if O.type = OrderType.LIMIT ∧ 0 < O.remaining_quantity
         then [queueOrder (afterMatch b O) O] else []) ∧
      (∀ t ∈ bookUpdates (addOrder b O).events,
        ∃ s ∈ addOrder_released b O, t = getTopOfBook s) ∧
      ((O.type = OrderType.LIMIT → Passive b O ∨ O.remaining_quantity = 0) →
        NoPartialMutation b (addOrder b O).book (addOrder_released b O))) ∧
    (b :: addOrder_released b O).getLast? = some (addOrder b O).book ∧
    ((modifyOrder b id p q).result = Except.ok false →
      modifyOrder_released b id p q = [b] ∧ (modifyOrder b id p q).book = b) ∧
    (∀ s k l R, indexFind b.order_lookup id = some (s, k) → mapFind (b.side s) k = some l →
      findOrder l.orders id = some R →
      modifyOrder_released b id p q =
        removeResting b s k l R ::
          addOrder_released (removeResting b s k l R) ((R.setPrice p).setQuantity q)) ∧
    (modifyOrder_released b id p q).getLast? = some (modifyOrder b id p q).book ∧
    (q = 0 → NoPartialMutation b (modifyOrder b id p q).book (modifyOrder_released b id p q)) := by
  refine ⟨?_, addOrder_released_last b O, ?_, ?_, ?_, ?_⟩
  · intro hsym
    have hrel := addOrder_released_eq b O hsym
    refine ⟨hrel, ?_, ?_⟩
    · intro t ht
      rw [addOrder_events b O hsym, bookUpdates_append] at ht
      rcases List.mem_append.mp ht with h | h
      · by_cases hty : O.type = OrderType.LIMIT ∨ O.type = OrderType.MARKET
        · rw [if_pos hty] at h
          unfold matchEvents at h
          rw [bookUpdates_append, bookUpdates_trades, List.nil_append] at h
          by_cases hemp : (walkOf b O).trades.isEmpty = true
          · rw [if_pos hemp] at h
            exact absurd h (List.not_mem_nil _)
          · rw [if_neg hemp] at h
            have hpos : 0 < O.remaining_quantity := by
              by_contra hz
              have h0 : O.remaining_quantity = 0 := by omega
              rw [(afterMatch_nothing_remaining b O h0).2] at hemp
              exact hemp rfl
            have ht' : t = getTopOfBook (afterMatch b O) := by
              simpa [bookUpdates] using h
            refine ⟨afterMatch b O, ?_, ht'⟩
            rw [hrel, if_pos ⟨hty, hpos⟩]
            exact List.mem_append_left _ (List.mem_singleton.mpr rfl)
        · rw [if_neg hty] at h
          exact absurd h (List.not_mem_nil _)
      · by_cases hq : O.type = OrderType.LIMIT ∧ 0 < O.remaining_quantity
        · rw [if_pos hq] at h
          have ht' : t = getTopOfBook (addOrder b O).book := by
            simpa [bookUpdates] using h
          refine ⟨(addOrder b O).book, ?_, ht'⟩
          rw [hrel, if_pos hq, addOrder_book b O hsym, if_pos hq.1, if_pos hq.2]
          exact List.mem_append_right _ (List.mem_singleton.mpr rfl)
        · rw [if_neg hq] at h
          exact absurd h (List.not_mem_nil _)
    · intro hcond s hs
      rw [hrel] at hs
      rw [addOrder_book b O hsym]
      by_cases hl : O.type = OrderType.LIMIT
      · rcases hcond hl with hp | h0
        · rw [afterMatch_passive b O hl hp] at hs ⊢
          by_cases hpos : 0 < O.remaining_quantity
          · simp only [hl, hpos, true_or, and_self, if_true, List.singleton_append,
              List.mem_cons, List.mem_singleton, List.not_mem_nil, or_false] at hs ⊢
            exact hs
          · simp [hl, hpos] at hs
        · have hpos : ¬ 0 < O.remaining_quantity := by omega
          simp [hpos] at hs
      · by_cases hm : O.type = OrderType.MARKET
        · by_cases hpos : 0 < O.remaining_quantity
          · rw [if_pos ⟨Or.inr hm, hpos⟩, if_neg (fun h => hl h.1), List.append_nil] at hs
            rw [if_neg hl, if_pos hm]
            exact Or.inr (List.mem_singleton.mp hs)
          · simp [hl, hpos] at hs
        · simp [hl, hm] at hs
  · intro hres
    rcases modifyOrder_released_cases b id p q with ⟨h1, h2, _⟩ | ⟨s, k, l, R, _, _, _, _, _, hne⟩
    · exact ⟨h1, h2⟩
    · exact absurd hres hne
  · intro s k l R h1 h2 h3
    unfold modifyOrder_released
    rw [h1]
    simp only [h2, h3]
  · rcases modifyOrder_released_cases b id p q with ⟨h1, h2, _⟩ | ⟨s, k, l, R, _, _, _, hr, hb, _⟩
    · rw [h1, h2]; rfl
    · rw [hr, hb]
      exact addOrder_released_last _ _
  · intro hq s hs
    rcases modifyOrder_released_cases b id p q with ⟨h1, h2, _⟩ | ⟨t, k, l, R, _, _, _, hr, hb, _⟩
    · rw [h1] at hs
      exact Or.inl (List.mem_singleton.mp hs)
    · right
      have hlast := addOrder_released_last (removeResting b t k l R)
        ((R.setPrice p).setQuantity q)
      have hnil : addOrder_released (removeResting b t k l R)
          ((R.setPrice p).setQuantity q) = [] := by
        by_cases hsym : ((R.setPrice p).setQuantity q).symbol = (removeResting b t k l R).symbol
        · rw [addOrder_released_eq _ _ hsym]
          have h0 : ((R.setPrice p).setQuantity q).remaining_quantity = 0 := hq
          simp [h0]
        · unfold addOrder_released; rw [if_pos hsym]
      rw [hnil] at hlast
      rw [hr, hnil] at hs
      rw [hb, List.mem_singleton.mp hs]
      exact Option.some.inj hlast

theorem lock_released_between_steps_witness :
    (passive_buy.symbol = partial_book.symbol ∧
     (passive_buy.type = OrderType.LIMIT →
       Passive partial_book passive_buy ∨ passive_buy.remaining_quantity = 0)) ∧
    addOrder_released partial_book passive_buy =
      [partial_book, (addOrder partial_book passive_buy).book] ∧
    NoPartialMutation partial_book (addOrder partial_book passive_buy).book
      (addOrder_released partial_book passive_buy) ∧
    NoPartialMutation queue_book (modifyOrder queue_book 2 14800 0).book
      (modifyOrder_released queue_book 2 14800 0) :=
  ⟨⟨rfl, fun _ => Or.inl (by decide)⟩, by decide,
   ((lock_released_between_steps partial_book passive_buy 2 14800 0).1 rfl).2.2
     (fun _ => Or.inl (by decide)),
   (lock_released_between_steps queue_book passive_buy 2 14800 0).2.2.2.2.2 rfl⟩

/-- C37 (counterexample): a sell of 20 at 15000 rests and `addOrder` is given
a LIMIT buy of 50 at 15000. The lock is given up twice: first with the sell
taken out and nothing queued (both sides empty), then with the buy queued.
The first of these books is neither the book before the call nor the book
after it, a reader that takes the shared lock between the two sees it, and
its top of book is what the update callback of this call is handed first.
Likewise `modifyOrder` of the second of three buys queued at 14900, to 200 at
14800, gives the lock up with the order removed before it queues the copy. -/
theorem book_between_steps_is_visible :
    partial_buy.symbol = partial_book.symbol ∧ partial_buy.type = OrderType.LIMIT ∧
    addOrder_released partial_book partial_buy =
      [afterMatch partial_book partial_buy, (addOrder partial_book partial_buy).book] ∧
    (afterMatch partial_book partial_buy).bids = [] ∧
    (afterMatch partial_book partial_buy).asks = [] ∧
    partial_book.asks ≠ [] ∧ (addOrder partial_book partial_buy).book.bids ≠ [] ∧
    afterMatch partial_book partial_buy ≠ partial_book ∧
    afterMatch partial_book partial_buy ≠ (addOrder partial_book partial_buy).book ∧
    (bookUpdates (addOrder partial_book partial_buy).events).head? =
      some (getTopOfBook (afterMatch partial_book partial_buy)) ∧
    ¬ NoPartialMutation partial_book (addOrder partial_book partial_buy).book
      (addOrder_released partial_book partial_buy) ∧
    (modifyOrder_released queue_book 2 14800 200).head? =
      some (removeResting queue_book Side.BUY 14900 queue_level q_mid) ∧
    getAllOrders (removeResting queue_book Side.BUY 14900 queue_level q_mid) ≠
      getAllOrders queue_book ∧
    getAllOrders (removeResting queue_book Side.BUY 14900 queue_level q_mid) ≠
      getAllOrders (modifyOrder queue_book 2 14800 200).book ∧
    ¬ NoPartialMutation queue_book (modifyOrder queue_book 2 14800 200).book
      (modifyOrder_released queue_book 2 14800 200) := by
  refine ⟨rfl, rfl, by decide, by decide, by decide, by decide, by decide, by decide,
    by decide, by decide, by decide, by decide, by decide, by decide, by decide⟩

end orderbook
